import Mathlib

/-!
# Linear octree core: Morton keys, packed nodes, octree store, cursor and traversals

A shallow embedding of `MortonIndex.hpp/.cpp` and `CellOctree.hpp/.cpp`.

Conventions of the embedding
* `uint64_t` / `size_t` values are natural numbers; every operation that can leave the
  64-bit range in the source (`<<`, `+`, `-`, `*`) is reduced modulo `2 ^ 64`.
* C++ exceptions are values of `Error`, carried by `Except`.
* `while (true)` loops take a fuel argument; running out of fuel is reported as
  `Error.outOfFuel`, which is not a behaviour of the program.
* The floating-point geometry carried by the octree and its cell views is not modelled.
-/

namespace oktal

/-! ## Errors and machine words -/

/-- Exceptions thrown by the source (`std::invalid_argument`, `std::logic_error`,
`std::out_of_range`, `std::length_error`, `std::bad_optional_access`), the marker
`undefinedBehaviour` for executions on which the C++ standard puts no requirement, and
`outOfFuel` for an exhausted loop budget of the embedding. -/
inductive Error where
  | invalidArgument
  | logicError
  | outOfRange
  | lengthError
  | badAlloc
  | badOptionalAccess
  | undefinedBehaviour
  | outOfFuel
  deriving DecidableEq, Repr

instance instDecidableEqExcept {ε α : Type} [DecidableEq ε] [DecidableEq α] :
    DecidableEq (Except ε α)
  | .ok a, .ok b => if h : a = b then isTrue (by rw [h]) else isFalse (by intro h1; cases h1; exact h rfl)
  | .error a, .error b =>
    if h : a = b then isTrue (by rw [h]) else isFalse (by intro h1; cases h1; exact h rfl)
  | .ok _, .error _ => isFalse (by intro h; cases h)
  | .error _, .ok _ => isFalse (by intro h; cases h)

/-- Number of values of a 64-bit unsigned word. -/
def WORD : Nat := 2 ^ 64

/-- Wrap-around of a 64-bit unsigned word. -/
def wrap (x : Nat) : Nat := x % WORD

/-- Loop of `std::bit_width`: number of binary digits, at most `fuel` of them. -/
def bitWidthAux : Nat → Nat → Nat
  | 0, _ => 0
  | fuel + 1, x => if x = 0 then 0 else bitWidthAux fuel (x / 2) + 1

/-- `std::bit_width` on a 64-bit word: `0` for `0`, otherwise `1 + floor (log2 x)`. -/
def bit_width (x : Nat) : Nat := bitWidthAux 64 x

/-! ## Morton keys (`MortonIndex`) -/

/-- `Vec<size_t, 3>`: unsigned grid coordinates. -/
structure UnsignedGridCoordinates where
  x : Nat
  y : Nat
  z : Nat
  deriving DecidableEq, Repr

/-- `class MortonIndex`: one 64-bit word `bits`. -/
structure MortonIndex where
  bits : Nat
  deriving DecidableEq, Repr

namespace MortonIndex

/-- `MortonIndex::MAX_DEPTH = (sizeof(morton_bits_t) * 8) / 3`. -/
def MAX_DEPTH : Nat := (8 * 8) / 3

/-- `MortonIndex()`: the root key. -/
def root : MortonIndex := ⟨1⟩

/-- `level()`: `(std::bit_width(bits) - 1) / 3`. The source computes in `int`; for
`bits = 0` this is `(-1) / 3 = 0`, which the truncated subtraction reproduces. -/
def level (m : MortonIndex) : Nat := (bit_width m.bits - 1) / 3

/-- `isRoot()`. -/
def isRoot (m : MortonIndex) : Bool := m.bits == 1

/-- `siblingIndex()`. -/
def siblingIndex (m : MortonIndex) : Nat := if m.isRoot then 0 else m.bits &&& 7

/-- `parent()`: `bits >> 3`. -/
def parent (m : MortonIndex) : MortonIndex := ⟨m.bits >>> 3⟩

/-- `child(index)`: `(bits << 3) | index` on 64-bit words. -/
def child (m : MortonIndex) (index : Nat) : MortonIndex := ⟨wrap (m.bits <<< 3) ||| index⟩

/-- The expression `1 << shift` of `fromPath`, where `1` is an `int` (32 bits) and the
result initialises a `uint64_t`. For `shift < 31` the value is `2 ^ shift`; for
`shift = 31` it is `INT_MIN`, converted to `2 ^ 64 - 2 ^ 31`. For `shift ≥ 32` the shift
count reaches the width of the promoted left operand, which the language leaves
undefined; the value is the one the compiled program computes, the 32-bit shift
instruction taking the count modulo 32 (so `1 << 33` gives `2`). -/
def intOneShiftLeft (shift : Nat) : Nat :=
  let count := shift % 32
  if count < 31 then 2 ^ count else WORD - 2 ^ 31

/-- The `for (choice : path)` loop of `fromPath`, with the running `shift` and `bits`. -/
def fromPathLoop : List Nat → Nat → Nat → Except Error Nat
  | [], _, bits => .ok bits
  | choice :: rest, shift, bits =>
    if (choice &&& 7) ≠ choice then .error .invalidArgument
    else
      let shift1 := shift - 3
      fromPathLoop rest shift1 (bits ||| wrap (choice <<< shift1))

/-- `MortonIndex::fromPath`. -/
def fromPath (path : List Nat) : Except Error MortonIndex :=
  if path.length > MAX_DEPTH then .error .invalidArgument
  else
    let shift0 := path.length
    let shift := wrap (shift0 + wrap (shift0 <<< 1))
    let bits := intOneShiftLeft shift
    match fromPathLoop path shift bits with
    | .error e => .error e
    | .ok b => .ok ⟨b⟩

/-- The `for (choice : path)` loop of `getPath`: `count` entries are written, each after
`shift -= 3`. -/
def getPathLoop (bits : Nat) : Nat → Nat → List Nat
  | 0, _ => []
  | count + 1, shift => (7 &&& (bits >>> (shift - 3))) :: getPathLoop bits count (shift - 3)

/-- Largest size a `std::vector<uint64_t>` may be resized to (`max_size()`, which is
`PTRDIFF_MAX / 8`). -/
def VECTOR_MAX_SIZE : Nat := 2 ^ 60 - 1

/-- `MortonIndex::getPath`. `std::bit_width(bits) - 1` is an `int` cast to `size_t`, so
for `bits = 0` the requested length is `(2 ^ 64 - 1) / 3` and `resize` throws
`std::length_error`. -/
def getPath (m : MortonIndex) : Except Error (List Nat) :=
  let shift := wrap (bit_width m.bits + WORD - 1)
  let choice_count := shift / 3
  if choice_count > VECTOR_MAX_SIZE then .error .lengthError
  else .ok (getPathLoop m.bits choice_count shift)

/-- `operator>`. -/
def gt (a other : MortonIndex) : Bool :=
  let lhv_width := bit_width a.bits
  let rhv_width := bit_width other.bits
  if a.bits == other.bits || lhv_width ≥ rhv_width then false
  else
    let width_diff := rhv_width - lhv_width
    let ancestor := other.bits >>> width_diff
    a.bits == ancestor

/-- `operator<`. -/
def lt (a other : MortonIndex) : Bool :=
  let lhv_width := bit_width a.bits
  let rhv_width := bit_width other.bits
  if a.bits == other.bits || lhv_width ≤ rhv_width then false
  else
    let width_diff := lhv_width - rhv_width
    let ancestor := a.bits >>> width_diff
    other.bits == ancestor

/-- `operator>=`. -/
def ge (a other : MortonIndex) : Bool :=
  let lhv_width := bit_width a.bits
  let rhv_width := bit_width other.bits
  if lhv_width > rhv_width then false
  else
    let width_diff := rhv_width - lhv_width
    let ancestor := other.bits >>> width_diff
    a.bits == ancestor

/-- `operator<=`. -/
def le (a other : MortonIndex) : Bool :=
  let lhv_width := bit_width a.bits
  let rhv_width := bit_width other.bits
  if lhv_width < rhv_width then false
  else
    let width_diff := lhv_width - rhv_width
    let ancestor := a.bits >>> width_diff
    other.bits == ancestor

/-- `MortonIndex::gridCoordinates`, a recursion on `parent()` that stops at the root.
The recursion depth is bounded by `fuel`; a key that never reaches `bits == 1` (such as
`bits = 0`) exhausts every fuel. -/
def gridCoordinates : Nat → MortonIndex → Except Error UnsignedGridCoordinates
  | 0, _ => .error .outOfFuel
  | fuel + 1, m =>
    if m.isRoot then .ok ⟨0, 0, 0⟩
    else
      match gridCoordinates fuel m.parent with
      | .error e => .error e
      | .ok parentCoordinates =>
        let localIndex := m.siblingIndex
        let lx := if (localIndex &&& 1) = 1 then 1 else 0
        let ly := if (localIndex &&& 2) = 2 then 1 else 0
        let lz := if (localIndex &&& 4) = 4 then 1 else 0
        .ok ⟨wrap (wrap (parentCoordinates.x <<< 1) + lx),
             wrap (wrap (parentCoordinates.y <<< 1) + ly),
             wrap (wrap (parentCoordinates.z <<< 1) + lz)⟩

/-- `MortonIndex::fromGridCoordinates`. -/
def fromGridCoordinates : Nat → UnsignedGridCoordinates → MortonIndex
  | 0, _ => root
  | refinementLevel + 1, vc =>
    let parent := fromGridCoordinates refinementLevel ⟨vc.x >>> 1, vc.y >>> 1, vc.z >>> 1⟩
    let localIndex := ((vc.z &&& 1) <<< 2) ||| ((vc.y &&& 1) <<< 1) ||| (vc.x &&& 1)
    parent.child localIndex

/-- A valid key: a 64-bit word made of a leading `1` followed by whole 3-bit selectors,
that is, nonzero with bit width `3 · d + 1`. -/
def Valid (m : MortonIndex) : Prop :=
  0 < m.bits ∧ m.bits < WORD ∧ (bit_width m.bits - 1) % 3 = 0

instance (m : MortonIndex) : Decidable m.Valid := by
  unfold Valid; infer_instance

/-- The key of a path of selectors: a leading `1` followed by the selectors as 3-bit
groups from root to cell. -/
def ofPath (path : List Nat) : Nat := path.foldl (fun b c => 8 * b + c) 1

end MortonIndex

/-! ## Packed nodes (`CellOctree::Node`) -/

/-- Bitwise complement `~x` of a 64-bit word. -/
def bitNot (x : Nat) : Nat := WORD - 1 - x

/-- `class CellOctree::Node`: one 64-bit word `data_`. -/
structure Node where
  data : Nat
  deriving DecidableEq, Repr

namespace Node

/-- `REFINED_BIT_MASK = std::size_t{1} << 62`. -/
def REFINED_BIT_MASK : Nat := wrap (1 <<< 62)

/-- `PHANTOM_BIT_MASK = std::size_t{1} << 63`. -/
def PHANTOM_BIT_MASK : Nat := wrap (1 <<< 63)

/-- `CHILDREN_INDEX_MASK = ~(PHANTOM_BIT_MASK | REFINED_BIT_MASK)`. -/
def CHILDREN_INDEX_MASK : Nat := bitNot (PHANTOM_BIT_MASK ||| REFINED_BIT_MASK)

/-- `Node()`: all bits zero. -/
def default : Node := ⟨0⟩

/-- `Node(bool refined, bool phantom, std::size_t childrenIdx)`. -/
def create (refined phantom : Bool) (childrenIdx : Nat) : Node :=
  ⟨(childrenIdx &&& CHILDREN_INDEX_MASK) ||| wrap (refined.toNat <<< 62) |||
    wrap (phantom.toNat <<< 63)⟩

/-- `isRefined()`. -/
def isRefined (n : Node) : Bool := (n.data &&& REFINED_BIT_MASK) != 0

/-- `isPhantom()`. -/
def isPhantom (n : Node) : Bool := (n.data &&& PHANTOM_BIT_MASK) != 0

/-- `childrenStartIndex()`. -/
def childrenStartIndex (n : Node) : Nat := n.data &&& CHILDREN_INDEX_MASK

/-- `setChildrenStartIndex(size)`. -/
def setChildrenStartIndex (n : Node) (size : Nat) : Node :=
  ⟨(n.data &&& bitNot CHILDREN_INDEX_MASK) ||| (size &&& CHILDREN_INDEX_MASK)⟩

/-- `childIndex(branch)`. -/
def childIndex (n : Node) (branch : Nat) : Nat := wrap (n.childrenStartIndex + branch)

end Node

/-! ## Octree store (`CellOctree`) -/

/-- `class CellOctree::CellView` without the geometry: stream index, a copy of the node
and the Morton key. -/
structure CellView where
  streamIndex : Nat
  node : Node
  m : MortonIndex
  deriving DecidableEq, Repr

namespace CellView

/-- `CellView(node, geometry, m, streamIndex)`: the node is rebuilt from its three
components. -/
def create (m_node : Node) (m : MortonIndex) (m_streamIndex : Nat) : CellView :=
  ⟨m_streamIndex, Node.create m_node.isRefined m_node.isPhantom m_node.childrenStartIndex,
    ⟨m.bits⟩⟩

/-- `CellView::level()`. -/
def level (c : CellView) : Nat := c.m.level

/-- `CellView::isPhantom()`. -/
def isPhantom (c : CellView) : Bool := c.node.isPhantom

end CellView

/-- `class CellOctree`: the node stream and the `(start, count)` table of the levels. -/
structure CellOctree where
  nodesStream_ : List Node
  levels_ : List (Nat × Nat)
  deriving DecidableEq, Repr

namespace CellOctree

/-- `CellOctree()`: a single default root. -/
def empty : CellOctree := ⟨[Node.default], [(0, 1)]⟩

/-- `numberOfNodes()`. -/
def numberOfNodes (t : CellOctree) : Nat := t.nodesStream_.length

/-- `numberOfLevels()`. -/
def numberOfLevels (t : CellOctree) : Nat := t.levels_.length

/-- `nodesStream(level)`: the sub-span of one level, empty for a missing level. -/
def nodesStream (t : CellOctree) (level : Nat) : List Node :=
  match t.levels_[level]? with
  | none => []
  | some (first, second) => (t.nodesStream_.drop first).take second

/-- `numberOfNonPhantomNodes(level)`. -/
def numberOfNonPhantomNodes (t : CellOctree) (level : Nat) : Nat :=
  match t.levels_[level]? with
  | none => 0
  | some (levelStartIdx, levelSize) =>
    ((t.nodesStream_.drop levelStartIdx).take levelSize).foldl
      (fun acc node => wrap (acc + (!node.isPhantom).toNat)) 0

/-- The characters `".RPX"` accepted as nodes. -/
def allowedChars : List Char := ['.', 'R', 'P', 'X']

/-- The loop of `isInvalidDescriptor` with its two counters, followed by the final
comparison `numTotalNodes != numRefinedNodes * 8 + 1`. -/
def isInvalidDescriptorLoop : List Char → Nat → Nat → Bool
  | [], numRefinedNodes, numTotalNodes =>
    numTotalNodes != wrap (wrap (numRefinedNodes * 8) + 1)
  | c :: cs, numRefinedNodes, numTotalNodes =>
    if c = '|' then isInvalidDescriptorLoop cs numRefinedNodes numTotalNodes
    else if !(allowedChars.contains c) then true
    else
      isInvalidDescriptorLoop cs
        (if c = 'X' ∨ c = 'R' then wrap (numRefinedNodes + 1) else numRefinedNodes)
        (wrap (numTotalNodes + 1))

/-- `isInvalidDescriptor(descriptor)`. -/
def isInvalidDescriptor (descriptor : List Char) : Bool :=
  isInvalidDescriptorLoop descriptor 0 0

/-- `levels_.back().second++`. -/
def incrementLastCount : List (Nat × Nat) → List (Nat × Nat)
  | [] => []
  | [(start, count)] => [(start, wrap (count + 1))]
  | l :: ls => l :: incrementLastCount ls

/-- `levels_.back().second--`. -/
def decrementLastCount : List (Nat × Nat) → List (Nat × Nat)
  | [] => []
  | [(start, count)] => [(start, wrap (count + WORD - 1))]
  | l :: ls => l :: decrementLastCount ls

/-- The inner loop of `fromDescriptor` run at a `'|'`: the `refinedIdx`-th pending refined
node gets the children start `numberOfNodes() - 1 + (8 * refinedIdx + 1)`. -/
def assignChildren (numberOfNodes : Nat) : List Nat → Nat → List Node → Except Error (List Node)
  | [], _, nodes => .ok nodes
  | nodeIdx :: rest, refinedIdx, nodes =>
    match nodes[nodeIdx]? with
    | none => .error .outOfRange
    | some parentOfRefinement =>
      assignChildren numberOfNodes rest (wrap (refinedIdx + 1))
        (nodes.set nodeIdx (parentOfRefinement.setChildrenStartIndex
          (wrap (wrap (numberOfNodes + WORD - 1) + wrap (wrap (8 * refinedIdx) + 1)))))

/-- The main loop of `fromDescriptor` over the characters, with the tree built so far and
the pending `refinedNodes`. -/
def fromDescriptorLoop : List Char → CellOctree → List Nat → Except Error CellOctree
  | [], tree, _ => .ok tree
  | c :: cs, tree, refinedNodes =>
    if c = '.' ∨ c = 'R' ∨ c = 'P' ∨ c = 'X' then
      let refined := (c == 'R' || c == 'X')
      let phantom := (c == 'P' || c == 'X')
      let tree1 : CellOctree :=
        ⟨tree.nodesStream_ ++ [Node.create refined phantom 0], incrementLastCount tree.levels_⟩
      fromDescriptorLoop cs tree1
        (if refined then refinedNodes ++ [wrap (tree1.numberOfNodes + WORD - 1)]
         else refinedNodes)
    else if c = '|' then
      match assignChildren tree.numberOfNodes refinedNodes 0 tree.nodesStream_ with
      | .error e => .error e
      | .ok nodes1 =>
        fromDescriptorLoop cs ⟨nodes1, tree.levels_ ++ [(tree.numberOfNodes, 0)]⟩ []
    else .error .invalidArgument

/-- `CellOctree::fromDescriptor`. The default tree loses its dummy root before the loop. -/
def fromDescriptor (descriptor : String) : Except Error CellOctree :=
  if descriptor.data.isEmpty || isInvalidDescriptor descriptor.data then
    .error .invalidArgument
  else
    fromDescriptorLoop descriptor.data
      ⟨empty.nodesStream_.dropLast, decrementLastCount empty.levels_⟩ []

/-- The `while (levels.size() <= level)` loop of `createUniformGrid`; it runs `level`
times. -/
def uniformLevels : Nat → List (Nat × Nat) → List (Nat × Nat)
  | 0, levels => levels
  | n + 1, levels =>
    let (start, size) := levels.getLastD (0, 0)
    uniformLevels n (levels ++ [(wrap (start + size), wrap (size <<< 3))])

/-- The octree that `createUniformGrid(level)` builds once its two reservations have
succeeded: the level table of the loop, refined phantoms with children starts
`1, 9, 17, …` below `nodes_count`, followed by `size` default nodes. -/
def uniformGrid (level : Nat) : CellOctree :=
  let levels := uniformLevels level [(0, 1)]
  let (start, size) := levels.getLastD (0, 0)
  let nodes_count := wrap (start + size)
  let refinedPart := (List.range ((nodes_count - 1 + 7) / 8)).map
    (fun i => Node.create true true (1 + 8 * i))
  ⟨refinedPart ++ List.replicate size Node.default, levels⟩

/-- `std::vector<T>::max_size()` for elements of `elemSize` bytes:
`PTRDIFF_MAX / sizeof(T)`. -/
def vectorMaxSize (elemSize : Nat) : Nat := (2 ^ 63 - 1) / elemSize

/-- `v.reserve(n)` on an empty vector of elements of `elemSize` bytes, where `available`
is the number of bytes the allocator can still provide: `std::length_error` above
`max_size()`, `std::bad_alloc` when the storage cannot be provided; otherwise the number
of bytes left. -/
def reserve (elemSize available n : Nat) : Except Error Nat :=
  if n > vectorMaxSize elemSize then .error .lengthError
  else if n * elemSize > available then .error .badAlloc
  else .ok (available - n * elemSize)

/-- `CellOctree::createUniformGrid(geom, level)` without the geometry, where `available`
is the number of bytes the allocator can provide to the two vectors.
`levels.reserve(level + 1)` reserves 16 bytes per level and `nodes.reserve(nodes_count)`
8 bytes per node; after them nothing is appended past a reservation. For
`level = SIZE_MAX` the first reservation is for `0` entries and the loop, which never
ends by itself, appends until the doubling growth of the vector fails: with
`std::length_error` at `max_size()` entries if the last growth, from `2 ^ 58` entries to
`max_size()`, found its storage, and with `std::bad_alloc` otherwise. -/
def createUniformGrid (available level : Nat) : Except Error CellOctree :=
  match reserve 16 available (wrap (level + 1)) with
  | .error e => .error e
  | .ok rest =>
    if level + 1 ≥ WORD then
      .error (if 16 * 2 ^ 58 + 16 * vectorMaxSize 16 ≤ rest then .lengthError else .badAlloc)
    else
      let levels := uniformLevels level [(0, 1)]
      let (start, size) := levels.getLastD (0, 0)
      let nodes_count := wrap (start + size)
      match reserve 8 rest nodes_count with
      | .error e => .error e
      | .ok _ =>
        let refinedPart := (List.range ((nodes_count - 1 + 7) / 8)).map
          (fun i => Node.create true true (1 + 8 * i))
        .ok ⟨refinedPart ++ List.replicate size Node.default, levels⟩

/-- The `for (choice : path)` loop of `getCell`. The result is the final stream index and
node, or `none` when an unrefined node is met before the end of the path. -/
def getCellLoop (nodes : List Node) : List Nat → Nat → Node → Except Error (Option (Nat × Node))
  | [], currentIdx, current => .ok (some (currentIdx, current))
  | choice :: rest, _, current =>
    if !current.isRefined then .ok none
    else
      let idx := current.childIndex choice
      match nodes[idx]? with
      | none => .error .outOfRange
      | some next => getCellLoop nodes rest idx next

/-- `CellOctree::getCell`. -/
def getCell (t : CellOctree) (m : MortonIndex) : Except Error (Option CellView) :=
  if m.isRoot then
    match t.nodesStream_[0]? with
    | none => .error .outOfRange
    | some root => if root.isPhantom then .ok none else .ok (some (CellView.create root m 0))
  else if m.level ≥ t.numberOfLevels then .ok none
  else
    match t.nodesStream_[0]? with
    | none => .error .outOfRange
    | some root =>
      match m.getPath with
      | .error e => .error e
      | .ok path =>
        match getCellLoop t.nodesStream_ path 0 root with
        | .error e => .error e
        | .ok none => .ok none
        | .ok (some (currentIdx, current)) =>
          if current.isPhantom then .ok none
          else .ok (some (CellView.create current m currentIdx))

end CellOctree

/-! ## Descriptors: the vocabulary of the specification -/

namespace CellOctree

/-- Number of node characters of a descriptor: those other than `'|'`. -/
def nodeChars (d : List Char) : Nat := d.countP (fun c => c != '|')

/-- Number of `'R'` and `'X'` characters of a descriptor. -/
def refinedChars (d : List Char) : Nat := d.countP (fun c => c == 'R' || c == 'X')

/-- Every character is one of `'.'`, `'R'`, `'P'`, `'X'`, `'|'`. -/
def OnlyDescriptorChars (d : List Char) : Prop := ∀ c ∈ d, c ∈ ['.', 'R', 'P', 'X', '|']

instance (d : List Char) : Decidable (OnlyDescriptorChars d) := by
  unfold OnlyDescriptorChars; infer_instance

/-- The levels of a descriptor: its pieces between the `'|'` separators. -/
def splitLevels : List Char → List (List Char)
  | [] => [[]]
  | c :: cs =>
    if c = '|' then [] :: splitLevels cs
    else
      match splitLevels cs with
      | [] => [[c]]
      | s :: ss => (c :: s) :: ss

/-- Each level of the list holds `expected` node characters, where `expected` is eight
times the number of refined characters of the level before. -/
def eightPerRefined : Nat → List (List Char) → Bool
  | _, [] => true
  | expected, s :: ss => s.length == expected && eightPerRefined (8 * refinedChars s) ss

/-- A descriptor with one root character in which each `'|'` is followed by exactly eight
node characters per refined node of the preceding level. -/
def Grouped (d : List Char) : Prop := eightPerRefined 1 (splitLevels d) = true

instance (d : List Char) : Decidable (Grouped d) := by
  unfold Grouped; infer_instance

/-- The grouping condition read character by character: `e` node characters are still
expected in the level being read, which has `r` refined characters so far. -/
def GroupedFrom : Nat → Nat → List Char → Prop
  | e, _, [] => e = 0
  | e, r, c :: cs =>
    if c = '|' then e = 0 ∧ GroupedFrom (8 * r) 0 cs
    else 0 < e ∧ GroupedFrom (e - 1) (r + if (c == 'R' || c == 'X') then 1 else 0) cs

/-- Number of refined nodes among the first `i` nodes of the stream. -/
def refinedBefore (t : CellOctree) (i : Nat) : Nat :=
  (t.nodesStream_.take i).countP Node.isRefined

/-- The layout of a level-grouped store: the level table starts with `(0, 1)`, is
contiguous and ends with the stream; the level after the one starting at `s` starts at
`1 + 8 * (refined nodes before s)`; the last level has no refined node; and the children
of the refined node at index `i` start at `1 + 8 * (refined nodes before i)`. -/
structure StoreInv (t : CellOctree) : Prop where
  size_lt : t.nodesStream_.length < 2 ^ 61
  levels_first : t.levels_[0]? = some (0, 1)
  levels_next : ∀ l a b, t.levels_[l]? = some a → t.levels_[l + 1]? = some b →
    b.1 = a.1 + a.2 ∧ b.1 = 1 + 8 * refinedBefore t a.1
  levels_last : ∀ a, t.levels_.getLast? = some a →
    a.1 + a.2 = t.nodesStream_.length ∧ t.nodesStream_.length = 1 + 8 * refinedBefore t a.1
  last_unrefined : ∀ a i n, t.levels_.getLast? = some a → a.1 ≤ i →
    t.nodesStream_[i]? = some n → n.isRefined = false
  children : ∀ i n, t.nodesStream_[i]? = some n → n.isRefined = true →
    n.childrenStartIndex = 1 + 8 * refinedBefore t i

/-- A well-formed octree: built by `fromDescriptor` from a grouped descriptor, or the
octree `createUniformGrid` builds for a level of at most `20`. The descriptor is shorter
than `2 ^ 61` characters and the uniform level is at most `20`, so that every stream index
fits the 62-bit children index (`createUniformGrid` itself returns for the levels up to
`19` only). -/
def WellFormed (t : CellOctree) : Prop :=
  (∃ d : String, d.length < 2 ^ 61 ∧ Grouped d.data ∧ fromDescriptor d = .ok t) ∨
  (∃ level : Nat, level ≤ 20 ∧ t = uniformGrid level)

end CellOctree

namespace CellOctree

/-- Refined flag of the node at stream index `i`, `false` outside the stream. -/
def refinedAt (nodes : List Node) (i : Nat) : Bool :=
  match nodes[i]? with
  | some n => n.isRefined
  | none => false

/-- The children start `numberOfNodes() - 1 + (8 * refinedIdx + 1)` assigned by
`fromDescriptor`, on 64-bit words. -/
def childStartValue (numberOfNodes refinedIdx : Nat) : Nat :=
  wrap (wrap (numberOfNodes + WORD - 1) + wrap (wrap (8 * refinedIdx) + 1))

end CellOctree

namespace CellOctree

/-- The state of the construction loop of `fromDescriptor` while the level `(s, c)` is
being read after the complete levels `pre`: `rn` are the pending refined nodes of the
level and `e` is the number of node characters it still expects. -/
structure BuildInv (tree : CellOctree) (rn : List Nat) (e : Nat) (pre : List (Nat × Nat))
    (s c : Nat) : Prop where
  levels_eq : tree.levels_ = pre ++ [(s, c)]
  end_eq : s + c = tree.nodesStream_.length
  pending : rn = (List.range' s c).filter (refinedAt tree.nodesStream_)
  expected : tree.nodesStream_.length + e = 1 + 8 * refinedBefore tree s
  first : (pre = [] → s = 0 ∧ c + e = 1) ∧ (pre ≠ [] → pre[0]? = some (0, 1))
  bounded : ∀ a ∈ pre, a.1 + a.2 ≤ s
  next : ∀ (l : Nat) (a : Nat × Nat) (b1 : Nat), pre[l]? = some a →
    (pre.map Prod.fst ++ [s])[l + 1]? = some b1 →
    b1 = a.1 + a.2 ∧ b1 = 1 + 8 * refinedBefore tree a.1
  children : ∀ (i : Nat) (n : Node), i < s → tree.nodesStream_[i]? = some n →
    n.isRefined = true → n.childrenStartIndex = 1 + 8 * refinedBefore tree i

end CellOctree

namespace CellOctree

/-- Start index of level `l` of a uniform grid: `1 + 8 + … + 8 ^ (l - 1)`. -/
def uniformStart : Nat → Nat
  | 0 => 0
  | l + 1 => uniformStart l + 8 ^ l

end CellOctree

namespace CellOctree

/-- Walking from the node at stream index `i` along a path of selectors: the stream index
reached at the end, provided every node left on the way is refined. -/
def walk (t : CellOctree) : List Nat → Nat → Option Nat
  | [], i => some i
  | b :: rest, i =>
    match t.nodesStream_[i]? with
    | none => none
    | some n => if n.isRefined then walk t rest (n.childrenStartIndex + b) else none

/-- The cell named by the key `k` with selectors `path`: the node reached by walking from
the root along `path`, unless the walk fails or that node is phantom. -/
def cellAt (t : CellOctree) (k : MortonIndex) (path : List Nat) : Option CellView :=
  match walk t path 0 with
  | none => none
  | some i =>
    match t.nodesStream_[i]? with
    | none => none
    | some n => if n.isPhantom then none else some (CellView.create n k i)

end CellOctree

/-! ## Cursor (`OctreeCursor`) -/

/-- `class OctreeCursor`. The octree is passed to the operations instead of being held
as a pointer (`empty()` is false for every cursor made by a range). The path is stored
with the current node first: `vPath` here is the reverse of the source's vector, so that
`vPath.back()` is the head, `vPath[0]` (the root entry) is the last element and
`ascend`/`descend` pop and push at the head. -/
structure OctreeCursor where
  vPath : List Nat
  deriving DecidableEq, Repr

namespace OctreeCursor

/-- `end()`: the path is empty. -/
def isEnd (c : OctreeCursor) : Bool := c.vPath.isEmpty

/-- `toEnd()`. -/
def toEnd : OctreeCursor := ⟨[]⟩

/-- `currentNode()`, with its three checks and the unchecked access of `getNode`. The
current level is `vPath.size() - 1`. -/
def currentNode (t : CellOctree) : OctreeCursor → Except Error Node
  | ⟨[]⟩ => .error .logicError
  | ⟨idx :: up⟩ =>
    match t.levels_[up.length]? with
    | none => .error .outOfRange
    | some (levelStart, levelSize) =>
      let myIndex := wrap (idx + WORD - levelStart)
      if myIndex ≥ levelSize then .error .outOfRange
      else
        match t.nodesStream_[idx]? with
        | none => .error .undefinedBehaviour
        | some n => .ok n

/-- `lastSibling()`. -/
def lastSibling : OctreeCursor → Bool
  | ⟨idx :: _ :: _⟩ => (idx &&& 7) == 0
  | _ => true

/-- `mortonIndex()`: starting from `1`, every path entry below the root shifts the bits
by three and ors in `(index - 1) & 7`, from the root side to the current node. -/
def mortonIndex (c : OctreeCursor) : MortonIndex :=
  ⟨c.vPath.dropLast.foldr
    (fun index bits => wrap (bits <<< 3) ||| (wrap (index + WORD - 1) &&& 7)) 1⟩

/-- `currentCell()`: `getCell(mortonIndex())`, any exception giving `nullopt`. -/
def currentCell (t : CellOctree) (c : OctreeCursor) : Option CellView :=
  match t.getCell c.mortonIndex with
  | .ok r => r
  | .error _ => none

/-- `ascend()`. -/
def ascend (c : OctreeCursor) : OctreeCursor := ⟨c.vPath.tail⟩

/-- `descend()`: to the first child of a refined current node. -/
def descend (t : CellOctree) (c : OctreeCursor) : Except Error OctreeCursor :=
  if c.isEnd then .ok c
  else
    match c.currentNode t with
    | .error e => .error e
    | .ok node =>
      if node.isRefined then .ok ⟨node.childrenStartIndex :: c.vPath⟩ else .ok c

/-- `nextSibling()`. -/
def nextSibling (c : OctreeCursor) : OctreeCursor :=
  if !c.lastSibling then
    match c.vPath with
    | [] => c
    | idx :: up => ⟨wrap (idx + 1) :: up⟩
  else c

/-- `advanceStreamIndex()`; the level table is read without a bounds check. -/
def advanceStreamIndex (t : CellOctree) : OctreeCursor → Except Error OctreeCursor
  | ⟨[]⟩ => .ok ⟨[]⟩
  | ⟨idx :: up⟩ =>
    let streamIndex := wrap (idx + 1)
    match t.levels_[up.length]? with
    | none => .error .undefinedBehaviour
    | some (levelStart, levelSize) =>
      if wrap (streamIndex + WORD - levelStart) ≥ levelSize then .ok toEnd
      else .ok ⟨streamIndex :: up⟩

/-- The scan of `updatePath` over the nodes of the parent level, `i` being the stream
index of the node looked at. -/
def findParent : List Node → Nat → Nat → Option Nat
  | [], _, _ => none
  | node :: rest, i, currentStreamIndex =>
    if node.isRefined && (currentStreamIndex ≥ node.childrenStartIndex &&
        currentStreamIndex < wrap (node.childrenStartIndex + 8)) then some i
    else findParent rest (wrap (i + 1)) currentStreamIndex

/-- The loop `for (l = myLevel; l >= 1; --l)` of `updatePath`: the entries written for the
levels `l, l - 1, …, 1`, in this order. -/
def updatePathLoop (t : CellOctree) : Nat → Nat → Except Error (List Nat)
  | 0, _ => .ok []
  | l + 1, currentStreamIndex =>
    match t.levels_[l]? with
    | none => .error .undefinedBehaviour
    | some (first, _) =>
      match findParent (t.nodesStream l) first currentStreamIndex with
      | none => .error .logicError
      | some parentIdx =>
        match updatePathLoop t l parentIdx with
        | .error e => .error e
        | .ok rest => .ok (currentStreamIndex :: rest)

/-- `updatePath(streamIndex)`: the entries of the levels `myLevel … 1` are rewritten, the
root entry `vPath[0]` is kept. -/
def updatePath (t : CellOctree) (c : OctreeCursor) (streamIndex : Nat) :
    Except Error OctreeCursor :=
  match c.vPath with
  | [] => .ok c
  | cur :: up =>
    match t.levels_[up.length]? with
    | none => .error .logicError
    | some (levelStart, levelSize) =>
      let myIndex := wrap (streamIndex + WORD - levelStart)
      if myIndex ≥ levelSize then .error .outOfRange
      else
        match updatePathLoop t up.length streamIndex with
        | .error e => .error e
        | .ok entries => .ok ⟨entries ++ [(cur :: up).getLastD 0]⟩

end OctreeCursor

/-! ## Traversal policies, iterators and ranges -/

namespace DfsPolicy

/-- The inner loop of `DfsPolicy::advance` that ascends until a node with a next sibling
is found. The flag tells whether `advance` returned from inside the loop (the cursor
reached the end). -/
def ascendLoop : List Nat → List Nat × Bool
  | [] => ([], false)
  | _ :: up =>
    if up.isEmpty then ([], true)
    else if !(OctreeCursor.lastSibling ⟨up⟩) then ((OctreeCursor.nextSibling ⟨up⟩).vPath, false)
    else ascendLoop up

/-- One pass of the body of `while (true)` in `DfsPolicy::advance`, up to the phantom
test: the cursor moved to the next node in pre-order, or `none` when `advance` returned
with the cursor at the end. -/
def move (t : CellOctree) (cursor : OctreeCursor) : Except Error (Option OctreeCursor) :=
  match cursor.currentNode t with
  | .error e => .error e
  | .ok node =>
    if node.isRefined then
      match cursor.descend t with
      | .error e => .error e
      | .ok c => .ok (some c)
    else if !cursor.lastSibling then .ok (some cursor.nextSibling)
    else
      match ascendLoop cursor.vPath with
      | (_, true) => .ok none
      | (p, false) => .ok (some ⟨p⟩)

/-- `DfsPolicy::advance`. -/
def advance (t : CellOctree) : Nat → OctreeCursor → Except Error OctreeCursor
  | 0, _ => .error .outOfFuel
  | fuel + 1, cursor =>
    if cursor.isEnd then .ok cursor
    else
      match move t cursor with
      | .error e => .error e
      | .ok none => .ok OctreeCursor.toEnd
      | .ok (some c) =>
        match c.currentNode t with
        | .error e => .error e
        | .ok n => if !n.isPhantom then .ok c else advance t fuel c

end DfsPolicy

namespace HorizontalPolicy

/-- The `while (true)` loop of `HorizontalPolicy::advance`. -/
def advanceLoop (t : CellOctree) (initialGroupIndex : Nat) :
    Nat → OctreeCursor → Except Error OctreeCursor
  | 0, _ => .error .outOfFuel
  | fuel + 1, cursor =>
    match cursor.advanceStreamIndex t with
    | .error e => .error e
    | .ok c1 =>
      if c1.isEnd then .ok c1
      else
        match c1.currentNode t with
        | .error e => .error e
        | .ok n =>
          if !n.isPhantom then
            match c1.vPath with
            | [] => .error .undefinedBehaviour
            | nextStreamIndex :: _ =>
              let currentGroupIndex := wrap (nextStreamIndex + WORD - 1) >>> 3
              if initialGroupIndex ≠ currentGroupIndex then c1.updatePath t nextStreamIndex
              else .ok c1
          else advanceLoop t initialGroupIndex fuel c1

/-- `HorizontalPolicy::advance`. -/
def advance (t : CellOctree) (fuel : Nat) (cursor : OctreeCursor) : Except Error OctreeCursor :=
  match cursor.vPath with
  | [] => .ok cursor
  | initialIndex :: _ =>
    advanceLoop t (wrap (initialIndex + WORD - 1) >>> 3) fuel cursor

end HorizontalPolicy

namespace OctreeIterator

/-- The constructor of `OctreeIterator`: the cursor is advanced while it stands on a
phantom node. -/
def create (t : CellOctree) (advance : OctreeCursor → Except Error OctreeCursor) :
    Nat → OctreeCursor → Except Error OctreeCursor
  | 0, _ => .error .outOfFuel
  | fuel + 1, cursor =>
    if cursor.isEnd then .ok cursor
    else
      match cursor.currentNode t with
      | .error e => .error e
      | .ok n =>
        if n.isPhantom then
          match advance cursor with
          | .error e => .error e
          | .ok c => create t advance fuel c
        else .ok cursor

/-- The loop `for (it = begin; it != end; ++it)` collecting `*it`, where `*it` is
`currentCell().value()`. -/
def collect (t : CellOctree) (advance : OctreeCursor → Except Error OctreeCursor) :
    Nat → OctreeCursor → Except Error (List CellView)
  | 0, _ => .error .outOfFuel
  | fuel + 1, cursor =>
    if cursor.isEnd then .ok []
    else
      match cursor.currentCell t with
      | none => .error .badOptionalAccess
      | some v =>
        match advance cursor with
        | .error e => .error e
        | .ok c =>
          match collect t advance fuel c with
          | .error e => .error e
          | .ok vs => .ok (v :: vs)

/-- All cell views produced by iterating a range from its start cursor to the end. -/
def toList (t : CellOctree) (advance : OctreeCursor → Except Error OctreeCursor) (fuel : Nat)
    (start : OctreeCursor) : Except Error (List CellView) :=
  match create t advance fuel start with
  | .error e => .error e
  | .ok c => collect t advance fuel c

end OctreeIterator

namespace CellOctree

/-- The cell views of `preOrderDepthFirstRange()`, whose start cursor is the root. -/
def preOrderDepthFirstRange (t : CellOctree) (fuel : Nat) : Except Error (List CellView) :=
  OctreeIterator.toList t (DfsPolicy.advance t fuel) fuel ⟨[0]⟩

/-- The start cursor of `horizontalRange(level)`: the end cursor for a missing level,
otherwise a zero path of length `level + 1` re-anchored at the start of the level. -/
def horizontalStart (t : CellOctree) (level : Nat) : Except Error OctreeCursor :=
  if level ≥ t.numberOfLevels then .ok OctreeCursor.toEnd
  else
    match t.levels_[level]? with
    | none => .error .outOfRange
    | some (startIndex, _) =>
      OctreeCursor.updatePath t ⟨List.replicate (level + 1) 0⟩ startIndex

/-- The cell views of `horizontalRange(level)`. -/
def horizontalRange (t : CellOctree) (level : Nat) (fuel : Nat) :
    Except Error (List CellView) :=
  match horizontalStart t level with
  | .error e => .error e
  | .ok start => OctreeIterator.toList t (HorizontalPolicy.advance t fuel) fuel start

end CellOctree

/-! ## Specification of the traversals -/

namespace CellOctree

/-- A cursor path (current node first) that names a node of the tree: it ends at the root
index `0`, and every entry is one of the eight children of the refined node that follows
it. -/
def Chain (t : CellOctree) : List Nat → Prop
  | [] => False
  | [i] => i = 0
  | i :: j :: up =>
    (∃ n : Node, t.nodesStream_[j]? = some n ∧ n.isRefined = true ∧
      n.childrenStartIndex ≤ i ∧ i < n.childrenStartIndex + 8) ∧ Chain t (j :: up)

/-- The child selectors of a cursor path, from the root to the current node. -/
def selectors : List Nat → List Nat
  | [] => []
  | [_] => []
  | i :: j :: up => selectors (j :: up) ++ [(i - 1) % 8]

/-- Whether the current node of a cursor path is phantom (`false` outside the stream). -/
def phantomAt (t : CellOctree) (p : List Nat) : Bool :=
  match p with
  | [] => false
  | i :: _ =>
    match t.nodesStream_[i]? with
    | none => false
    | some n => n.isPhantom

/-- The cursor paths of the eight children of the current node, in selector order; empty
when the node is not refined. -/
def childPaths (t : CellOctree) (p : List Nat) : List (List Nat) :=
  match p with
  | [] => []
  | i :: _ =>
    match t.nodesStream_[i]? with
    | none => []
    | some n =>
      if n.isRefined then (List.range 8).map (fun b => (n.childrenStartIndex + b) :: p) else []

/-- Pre-order list of the cursor paths of the subtree below (and including) the current
node of `p`, down to `d` levels. -/
def subtreePaths (t : CellOctree) : Nat → List Nat → List (List Nat)
  | 0, _ => []
  | d + 1, p => p :: (childPaths t p).flatMap (subtreePaths t d)

/-- The cursor paths of the siblings that follow the current node in its group of eight;
a group ends at the stream index that is a multiple of eight. -/
def laterSiblings (p : List Nat) : List (List Nat) :=
  match p with
  | i :: j :: up => (List.range' (i + 1) ((8 - i % 8) % 8)).map (fun x => x :: j :: up)
  | _ => []

/-- Pre-order list of everything that comes after the subtree of the current node of `p`:
the subtrees of its later siblings, then what comes after its parent. `d` is the number of
levels from the level of the current node down to the deepest one. -/
def restPaths (t : CellOctree) : Nat → List Nat → List (List Nat)
  | _, [] => []
  | _, [_] => []
  | d, i :: j :: up =>
    (laterSiblings (i :: j :: up)).flatMap (subtreePaths t d) ++ restPaths t (d + 1) (j :: up)

/-- Pre-order list of everything that comes after the current node of `p`: its
descendants, then what comes after its subtree. -/
def followPaths (t : CellOctree) (p : List Nat) : List (List Nat) :=
  (childPaths t p).flatMap (subtreePaths t (t.numberOfLevels - p.length)) ++
    restPaths t (t.numberOfLevels + 1 - p.length) p

/-- Pre-order traversal of the tree below the node at stream index `i` with Morton key
`k`, down to `d` levels: the node itself unless it is phantom, then the subtrees of its
eight children in selector order when it is refined. -/
def preOrder (t : CellOctree) : Nat → Nat → MortonIndex → List CellView
  | 0, _, _ => []
  | d + 1, i, k =>
    match t.nodesStream_[i]? with
    | none => []
    | some n =>
      (if n.isPhantom then [] else [CellView.create n k i]) ++
      (if n.isRefined then
        (List.range 8).flatMap (fun b => preOrder t d (n.childrenStartIndex + b) (k.child b))
       else [])

end CellOctree

namespace CellOctree

/-- The cell view shown for a cursor path: none for a phantom node, otherwise the view
of the current node with the Morton key of the path. -/
def cellOf (t : CellOctree) (p : List Nat) : Option CellView :=
  match p with
  | [] => none
  | i :: _ =>
    match t.nodesStream_[i]? with
    | none => none
    | some n =>
      if n.isPhantom then none else some (CellView.create n (OctreeCursor.mortonIndex ⟨p⟩) i)

end CellOctree

namespace CellOctree

/-- Whether the stream holds a non-phantom node at index `i`. -/
def nonPhantomAt (t : CellOctree) (i : Nat) : Bool :=
  match t.nodesStream_[i]? with
  | none => false
  | some n => !n.isPhantom

/-- The stream indices of the non-phantom nodes, in ascending order. -/
def cellIndices (t : CellOctree) : List Nat :=
  (List.range t.numberOfNodes).filter (nonPhantomAt t)

end CellOctree

/-! ## Cell grids (`CellGrid`, `CellGridBuilder`) -/

/-- `SignedGridCoordinates` and `AdjacencyOffset`: `Vec<std::ptrdiff_t, 3>`. -/
structure SignedGridCoordinates where
  x : Int
  y : Int
  z : Int
  deriving DecidableEq, Repr

/-- `std::plus<std::ptrdiff_t>`: the sum of two signed 64-bit values; signed overflow is
undefined. -/
def addPtrdiff (a b : Int) : Except Error Int :=
  if -(2 ^ 63) ≤ a + b ∧ a + b < 2 ^ 63 then .ok (a + b) else .error .undefinedBehaviour

namespace SignedGridCoordinates

/-- `Vec::operator+` on signed coordinates. -/
def add (a b : SignedGridCoordinates) : Except Error SignedGridCoordinates :=
  match addPtrdiff a.x b.x with
  | .error e => .error e
  | .ok x =>
    match addPtrdiff a.y b.y with
    | .error e => .error e
    | .ok y =>
      match addPtrdiff a.z b.z with
      | .error e => .error e
      | .ok z => .ok ⟨x, y, z⟩

end SignedGridCoordinates

/-- `static_cast<std::ptrdiff_t>` of a 64-bit unsigned value. -/
def toSignedWord (v : Nat) : Int := if v < 2 ^ 63 then (v : Int) else (v : Int) - 2 ^ 64

/-- `static_cast<size_t>` of a signed 64-bit value. -/
def toUnsignedWord (v : Int) : Nat := (v % 2 ^ 64).toNat

/-- `toSigned(coords)`. -/
def toSigned (coords : UnsignedGridCoordinates) : SignedGridCoordinates :=
  ⟨toSignedWord coords.x, toSignedWord coords.y, toSignedWord coords.z⟩

/-- `toUnsigned(coords)`. -/
def toUnsigned (coords : SignedGridCoordinates) : UnsignedGridCoordinates :=
  ⟨toUnsignedWord coords.x, toUnsignedWord coords.y, toUnsignedWord coords.z⟩

/-- `isInvalidCoordinates(coords)`. -/
def isInvalidCoordinates (coords : SignedGridCoordinates) : Bool :=
  decide (coords.x < 0) || decide (coords.y < 0) || decide (coords.z < 0)

/-- The expression `1 << lvl` of the periodicity mappers, where `1` is an `int` and the
result initialises a `std::ptrdiff_t`: `2 ^ lvl` for `lvl < 31`, `INT_MIN` for `lvl = 31`,
undefined for a shift count of at least the width of `int`. -/
def intOneShiftLeftSigned (lvl : Nat) : Except Error Int :=
  if lvl < 31 then .ok (2 ^ lvl)
  else if lvl = 31 then .ok (-(2 ^ 31))
  else .error .undefinedBehaviour

/-- The classes derived from `PeriodicityMapper`: `NoPeriodicity` and
`Torus(x_periodic, y_periodic, z_periodic)`. -/
inductive PeriodicityMapper where
  | noPeriodicity
  | torus (x_periodic y_periodic z_periodic : Bool)
  deriving DecidableEq, Repr

namespace NoPeriodicity

/-- `NoPeriodicity::getNeighborCoordinates`. -/
def getNeighborCoordinates (goalCoords : SignedGridCoordinates) (lvl : Nat) :
    Except Error SignedGridCoordinates :=
  match intOneShiftLeftSigned lvl with
  | .error e => .error e
  | .ok gridExtent =>
    if goalCoords.x < 0 ∨ goalCoords.x ≥ gridExtent then .ok ⟨-1, -1, -1⟩
    else if goalCoords.y < 0 ∨ goalCoords.y ≥ gridExtent then .ok ⟨-1, -1, -1⟩
    else if goalCoords.z < 0 ∨ goalCoords.z ≥ gridExtent then .ok ⟨-1, -1, -1⟩
    else .ok goalCoords

end NoPeriodicity

namespace Torus

/-- One component of `Torus::getNeighborCoordinates`: `(goal % size + size) % size` with
the truncating `%` of C++ on a periodic axis, the coordinate itself otherwise. -/
def wrapCoordinate (periodic : Bool) (goal size : Int) : Int :=
  if periodic then (goal.tmod size + size).tmod size else goal

/-- `Torus::getNeighborCoordinates`. -/
def getNeighborCoordinates (x_periodic y_periodic z_periodic : Bool)
    (goalCoords : SignedGridCoordinates) (lvl : Nat) : Except Error SignedGridCoordinates :=
  match intOneShiftLeftSigned lvl with
  | .error e => .error e
  | .ok size =>
    .ok ⟨wrapCoordinate x_periodic goalCoords.x size, wrapCoordinate y_periodic goalCoords.y size,
      wrapCoordinate z_periodic goalCoords.z size⟩

end Torus

namespace PeriodicityMapper

/-- The virtual call `periodicityHandler_->getNeighborCoordinates(goalCoords, lvl)`. -/
def getNeighborCoordinates (p : PeriodicityMapper) (goalCoords : SignedGridCoordinates)
    (lvl : Nat) : Except Error SignedGridCoordinates :=
  match p with
  | .noPeriodicity => NoPeriodicity.getNeighborCoordinates goalCoords lvl
  | .torus px py pz => Torus.getNeighborCoordinates px py pz goalCoords lvl

end PeriodicityMapper

/-- `class CellGrid`: the enumerated Morton keys, the map from stream indices to ordinals,
the adjacency offsets and one adjacency list per offset. The octree is passed to the
builder and not stored again. -/
structure CellGrid where
  mortonIndices_ : List MortonIndex
  streamIndexToEnum_ : List Nat
  adjacencyOffsets_ : List SignedGridCoordinates
  adjacencyLists_ : List (List Nat)
  deriving DecidableEq, Repr

namespace CellGrid

/-- `CellGrid::NOT_ENUMERATED = std::numeric_limits<size_t>::max()`. -/
def NOT_ENUMERATED : Nat := WORD - 1

/-- `CellGrid::NO_NEIGHBOR`. -/
def NO_NEIGHBOR : Nat := NOT_ENUMERATED

/-- `size()`. -/
def size (g : CellGrid) : Nat := g.mortonIndices_.length

/-- `mortonIndices()`. -/
def mortonIndices (g : CellGrid) : List MortonIndex := g.mortonIndices_

/-- The loop of `neighborIndices(offset)`: the adjacency list at the first position where
the offset is found, `adjacencyLists_.at(i)` throwing when the list is missing. -/
def neighborIndicesLoop (offset : SignedGridCoordinates) :
    List SignedGridCoordinates → List (List Nat) → Except Error (List Nat)
  | [], _ => .error .outOfRange
  | o :: offsets, lists =>
    if o = offset then
      match lists with
      | [] => .error .outOfRange
      | l :: _ => .ok l
    else neighborIndicesLoop offset offsets lists.tail

/-- `neighborIndices(offset)`. -/
def neighborIndices (g : CellGrid) (offset : SignedGridCoordinates) : Except Error (List Nat) :=
  neighborIndicesLoop offset g.adjacencyOffsets_ g.adjacencyLists_

end CellGrid

/-- `class CellGridBuilder`: the octree, the selected levels, the adjacency offsets and
the periodicity handler (`none` for the null pointer). -/
structure CellGridBuilder where
  octree_ : CellOctree
  levels_ : List Nat
  adjacencyOffsets_ : List SignedGridCoordinates
  periodicityHandler_ : Option PeriodicityMapper
  deriving DecidableEq, Repr

namespace CellGrid

/-- `CellGrid::create(octree)`. -/
def create (octree : CellOctree) : CellGridBuilder := ⟨octree, [], [], none⟩

end CellGrid

namespace CellGridBuilder

/-- `levels(lvls)`. -/
def levels (b : CellGridBuilder) (lvls : List Nat) : CellGridBuilder :=
  { b with levels_ := lvls }

/-- `neighborhood(offsets)`. -/
def neighborhood (b : CellGridBuilder) (offsets : List SignedGridCoordinates) :
    CellGridBuilder :=
  { b with adjacencyOffsets_ := offsets }

/-- `periodicityMapper(handler)`. -/
def periodicityMapper (b : CellGridBuilder) (handler : PeriodicityMapper) : CellGridBuilder :=
  { b with periodicityHandler_ := some handler }

/-- The selected levels after the default of `build`: all levels of the octree when none
were given. -/
def selectedLevels (b : CellGridBuilder) : List Nat :=
  if b.levels_.isEmpty then List.range b.octree_.levels_.length else b.levels_

/-- `numberOfNonPhantomNodes(listOfLevels)`: the sum over the list on `size_t`. -/
def numberOfNonPhantomNodesOf (t : CellOctree) (listOfLevels : List Nat) : Nat :=
  listOfLevels.foldl (fun sum lvlNum => wrap (sum + t.numberOfNonPhantomNodes lvlNum)) 0

/-- The state of the enumeration loop: `mortonIndices`, `streamIndexToEnum` and `idx`. -/
structure EnumState where
  mortonIndices : List MortonIndex
  streamIndexToEnum : List Nat
  idx : Nat
  deriving DecidableEq, Repr

/-- The body of the enumeration loop for one cell; both vectors are written through the
unchecked `operator[]`. -/
def enumerateCell (st : EnumState) (cell : CellView) : Except Error EnumState :=
  if st.idx < st.mortonIndices.length then
    if cell.streamIndex < st.streamIndexToEnum.length then
      .ok ⟨st.mortonIndices.set st.idx cell.m, st.streamIndexToEnum.set cell.streamIndex st.idx,
        wrap (st.idx + 1)⟩
    else .error .undefinedBehaviour
  else .error .undefinedBehaviour

/-- The loop over the cells of one horizontal range. -/
def enumerateCells : List CellView → EnumState → Except Error EnumState
  | [], st => .ok st
  | cell :: rest, st =>
    match enumerateCell st cell with
    | .error e => .error e
    | .ok st1 => enumerateCells rest st1

/-- The loop `for (lvl : levels_)` of `build` over the horizontal ranges. -/
def enumerateLevels (t : CellOctree) (fuel : Nat) : List Nat → EnumState → Except Error EnumState
  | [], st => .ok st
  | lvl :: rest, st =>
    match t.horizontalRange lvl fuel with
    | .error e => .error e
    | .ok cells =>
      match enumerateCells cells st with
      | .error e => .error e
      | .ok st1 => enumerateLevels t fuel rest st1

/-- The grid coordinates of all enumerated keys, in the order in which `coordToEnum` is
filled. -/
def coordinatesOf (fuel : Nat) : List MortonIndex → Except Error (List UnsignedGridCoordinates)
  | [] => .ok []
  | m :: rest =>
    match m.gridCoordinates fuel with
    | .error e => .error e
    | .ok c =>
      match coordinatesOf fuel rest with
      | .error e => .error e
      | .ok cs => .ok (c :: cs)

/-- The loop over `possibleNeighbors`: every candidate on the level of the cell overwrites
the entry. -/
def selectNeighbor (mortonIndices : List MortonIndex) (lvl : Nat) :
    List Nat → Nat → Except Error Nat
  | [], entry => .ok entry
  | neighborIdx :: rest, entry =>
    match mortonIndices[neighborIdx]? with
    | none => .error .outOfRange
    | some possibleNeighbor =>
      selectNeighbor mortonIndices lvl rest
        (if possibleNeighbor.level = lvl then neighborIdx else entry)

/-- The ordinals stored in `coordToEnum` under the key `goalCoords`, in insertion order. -/
def candidates (coords : List UnsignedGridCoordinates) (goalCoords : UnsignedGridCoordinates) :
    List Nat :=
  (List.range coords.length).filter (fun j => coords[j]? = some goalCoords)

/-- The body of the loop over `enumIdx` for one offset: the table entry of the cell with
key `mortonIdx`. The order in which `equal_range` hands out the entries of one key of the
`unordered_multimap` is unspecified; `equalRange` is that order. -/
def neighborEntry (mapper : PeriodicityMapper) (equalRange : List Nat → List Nat) (fuel : Nat)
    (mortonIndices : List MortonIndex) (coords : List UnsignedGridCoordinates)
    (currentOffset : SignedGridCoordinates) (mortonIdx : MortonIndex) : Except Error Nat :=
  match mortonIdx.gridCoordinates fuel with
  | .error e => .error e
  | .ok c =>
    match (toSigned c).add currentOffset with
    | .error e => .error e
    | .ok sum =>
      match mapper.getNeighborCoordinates sum mortonIdx.level with
      | .error e => .error e
      | .ok goalCoordsSigned =>
        if isInvalidCoordinates goalCoordsSigned then .ok CellGrid.NO_NEIGHBOR
        else
          selectNeighbor mortonIndices mortonIdx.level
            (equalRange (candidates coords (toUnsigned goalCoordsSigned))) CellGrid.NO_NEIGHBOR

/-- The loop over `enumIdx` for one offset. -/
def neighborRow (entry : MortonIndex → Except Error Nat) : List MortonIndex → Except Error (List Nat)
  | [] => .ok []
  | m :: rest =>
    match entry m with
    | .error e => .error e
    | .ok n =>
      match neighborRow entry rest with
      | .error e => .error e
      | .ok ns => .ok (n :: ns)

/-- The loop over `offsetIdx`. -/
def neighborRows (entry : SignedGridCoordinates → MortonIndex → Except Error Nat)
    (mortonIndices : List MortonIndex) : List SignedGridCoordinates → Except Error (List (List Nat))
  | [] => .ok []
  | o :: rest =>
    match neighborRow (entry o) mortonIndices with
    | .error e => .error e
    | .ok row =>
      match neighborRows entry mortonIndices rest with
      | .error e => .error e
      | .ok rows => .ok (row :: rows)

/-- `CellGridBuilder::build()`. `equalRange` is the iteration order of `equal_range` on
the `unordered_multimap`, `fuel` bounds the loops of the ranges and the recursion of
`gridCoordinates`. -/
def build (b : CellGridBuilder) (equalRange : List Nat → List Nat) (fuel : Nat) :
    Except Error CellGrid :=
  let levels := b.selectedLevels
  let mapper := b.periodicityHandler_.getD .noPeriodicity
  let numNonPhantomCells := numberOfNonPhantomNodesOf b.octree_ levels
  match enumerateLevels b.octree_ fuel levels
      ⟨List.replicate numNonPhantomCells MortonIndex.root,
        List.replicate b.octree_.numberOfNodes CellGrid.NOT_ENUMERATED, 0⟩ with
  | .error e => .error e
  | .ok st =>
    if b.adjacencyOffsets_.isEmpty then
      .ok ⟨st.mortonIndices, st.streamIndexToEnum, b.adjacencyOffsets_, []⟩
    else
      match coordinatesOf fuel st.mortonIndices with
      | .error e => .error e
      | .ok coords =>
        match neighborRows (neighborEntry mapper equalRange fuel st.mortonIndices coords)
            st.mortonIndices b.adjacencyOffsets_ with
        | .error e => .error e
        | .ok rows => .ok ⟨st.mortonIndices, st.streamIndexToEnum, b.adjacencyOffsets_, rows⟩

end CellGridBuilder

/-! ## Checked navigation, node setters, level sizes and grid access -/

namespace MortonIndex

/-- `safeParent()`: `std::logic_error` at the root. -/
def safeParent (m : MortonIndex) : Except Error MortonIndex :=
  if m.isRoot then .error .logicError else .ok m.parent

/-- `safeChild(index)`: `std::logic_error` when the top bit is set,
`(bits >> (sizeof(morton_bits_t) * 8 - 1)) == 1`. -/
def safeChild (m : MortonIndex) (index : Nat) : Except Error MortonIndex :=
  if m.bits >>> (8 * 8 - 1) = 1 then .error .logicError else .ok (m.child index)

end MortonIndex

namespace Node

/-- `setRefined(v)`. -/
def setRefined (n : Node) (v : Bool) : Node :=
  ⟨if v then n.data ||| REFINED_BIT_MASK else n.data &&& bitNot REFINED_BIT_MASK⟩

/-- `setPhantom(v)`. -/
def setPhantom (n : Node) (v : Bool) : Node :=
  ⟨if v then n.data ||| PHANTOM_BIT_MASK else n.data &&& bitNot PHANTOM_BIT_MASK⟩

end Node

namespace CellOctree

/-- `numberOfNodes(level)`: the size of one level, `0` for a missing level. -/
def numberOfNodesAt (t : CellOctree) (level : Nat) : Nat :=
  match t.levels_[level]? with
  | none => 0
  | some (_, second) => second

end CellOctree

namespace CellGrid

/-- `getEnumerationIndex(streamIndex)`: the unchecked `streamIndexToEnum_[streamIndex]`. -/
def getEnumerationIndex (g : CellGrid) (streamIndex : Nat) : Except Error Nat :=
  match g.streamIndexToEnum_[streamIndex]? with
  | none => .error .undefinedBehaviour
  | some e => .ok e

/-- `getEnumerationIndex(cv)` for a cell view of the octree. -/
def getEnumerationIndexOf (g : CellGrid) (cv : CellView) : Except Error Nat :=
  if cv.isPhantom then .ok NOT_ENUMERATED else g.getEnumerationIndex cv.streamIndex

/-- `operator[](idx)`, where `octree` is the octree the grid was built over:
`std::out_of_range` past the end, otherwise `octree_->getCell(mortonIndices_.at(idx)).value()`. -/
def subscript (g : CellGrid) (octree : CellOctree) (idx : Nat) : Except Error CellView :=
  if idx ≥ g.mortonIndices_.length then .error .outOfRange
  else
    match g.mortonIndices_[idx]? with
    | none => .error .outOfRange
    | some m =>
      match octree.getCell m with
      | .error e => .error e
      | .ok none => .error .badOptionalAccess
      | .ok (some v) => .ok v

end CellGrid

namespace CellGridExporter

/-- `CellGridExporter::writeGridVector(name, data)`, where `octree` is `pGrid->octree()`:
the vector handed to `file.writeCellData(name, data)`, which is `data` after
`data.insert(data.cbegin(), diff, {0})` when it is shorter than the node stream. -/
def writeGridVector {T : Type} [OfNat T 0] (octree : CellOctree) (data : List T) : List T :=
  let nodes := octree.nodesStream_
  if data.length < nodes.length then
    let diff := nodes.length - data.length
    List.replicate diff 0 ++ data
  else data

end CellGridExporter

/-! ## Cursor observers and checked descent -/

namespace OctreeCursor

/-- `currentLevel()`: `vPath.size() - 1` on `size_t`. -/
def currentLevel (c : OctreeCursor) : Nat := wrap (c.vPath.length + WORD - 1)

/-- `currentStreamIndex()`: `vPath.back()`, undefined on an empty path. -/
def currentStreamIndex : OctreeCursor → Except Error Nat
  | ⟨[]⟩ => .error .undefinedBehaviour
  | ⟨idx :: _⟩ => .ok idx

/-- `firstSibling()`. -/
def firstSibling : OctreeCursor → Bool
  | ⟨idx :: _ :: _⟩ => (idx &&& 7) == 1
  | _ => true

/-- `siblingIndex()`: `currentStreamIndex() - 1` below the root, `0` otherwise. -/
def siblingIndex : OctreeCursor → Nat
  | ⟨idx :: _ :: _⟩ => wrap (idx + WORD - 1)
  | _ => 0

/-- `descend(childIdx)`. -/
def descendTo (t : CellOctree) (c : OctreeCursor) (childIdx : Nat) : Except Error OctreeCursor :=
  if childIdx ≥ 8 then .error .outOfRange
  else if c.isEnd then .ok c
  else
    match c.currentNode t with
    | .error e => .error e
    | .ok node =>
      if node.isRefined then .ok ⟨node.childIndex childIdx :: c.vPath⟩ else .ok c

/-- The path left by the loop of `updatePath` run from level `l` on the path `old` (of
`l + 1` entries), also when it throws: the entry of a level is written before the parent is
looked for, and the entries of the levels not reached are kept. -/
def updatePathWritten (t : CellOctree) : Nat → Nat → List Nat → List Nat
  | 0, _, old => old
  | l + 1, currentStreamIndex, old =>
    currentStreamIndex ::
      (match t.levels_[l]? with
      | none => old.tail
      | some (first, _) =>
        match findParent (t.nodesStream l) first currentStreamIndex with
        | none => old.tail
        | some parentIdx => updatePathWritten t l parentIdx old.tail)

/-- The cursor after a call of `updatePath(streamIndex)`, whether it returned or threw:
the two checks before the loop throw with the path untouched. -/
def updatePathAfter (t : CellOctree) (c : OctreeCursor) (streamIndex : Nat) : OctreeCursor :=
  match c.vPath with
  | [] => c
  | _ :: up =>
    match t.levels_[up.length]? with
    | none => c
    | some (levelStart, levelSize) =>
      let myIndex := wrap (streamIndex + WORD - levelStart)
      if myIndex ≥ levelSize then c
      else ⟨updatePathWritten t up.length streamIndex c.vPath⟩

end OctreeCursor

/-! ## Export (`VtkExport.cpp`) -/

namespace io

/-- The range-for loop of `allArePhantoms` over the children, `f` being the recursive
call. -/
def allArePhantomsLoop (f : Node → Except Error Bool) : List Node → Except Error Bool
  | [] => .ok true
  | child :: rest =>
    match f child with
    | .error e => .error e
    | .ok false => .ok false
    | .ok true => allArePhantomsLoop f rest

/-- `allArePhantoms(octree, node)`; `fuel` bounds the depth of the recursion. The
children are `nodesStream().subspan(childrenStartIndex(), 8)`, which is undefined when
the eight nodes are not all inside the stream. -/
def allArePhantoms (octree : CellOctree) : Nat → Node → Except Error Bool
  | 0, _ => .error .outOfFuel
  | fuel + 1, node =>
    if !node.isPhantom then .ok false
    else if node.isRefined then
      if node.childrenStartIndex + 8 ≤ octree.nodesStream_.length then
        allArePhantomsLoop (fun child => allArePhantoms octree fuel child)
          ((octree.nodesStream_.drop node.childrenStartIndex).take 8)
      else .error .undefinedBehaviour
    else .ok true

/-- `static_cast<double>(x)` of a `size_t`: the nearest value with a 53-bit significand,
ties to even. The result is a whole number and is given as such. -/
def toDouble (x : Nat) : Nat :=
  let width := bit_width x
  if width ≤ 53 then x
  else
    let shift := width - 53
    let significand := x >>> shift
    let rest := x % 2 ^ shift
    let half := 2 ^ (shift - 1)
    let rounded :=
      if rest > half ∨ (rest = half ∧ significand % 2 = 1) then significand + 1
      else significand
    rounded <<< shift

/-- `static_cast<size_t>(std::ceil(static_cast<double>(count) / 8.0))`; the division by
`8.0` is exact. -/
def ceilEighth (count : Nat) : Nat := (toDouble count + 7) / 8

/-- The fields of `advpt::htgfile::HyperTree` filled from the octree (the coordinates of
the geometry are left out). -/
structure HyperTree where
  nodesPerDepth : List Nat
  descriptor : List Nat
  mask : List Nat
  deriving DecidableEq, Repr

/-- `v.at(index) |= (1 << bitIndex)` on a vector of `uint8_t`. -/
def orAt (v : List Nat) (index bitIndex : Nat) : Except Error (List Nat) :=
  match v[index]? with
  | none => .error .outOfRange
  | some x => .ok (v.set index ((x ||| (1 <<< bitIndex)) % 256))

/-- The local variables of the loop of `createHtgFile`. -/
structure HtgState where
  orderIndex : Nat
  level : Nat
  levelEndIndex : Nat
  levels : List Nat
  descriptor : List Nat
  mask : List Nat
  deriving DecidableEq, Repr

/-- The level update at the head of the loop body of `createHtgFile`:
`if (orderIndex >= levelEndIndex) { ++level; levelEndIndex += levelInfo[level].second; }`,
giving the new `level` and `levelEndIndex`; the level table is read without a bounds
check. -/
def advanceLevel (octree : CellOctree) (st : HtgState) : Except Error (Nat × Nat) :=
  if st.orderIndex ≥ st.levelEndIndex then
    match octree.levels_[wrap (st.level + 1)]? with
    | none => .error .undefinedBehaviour
    | some (_, second) => .ok (wrap (st.level + 1), wrap (st.levelEndIndex + second))
  else .ok (st.level, st.levelEndIndex)

/-- The rest of the loop body of `createHtgFile` for one node, after the level update:
the level is recorded and the bits of the node are set. -/
def writeBits (octree : CellOctree) (fuel : Nat) (st : HtgState) (node : Node)
    (level levelEndIndex : Nat) : Except Error HtgState :=
  let levels := st.levels ++ [level]
  if node.isRefined || node.isPhantom then
    let descriptorIndex := st.orderIndex >>> 3
    let bitIndex := 7 - (st.orderIndex &&& 7)
    match (if node.isRefined then orAt st.descriptor descriptorIndex bitIndex
      else Except.ok st.descriptor) with
    | .error e => .error e
    | .ok descriptor =>
      match allArePhantoms octree fuel node with
      | .error e => .error e
      | .ok b =>
        match (if b then orAt st.mask descriptorIndex bitIndex else Except.ok st.mask) with
        | .error e => .error e
        | .ok mask =>
          .ok ⟨wrap (st.orderIndex + 1), level, levelEndIndex, levels, descriptor, mask⟩
  else .ok ⟨wrap (st.orderIndex + 1), level, levelEndIndex, levels, st.descriptor, st.mask⟩

/-- The body of the loop of `createHtgFile` for one node. -/
def createHtgFileStep (octree : CellOctree) (fuel : Nat) (st : HtgState) (node : Node) :
    Except Error HtgState :=
  match advanceLevel octree st with
  | .error e => .error e
  | .ok (level, levelEndIndex) => writeBits octree fuel st node level levelEndIndex

/-- The loop `for (const auto &node : nodesStream)` of `createHtgFile`. -/
def createHtgFileLoop (octree : CellOctree) (fuel : Nat) : List Node → HtgState →
    Except Error HtgState
  | [], st => .ok st
  | node :: rest, st =>
    match createHtgFileStep octree fuel st node with
    | .error e => .error e
    | .ok st1 => createHtgFileLoop octree fuel rest st1

/-- `createHtgFile(octree, filepath)`: the hyper tree handed to `SnapshotHtgFile::create`
and the vector handed to `writeCellData("level", levels)`. -/
def createHtgFile (octree : CellOctree) (fuel : Nat) : Except Error (HyperTree × List Nat) :=
  let levelNum := octree.numberOfLevels
  let totalCount := octree.nodesStream_.length
  match octree.levels_[wrap (levelNum + WORD - 1)]? with
  | none => .error .undefinedBehaviour
  | some (_, lastSecond) =>
    let notFinestCount := wrap (totalCount + WORD - lastSecond)
    let descriptor := List.replicate (ceilEighth notFinestCount) 0
    let mask := List.replicate (ceilEighth totalCount) 0
    let nodesPerDepth := octree.levels_.map Prod.fst
    match octree.levels_[0]? with
    | none => .error .undefinedBehaviour
    | some (_, firstSecond) =>
      match createHtgFileLoop octree fuel octree.nodesStream_
          ⟨0, 0, firstSecond, [], descriptor, mask⟩ with
      | .error e => .error e
      | .ok st => .ok (⟨nodesPerDepth, st.descriptor, st.mask⟩, st.levels)

end io

/-! ## The tool `create-htgfile` -/

namespace CreateHtgfile

/-- `EXIT_SUCCESS`. -/
def EXIT_SUCCESS : Nat := 0

/-- `EXIT_FAILURE`. -/
def EXIT_FAILURE : Nat := 1

/-- `convert(args)`, where `args` is `argv` with the program name first and
`exportOctree` stands for the writing of the file. -/
def convert (exportOctree : CellOctree → String → Except Error Unit) (args : List String) :
    Except Error Unit :=
  if args.length = 3 then
    match args[2]?, args[1]? with
    | some descriptor, some filepath =>
      match CellOctree.fromDescriptor descriptor with
      | .error e => .error e
      | .ok octree => exportOctree octree filepath
    | _, _ => .error .undefinedBehaviour
  else .error .invalidArgument

/-- `main(argc, argv)`: the status passed to `std::exit`, `none` when the behaviour of
`convert` is undefined. Both handlers exit with `EXIT_FAILURE`, and so does the statement
after the `try` block. -/
def main (exportOctree : CellOctree → String → Except Error Unit) (args : List String) :
    Option Nat :=
  match convert exportOctree args with
  | .error .undefinedBehaviour => none
  | .error _ => some EXIT_FAILURE
  | .ok _ => some EXIT_FAILURE

end CreateHtgfile

namespace CellOctree

/-- The nodes of the subtree of a node, by stream index: the node itself, and the nodes of
the subtrees of the eight children of a refined node. -/
inductive Descendant (t : CellOctree) : Nat → Nat → Prop
  | here (i : Nat) : Descendant t i i
  | child {i k j : Nat} {n : Node} : t.nodesStream_[i]? = some n → n.isRefined = true →
      n.childrenStartIndex ≤ k → k < n.childrenStartIndex + 8 → Descendant t k j →
      Descendant t i j

/-- Every node of the subtree of the node at stream index `i` is phantom. -/
def SubtreePhantom (t : CellOctree) (i : Nat) : Prop :=
  ∀ j, Descendant t i j → ∃ m, t.nodesStream_[j]? = some m ∧ m.isPhantom = true

end CellOctree


namespace OctreeCursor

/-- The calls `descend(b_1); …; descend(b_n)` made one after the other on a cursor. -/
def descendAll (t : CellOctree) : OctreeCursor → List Nat → Except Error OctreeCursor
  | c, [] => .ok c
  | c, b :: rest =>
    match descendTo t c b with
    | .error e => .error e
    | .ok c1 => descendAll t c1 rest

end OctreeCursor


namespace io

/-- A vector of bytes holds, at bit `7 - p` of byte `b`, whether `P (8 * b + p)` holds,
for the positions below `i`; the other bits are `0`. -/
def ByteBits (v : List Nat) (i : Nat) (P : Nat → Prop) : Prop :=
  ∀ b x, v[b]? = some x → x < 256 ∧
    ∀ p, p < 8 → (x.testBit (7 - p) = true ↔ (8 * b + p < i ∧ P (8 * b + p)))

end io


namespace io

/-- The state of the loop of `createHtgFile` before the node at stream index `i`: the
levels of the nodes visited so far, the level the loop stands on with the end of its
range, and the refined and all-phantom bits of the nodes visited so far. -/
structure HtgInv (t : CellOctree) (dl ml i : Nat) (st : HtgState) : Prop where
  order : st.orderIndex = i
  levels_length : st.levels.length = i
  levels_ok : ∀ (j l : Nat), st.levels[j]? = some l →
    ∃ a c : Nat, t.levels_[l]? = some (a, c) ∧ a ≤ j ∧ j < a + c
  level_ok : ∃ a c : Nat, t.levels_[st.level]? = some (a, c) ∧ st.levelEndIndex = a + c ∧
    a ≤ i ∧ i ≤ a + c
  descriptor_length : st.descriptor.length = dl
  mask_length : st.mask.length = ml
  descriptor_bits : ByteBits st.descriptor i (fun j => CellOctree.refinedAt t.nodesStream_ j = true)
  mask_bits : ByteBits st.mask i (CellOctree.SubtreePhantom t)

end io


/-! ## Bit width -/

theorem bitWidthAux_bounds (fuel : Nat) : ∀ x, x < 2 ^ fuel → x ≠ 0 →
    2 ^ (bitWidthAux fuel x - 1) ≤ x ∧ x < 2 ^ bitWidthAux fuel x ∧ 0 < bitWidthAux fuel x := by
  induction fuel with
  | zero => intro x hx h0; simp at hx; omega
  | succ n ih =>
    intro x hx h0
    simp only [bitWidthAux, h0, if_false]
    by_cases h2 : x / 2 = 0
    · have hx1 : x = 1 := by omega
      subst hx1
      cases n <;> simp [bitWidthAux]
    · have hlt : x / 2 < 2 ^ n := by
        rw [pow_succ] at hx; omega
      obtain ⟨h1, h3, h4⟩ := ih (x / 2) hlt h2
      refine ⟨?_, ?_, by omega⟩
      · have : bitWidthAux n (x / 2) + 1 - 1 = (bitWidthAux n (x / 2) - 1) + 1 := by omega
        rw [this, pow_succ]; omega
      · rw [pow_succ]; omega

theorem bit_width_of_bounds {x k : Nat} (hlo : 2 ^ k ≤ x) (hhi : x < 2 ^ (k + 1)) (hk : k < 64) :
    bit_width x = k + 1 := by
  have hx0 : x ≠ 0 := by
    have := Nat.pos_pow_of_pos k (show 0 < 2 by decide); omega
  have hx64 : x < 2 ^ 64 :=
    lt_of_lt_of_le hhi (Nat.pow_le_pow_right (by decide) (by omega))
  obtain ⟨h1, h2, h3⟩ := bitWidthAux_bounds 64 x hx64 hx0
  unfold bit_width
  by_contra hne
  rcases Nat.lt_or_gt_of_ne hne with h | h
  · have : 2 ^ bitWidthAux 64 x ≤ 2 ^ k := Nat.pow_le_pow_right (by decide) (by omega)
    omega
  · have : 2 ^ (k + 1) ≤ 2 ^ (bitWidthAux 64 x - 1) := Nat.pow_le_pow_right (by decide) (by omega)
    omega

theorem bit_width_bounds {x : Nat} (hx : x < WORD) (h0 : 0 < x) :
    2 ^ (bit_width x - 1) ≤ x ∧ x < 2 ^ bit_width x ∧ 0 < bit_width x ∧ bit_width x ≤ 64 := by
  obtain ⟨h1, h2, h3⟩ := bitWidthAux_bounds 64 x hx (by omega)
  refine ⟨h1, h2, h3, ?_⟩
  by_contra hgt
  have : 2 ^ 64 ≤ 2 ^ (bitWidthAux 64 x - 1) := Nat.pow_le_pow_right (by decide) (by unfold bit_width at hgt; omega)
  unfold WORD at hx
  omega

/-! ## Paths and keys -/

namespace MortonIndex

theorem eight_pow (k : Nat) : 8 ^ k = 2 ^ (3 * k) := by
  rw [pow_mul]; norm_num

theorem foldl_key_bounds (q : List Nat) : ∀ b : Nat, (∀ c ∈ q, c < 8) →
    b * 8 ^ q.length ≤ q.foldl (fun b c => 8 * b + c) b ∧
    q.foldl (fun b c => 8 * b + c) b < (b + 1) * 8 ^ q.length := by
  induction q with
  | nil => intro b _; simp
  | cons c q ih =>
    intro b h
    have hc : c < 8 := h c (List.mem_cons_self _ _)
    obtain ⟨h1, h2⟩ := ih (8 * b + c) (fun x hx => h x (List.mem_cons_of_mem _ hx))
    simp only [List.foldl_cons, List.length_cons, pow_succ]
    constructor
    · calc b * (8 ^ q.length * 8) = (8 * b) * 8 ^ q.length := by ring
        _ ≤ (8 * b + c) * 8 ^ q.length := Nat.mul_le_mul_right _ (by omega)
        _ ≤ _ := h1
    · calc _ < (8 * b + c + 1) * 8 ^ q.length := h2
        _ ≤ (8 * (b + 1)) * 8 ^ q.length := Nat.mul_le_mul_right _ (by omega)
        _ = (b + 1) * (8 ^ q.length * 8) := by ring

theorem foldl_key_div (q : List Nat) (b : Nat) (h : ∀ c ∈ q, c < 8) :
    q.foldl (fun b c => 8 * b + c) b / 8 ^ q.length = b := by
  obtain ⟨h1, h2⟩ := foldl_key_bounds q b h
  have hpos : 0 < 8 ^ q.length := Nat.pos_pow_of_pos _ (by decide)
  exact Nat.div_eq_of_lt_le h1 h2

theorem ofPath_bounds (p : List Nat) (h : ∀ c ∈ p, c < 8) :
    8 ^ p.length ≤ ofPath p ∧ ofPath p < 2 * 8 ^ p.length := by
  have := foldl_key_bounds p 1 h
  simpa [ofPath] using this

theorem ofPath_append_single (p : List Nat) (c : Nat) : ofPath (p ++ [c]) = 8 * ofPath p + c := by
  simp [ofPath, List.foldl_append]

theorem bit_width_ofPath (p : List Nat) (h : ∀ c ∈ p, c < 8) (hlen : p.length ≤ 21) :
    bit_width (ofPath p) = 3 * p.length + 1 := by
  obtain ⟨h1, h2⟩ := ofPath_bounds p h
  rw [eight_pow] at h1 h2
  apply bit_width_of_bounds h1 _ (by omega)
  rw [pow_succ]; omega

theorem ofPath_lt_WORD (p : List Nat) (h : ∀ c ∈ p, c < 8) (hlen : p.length ≤ 21) :
    ofPath p < WORD := by
  obtain ⟨_, h2⟩ := ofPath_bounds p h
  have : 8 ^ p.length ≤ 8 ^ 21 := Nat.pow_le_pow_right (by decide) hlen
  unfold WORD
  norm_num at this ⊢
  omega

theorem seven_land (x : Nat) : 7 &&& x = x % 8 := by
  have : (7 : Nat) = 2 ^ 3 - 1 := by norm_num
  rw [Nat.land_comm, this, Nat.and_pow_two_sub_one_eq_mod]

theorem land_seven (x : Nat) : x &&& 7 = x % 8 := by
  rw [Nat.land_comm, seven_land]

theorem getPathLoop_foldl (q : List Nat) : ∀ b : Nat, (∀ c ∈ q, c < 8) →
    getPathLoop (q.foldl (fun b c => 8 * b + c) b) q.length (3 * q.length) = q := by
  induction q with
  | nil => intro b _; simp [getPathLoop]
  | cons c q ih =>
    intro b h
    have hc : c < 8 := h c (List.mem_cons_self _ _)
    have hq : ∀ x ∈ q, x < 8 := fun x hx => h x (List.mem_cons_of_mem _ hx)
    have e3 : 3 * (q.length + 1) - 3 = 3 * q.length := by omega
    simp only [List.foldl_cons, List.length_cons, getPathLoop, e3]
    rw [ih (8 * b + c) hq]
    congr 1
    rw [Nat.shiftRight_eq_div_pow, ← eight_pow, foldl_key_div q _ hq, seven_land]
    omega

theorem foldl_getPathLoop (bits : Nat) (d : Nat) : ∀ b : Nat,
    (getPathLoop bits d (3 * d)).foldl (fun b c => 8 * b + c) b = b * 8 ^ d + bits % 8 ^ d := by
  induction d with
  | zero => intro b; simp [getPathLoop, Nat.mod_one]
  | succ d ih =>
    intro b
    have e3 : 3 * (d + 1) - 3 = 3 * d := by omega
    simp only [getPathLoop, e3, List.foldl_cons]
    rw [ih, Nat.shiftRight_eq_div_pow, ← eight_pow, seven_land, Nat.mod_pow_succ]
    ring

theorem getPathLoop_length (bits : Nat) (d : Nat) : ∀ s, (getPathLoop bits d s).length = d := by
  induction d with
  | zero => intro s; simp [getPathLoop]
  | succ d ih => intro s; simp [getPathLoop, ih]

theorem getPathLoop_lt (bits : Nat) (d : Nat) : ∀ s, ∀ c ∈ getPathLoop bits d s, c < 8 := by
  induction d with
  | zero => intro s c hc; simp [getPathLoop] at hc
  | succ d ih =>
    intro s c hc
    simp only [getPathLoop, List.mem_cons] at hc
    rcases hc with rfl | hc
    · rw [seven_land]
      exact Nat.mod_lt _ (by norm_num)
    · exact ih _ c hc

theorem valid_depth {m : MortonIndex} (h : m.Valid) :
    m.level ≤ 21 ∧ bit_width m.bits = 3 * m.level + 1 ∧
    8 ^ m.level ≤ m.bits ∧ m.bits < 2 * 8 ^ m.level := by
  obtain ⟨h0, hW, h3⟩ := h
  obtain ⟨h1, h2, hpos, h64⟩ := bit_width_bounds hW h0
  have hbw : bit_width m.bits = 3 * m.level + 1 := by unfold level; omega
  refine ⟨by unfold level; omega, hbw, ?_, ?_⟩
  · rw [eight_pow]
    have : bit_width m.bits - 1 = 3 * m.level := by omega
    rwa [this] at h1
  · rw [eight_pow, ← pow_succ', ← hbw]; exact h2

theorem getPath_valid {m : MortonIndex} (h : m.Valid) :
    getPath m = .ok (getPathLoop m.bits m.level (3 * m.level)) := by
  obtain ⟨hl, hbw, _, _⟩ := valid_depth h
  have hs : wrap (bit_width m.bits + WORD - 1) = 3 * m.level := by
    unfold wrap WORD; rw [hbw]; omega
  have hd : 3 * m.level / 3 = m.level := by omega
  unfold getPath
  simp only [hs, hd]
  rw [if_neg]
  unfold VECTOR_MAX_SIZE; omega

theorem ofPath_getPathLoop {m : MortonIndex} (h : m.Valid) :
    ofPath (getPathLoop m.bits m.level (3 * m.level)) = m.bits := by
  obtain ⟨_, _, h1, h2⟩ := valid_depth h
  unfold ofPath
  rw [foldl_getPathLoop]
  have hpos : 0 < 8 ^ m.level := Nat.pos_pow_of_pos _ (by decide)
  have : m.bits % 8 ^ m.level = m.bits - 8 ^ m.level := by
    rw [Nat.mod_eq_sub_mod h1, Nat.mod_eq_of_lt (by omega)]
  omega

theorem level_ofPath (p : List Nat) (h : ∀ c ∈ p, c < 8) (hlen : p.length ≤ 21) :
    level ⟨ofPath p⟩ = p.length := by
  unfold level; simp only [bit_width_ofPath p h hlen]; omega

theorem valid_ofPath (p : List Nat) (h : ∀ c ∈ p, c < 8) (hlen : p.length ≤ 21) :
    Valid ⟨ofPath p⟩ := by
  refine ⟨?_, ofPath_lt_WORD p h hlen, ?_⟩
  · have := (ofPath_bounds p h).1
    have hpos : 0 < 8 ^ p.length := Nat.pos_pow_of_pos _ (by decide)
    show 0 < ofPath p
    omega
  · show (bit_width (ofPath p) - 1) % 3 = 0
    rw [bit_width_ofPath p h hlen]; omega

theorem getPath_ofPath (p : List Nat) (h : ∀ c ∈ p, c < 8) (hlen : p.length ≤ 21) :
    getPath ⟨ofPath p⟩ = .ok p := by
  rw [getPath_valid (valid_ofPath p h hlen), level_ofPath p h hlen]
  show Except.ok (getPathLoop (ofPath p) p.length (3 * p.length)) = _
  unfold ofPath
  rw [getPathLoop_foldl p 1 h]

/-- Every valid key is the key of its own path. -/
theorem valid_path {m : MortonIndex} (h : m.Valid) :
    ∃ p : List Nat, getPath m = .ok p ∧ p.length = m.level ∧ p.length ≤ 21 ∧
      (∀ c ∈ p, c < 8) ∧ ofPath p = m.bits := by
  refine ⟨getPathLoop m.bits m.level (3 * m.level), getPath_valid h, getPathLoop_length _ _ _, ?_,
    getPathLoop_lt _ _ _, ofPath_getPathLoop h⟩
  rw [getPathLoop_length]; exact (valid_depth h).1

theorem ofPath_injective {p q : List Nat} (hp : ∀ c ∈ p, c < 8) (hq : ∀ c ∈ q, c < 8)
    (hlen : p.length = q.length) (h : ofPath p = ofPath q) : p = q := by
  have e1 := getPathLoop_foldl p 1 hp
  have e2 := getPathLoop_foldl q 1 hq
  unfold ofPath at h
  rw [h, hlen, e2] at e1
  exact e1.symm

theorem ofPath_append_shift (p q : List Nat) (hq : ∀ c ∈ q, c < 8) :
    ofPath (p ++ q) >>> (3 * q.length) = ofPath p := by
  unfold ofPath
  rw [List.foldl_append, Nat.shiftRight_eq_div_pow, ← eight_pow, foldl_key_div q _ hq]

/-- The shift-and-compare at the heart of the four comparison operators: the shifted
longer key equals the shorter one exactly when the shorter path is a prefix. -/
theorem shift_eq_iff_prefixOf {pa pb : List Nat} (ha : ∀ c ∈ pa, c < 8) (hb : ∀ c ∈ pb, c < 8)
    (hlen : pa.length ≤ pb.length) :
    ofPath pb >>> (3 * pb.length + 1 - (3 * pa.length + 1)) = ofPath pa ↔ pa <+: pb := by
  have hsplit : pb = pb.take pa.length ++ pb.drop pa.length := (List.take_append_drop _ _).symm
  have hdrop : ∀ c ∈ pb.drop pa.length, c < 8 := fun c hc => hb c (List.mem_of_mem_drop hc)
  have htake : ∀ c ∈ pb.take pa.length, c < 8 := fun c hc => hb c (List.mem_of_mem_take hc)
  have hsh : 3 * pb.length + 1 - (3 * pa.length + 1) = 3 * (pb.drop pa.length).length := by
    rw [List.length_drop]; omega
  have hval : ofPath pb >>> (3 * (pb.drop pa.length).length) = ofPath (pb.take pa.length) := by
    have := ofPath_append_shift (pb.take pa.length) (pb.drop pa.length) hdrop
    rwa [List.take_append_drop] at this
  rw [hsh, hval, List.prefix_iff_eq_take]
  constructor
  · intro h
    exact (ofPath_injective htake ha (by rw [List.length_take]; omega) h).symm
  · intro h
    rw [← h]

theorem valid_data {m : MortonIndex} (h : m.Valid) {p : List Nat} (hp : getPath m = .ok p) :
    m.bits = ofPath p ∧ bit_width m.bits = 3 * p.length + 1 ∧ (∀ c ∈ p, c < 8) ∧
      p.length ≤ 21 ∧ p.length = m.level := by
  obtain ⟨q, hq, hlen, h21, hlt, hof⟩ := valid_path h
  rw [hq] at hp
  injection hp with hqp
  subst hqp
  refine ⟨hof.symm, ?_, hlt, h21, hlen⟩
  rw [← hof, bit_width_ofPath q hlt h21]

theorem prefix_length_eq {p q : List Nat} (h : p <+: q) (hlen : q.length ≤ p.length) : p = q := by
  obtain ⟨t, rfl⟩ := h
  have : t = [] := by
    rw [List.length_append] at hlen
    exact List.length_eq_zero.mp (by omega)
  simp [this]

theorem ge_iff_prefixOf {a b : MortonIndex} (ha : a.Valid) (hb : b.Valid) {pa pb : List Nat}
    (hpa : getPath a = .ok pa) (hpb : getPath b = .ok pb) :
    ge a b = true ↔ pa <+: pb := by
  obtain ⟨ea, wa, la, _, _⟩ := valid_data ha hpa
  obtain ⟨eb, wb, lb, _, _⟩ := valid_data hb hpb
  unfold ge
  simp only [wa, wb]
  by_cases hlen : pa.length ≤ pb.length
  · rw [if_neg (by omega), ea, eb, beq_iff_eq, eq_comm]
    exact shift_eq_iff_prefixOf la lb hlen
  · rw [if_pos (by omega)]
    constructor
    · intro h; cases h
    · intro h; exact absurd h.length_le hlen

theorem le_iff_prefixOf {a b : MortonIndex} (ha : a.Valid) (hb : b.Valid) {pa pb : List Nat}
    (hpa : getPath a = .ok pa) (hpb : getPath b = .ok pb) :
    le a b = true ↔ pb <+: pa := by
  obtain ⟨ea, wa, la, _, _⟩ := valid_data ha hpa
  obtain ⟨eb, wb, lb, _, _⟩ := valid_data hb hpb
  unfold le
  simp only [wa, wb]
  by_cases hlen : pb.length ≤ pa.length
  · rw [if_neg (by omega), ea, eb, beq_iff_eq, eq_comm]
    exact shift_eq_iff_prefixOf lb la hlen
  · rw [if_pos (by omega)]
    constructor
    · intro h; cases h
    · intro h; exact absurd h.length_le hlen

theorem gt_iff_prefixOf {a b : MortonIndex} (ha : a.Valid) (hb : b.Valid) {pa pb : List Nat}
    (hpa : getPath a = .ok pa) (hpb : getPath b = .ok pb) :
    gt a b = true ↔ pa <+: pb ∧ pa ≠ pb := by
  obtain ⟨ea, wa, la, _, _⟩ := valid_data ha hpa
  obtain ⟨eb, wb, lb, _, _⟩ := valid_data hb hpb
  unfold gt
  simp only [wa, wb]
  by_cases hlen : pa.length < pb.length
  · have hne : pa ≠ pb := by intro h; rw [h] at hlen; omega
    have hbits : (a.bits == b.bits) = false := by
      rw [beq_eq_false_iff_ne]
      intro h
      rw [h] at wa; omega
    rw [hbits, Bool.false_or, if_neg (by simp; omega), ea, eb, beq_iff_eq, eq_comm]
    rw [shift_eq_iff_prefixOf la lb (by omega)]
    exact ⟨fun h => ⟨h, hne⟩, fun h => h.1⟩
  · rw [if_pos (by simp; right; omega)]
    constructor
    · intro h; cases h
    · rintro ⟨h, hne⟩; exact absurd (prefix_length_eq h (by omega)) hne

theorem lt_iff_prefixOf {a b : MortonIndex} (ha : a.Valid) (hb : b.Valid) {pa pb : List Nat}
    (hpa : getPath a = .ok pa) (hpb : getPath b = .ok pb) :
    lt a b = true ↔ pb <+: pa ∧ pa ≠ pb := by
  obtain ⟨ea, wa, la, _, _⟩ := valid_data ha hpa
  obtain ⟨eb, wb, lb, _, _⟩ := valid_data hb hpb
  unfold lt
  simp only [wa, wb]
  by_cases hlen : pb.length < pa.length
  · have hne : pa ≠ pb := by intro h; rw [h] at hlen; omega
    have hbits : (a.bits == b.bits) = false := by
      rw [beq_eq_false_iff_ne]
      intro h
      rw [h] at wa; omega
    rw [hbits, Bool.false_or, if_neg (by simp; omega), ea, eb, beq_iff_eq, eq_comm]
    rw [shift_eq_iff_prefixOf lb la (by omega)]
    exact ⟨fun h => ⟨h, hne⟩, fun h => h.1⟩
  · rw [if_pos (by simp; right; omega)]
    constructor
    · intro h; cases h
    · rintro ⟨h, hne⟩; exact absurd (prefix_length_eq h (by omega)).symm hne

end MortonIndex

/-! ## Children and grid coordinates -/

namespace MortonIndex

theorem eight_mul_or {b i : Nat} (hi : i < 8) : 8 * b ||| i = 8 * b + i := by
  have := Nat.mul_add_lt_is_or (i := 3) (b := i) (by norm_num; exact hi) b
  norm_num at this
  exact this.symm

theorem child_bits {m : MortonIndex} {i : Nat} (hm : m.bits < 2 ^ 61) (hi : i < 8) :
    (m.child i).bits = 8 * m.bits + i := by
  unfold child wrap WORD
  simp only [Nat.shiftLeft_eq]
  rw [Nat.mod_eq_of_lt (by omega)]
  have : m.bits * 2 ^ 3 = 8 * m.bits := by ring
  rw [this, eight_mul_or hi]

theorem localIndex_facts (x y z : Nat) :
    ((z &&& 1) <<< 2) ||| ((y &&& 1) <<< 1) ||| (x &&& 1) < 8 ∧
    (if (((z &&& 1) <<< 2) ||| ((y &&& 1) <<< 1) ||| (x &&& 1)) % 8 &&& 1 = 1 then 1 else 0)
      = x % 2 ∧
    (if (((z &&& 1) <<< 2) ||| ((y &&& 1) <<< 1) ||| (x &&& 1)) % 8 &&& 2 = 2 then 1 else 0)
      = y % 2 ∧
    (if (((z &&& 1) <<< 2) ||| ((y &&& 1) <<< 1) ||| (x &&& 1)) % 8 &&& 4 = 4 then 1 else 0)
      = z % 2 := by
  rw [Nat.and_one_is_mod, Nat.and_one_is_mod, Nat.and_one_is_mod]
  rcases Nat.mod_two_eq_zero_or_one x with hx | hx <;>
  rcases Nat.mod_two_eq_zero_or_one y with hy | hy <;>
  rcases Nat.mod_two_eq_zero_or_one z with hz | hz <;>
  rw [hx, hy, hz] <;> decide

theorem fromGridCoordinates_bounds (L : Nat) : ∀ c : UnsignedGridCoordinates, L ≤ 21 →
    8 ^ L ≤ (fromGridCoordinates L c).bits ∧ (fromGridCoordinates L c).bits < 2 * 8 ^ L := by
  induction L with
  | zero => intro c _; simp [fromGridCoordinates, root]
  | succ L ih =>
    intro c hL
    obtain ⟨h1, h2⟩ := ih ⟨c.x >>> 1, c.y >>> 1, c.z >>> 1⟩ (by omega)
    have hli := (localIndex_facts c.x c.y c.z).1
    have hp : 8 ^ L ≤ 8 ^ 20 := Nat.pow_le_pow_right (by decide) (by omega)
    simp only [fromGridCoordinates]
    rw [child_bits (by norm_num at hp ⊢; omega) hli, pow_succ]
    omega

theorem level_of_bounds {m : MortonIndex} {L : Nat} (hL : L ≤ 21) (h1 : 8 ^ L ≤ m.bits)
    (h2 : m.bits < 2 * 8 ^ L) : m.level = L := by
  rw [eight_pow] at h1 h2
  have : bit_width m.bits = 3 * L + 1 :=
    bit_width_of_bounds h1 (by rw [pow_succ]; omega) (by omega)
  unfold level; omega

theorem gridCoordinates_fromGridCoordinates (L : Nat) : ∀ (x y z fuel : Nat), L ≤ 21 →
    x < 2 ^ L → y < 2 ^ L → z < 2 ^ L → L < fuel →
    gridCoordinates fuel (fromGridCoordinates L ⟨x, y, z⟩) = .ok ⟨x, y, z⟩ := by
  induction L with
  | zero =>
    intro x y z fuel _ hx hy hz hf
    obtain ⟨f, rfl⟩ : ∃ f, fuel = f + 1 := ⟨fuel - 1, by omega⟩
    simp at hx hy hz
    subst hx hy hz
    simp [fromGridCoordinates, gridCoordinates, root, isRoot]
  | succ L ih =>
    intro x y z fuel hL hx hy hz hf
    obtain ⟨f, rfl⟩ : ∃ f, fuel = f + 1 := ⟨fuel - 1, by omega⟩
    have hx2 : x / 2 < 2 ^ L := by rw [pow_succ] at hx; omega
    have hy2 : y / 2 < 2 ^ L := by rw [pow_succ] at hy; omega
    have hz2 : z / 2 < 2 ^ L := by rw [pow_succ] at hz; omega
    have hrec := ih (x / 2) (y / 2) (z / 2) f (by omega) hx2 hy2 hz2 (by omega)
    obtain ⟨hb1, hb2⟩ := fromGridCoordinates_bounds L ⟨x / 2, y / 2, z / 2⟩ (by omega)
    obtain ⟨hli, hlx, hly, hlz⟩ := localIndex_facts x y z
    have hp : 8 ^ L ≤ 8 ^ 20 := Nat.pow_le_pow_right (by decide) (by omega)
    have hpos : 0 < 8 ^ L := Nat.pos_pow_of_pos _ (by decide)
    have hp2 : 2 ^ L ≤ 2 ^ 20 := Nat.pow_le_pow_right (by decide) (by omega)
    have hcb := child_bits (m := fromGridCoordinates L ⟨x / 2, y / 2, z / 2⟩)
      (by norm_num at hp ⊢; omega) hli
    simp only [fromGridCoordinates, Nat.shiftRight_one] at hcb ⊢
    have hroot : isRoot ⟨8 * (fromGridCoordinates L ⟨x / 2, y / 2, z / 2⟩).bits +
        (((z &&& 1) <<< 2) ||| ((y &&& 1) <<< 1) ||| (x &&& 1))⟩ = false := by
      simp only [isRoot, beq_eq_false_iff_ne]; omega
    have hpar : parent ⟨8 * (fromGridCoordinates L ⟨x / 2, y / 2, z / 2⟩).bits +
        (((z &&& 1) <<< 2) ||| ((y &&& 1) <<< 1) ||| (x &&& 1))⟩ =
        fromGridCoordinates L ⟨x / 2, y / 2, z / 2⟩ := by
      simp only [parent, Nat.shiftRight_eq_div_pow]
      congr 1
      omega
    have hsib : siblingIndex ⟨8 * (fromGridCoordinates L ⟨x / 2, y / 2, z / 2⟩).bits +
        (((z &&& 1) <<< 2) ||| ((y &&& 1) <<< 1) ||| (x &&& 1))⟩ =
        (((z &&& 1) <<< 2) ||| ((y &&& 1) <<< 1) ||| (x &&& 1)) % 8 := by
      simp only [siblingIndex, hroot, land_seven, Bool.false_eq_true, if_false]
      omega
    have hm : ∀ m : MortonIndex, m = ⟨m.bits⟩ := fun m => rfl
    rw [hm (child _ _), hcb]
    simp only [gridCoordinates, hroot, hpar, hrec, hsib, hlx, hly, hlz]
    simp only [Bool.false_eq_true, if_false, Nat.shiftLeft_eq, wrap, WORD, pow_one]
    norm_num at hp2
    rw [pow_succ] at hx hy hz
    congr 1
    congr 1 <;> omega

end MortonIndex

/-! ## Claims on Morton keys -/

namespace MortonIndex

/-- C1: for every level `L ≤ MAX_DEPTH = 21` and all coordinates `x, y, z < 2 ^ L`, the key
`fromGridCoordinates L (x, y, z)` has level `L`, and `gridCoordinates` of it returns
`(x, y, z)` (with any recursion budget above `L`). -/
theorem fromGridCoordinates_roundtrip (L x y z : Nat) (hL : L ≤ MAX_DEPTH)
    (hx : x < 2 ^ L) (hy : y < 2 ^ L) (hz : z < 2 ^ L) :
    (fromGridCoordinates L ⟨x, y, z⟩).level = L ∧
    ∀ fuel, L < fuel →
      gridCoordinates fuel (fromGridCoordinates L ⟨x, y, z⟩) = .ok ⟨x, y, z⟩ := by
  have hL21 : L ≤ 21 := hL
  obtain ⟨h1, h2⟩ := fromGridCoordinates_bounds L ⟨x, y, z⟩ hL21
  exact ⟨level_of_bounds hL21 h1 h2,
    fun fuel hf => gridCoordinates_fromGridCoordinates L x y z fuel hL21 hx hy hz hf⟩

theorem fromGridCoordinates_roundtrip_witness :
    (fromGridCoordinates 4 ⟨12, 9, 1⟩).level = 4 ∧
    ∀ fuel, 4 < fuel →
      gridCoordinates fuel (fromGridCoordinates 4 ⟨12, 9, 1⟩) = .ok ⟨12, 9, 1⟩ :=
  fromGridCoordinates_roundtrip 4 12 9 1 (by decide) (by decide) (by decide) (by decide)

theorem fromPathLoop_ok (p : List Nat) : ∀ A : Nat, (∀ c ∈ p, c < 8) →
    (A + 1) * 8 ^ p.length ≤ WORD →
    fromPathLoop p (3 * p.length) (A * 2 ^ (3 * p.length)) =
      .ok (p.foldl (fun b c => 8 * b + c) A) := by
  induction p with
  | nil => intro A _ _; simp [fromPathLoop]
  | cons c q ih =>
    intro A h hW
    have hc : c < 8 := h c (List.mem_cons_self _ _)
    have hq : ∀ x ∈ q, x < 8 := fun x hx => h x (List.mem_cons_of_mem _ hx)
    have e3 : 3 * (q.length + 1) - 3 = 3 * q.length := by omega
    have hc7 : c &&& 7 = c := by rw [land_seven]; omega
    have hpos : 0 < 8 ^ q.length := Nat.pos_pow_of_pos _ (by decide)
    simp only [List.length_cons, pow_succ] at hW
    have hstep : (8 * A + c + 1) * 8 ^ q.length ≤ WORD := by
      calc (8 * A + c + 1) * 8 ^ q.length ≤ ((A + 1) * 8) * 8 ^ q.length :=
            Nat.mul_le_mul_right _ (by omega)
        _ = (A + 1) * (8 ^ q.length * 8) := by ring
        _ ≤ WORD := hW
    have hcw : c * 8 ^ q.length < WORD := by
      calc c * 8 ^ q.length < (8 * A + c + 1) * 8 ^ q.length :=
            Nat.mul_lt_mul_of_pos_right (by omega) hpos
        _ ≤ WORD := hstep
    simp only [fromPathLoop, List.length_cons, e3, hc7, ne_eq, not_true_eq_false, if_false,
      List.foldl_cons]
    have hw : wrap (c <<< (3 * q.length)) = c <<< (3 * q.length) := by
      unfold wrap
      apply Nat.mod_eq_of_lt
      rw [Nat.shiftLeft_eq, ← eight_pow]; exact hcw
    have e3' : 3 * (q.length + 1) = 3 * q.length + 3 := by omega
    have hlt : c * 2 ^ (3 * q.length) < 2 ^ (3 * (q.length + 1)) := by
      rw [e3', pow_add]
      have : 0 < 2 ^ (3 * q.length) := Nat.pos_pow_of_pos _ (by decide)
      calc c * 2 ^ (3 * q.length) < 8 * 2 ^ (3 * q.length) := Nat.mul_lt_mul_of_pos_right hc this
        _ = 2 ^ (3 * q.length) * 2 ^ 3 := by ring
    have hor := Nat.mul_add_lt_is_or hlt A
    have hbits : A * 2 ^ (3 * (q.length + 1)) ||| wrap (c <<< (3 * q.length)) =
        (8 * A + c) * 2 ^ (3 * q.length) := by
      rw [hw, Nat.shiftLeft_eq, Nat.mul_comm A, ← hor, e3', pow_add]; ring
    rw [hbits]
    exact ih (8 * A + c) hq hstep

/-- Paths of at most ten selectors are converted as intended: the shift `1 << shift` stays
inside the 32-bit `int`. -/
theorem fromPath_short (p : List Nat) (h : ∀ c ∈ p, c < 8) (hlen : p.length ≤ 10) :
    fromPath p = .ok ⟨ofPath p⟩ ∧ level ⟨ofPath p⟩ = p.length ∧
      getPath ⟨ofPath p⟩ = .ok p := by
  refine ⟨?_, level_ofPath p h (by omega), getPath_ofPath p h (by omega)⟩
  have hs : wrap (p.length + wrap (p.length <<< 1)) = 3 * p.length := by
    unfold wrap WORD
    rw [Nat.shiftLeft_eq, Nat.mod_eq_of_lt (by omega), Nat.mod_eq_of_lt (by omega)]
    omega
  have hp : 8 ^ p.length ≤ 8 ^ 10 := Nat.pow_le_pow_right (by decide) hlen
  have hloop := fromPathLoop_ok p 1 h (by unfold WORD; norm_num at hp ⊢; omega)
  rw [Nat.one_mul] at hloop
  unfold fromPath
  rw [if_neg (by unfold MAX_DEPTH; omega)]
  simp only [hs]
  have hint : intOneShiftLeft (3 * p.length) = 2 ^ (3 * p.length) := by
    unfold intOneShiftLeft
    dsimp only
    rw [Nat.mod_eq_of_lt (by omega), if_pos (by omega)]
  rw [hint]
  simp only [hloop]
  rfl

/-- C2 (failing input): on the path of eleven selectors `0` the conversion evaluates
`1 << 33` on a 32-bit `int`, which gives `2`: `fromPath` returns the key `2`, whose level
is `0` and whose path is empty, instead of the key `2 ^ 33` made of a leading `1` and the
eleven selectors. On twenty-one selectors `0` it returns `2 ^ 64 - 2 ^ 31` instead of
`2 ^ 63`; the three-selector example of the claim is converted as stated. -/
theorem fromPath_eleven_selectors :
    fromPath (List.replicate 11 0) = .ok ⟨2⟩ ∧
    ofPath (List.replicate 11 0) = 2 ^ 33 ∧ level ⟨2⟩ = 0 ∧ getPath ⟨2⟩ = .ok [] ∧
    fromPath (List.replicate 21 0) = .ok ⟨2 ^ 64 - 2 ^ 31⟩ ∧
    ofPath (List.replicate 21 0) = 2 ^ 63 ∧
    fromPath [1, 3, 1] = .ok ⟨0b1001011001⟩ := by
  decide

/-- C5 (as stated, refuted): the root is an ancestor of the key `010` (its bit width is
smaller and the shifted bits agree), yet `root <= 010` and `root < 010` are false. -/
theorem le_ancestor_counterexample :
    Valid ⟨1⟩ ∧ Valid ⟨0o10⟩ ∧
    (bit_width 1 ≤ bit_width 0o10 ∧ 0o10 >>> (bit_width 0o10 - bit_width 1) = 1) ∧
    getPath ⟨1⟩ = .ok [] ∧ getPath ⟨0o10⟩ = .ok [0] ∧
    le ⟨1⟩ ⟨0o10⟩ = false ∧ lt ⟨1⟩ ⟨0o10⟩ = false := by
  decide

/-- C5 (amended): for valid keys `a` and `b`, `a <= b` holds exactly when `b` is an
ancestor of `a` or equal to it (`bit_width b ≤ bit_width a` and the bits of `a` shifted
right by the width difference equal the bits of `b`), and `a < b` exactly when `b` is a
strict ancestor of `a`; in terms of paths, `a <= b` iff the path of `b` is a prefix of the
path of `a`, and `a < b` implies that the first `level b` selectors of the path of `a`
are the path of `b` and that the widths differ. -/
theorem le_lt_iff_descendant (a b : MortonIndex) (ha : a.Valid) (hb : b.Valid) :
    (le a b = true ↔ bit_width b.bits ≤ bit_width a.bits ∧
      a.bits >>> (bit_width a.bits - bit_width b.bits) = b.bits) ∧
    (lt a b = true ↔ bit_width b.bits < bit_width a.bits ∧
      a.bits >>> (bit_width a.bits - bit_width b.bits) = b.bits) ∧
    ∃ pa pb : List Nat, getPath a = .ok pa ∧ getPath b = .ok pb ∧
      (le a b = true ↔ pb <+: pa) ∧
      (lt a b = true ↔ pb <+: pa ∧ pa ≠ pb) ∧
      (lt a b = true → pa.take b.level = pb ∧ bit_width a.bits ≠ bit_width b.bits) := by
  obtain ⟨pa, hpa, _, _, _, _⟩ := valid_path ha
  obtain ⟨pb, hpb, hlb, _, _, _⟩ := valid_path hb
  have hlt : lt a b = true ↔ bit_width b.bits < bit_width a.bits ∧
      a.bits >>> (bit_width a.bits - bit_width b.bits) = b.bits := by
    unfold lt
    by_cases hw : bit_width a.bits ≤ bit_width b.bits
    · simp [hw]
    · have hne : (a.bits == b.bits) = false := by
        rw [beq_eq_false_iff_ne]; intro h; rw [h] at hw; omega
      simp only [hne, Bool.false_or, decide_eq_true_eq, hw, if_false, beq_iff_eq]
      constructor
      · intro h; exact ⟨by omega, h.symm⟩
      · intro h; exact h.2.symm
  refine ⟨?_, hlt, pa, pb, hpa, hpb, le_iff_prefixOf ha hb hpa hpb, lt_iff_prefixOf ha hb hpa hpb, ?_⟩
  · unfold le
    by_cases hw : bit_width a.bits < bit_width b.bits
    · simp [hw]
    · simp only [hw, if_false, beq_iff_eq]
      constructor
      · intro h; exact ⟨by omega, h.symm⟩
      · intro h; exact h.2.symm
  · intro h
    have hpre := ((lt_iff_prefixOf ha hb hpa hpb).1 h).1
    refine ⟨?_, by have := (hlt.1 h).1; omega⟩
    rw [← hlb]
    exact (List.prefix_iff_eq_take.1 hpre).symm

theorem le_lt_iff_descendant_witness :
    (le ⟨0o12014⟩ ⟨0o1201⟩ = true ↔ bit_width 0o1201 ≤ bit_width 0o12014 ∧
      0o12014 >>> (bit_width 0o12014 - bit_width 0o1201) = 0o1201) ∧
    (lt ⟨0o12014⟩ ⟨0o1201⟩ = true ↔ bit_width 0o1201 < bit_width 0o12014 ∧
      0o12014 >>> (bit_width 0o12014 - bit_width 0o1201) = 0o1201) ∧
    ∃ pa pb : List Nat, getPath ⟨0o12014⟩ = .ok pa ∧ getPath ⟨0o1201⟩ = .ok pb ∧
      (le ⟨0o12014⟩ ⟨0o1201⟩ = true ↔ pb <+: pa) ∧
      (lt ⟨0o12014⟩ ⟨0o1201⟩ = true ↔ pb <+: pa ∧ pa ≠ pb) ∧
      (lt ⟨0o12014⟩ ⟨0o1201⟩ = true →
        pa.take (level ⟨0o1201⟩) = pb ∧ bit_width 0o12014 ≠ bit_width 0o1201) :=
  le_lt_iff_descendant ⟨0o12014⟩ ⟨0o1201⟩ (by decide) (by decide)

/-- C6: for valid keys `a` and `d` where the path of `d` properly extends the path of `a`,
the comparisons `a > d`, `a >= d`, `d < a` and `d <= a` are all true; for every key `k`,
`k <= k` and `k >= k` are true while `k < k` and `k > k` are false. -/
theorem ancestor_comparisons (a d k : MortonIndex) (pa pd : List Nat) (ha : a.Valid)
    (hd : d.Valid) (hpa : getPath a = .ok pa) (hpd : getPath d = .ok pd)
    (hpre : pa <+: pd) (hne : pa ≠ pd) :
    (gt a d = true ∧ ge a d = true ∧ lt d a = true ∧ le d a = true) ∧
    (le k k = true ∧ ge k k = true ∧ lt k k = false ∧ gt k k = false) := by
  refine ⟨⟨(gt_iff_prefixOf ha hd hpa hpd).2 ⟨hpre, hne⟩, (ge_iff_prefixOf ha hd hpa hpd).2 hpre,
    (lt_iff_prefixOf hd ha hpd hpa).2 ⟨hpre, fun h => hne h.symm⟩,
    (le_iff_prefixOf hd ha hpd hpa).2 hpre⟩, ?_, ?_, ?_, ?_⟩
  · simp [le]
  · simp [ge]
  · simp [lt]
  · simp [gt]

theorem ancestor_comparisons_witness :
    (gt ⟨0o1201⟩ ⟨0o12014⟩ = true ∧ ge ⟨0o1201⟩ ⟨0o12014⟩ = true ∧
      lt ⟨0o12014⟩ ⟨0o1201⟩ = true ∧ le ⟨0o12014⟩ ⟨0o1201⟩ = true) ∧
    (le ⟨0o1023⟩ ⟨0o1023⟩ = true ∧ ge ⟨0o1023⟩ ⟨0o1023⟩ = true ∧
      lt ⟨0o1023⟩ ⟨0o1023⟩ = false ∧ gt ⟨0o1023⟩ ⟨0o1023⟩ = false) :=
  ancestor_comparisons ⟨0o1201⟩ ⟨0o12014⟩ ⟨0o1023⟩ [2, 0, 1] [2, 0, 1, 4] (by decide) (by decide)
    (by decide) (by decide) (by decide) (by decide)

/-- C7: for valid keys `a` and `b` on disjoint branches (neither path is a prefix of the
other), the four comparisons `a < b`, `a > b`, `a <= b` and `a >= b` are all false. -/
theorem disjoint_incomparable (a b : MortonIndex) (pa pb : List Nat) (ha : a.Valid)
    (hb : b.Valid) (hpa : getPath a = .ok pa) (hpb : getPath b = .ok pb)
    (hab : ¬ pa <+: pb) (hba : ¬ pb <+: pa) :
    lt a b = false ∧ gt a b = false ∧ le a b = false ∧ ge a b = false := by
  refine ⟨?_, ?_, ?_, ?_⟩
  · rw [← Bool.not_eq_true]; intro h
    exact hba ((lt_iff_prefixOf ha hb hpa hpb).1 h).1
  · rw [← Bool.not_eq_true]; intro h
    exact hab ((gt_iff_prefixOf ha hb hpa hpb).1 h).1
  · rw [← Bool.not_eq_true]; intro h
    exact hba ((le_iff_prefixOf ha hb hpa hpb).1 h)
  · rw [← Bool.not_eq_true]; intro h
    exact hab ((ge_iff_prefixOf ha hb hpa hpb).1 h)

theorem disjoint_incomparable_witness :
    lt ⟨0o1023⟩ ⟨0o1203⟩ = false ∧ gt ⟨0o1023⟩ ⟨0o1203⟩ = false ∧
      le ⟨0o1023⟩ ⟨0o1203⟩ = false ∧ ge ⟨0o1023⟩ ⟨0o1203⟩ = false :=
  disjoint_incomparable ⟨0o1023⟩ ⟨0o1203⟩ [0, 2, 3] [2, 0, 3] (by decide) (by decide)
    (by decide) (by decide) (by decide) (by decide)

end MortonIndex

/-! ## Packed nodes -/

namespace Node

theorem mask_eq : CHILDREN_INDEX_MASK = 2 ^ 62 - 1 := by decide

theorem refined_mask_eq : REFINED_BIT_MASK = 2 ^ 62 := by decide

theorem phantom_mask_eq : PHANTOM_BIT_MASK = 2 ^ 63 := by decide

theorem not_mask_eq : bitNot CHILDREN_INDEX_MASK = 2 ^ 62 + 2 ^ 63 := by decide

theorem and_two_pow_ne_zero (x i : Nat) : ((x &&& 2 ^ i) != 0) = x.testBit i := by
  rw [Nat.and_two_pow]
  cases h : x.testBit i
  · simp
  · have : 0 < 2 ^ i := Nat.pos_pow_of_pos _ (by decide)
    simp

theorem isRefined_eq (n : Node) : n.isRefined = n.data.testBit 62 := by
  unfold isRefined; rw [refined_mask_eq, and_two_pow_ne_zero]

theorem isPhantom_eq (n : Node) : n.isPhantom = n.data.testBit 63 := by
  unfold isPhantom; rw [phantom_mask_eq, and_two_pow_ne_zero]

theorem childrenStartIndex_eq (n : Node) : n.childrenStartIndex = n.data % 2 ^ 62 := by
  unfold childrenStartIndex; rw [mask_eq, Nat.and_pow_two_sub_one_eq_mod]

theorem flag_shift (b : Bool) (k : Nat) (hk : k < 64) :
    wrap (b.toNat <<< k) = b.toNat * 2 ^ k := by
  unfold wrap WORD
  rw [Nat.shiftLeft_eq]
  apply Nat.mod_eq_of_lt
  have : 2 ^ k < 2 ^ 64 := Nat.pow_lt_pow_right (by decide) hk
  cases b
  · simp
  · simpa using this

theorem create_data (r p : Bool) (c : Nat) :
    (create r p c).data = c % 2 ^ 62 ||| r.toNat * 2 ^ 62 ||| p.toNat * 2 ^ 63 := by
  unfold create
  rw [flag_shift r 62 (by decide), flag_shift p 63 (by decide), mask_eq,
    Nat.and_pow_two_sub_one_eq_mod]

theorem testBit_flag (b : Bool) (k j : Nat) :
    (b.toNat * 2 ^ k).testBit j = (b && decide (k = j)) := by
  cases b
  · simp
  · simp [Nat.testBit_two_pow]

theorem isRefined_create (r p : Bool) (c : Nat) : (create r p c).isRefined = r := by
  rw [isRefined_eq, create_data]
  simp only [Nat.testBit_or, testBit_flag, Nat.testBit_mod_two_pow]
  simp

theorem isPhantom_create (r p : Bool) (c : Nat) : (create r p c).isPhantom = p := by
  rw [isPhantom_eq, create_data]
  simp only [Nat.testBit_or, testBit_flag, Nat.testBit_mod_two_pow]
  simp

theorem childrenStartIndex_create (r p : Bool) (c : Nat) :
    (create r p c).childrenStartIndex = c % 2 ^ 62 := by
  rw [childrenStartIndex_eq, create_data]
  apply Nat.eq_of_testBit_eq
  intro i
  simp only [Nat.testBit_mod_two_pow, Nat.testBit_or, testBit_flag]
  by_cases h : i < 62
  · have h1 : (62 = i) = False := by simp; omega
    have h2 : (63 = i) = False := by simp; omega
    simp [h, h1, h2]
  · simp [h]

theorem set_data (n : Node) (s : Nat) :
    (n.setChildrenStartIndex s).data = (n.data &&& (2 ^ 62 + 2 ^ 63)) ||| s % 2 ^ 62 := by
  unfold setChildrenStartIndex
  rw [not_mask_eq, mask_eq, Nat.and_pow_two_sub_one_eq_mod]

theorem testBit_high_mask (j : Nat) :
    (2 ^ 62 + 2 ^ 63 : Nat).testBit j = (decide (j = 62) || decide (j = 63)) := by
  have : (2 ^ 62 + 2 ^ 63 : Nat) = 2 ^ 62 ||| 2 ^ 63 := by decide
  rw [this, Nat.testBit_or, Nat.testBit_two_pow, Nat.testBit_two_pow]
  simp [eq_comm]

theorem isRefined_set (n : Node) (s : Nat) :
    (n.setChildrenStartIndex s).isRefined = n.isRefined := by
  rw [isRefined_eq, isRefined_eq, set_data]
  simp only [Nat.testBit_or, Nat.testBit_and, testBit_high_mask, Nat.testBit_mod_two_pow]
  simp

theorem isPhantom_set (n : Node) (s : Nat) :
    (n.setChildrenStartIndex s).isPhantom = n.isPhantom := by
  rw [isPhantom_eq, isPhantom_eq, set_data]
  simp only [Nat.testBit_or, Nat.testBit_and, testBit_high_mask, Nat.testBit_mod_two_pow]
  simp

theorem childrenStartIndex_set (n : Node) (s : Nat) :
    (n.setChildrenStartIndex s).childrenStartIndex = s % 2 ^ 62 := by
  rw [childrenStartIndex_eq, set_data]
  apply Nat.eq_of_testBit_eq
  intro i
  simp only [Nat.testBit_mod_two_pow, Nat.testBit_or, Nat.testBit_and, testBit_high_mask]
  by_cases h : i < 62
  · have h1 : (i = 62) = False := by simp; omega
    have h2 : (i = 63) = False := by simp; omega
    simp [h, h1, h2]
  · simp [h]

theorem default_flags : default.isRefined = false ∧ default.isPhantom = false ∧
    default.childrenStartIndex = 0 := by decide

end Node

/-! ## Descriptor validation -/

namespace CellOctree

theorem isInvalidDescriptorLoop_false (d : List Char) : ∀ r t : Nat,
    r + d.length < 2 ^ 61 → t + d.length < 2 ^ 61 →
    (isInvalidDescriptorLoop d r t = false ↔
      OnlyDescriptorChars d ∧ t + nodeChars d = 8 * (r + refinedChars d) + 1) := by
  induction d with
  | nil =>
    intro r t hr ht
    simp only [isInvalidDescriptorLoop, OnlyDescriptorChars, nodeChars, refinedChars, wrap, WORD,
      List.countP_nil, List.length_nil] at *
    rw [Nat.mod_eq_of_lt (by omega), Nat.mod_eq_of_lt (by omega)]
    simp
    omega
  | cons c cs ih =>
    intro r t hr ht
    simp only [List.length_cons] at hr ht
    have hmem : OnlyDescriptorChars (c :: cs) ↔
        c ∈ ['.', 'R', 'P', 'X', '|'] ∧ OnlyDescriptorChars cs := by
      simp [OnlyDescriptorChars]
    rw [hmem]
    unfold isInvalidDescriptorLoop
    by_cases hp : c = '|'
    · subst hp
      rw [if_pos rfl, ih r t (by omega) (by omega)]
      simp [nodeChars, refinedChars]
    · rw [if_neg hp]
      by_cases hall : allowedChars.contains c = true
      · have hw1 : wrap (t + 1) = t + 1 := by unfold wrap WORD; exact Nat.mod_eq_of_lt (by omega)
        have hw2 : wrap (r + 1) = r + 1 := by unfold wrap WORD; exact Nat.mod_eq_of_lt (by omega)
        have hc : c ∈ ['.', 'R', 'P', 'X', '|'] := by
          simp [allowedChars] at hall; simp; tauto
        have hnode : nodeChars (c :: cs) = nodeChars cs + 1 := by
          simp [nodeChars, hp]
        simp only [hall, Bool.not_true, Bool.false_eq_true, if_false, hw1, hw2]
        by_cases hr' : c = 'X' ∨ c = 'R'
        · have href : refinedChars (c :: cs) = refinedChars cs + 1 := by
            rcases hr' with h | h <;> subst h <;> simp [refinedChars]
          rw [if_pos hr', ih (r + 1) (t + 1) (by omega) (by omega), hnode, href]
          constructor
          · rintro ⟨h1, h2⟩; exact ⟨⟨hc, h1⟩, by omega⟩
          · rintro ⟨⟨_, h1⟩, h2⟩; exact ⟨h1, by omega⟩
        · have href : refinedChars (c :: cs) = refinedChars cs := by
            have h1 : c ≠ 'X' := fun h => hr' (Or.inl h)
            have h2 : c ≠ 'R' := fun h => hr' (Or.inr h)
            simp [refinedChars, h1, h2]
          rw [if_neg hr', ih r (t + 1) (by omega) (by omega), hnode, href]
          constructor
          · rintro ⟨h1, h2⟩; exact ⟨⟨hc, h1⟩, by omega⟩
          · rintro ⟨⟨_, h1⟩, h2⟩; exact ⟨h1, by omega⟩
      · have hc : ¬ c ∈ ['.', 'R', 'P', 'X', '|'] := by
          simp [allowedChars] at hall; simp; tauto
        have hall' : allowedChars.contains c = false := by simpa using hall
        simp only [hall', Bool.not_false, if_true]
        constructor
        · intro h; cases h
        · rintro ⟨⟨h, _⟩, _⟩; exact absurd h hc

theorem assignChildren_ok (N : Nat) : ∀ (refined : List Nat) (k : Nat) (nodes : List Node),
    (∀ i ∈ refined, i < nodes.length) →
    ∃ nodes', assignChildren N refined k nodes = .ok nodes' ∧ nodes'.length = nodes.length := by
  intro refined
  induction refined with
  | nil => intro k nodes _; exact ⟨nodes, rfl, rfl⟩
  | cons i rest ih =>
    intro k nodes h
    have hi : i < nodes.length := h i (List.mem_cons_self _ _)
    obtain ⟨n, hn⟩ : ∃ n, nodes[i]? = some n := ⟨nodes[i], List.getElem?_eq_getElem hi⟩
    simp only [assignChildren, hn]
    obtain ⟨nodes', h1, h2⟩ := ih (wrap (k + 1)) (nodes.set i (n.setChildrenStartIndex _))
      (by intro j hj; rw [List.length_set]; exact h j (List.mem_cons_of_mem _ hj))
    exact ⟨nodes', h1, by rw [h2, List.length_set]⟩

theorem fromDescriptorLoop_ok (d : List Char) : ∀ (tree : CellOctree) (refinedNodes : List Nat),
    OnlyDescriptorChars d → (∀ i ∈ refinedNodes, i < tree.nodesStream_.length) →
    tree.nodesStream_.length + d.length < 2 ^ 64 →
    ∃ t, fromDescriptorLoop d tree refinedNodes = .ok t := by
  induction d with
  | nil => intro tree _ _ _ _; exact ⟨tree, rfl⟩
  | cons c cs ih =>
    intro tree refinedNodes hd href hlen
    have hcs : OnlyDescriptorChars cs := fun x hx => hd x (List.mem_cons_of_mem _ hx)
    have hc : c ∈ ['.', 'R', 'P', 'X', '|'] := hd c (List.mem_cons_self _ _)
    simp only [List.length_cons] at hlen
    unfold fromDescriptorLoop
    by_cases hnode : c = '.' ∨ c = 'R' ∨ c = 'P' ∨ c = 'X'
    · rw [if_pos hnode]
      apply ih _ _ hcs
      · intro i hi
        simp only [List.length_append, List.length_singleton]
        split at hi
        · rw [List.mem_append, List.mem_singleton] at hi
          rcases hi with hi | hi
          · have := href i hi; omega
          · rw [hi]
            simp only [numberOfNodes, List.length_append, List.length_singleton, wrap, WORD]
            omega
        · have := href i hi; omega
      · simp only [List.length_append, List.length_singleton]; omega
    · have hpipe : c = '|' := by simp at hc; tauto
      rw [if_neg hnode, if_pos hpipe]
      obtain ⟨nodes', h1, h2⟩ := assignChildren_ok tree.numberOfNodes refinedNodes 0
        tree.nodesStream_ href
      rw [h1]
      apply ih _ _ hcs
      · intro i hi; cases hi
      · show nodes'.length + cs.length < 2 ^ 64
        rw [h2]; omega

theorem string_length_data (d : String) : d.length = d.data.length := rfl

theorem fromDescriptor_accepted {d : String} {t : CellOctree} (hlen : d.data.length < 2 ^ 61)
    (h : fromDescriptor d = .ok t) :
    OnlyDescriptorChars d.data ∧ nodeChars d.data = 8 * refinedChars d.data + 1 := by
  have hval := isInvalidDescriptorLoop_false d.data 0 0 (by omega) (by omega)
  simp only [Nat.zero_add] at hval
  unfold fromDescriptor at h
  by_cases hc : (d.data.isEmpty || isInvalidDescriptor d.data) = true
  · rw [if_pos hc] at h; cases h
  · have hinv : isInvalidDescriptor d.data = false := by
      simp at hc; simpa using hc.2
    exact hval.1 hinv

/-- C3: a descriptor (shorter than `2 ^ 61` characters, so that the `size_t` counters of the
validator cannot wrap) is accepted by `fromDescriptor` if and only if every character is
one of `'.'`, `'R'`, `'P'`, `'X'`, `'|'` and the number of node characters equals
`8 * (number of 'R' and 'X') + 1`; in every other case the result is `InvalidArgument`.
The three malformed descriptors of the test corpus are rejected. -/
theorem fromDescriptor_accepts_iff (d : String) (hlen : d.length < 2 ^ 61) :
    ((∃ t, fromDescriptor d = .ok t) ↔
      OnlyDescriptorChars d.data ∧ nodeChars d.data = 8 * refinedChars d.data + 1) ∧
    ((¬ ∃ t, fromDescriptor d = .ok t) → fromDescriptor d = .error .invalidArgument) ∧
    fromDescriptor "R|......." = .error .invalidArgument ∧
    fromDescriptor "R|.Z......" = .error .invalidArgument ∧
    fromDescriptor "X|........|........" = .error .invalidArgument := by
  rw [string_length_data] at hlen
  have hval := isInvalidDescriptorLoop_false d.data 0 0 (by omega) (by omega)
  simp only [Nat.zero_add] at hval
  have hmain : (∃ t, fromDescriptor d = .ok t) ↔
      OnlyDescriptorChars d.data ∧ nodeChars d.data = 8 * refinedChars d.data + 1 := by
    unfold fromDescriptor
    by_cases hinv : isInvalidDescriptor d.data = true
    · have hno : ¬ (OnlyDescriptorChars d.data ∧
          nodeChars d.data = 8 * refinedChars d.data + 1) := by
        intro h
        have := hval.2 h
        unfold isInvalidDescriptor at hinv
        rw [this] at hinv; cases hinv
      simp [hinv, hno]
    · have hinv' : isInvalidDescriptor d.data = false := by simpa using hinv
      have hcond := hval.1 hinv'
      have hne : d.data.isEmpty = false := by
        cases hd : d.data with
        | nil => rw [hd] at hcond; simp [nodeChars] at hcond
        | cons c cs => rfl
      simp only [hne, hinv', Bool.or_false, Bool.false_eq_true, if_false]
      constructor
      · intro _; exact hcond
      · intro _
        exact fromDescriptorLoop_ok d.data _ [] hcond.1 (by intro i hi; cases hi)
          (by show ([] : List Node).length + d.data.length < 2 ^ 64
              rw [List.length_nil]; omega)
  refine ⟨hmain, ?_, by decide, by decide, by decide⟩
  intro hno
  unfold fromDescriptor at hno ⊢
  by_cases hc : (d.data.isEmpty || isInvalidDescriptor d.data) = true
  · rw [if_pos hc]
  · rw [if_neg hc] at hno ⊢
    have hinv' : isInvalidDescriptor d.data = false := by
      simp at hc; simpa using hc.2
    have hcond := hval.1 hinv'
    exact absurd (fromDescriptorLoop_ok d.data _ [] hcond.1 (by intro i hi; cases hi)
      (by show ([] : List Node).length + d.data.length < 2 ^ 64
          rw [List.length_nil]; omega)) hno

theorem fromDescriptor_accepts_iff_witness :
    ((∃ t, fromDescriptor "R|........" = .ok t) ↔
      OnlyDescriptorChars "R|........".data ∧
        nodeChars "R|........".data = 8 * refinedChars "R|........".data + 1) ∧
    ((¬ ∃ t, fromDescriptor "R|........" = .ok t) →
      fromDescriptor "R|........" = .error .invalidArgument) ∧
    fromDescriptor "R|......." = .error .invalidArgument ∧
    fromDescriptor "R|.Z......" = .error .invalidArgument ∧
    fromDescriptor "X|........|........" = .error .invalidArgument :=
  fromDescriptor_accepts_iff "R|........" (by decide)

end CellOctree
namespace CellOctree

/-! ## Counting refined nodes -/

theorem countP_take_succ {α : Type} (p : α → Bool) (l : List α) (i : Nat) (x : α)
    (h : l[i]? = some x) :
    (l.take (i + 1)).countP p = (l.take i).countP p + (if p x then 1 else 0) := by
  induction l generalizing i with
  | nil => simp at h
  | cons y ys ih =>
    cases i with
    | zero =>
      simp at h; subst h
      simp [List.countP_cons]
    | succ j =>
      simp at h
      simp only [List.take_succ_cons, List.countP_cons]
      rw [ih j h]; omega

theorem countP_take_mono {α : Type} (p : α → Bool) (l : List α) {i j : Nat} (h : i ≤ j) :
    (l.take i).countP p ≤ (l.take j).countP p := by
  have : l.take i = (l.take j).take i := by rw [List.take_take, Nat.min_eq_left h]
  rw [this]
  exact (List.take_sublist _ _).countP_le _

theorem countP_take_add {α : Type} (p : α → Bool) (l : List α) (i c : Nat) :
    (l.take (i + c)).countP p = (l.take i).countP p + ((l.drop i).take c).countP p := by
  rw [List.take_add, List.countP_append]

theorem countP_take_lt {α : Type} (p : α → Bool) (l : List α) {i j : Nat} (x : α)
    (hx : l[i]? = some x) (hp : p x = true) (h : i < j) :
    (l.take i).countP p + 1 ≤ (l.take j).countP p := by
  have h1 := countP_take_succ p l i x hx
  rw [hp] at h1
  have h2 := countP_take_mono p l (show i + 1 ≤ j from h)
  simp at h1; omega

theorem childStartValue_eq {N q : Nat} (h : N + 8 * q < 2 ^ 62) :
    childStartValue N q = N + 8 * q := by
  unfold childStartValue wrap WORD
  rw [Nat.mod_eq_of_lt (show 8 * q < 2 ^ 64 by omega),
    Nat.mod_eq_of_lt (show 8 * q + 1 < 2 ^ 64 by omega)]
  rcases Nat.eq_zero_or_pos N with h0 | h0
  · subst h0
    have : (0 + 2 ^ 64 - 1) % 2 ^ 64 = 2 ^ 64 - 1 := by norm_num
    rw [this]
    have e : 2 ^ 64 - 1 + (8 * q + 1) = 8 * q + 2 ^ 64 := by omega
    rw [e, Nat.add_mod_right, Nat.mod_eq_of_lt (by omega)]; omega
  · have e : N + 2 ^ 64 - 1 = (N - 1) + 2 ^ 64 := by omega
    rw [e, Nat.add_mod_right, Nat.mod_eq_of_lt (show N - 1 < 2 ^ 64 by omega),
      Nat.mod_eq_of_lt (by omega)]
    omega

theorem refinedAt_set (nodes : List Node) (s : Nat) (n : Node) (v : Nat)
    (h : nodes[s]? = some n) (i : Nat) :
    refinedAt (nodes.set s (n.setChildrenStartIndex v)) i = refinedAt nodes i := by
  unfold refinedAt
  by_cases hi : s = i
  · subst hi
    have hs : s < nodes.length := by
      rcases Nat.lt_or_ge s nodes.length with h1 | h1
      · exact h1
      · rw [List.getElem?_eq_none h1] at h; cases h
    rw [List.getElem?_set_self hs, h]
    simp [Node.isRefined_set]
  · rw [List.getElem?_set_ne hi]

theorem assignChildren_range (N : Nat) : ∀ (c s k : Nat) (nodes : List Node),
    s + c ≤ nodes.length → k + c < 2 ^ 61 →
    ∃ nodes', assignChildren N ((List.range' s c).filter (refinedAt nodes)) k nodes = .ok nodes' ∧
      nodes'.length = nodes.length ∧
      (∀ i : Nat, (nodes'[i]?).map Node.isRefined = (nodes[i]?).map Node.isRefined ∧
        (nodes'[i]?).map Node.isPhantom = (nodes[i]?).map Node.isPhantom) ∧
      (∀ i : Nat, i < s ∨ s + c ≤ i → nodes'[i]? = nodes[i]?) ∧
      (∀ (i : Nat) (n' : Node), s ≤ i → i < s + c → nodes'[i]? = some n' → n'.isRefined = true →
        n'.childrenStartIndex =
          childStartValue N (k + ((nodes.drop s).take (i - s)).countP Node.isRefined)
            % 2 ^ 62) := by
  intro c
  induction c with
  | zero =>
    intro s k nodes _ _
    refine ⟨nodes, by simp [assignChildren], rfl, fun i => ⟨rfl, rfl⟩, fun i _ => rfl, ?_⟩
    intro i n' h1 h2; omega
  | succ c ih =>
    intro s k nodes hlen hk
    have hs : s < nodes.length := by omega
    obtain ⟨n, hn⟩ : ∃ n, nodes[s]? = some n := ⟨nodes[s], List.getElem?_eq_getElem hs⟩
    have hdrop : nodes.drop s = n :: nodes.drop (s + 1) := by
      rw [List.drop_eq_getElem_cons hs]
      congr 1
      rw [List.getElem?_eq_getElem hs] at hn
      exact Option.some.inj hn
    rw [List.range'_succ, List.filter_cons]
    by_cases hr : n.isRefined = true
    · have hra : refinedAt nodes s = true := by unfold refinedAt; rw [hn]; exact hr
      have hwk : wrap (k + 1) = k + 1 := by
        unfold wrap WORD; exact Nat.mod_eq_of_lt (by omega)
      rw [if_pos hra]
      simp only [assignChildren, hn, hwk]
      have hfil : (List.range' (s + 1) c).filter (refinedAt nodes) =
          (List.range' (s + 1) c).filter
            (refinedAt (nodes.set s (n.setChildrenStartIndex (childStartValue N k)))) := by
        apply List.filter_congr
        intro x _
        rw [refinedAt_set nodes s n _ hn]
      have hval : wrap (wrap (N + WORD - 1) + wrap (wrap (8 * k) + 1)) = childStartValue N k :=
        rfl
      rw [hval, hfil]
      obtain ⟨nodes', h1, h2, h3, h4, h5⟩ := ih (s + 1) (k + 1)
        (nodes.set s (n.setChildrenStartIndex (childStartValue N k)))
        (by rw [List.length_set]; omega) (by omega)
      refine ⟨nodes', h1, by rw [h2, List.length_set], ?_, ?_, ?_⟩
      · intro i
        obtain ⟨a1, a2⟩ := h3 i
        rw [a1, a2]
        by_cases hi : s = i
        · subst hi
          rw [List.getElem?_set_self hs, hn]
          simp [Node.isRefined_set, Node.isPhantom_set]
        · rw [List.getElem?_set_ne hi]; exact ⟨rfl, rfl⟩
      · intro i hi
        rw [h4 i (by omega), List.getElem?_set_ne (by omega)]
      · intro i n' hi1 hi2 hi3 hi4
        by_cases hi : s = i
        · subst hi
          rw [h4 s (by omega), List.getElem?_set_self hs] at hi3
          injection hi3 with hi3
          subst hi3
          rw [Node.childrenStartIndex_set]
          simp
        · have h6 := h5 i n' (by omega) (by omega) hi3 hi4
          rw [h6, List.drop_set_of_lt _ _ (by omega : s < s + 1), hdrop]
          have e : i - s = (i - (s + 1)) + 1 := by omega
          rw [e, List.take_succ_cons, List.countP_cons, hr]
          congr 2
          simp; omega
    · have hr' : n.isRefined = false := by simpa using hr
      have hra : refinedAt nodes s = false := by unfold refinedAt; rw [hn]; exact hr'
      rw [if_neg (by rw [hra]; simp)]
      obtain ⟨nodes', h1, h2, h3, h4, h5⟩ := ih (s + 1) k nodes (by omega) (by omega)
      refine ⟨nodes', h1, h2, h3, ?_, ?_⟩
      · intro i hi
        exact h4 i (by omega)
      · intro i n' hi1 hi2 hi3 hi4
        by_cases hi : s = i
        · subst hi
          rw [h4 s (by omega), hn] at hi3
          injection hi3 with hi3
          subst hi3
          rw [hr'] at hi4; cases hi4
        · have h6 := h5 i n' (by omega) (by omega) hi3 hi4
          rw [h6, hdrop]
          have e : i - s = (i - (s + 1)) + 1 := by omega
          rw [e, List.take_succ_cons, List.countP_cons, hr']
          simp


theorem incrementLastCount_cons_cons (a b : Nat × Nat) (l : List (Nat × Nat)) :
    incrementLastCount (a :: b :: l) = a :: incrementLastCount (b :: l) := by
  obtain ⟨a1, a2⟩ := a
  rfl

theorem incrementLastCount_append (pre : List (Nat × Nat)) (s c : Nat) :
    incrementLastCount (pre ++ [(s, c)]) = pre ++ [(s, wrap (c + 1))] := by
  induction pre with
  | nil => rfl
  | cons a pre ih =>
    cases pre with
    | nil => exact incrementLastCount_cons_cons a (s, c) []
    | cons b pre' =>
      simp only [List.cons_append] at ih ⊢
      rw [incrementLastCount_cons_cons, ih]

theorem refinedBefore_append (nodes : List Node) (x : Node) (lv lv' : List (Nat × Nat))
    (i : Nat) (h : i ≤ nodes.length) :
    refinedBefore ⟨nodes ++ [x], lv⟩ i = refinedBefore ⟨nodes, lv'⟩ i := by
  unfold refinedBefore
  simp only
  rw [List.take_append_of_le_length h]

theorem refinedBefore_congr (nodes nodes' : List Node) (lv lv' : List (Nat × Nat))
    (h : ∀ i : Nat, (nodes'[i]?).map Node.isRefined = (nodes[i]?).map Node.isRefined) (i : Nat) :
    refinedBefore ⟨nodes', lv⟩ i = refinedBefore ⟨nodes, lv'⟩ i := by
  unfold refinedBefore
  simp only
  have hmap : nodes'.map Node.isRefined = nodes.map Node.isRefined := by
    apply List.ext_getElem?
    intro j
    rw [List.getElem?_map, List.getElem?_map]; exact h j
  have e1 : ∀ l : List Node, (l.take i).countP Node.isRefined =
      ((l.map Node.isRefined).take i).countP id := by
    intro l
    rw [← List.map_take, List.countP_map]; rfl
  rw [e1, e1, hmap]

theorem refinedAt_append_lt (nodes : List Node) (x : Node) (i : Nat) (h : i < nodes.length) :
    refinedAt (nodes ++ [x]) i = refinedAt nodes i := by
  unfold refinedAt
  rw [List.getElem?_append_left h]

theorem refinedAt_append_self (nodes : List Node) (x : Node) :
    refinedAt (nodes ++ [x]) nodes.length = x.isRefined := by
  unfold refinedAt
  simp

theorem length_filter_refinedAt (nodes : List Node) (s c : Nat) (h : s + c ≤ nodes.length) :
    ((List.range' s c).filter (refinedAt nodes)).length =
      ((nodes.drop s).take c).countP Node.isRefined := by
  induction c generalizing s with
  | zero => simp
  | succ c ih =>
    have hs : s < nodes.length := by omega
    rw [List.range'_succ, List.filter_cons, List.drop_eq_getElem_cons hs, List.take_succ_cons,
      List.countP_cons]
    have hra : refinedAt nodes s = nodes[s].isRefined := by
      unfold refinedAt; rw [List.getElem?_eq_getElem hs]
    rw [hra]
    cases hh : nodes[s].isRefined
    · simp; exact ih (s + 1) (by omega)
    · simp; exact ih (s + 1) (by omega)


theorem buildInv_node {tree : CellOctree} {rn : List Nat} {e : Nat} {pre : List (Nat × Nat)}
    {s c : Nat} (x : Node) (h : BuildInv tree rn e pre s c) (he : 0 < e)
    (hsz : tree.nodesStream_.length < 2 ^ 61) :
    BuildInv ⟨tree.nodesStream_ ++ [x], incrementLastCount tree.levels_⟩
      (if x.isRefined = true then
        rn ++ [wrap ((tree.nodesStream_ ++ [x]).length + WORD - 1)] else rn)
      (e - 1) pre s (c + 1) := by
  have hn := h.end_eq
  have hc1 : wrap (c + 1) = c + 1 := by unfold wrap WORD; exact Nat.mod_eq_of_lt (by omega)
  have hidx : wrap ((tree.nodesStream_ ++ [x]).length + WORD - 1) = tree.nodesStream_.length := by
    unfold wrap WORD
    rw [List.length_append, List.length_singleton]
    have : tree.nodesStream_.length + 1 + 2 ^ 64 - 1 = tree.nodesStream_.length + 2 ^ 64 := by
      omega
    rw [this, Nat.add_mod_right]; exact Nat.mod_eq_of_lt (by omega)
  have hrb : ∀ i, i ≤ tree.nodesStream_.length →
      refinedBefore ⟨tree.nodesStream_ ++ [x], incrementLastCount tree.levels_⟩ i =
        refinedBefore tree i := fun i hi => refinedBefore_append _ _ _ _ i hi
  constructor
  · show incrementLastCount tree.levels_ = pre ++ [(s, c + 1)]
    rw [h.levels_eq, incrementLastCount_append, hc1]
  · show s + (c + 1) = (tree.nodesStream_ ++ [x]).length
    rw [List.length_append, List.length_singleton]; omega
  · show _ = (List.range' s (c + 1)).filter (refinedAt (tree.nodesStream_ ++ [x]))
    rw [List.range'_concat, List.filter_append, Nat.one_mul]
    have hfil : (List.range' s c).filter (refinedAt (tree.nodesStream_ ++ [x])) = rn := by
      rw [h.pending]
      apply List.filter_congr
      intro i hi
      rw [List.mem_range'_1] at hi
      exact refinedAt_append_lt _ _ _ (by omega)
    have hlast : refinedAt (tree.nodesStream_ ++ [x]) tree.nodesStream_.length = x.isRefined :=
      refinedAt_append_self _ _
    rw [hfil, hidx, hn, List.filter_cons, hlast]
    cases hx : x.isRefined <;> simp
  · show (tree.nodesStream_ ++ [x]).length + (e - 1) = _
    rw [hrb s (by omega), List.length_append, List.length_singleton]
    have := h.expected
    omega
  · refine ⟨fun hp => ?_, h.first.2⟩
    have := h.first.1 hp
    omega
  · exact h.bounded
  · intro l a b1 ha hb
    obtain ⟨h1, h2⟩ := h.next l a b1 ha hb
    refine ⟨h1, ?_⟩
    rw [hrb a.1 ?_]
    · exact h2
    · have := h.bounded a (List.getElem?_mem ha)
      omega
  · intro i n hi hget hr
    have hlt : i < tree.nodesStream_.length := by omega
    rw [show (CellOctree.mk (tree.nodesStream_ ++ [x]) (incrementLastCount tree.levels_)).nodesStream_
      = tree.nodesStream_ ++ [x] from rfl, List.getElem?_append_left hlt] at hget
    rw [hrb i (by omega)]
    exact h.children i n hi hget hr


theorem refinedBefore_add (t : CellOctree) (s k : Nat) :
    refinedBefore t (s + k) =
      refinedBefore t s + ((t.nodesStream_.drop s).take k).countP Node.isRefined := by
  unfold refinedBefore
  exact countP_take_add _ _ _ _

theorem buildInv_pipe {tree : CellOctree} {rn : List Nat} {pre : List (Nat × Nat)}
    {s c : Nat} {nodes' : List Node} (h : BuildInv tree rn 0 pre s c)
    (hsz : tree.nodesStream_.length + 8 * rn.length < 2 ^ 61)
    (ha : assignChildren tree.numberOfNodes rn 0 tree.nodesStream_ = .ok nodes') :
    BuildInv ⟨nodes', tree.levels_ ++ [(tree.numberOfNodes, 0)]⟩ [] (8 * rn.length)
      (pre ++ [(s, c)]) tree.nodesStream_.length 0 ∧
    nodes'.length = tree.nodesStream_.length ∧
    (∀ i : Nat, (nodes'[i]?).map Node.isRefined = (tree.nodesStream_[i]?).map Node.isRefined) := by
  have hn := h.end_eq
  obtain ⟨nodes'', h1, h2, h3, h4, h5⟩ := assignChildren_range tree.numberOfNodes c s 0
    tree.nodesStream_ (by omega) (by omega)
  rw [← h.pending, ha] at h1
  injection h1 with h1
  subst h1
  have hflags : ∀ i : Nat,
      (nodes'[i]?).map Node.isRefined = (tree.nodesStream_[i]?).map Node.isRefined :=
    fun i => (h3 i).1
  have hrb : ∀ i, refinedBefore ⟨nodes', tree.levels_ ++ [(tree.numberOfNodes, 0)]⟩ i =
      refinedBefore tree i := fun i => refinedBefore_congr _ _ _ _ hflags i
  have hq : rn.length = ((tree.nodesStream_.drop s).take c).countP Node.isRefined := by
    rw [h.pending]; exact length_filter_refinedAt _ _ _ (by omega)
  have hexp := h.expected
  have hrank : refinedBefore tree tree.nodesStream_.length = refinedBefore tree s + rn.length := by
    rw [← hn, refinedBefore_add, hq]
  refine ⟨?_, h2, hflags⟩
  constructor
  · show tree.levels_ ++ [(tree.numberOfNodes, 0)] = pre ++ [(s, c)] ++ [(tree.nodesStream_.length, 0)]
    rw [h.levels_eq]; rfl
  · show tree.nodesStream_.length + 0 = nodes'.length
    omega
  · simp
  · show nodes'.length + 8 * rn.length = _
    rw [hrb, hrank, h2]; omega
  · refine ⟨fun hp => by simp at hp, fun _ => ?_⟩
    cases hpre : pre with
    | nil =>
      obtain ⟨e1, e2⟩ := h.first.1 hpre
      have : c = 1 := by omega
      subst e1 this
      rfl
    | cons a pre' =>
      have := h.first.2 (by rw [hpre]; simp)
      rw [hpre] at this
      simpa using this
  · intro a ha'
    rw [List.mem_append, List.mem_singleton] at ha'
    rcases ha' with ha' | ha'
    · have := h.bounded a ha'; omega
    · subst ha'; show s + c ≤ _; omega
  · intro l a b1 hl hb
    rcases Nat.lt_trichotomy l pre.length with hlt | heq | hgt
    · rw [List.getElem?_append_left hlt] at hl
      have hb' : (pre.map Prod.fst ++ [s])[l + 1]? = some b1 := by
        rw [List.map_append, List.append_assoc] at hb
        have hlen : l + 1 < (pre.map Prod.fst ++ [s]).length := by simp; omega
        rw [show List.map Prod.fst pre ++ (List.map Prod.fst [(s, c)] ++ [tree.nodesStream_.length])
          = (List.map Prod.fst pre ++ [s]) ++ [tree.nodesStream_.length] by simp] at hb
        rwa [List.getElem?_append_left hlen] at hb
      obtain ⟨e1, e2⟩ := h.next l a b1 hl hb'
      exact ⟨e1, by rw [hrb]; exact e2⟩
    · subst heq
      have ha' : a = (s, c) := by
        rw [List.getElem?_append_right (Nat.le_refl _)] at hl
        simp at hl; exact hl.symm
      have hb' : b1 = tree.nodesStream_.length := by
        have hlen : (List.map Prod.fst (pre ++ [(s, c)])).length = pre.length + 1 := by simp
        rw [List.getElem?_append_right (by rw [hlen])] at hb
        rw [hlen] at hb
        simp at hb; exact hb.symm
      subst ha' hb'
      refine ⟨by show _ = s + c; omega, ?_⟩
      rw [hrb]; show _ = 1 + 8 * refinedBefore tree s; omega
    · rw [List.getElem?_eq_none (by simp; omega)] at hl; cases hl
  · intro i n hi hget hr
    rw [hrb]
    change nodes'[i]? = some n at hget
    by_cases his : i < s
    · rw [h4 i (Or.inl his)] at hget
      exact h.children i n his hget hr
    · have h6 := h5 i n (by omega) (by omega) hget hr
      have hle : ((tree.nodesStream_.drop s).take (i - s)).countP Node.isRefined ≤ rn.length := by
        rw [hq]
        exact countP_take_mono _ _ (by omega)
      have hri : refinedBefore tree i = refinedBefore tree s +
          ((tree.nodesStream_.drop s).take (i - s)).countP Node.isRefined := by
        have : i = s + (i - s) := by omega
        conv_lhs => rw [this]
        exact refinedBefore_add _ _ _
      rw [h6, Nat.zero_add, childStartValue_eq (by unfold numberOfNodes; omega),
        Nat.mod_eq_of_lt (by unfold numberOfNodes; omega), hri]
      unfold numberOfNodes
      omega


theorem groupedFrom_le_length (cs : List Char) : ∀ e r : Nat, GroupedFrom e r cs → e ≤ cs.length := by
  induction cs with
  | nil => intro e r h; simp [GroupedFrom] at h; omega
  | cons c cs ih =>
    intro e r h
    unfold GroupedFrom at h
    by_cases hp : c = '|'
    · rw [if_pos hp] at h; simp; omega
    · rw [if_neg hp] at h
      have := ih _ _ h.2
      simp; omega

theorem countP_eq_refinedBefore (t : CellOctree) :
    t.nodesStream_.countP Node.isRefined = refinedBefore t t.nodesStream_.length := by
  unfold refinedBefore; rw [List.take_length]

theorem fromDescriptorLoop_inv (cs : List Char) :
    ∀ (tree : CellOctree) (rn : List Nat) (e : Nat) (pre : List (Nat × Nat)) (s c : Nat)
      (t : CellOctree),
    BuildInv tree rn e pre s c → GroupedFrom e rn.length cs →
    tree.nodesStream_.length + cs.length < 2 ^ 61 →
    fromDescriptorLoop cs tree rn = .ok t →
    ∃ (rn' : List Nat) (pre' : List (Nat × Nat)) (s' c' : Nat), BuildInv t rn' 0 pre' s' c' ∧
      t.nodesStream_.length = tree.nodesStream_.length + nodeChars cs ∧
      t.nodesStream_.countP Node.isRefined =
        tree.nodesStream_.countP Node.isRefined + refinedChars cs := by
  induction cs with
  | nil =>
    intro tree rn e pre s c t hinv hg _ hloop
    simp only [fromDescriptorLoop] at hloop
    injection hloop with hloop
    subst hloop
    simp only [GroupedFrom] at hg
    subst hg
    exact ⟨rn, pre, s, c, hinv, by simp [nodeChars], by simp [refinedChars]⟩
  | cons ch cs ih =>
    intro tree rn e pre s c t hinv hg hlen hloop
    simp only [List.length_cons] at hlen
    unfold fromDescriptorLoop at hloop
    unfold GroupedFrom at hg
    by_cases hnode : ch = '.' ∨ ch = 'R' ∨ ch = 'P' ∨ ch = 'X'
    · have hp : ch ≠ '|' := by
        rcases hnode with h | h | h | h <;> subst h <;> decide
      rw [if_pos hnode] at hloop
      rw [if_neg hp] at hg
      simp only at hloop
      have hx : (Node.create (ch == 'R' || ch == 'X') (ch == 'P' || ch == 'X') 0).isRefined =
          (ch == 'R' || ch == 'X') := Node.isRefined_create _ _ _
      have hstep := buildInv_node (Node.create (ch == 'R' || ch == 'X') (ch == 'P' || ch == 'X') 0)
        hinv hg.1 (by omega)
      rw [hx] at hstep
      have hlen' : (if (ch == 'R' || ch == 'X') = true then
          rn ++ [wrap ((tree.nodesStream_ ++
            [Node.create (ch == 'R' || ch == 'X') (ch == 'P' || ch == 'X') 0]).length + WORD - 1)]
          else rn).length = rn.length + if (ch == 'R' || ch == 'X') = true then 1 else 0 := by
        split <;> simp
      obtain ⟨rn', pre', s', c', h1, h2, h3⟩ := ih _ _ _ _ _ _ t hstep
        (by rw [hlen']; exact hg.2)
        (by simp only [List.length_append, List.length_singleton]; omega) hloop
      refine ⟨rn', pre', s', c', h1, ?_, ?_⟩
      · rw [h2]
        simp only [List.length_append, List.length_singleton, nodeChars, List.countP_cons]
        have : (ch != '|') = true := by simpa using hp
        rw [this]; simp; omega
      · rw [h3]
        simp only [List.countP_append, List.countP_cons, List.countP_nil, hx, refinedChars]
        omega
    · rw [if_neg hnode] at hloop
      by_cases hp : ch = '|'
      · rw [if_pos hp] at hloop hg
        obtain ⟨he, hg'⟩ := hg
        subst he
        have hbound := groupedFrom_le_length cs _ _ hg'
        cases hassign : assignChildren tree.numberOfNodes rn 0 tree.nodesStream_ with
        | error err => rw [hassign] at hloop; cases hloop
        | ok nodes1 =>
          rw [hassign] at hloop
          simp only at hloop
          obtain ⟨hstep, hl1, hflags⟩ := buildInv_pipe hinv (by omega) hassign
          obtain ⟨rn', pre', s', c', h1, h2, h3⟩ := ih _ _ _ _ _ _ t hstep
            (by simpa using hg') (by show nodes1.length + cs.length < 2 ^ 61; omega) hloop
          refine ⟨rn', pre', s', c', h1, ?_, ?_⟩
          · rw [h2]; show nodes1.length + _ = _
            rw [hl1, hp]; simp [nodeChars]
          · rw [h3]
            have e1 := countP_eq_refinedBefore ⟨nodes1, tree.levels_ ++ [(tree.numberOfNodes, 0)]⟩
            have e2 := countP_eq_refinedBefore tree
            have e3 := refinedBefore_congr tree.nodesStream_ nodes1
              (tree.levels_ ++ [(tree.numberOfNodes, 0)]) tree.levels_ hflags nodes1.length
            simp only at e1
            rw [e1, e3, hl1, ← e2, hp]
            simp [refinedChars]
      · rw [if_neg hp] at hloop; cases hloop


theorem splitLevels_ne_nil (cs : List Char) : splitLevels cs ≠ [] := by
  cases cs with
  | nil => simp [splitLevels]
  | cons c cs =>
    unfold splitLevels
    split
    · simp
    · split <;> simp

theorem groupedFrom_of_segments (cs : List Char) : ∀ (e r : Nat) (s : List Char)
    (ss : List (List Char)), splitLevels cs = s :: ss → s.length = e →
    eightPerRefined (8 * (r + refinedChars s)) ss = true → GroupedFrom e r cs := by
  induction cs with
  | nil =>
    intro e r s ss hsplit hlen _
    simp only [splitLevels, List.cons.injEq] at hsplit
    obtain ⟨h1, _⟩ := hsplit
    subst h1
    simp only [GroupedFrom]
    simpa using hlen.symm
  | cons c cs ih =>
    intro e r s ss hsplit hlen hrest
    unfold GroupedFrom
    unfold splitLevels at hsplit
    by_cases hp : c = '|'
    · rw [if_pos hp] at hsplit ⊢
      simp only [List.cons.injEq] at hsplit
      obtain ⟨h1, h2⟩ := hsplit
      subst h1 h2
      refine ⟨by simpa using hlen.symm, ?_⟩
      obtain ⟨s', ss', hs'⟩ : ∃ s' ss', splitLevels cs = s' :: ss' := by
        cases h : splitLevels cs with
        | nil => exact absurd h (splitLevels_ne_nil cs)
        | cons a b => exact ⟨a, b, rfl⟩
      rw [hs'] at hrest
      simp only [refinedChars, List.countP_nil, Nat.add_zero, eightPerRefined, Bool.and_eq_true,
        beq_iff_eq] at hrest
      exact ih (8 * r) 0 s' ss' hs' hrest.1 (by simpa [refinedChars] using hrest.2)
    · rw [if_neg hp] at hsplit ⊢
      obtain ⟨s', ss', hs'⟩ : ∃ s' ss', splitLevels cs = s' :: ss' := by
        cases h : splitLevels cs with
        | nil => exact absurd h (splitLevels_ne_nil cs)
        | cons a b => exact ⟨a, b, rfl⟩
      rw [hs'] at hsplit
      simp only [List.cons.injEq] at hsplit
      obtain ⟨h1, h2⟩ := hsplit
      subst h1 h2
      simp only [List.length_cons] at hlen
      refine ⟨by omega, ?_⟩
      apply ih (e - 1) _ s' ss' hs' (by omega)
      have : refinedChars (c :: s') = (if (c == 'R' || c == 'X') = true then 1 else 0)
          + refinedChars s' := by
        simp only [refinedChars, List.countP_cons]; omega
      rw [this] at hrest
      have e8 : 8 * (r + ((if (c == 'R' || c == 'X') = true then 1 else 0) + refinedChars s')) =
          8 * (r + (if (c == 'R' || c == 'X') = true then 1 else 0) + refinedChars s') := by
        omega
      rw [e8] at hrest
      exact hrest

theorem groupedFrom_of_grouped (d : List Char) (h : Grouped d) : GroupedFrom 1 0 d := by
  unfold Grouped at h
  obtain ⟨s, ss, hs⟩ : ∃ s ss, splitLevels d = s :: ss := by
    cases h' : splitLevels d with
    | nil => exact absurd h' (splitLevels_ne_nil d)
    | cons a b => exact ⟨a, b, rfl⟩
  rw [hs] at h
  simp only [eightPerRefined, Bool.and_eq_true, beq_iff_eq] at h
  exact groupedFrom_of_segments d 1 0 s ss hs h.1 (by simpa using h.2)

theorem buildInv_initial :
    BuildInv ⟨empty.nodesStream_.dropLast, decrementLastCount empty.levels_⟩ [] 1 [] 0 0 := by
  constructor
  · decide
  · decide
  · simp
  · simp [refinedBefore, empty]
  · exact ⟨fun _ => ⟨rfl, rfl⟩, fun h => absurd rfl h⟩
  · intro a ha; cases ha
  · intro l a b1 ha; simp at ha
  · intro i n hi; omega

/-- Grouped descriptors accepted by `fromDescriptor` yield a level-grouped store. -/
theorem fromDescriptor_storeInv (d : String) (t : CellOctree) (hlen : d.length < 2 ^ 61)
    (hg : Grouped d.data) (h : fromDescriptor d = .ok t) : StoreInv t := by
  rw [string_length_data] at hlen
  have hacc := fromDescriptor_accepted hlen h
  unfold fromDescriptor at h
  split at h
  · cases h
  · obtain ⟨rn, pre, s, c, hinv, hn, hr⟩ := fromDescriptorLoop_inv d.data _ [] 1 [] 0 0 t
      buildInv_initial (groupedFrom_of_grouped d.data hg)
      (by show ([] : List Node).length + d.data.length < 2 ^ 61; rw [List.length_nil]; omega) h
    have hn' : t.nodesStream_.length = nodeChars d.data := by
      rw [hn]; show ([] : List Node).length + _ = _; simp
    have hr' : t.nodesStream_.countP Node.isRefined = refinedChars d.data := by
      rw [hr]; show ([] : List Node).countP _ + _ = _; simp
    have hle : nodeChars d.data ≤ d.data.length := List.countP_le_length _
    have htotal : t.nodesStream_.length = 1 + 8 * refinedBefore t t.nodesStream_.length := by
      rw [← countP_eq_refinedBefore, hr', hn', hacc.2]; omega
    have hexp := hinv.expected
    have hend := hinv.end_eq
    have hlast : t.levels_.getLast? = some (s, c) := by
      rw [hinv.levels_eq]; simp
    have hunref : ∀ (i : Nat) (n : Node), s ≤ i → t.nodesStream_[i]? = some n →
        n.isRefined = false := by
      intro i n hi hget
      by_contra hne
      have hne' : n.isRefined = true := by simpa using hne
      have hil : i < t.nodesStream_.length := by
        rcases Nat.lt_or_ge i t.nodesStream_.length with h1 | h1
        · exact h1
        · rw [List.getElem?_eq_none h1] at hget; cases hget
      have h1 := countP_take_lt Node.isRefined t.nodesStream_ n hget hne' hil
      have h2 := countP_take_mono Node.isRefined t.nodesStream_ hi
      unfold refinedBefore at htotal hexp
      omega
    constructor
    · omega
    · rw [hinv.levels_eq]
      cases hpre : pre with
      | nil =>
        obtain ⟨e1, e2⟩ := hinv.first.1 hpre
        have : c = 1 := by omega
        subst e1 this; rfl
      | cons a pre' =>
        have := hinv.first.2 (by rw [hpre]; simp)
        rw [hpre] at this
        simpa using this
    · intro l a b ha hb
      rw [hinv.levels_eq] at ha hb
      have hl : l < pre.length := by
        by_contra hge
        rw [List.getElem?_eq_none (by simp; omega)] at hb; cases hb
      rw [List.getElem?_append_left hl] at ha
      have hb' : (pre.map Prod.fst ++ [s])[l + 1]? = some b.1 := by
        have := congrArg (Option.map Prod.fst) hb
        rw [← List.getElem?_map] at this
        simpa using this
      exact hinv.next l a b.1 ha hb'
    · intro a ha
      rw [hlast] at ha
      injection ha with ha
      subst ha
      refine ⟨hend, ?_⟩
      show t.nodesStream_.length = 1 + 8 * refinedBefore t s
      omega
    · intro a i n ha hi hget
      rw [hlast] at ha
      injection ha with ha
      subst ha
      exact hunref i n hi hget
    · intro i n hget hr''
      by_cases hi : i < s
      · exact hinv.children i n hi hget hr''
      · have := hunref i n (by omega) hget
        rw [this] at hr''; cases hr''


end CellOctree

namespace CellOctree

/-! ## Consequences of the store layout -/

namespace StoreInv

theorem refinedBefore_mono (t : CellOctree) {i j : Nat} (h : i ≤ j) :
    refinedBefore t i ≤ refinedBefore t j :=
  countP_take_mono _ _ h

theorem refinedBefore_lt (t : CellOctree) {i j : Nat} {n : Node}
    (hn : t.nodesStream_[i]? = some n) (hr : n.isRefined = true) (h : i < j) :
    refinedBefore t i + 1 ≤ refinedBefore t j :=
  countP_take_lt _ _ n hn hr h

theorem levels_ne_nil {t : CellOctree} (h : StoreInv t) : 0 < t.levels_.length := by
  have := h.levels_first
  rcases Nat.eq_zero_or_pos t.levels_.length with h0 | h0
  · rw [List.getElem?_eq_none (by omega)] at this; cases this
  · exact h0

theorem getLast_of_next_none {t : CellOctree} {l : Nat} {a : Nat × Nat}
    (ha : t.levels_[l]? = some a) (hn : t.levels_[l + 1]? = none) :
    t.levels_.getLast? = some a := by
  have hl : l < t.levels_.length := by
    by_contra hge
    rw [List.getElem?_eq_none (by omega)] at ha; cases ha
  have hl' : t.levels_.length ≤ l + 1 := by
    by_contra hlt
    rw [List.getElem?_eq_getElem (by omega)] at hn; cases hn
  rw [List.getLast?_eq_getElem?]
  have : t.levels_.length - 1 = l := by omega
  rw [this, ha]

/-- Every level ends where `1 + 8 * (refined nodes before its start)` says. -/
theorem level_end {t : CellOctree} (h : StoreInv t) {l : Nat} {a : Nat × Nat}
    (ha : t.levels_[l]? = some a) : a.1 + a.2 = 1 + 8 * refinedBefore t a.1 := by
  cases hb : t.levels_[l + 1]? with
  | none => have := h.levels_last a (getLast_of_next_none ha hb); omega
  | some b => have := h.levels_next l a b ha hb; omega

theorem level_end_le {t : CellOctree} (h : StoreInv t) {l : Nat} {a : Nat × Nat}
    (ha : t.levels_[l]? = some a) : a.1 + a.2 ≤ t.nodesStream_.length := by
  have hl : l < t.levels_.length := by
    by_contra hge
    rw [List.getElem?_eq_none (by omega)] at ha; cases ha
  obtain ⟨k, hk⟩ : ∃ k, t.levels_.length = l + 1 + k := ⟨t.levels_.length - l - 1, by omega⟩
  induction k generalizing l a with
  | zero =>
    have hn : t.levels_[l + 1]? = none := List.getElem?_eq_none (by omega)
    have := h.levels_last a (getLast_of_next_none ha hn); omega
  | succ k ih =>
    obtain ⟨b, hb⟩ : ∃ b, t.levels_[l + 1]? = some b :=
      ⟨t.levels_[l + 1], List.getElem?_eq_getElem (by omega)⟩
    have h1 := h.levels_next l a b ha hb
    have h2 := ih hb (by omega) (by omega)
    omega

/-- The children group of a refined node of level `l` lies inside level `l + 1`, at an
offset from the start of that level which is a multiple of eight. -/
theorem children_in_next {t : CellOctree} (h : StoreInv t) {l i : Nat} {a : Nat × Nat} {n : Node}
    (ha : t.levels_[l]? = some a) (h1 : a.1 ≤ i) (h2 : i < a.1 + a.2)
    (hn : t.nodesStream_[i]? = some n) (hr : n.isRefined = true) :
    ∃ b, t.levels_[l + 1]? = some b ∧ b.1 ≤ n.childrenStartIndex ∧
      n.childrenStartIndex + 8 ≤ b.1 + b.2 ∧ (n.childrenStartIndex - b.1) % 8 = 0 ∧
      n.childrenStartIndex % 8 = 1 := by
  have hcs := h.children i n hn hr
  cases hb : t.levels_[l + 1]? with
  | none =>
    have := h.last_unrefined a i n (getLast_of_next_none ha hb) h1 hn
    rw [this] at hr; cases hr
  | some b =>
    have hnext := h.levels_next l a b ha hb
    have hend := level_end h hb
    have hm1 := refinedBefore_mono t h1
    have hm2 := refinedBefore_lt t hn hr (show i < b.1 by omega)
    exact ⟨b, rfl, by omega, by omega, by omega, by omega⟩

end StoreInv

/-- C4 (as stated, refuted): the descriptor `"R........"` has nine node characters and one
refined character, so it is accepted, but the store it yields has the single level
`(0, 9)` instead of `levels[0] = (0, 1)`; the descriptor `"|."` is accepted with
`levels[0] = (0, 0)`. -/
theorem store_invariants_counterexample :
    (∃ t, fromDescriptor "R........" = .ok t ∧ t.levels_ = [(0, 9)] ∧
      t.levels_[0]? ≠ some (0, 1)) ∧
    (∃ t, fromDescriptor "|." = .ok t ∧ t.levels_ = [(0, 0), (0, 1)] ∧
      t.levels_[0]? ≠ some (0, 1)) :=
  ⟨⟨⟨Node.create true false 0 :: List.replicate 8 (Node.create false false 0), [(0, 9)]⟩,
      by decide, by decide, by decide⟩,
    ⟨⟨[Node.create false false 0], [(0, 0), (0, 1)]⟩, by decide, by decide, by decide⟩⟩

/-- C4 (amended): every octree returned by `fromDescriptor` for an accepted descriptor that
has one root character and in which each `'|'` is followed by exactly eight node characters
per refined node of the preceding level satisfies the store invariants: `levels[0] = (0, 1)`;
every later level starts at `previous.start + previous.count`; level `l + 1` holds exactly
`8` nodes per refined node of level `l`; and the children group of every refined node lies
inside the next level's index range, at an offset from that level's start that is a
multiple of `8`. -/
theorem fromDescriptor_store_invariants (d : String) (t : CellOctree) (hlen : d.length < 2 ^ 61)
    (hg : Grouped d.data) (h : fromDescriptor d = .ok t) :
    t.levels_[0]? = some (0, 1) ∧
    (∀ (l : Nat) (a b : Nat × Nat), t.levels_[l]? = some a → t.levels_[l + 1]? = some b →
      b.1 = a.1 + a.2 ∧ b.2 = 8 * (t.nodesStream l).countP Node.isRefined) ∧
    (∀ (l i : Nat) (a : Nat × Nat) (n : Node), t.levels_[l]? = some a → a.1 ≤ i →
      i < a.1 + a.2 → t.nodesStream_[i]? = some n → n.isRefined = true →
      ∃ b, t.levels_[l + 1]? = some b ∧ b.1 ≤ n.childrenStartIndex ∧
        n.childrenStartIndex + 8 ≤ b.1 + b.2 ∧ (n.childrenStartIndex - b.1) % 8 = 0) := by
  have hinv := fromDescriptor_storeInv d t hlen hg h
  refine ⟨hinv.levels_first, ?_, ?_⟩
  · intro l a b ha hb
    have h1 := hinv.levels_next l a b ha hb
    have h2 := StoreInv.level_end hinv hb
    have h3 := refinedBefore_add t a.1 a.2
    refine ⟨h1.1, ?_⟩
    unfold nodesStream
    rw [ha]
    simp only
    rw [← h1.1] at h3
    omega
  · intro l i a n ha h1 h2 hn hr
    obtain ⟨b, hb1, hb2, hb3, hb4, _⟩ := StoreInv.children_in_next hinv ha h1 h2 hn hr
    exact ⟨b, hb1, hb2, hb3, hb4⟩

theorem fromDescriptor_store_invariants_witness :
    ∃ t, fromDescriptor "X|....R..R|.P.P.P.P.P.P.P.P" = .ok t ∧
    t.levels_[0]? = some (0, 1) ∧
    (∀ (l : Nat) (a b : Nat × Nat), t.levels_[l]? = some a → t.levels_[l + 1]? = some b →
      b.1 = a.1 + a.2 ∧ b.2 = 8 * (t.nodesStream l).countP Node.isRefined) ∧
    (∀ (l i : Nat) (a : Nat × Nat) (n : Node), t.levels_[l]? = some a → a.1 ≤ i →
      i < a.1 + a.2 → t.nodesStream_[i]? = some n → n.isRefined = true →
      ∃ b, t.levels_[l + 1]? = some b ∧ b.1 ≤ n.childrenStartIndex ∧
        n.childrenStartIndex + 8 ≤ b.1 + b.2 ∧ (n.childrenStartIndex - b.1) % 8 = 0) := by
  have hok : (fromDescriptor "X|....R..R|.P.P.P.P.P.P.P.P").isOk = true := by decide
  cases hfd : fromDescriptor "X|....R..R|.P.P.P.P.P.P.P.P" with
  | error e => rw [hfd] at hok; cases hok
  | ok t =>
    exact ⟨t, rfl, fromDescriptor_store_invariants "X|....R..R|.P.P.P.P.P.P.P.P" t
      (by decide) (by decide) hfd⟩

end CellOctree

namespace CellOctree

/-! ## Uniform grids -/

theorem uniformStart_succ (l : Nat) : uniformStart (l + 1) = 1 + 8 * uniformStart l := by
  induction l with
  | zero => simp [uniformStart]
  | succ l ih =>
    have h1 : uniformStart (l + 2) = uniformStart (l + 1) + 8 ^ (l + 1) := rfl
    have h2 : uniformStart (l + 1) = uniformStart l + 8 ^ l := rfl
    rw [h1, ih, pow_succ]
    omega

theorem seven_uniformStart (l : Nat) : 7 * uniformStart l + 1 = 8 ^ l := by
  induction l with
  | zero => simp [uniformStart]
  | succ l ih =>
    have h2 : uniformStart (l + 1) = uniformStart l + 8 ^ l := rfl
    rw [h2, pow_succ]; omega

theorem uniformStart_mono {l m : Nat} (h : l ≤ m) : uniformStart l ≤ uniformStart m := by
  induction m with
  | zero => have : l = 0 := by omega
            subst this; exact Nat.le_refl _
  | succ m ih =>
    rcases Nat.eq_or_lt_of_le h with h1 | h1
    · subst h1; exact Nat.le_refl _
    · have := ih (by omega)
      have h2 : uniformStart (m + 1) = uniformStart m + 8 ^ m := rfl
      have h3 : 0 < 8 ^ m := Nat.pos_pow_of_pos _ (by decide)
      omega

theorem uniformStart_lt {l : Nat} (h : l ≤ 21) : uniformStart l < 2 ^ 61 := by
  have h1 := seven_uniformStart l
  have h2 : 8 ^ l ≤ 8 ^ 21 := Nat.pow_le_pow_right (by decide) h
  norm_num at h2 ⊢
  omega

theorem uniformLevels_eq (k : Nat) : ∀ m : Nat, m + k ≤ 21 →
    uniformLevels k ((List.range (m + 1)).map (fun l => (uniformStart l, 8 ^ l))) =
      (List.range (m + 1 + k)).map (fun l => (uniformStart l, 8 ^ l)) := by
  induction k with
  | zero => intro m _; rfl
  | succ k ih =>
    intro m hm
    have hlast : ((List.range (m + 1)).map (fun l => (uniformStart l, 8 ^ l))).getLastD (0, 0) =
        (uniformStart m, 8 ^ m) := by
      rw [List.range_succ, List.map_append]
      simp
    have hs := uniformStart_lt (show m + 1 ≤ 21 by omega)
    have hp : 8 ^ (m + 1) ≤ 8 ^ 21 := Nat.pow_le_pow_right (by decide) (by omega)
    have hw1 : wrap (uniformStart m + 8 ^ m) = uniformStart (m + 1) := by
      unfold wrap WORD
      have h2 : uniformStart (m + 1) = uniformStart m + 8 ^ m := rfl
      rw [← h2]; exact Nat.mod_eq_of_lt (by omega)
    have hw2 : wrap (8 ^ m <<< 3) = 8 ^ (m + 1) := by
      unfold wrap WORD
      rw [Nat.shiftLeft_eq, pow_succ]
      norm_num at hp ⊢
      apply Nat.mod_eq_of_lt
      rw [pow_succ] at hp; omega
    unfold uniformLevels
    rw [hlast]
    simp only [hw1, hw2]
    have := ih (m + 1) (by omega)
    rw [List.range_succ (n := m + 1), List.map_append] at this
    simp only [List.map_cons, List.map_nil] at this
    rw [this]
    congr 2
    omega

theorem uniformGrid_eq (L : Nat) (h : L ≤ 20) :
    uniformGrid L =
      ⟨(List.range (uniformStart L)).map (fun i => Node.create true true (1 + 8 * i)) ++
          List.replicate (8 ^ L) Node.default,
        (List.range (L + 1)).map (fun l => (uniformStart l, 8 ^ l))⟩ := by
  have hlv := uniformLevels_eq L 0 (by omega)
  have e0 : (List.range (0 + 1)).map (fun l => (uniformStart l, 8 ^ l)) = [(0, 1)] := by
    simp [List.range_succ, uniformStart]
  rw [e0, Nat.zero_add] at hlv
  have hlast : ((List.range (L + 1)).map (fun l => (uniformStart l, 8 ^ l))).getLastD (0, 0) =
      (uniformStart L, 8 ^ L) := by
    rw [List.range_succ, List.map_append]
    simp
  have hs := uniformStart_lt (show L + 1 ≤ 21 by omega)
  have h2 : uniformStart (L + 1) = uniformStart L + 8 ^ L := rfl
  have h3 := uniformStart_succ L
  have hw1 : wrap (uniformStart L + 8 ^ L) = uniformStart (L + 1) := by
    unfold wrap WORD
    rw [← h2]; exact Nat.mod_eq_of_lt (by omega)
  unfold uniformGrid
  rw [hlv, Nat.add_comm 1 L]
  simp only [hlast]
  simp only [hw1]
  have : (uniformStart (L + 1) - 1 + 7) / 8 = uniformStart L := by omega
  rw [this]

end CellOctree

namespace CellOctree

theorem countP_refined_map_create (l : List Nat) :
    (l.map (fun i => Node.create true true (1 + 8 * i))).countP Node.isRefined = l.length := by
  induction l with
  | nil => rfl
  | cons a l ih => simp [List.countP_cons, Node.isRefined_create, ih]

theorem countP_refined_replicate_default (k : Nat) :
    (List.replicate k Node.default).countP Node.isRefined = 0 := by
  rw [List.countP_eq_zero]
  intro a ha
  rw [List.eq_of_mem_replicate ha]
  decide

theorem uniform_refinedBefore (R k : Nat) (lv : List (Nat × Nat)) (i : Nat) :
    refinedBefore ⟨(List.range R).map (fun i => Node.create true true (1 + 8 * i)) ++
      List.replicate k Node.default, lv⟩ i = min i R := by
  unfold refinedBefore
  simp only
  rcases Nat.le_total i R with h | h
  · rw [List.take_append_of_le_length (by simp; exact h), ← List.map_take,
      countP_refined_map_create, List.length_take, List.length_range]
  · have hlen : ((List.range R).map (fun i => Node.create true true (1 + 8 * i))).length = R := by
      simp
    rw [List.take_append_eq_append_take, List.countP_append, List.take_of_length_le (by omega),
      countP_refined_map_create, List.length_range, hlen]
    have : (List.take (i - R) (List.replicate k Node.default)).countP Node.isRefined = 0 := by
      rw [List.take_replicate]; exact countP_refined_replicate_default _
    omega

theorem uniform_getElem (R k : Nat) (i : Nat) (n : Node)
    (h : ((List.range R).map (fun i => Node.create true true (1 + 8 * i)) ++
      List.replicate k Node.default)[i]? = some n) :
    (i < R ∧ n = Node.create true true (1 + 8 * i)) ∨ (R ≤ i ∧ n = Node.default) := by
  have hlen : ((List.range R).map (fun i => Node.create true true (1 + 8 * i))).length = R := by
    simp
  rcases Nat.lt_or_ge i R with hi | hi
  · left
    rw [List.getElem?_append_left (by omega), List.getElem?_map,
      List.getElem?_range hi] at h
    simp at h
    exact ⟨hi, h.symm⟩
  · right
    rw [List.getElem?_append_right (by omega)] at h
    have := List.getElem?_mem h
    exact ⟨hi, List.eq_of_mem_replicate this⟩

theorem uniformGrid_storeInv (L : Nat) (h : L ≤ 20) : StoreInv (uniformGrid L) := by
  rw [uniformGrid_eq L h]
  have hs := uniformStart_lt (show L + 1 ≤ 21 by omega)
  have h2 : uniformStart (L + 1) = uniformStart L + 8 ^ L := rfl
  have h3 := uniformStart_succ L
  have hlen : ((List.range (uniformStart L)).map (fun i => Node.create true true (1 + 8 * i)) ++
      List.replicate (8 ^ L) Node.default).length = uniformStart (L + 1) := by
    simp; omega
  have hlv : ∀ (l : Nat) (a : Nat × Nat),
      ((List.range (L + 1)).map (fun l => (uniformStart l, 8 ^ l)))[l]? = some a →
      l ≤ L ∧ a = (uniformStart l, 8 ^ l) := by
    intro l a ha
    have hl : l < L + 1 := by
      by_contra hge
      rw [List.getElem?_eq_none (by simp; omega)] at ha; cases ha
    rw [List.getElem?_map, List.getElem?_range hl] at ha
    simp at ha
    exact ⟨by omega, ha.symm⟩
  have hlast : ((List.range (L + 1)).map (fun l => (uniformStart l, 8 ^ l))).getLast? =
      some (uniformStart L, 8 ^ L) := by
    rw [List.range_succ, List.map_append]; simp
  constructor
  · show _ < 2 ^ 61
    rw [hlen]; exact hs
  · show ((List.range (L + 1)).map (fun l => (uniformStart l, 8 ^ l)))[0]? = some (0, 1)
    rw [List.getElem?_map, List.getElem?_range (by omega)]
    simp [uniformStart]
  · intro l a b ha hb
    obtain ⟨hl1, rfl⟩ := hlv l a ha
    obtain ⟨hl2, rfl⟩ := hlv (l + 1) b hb
    refine ⟨rfl, ?_⟩
    rw [uniform_refinedBefore]
    have := uniformStart_mono (show l ≤ L by omega)
    show uniformStart (l + 1) = 1 + 8 * min (uniformStart l) (uniformStart L)
    rw [Nat.min_eq_left this]
    exact uniformStart_succ l
  · intro a ha
    rw [show (CellOctree.mk _ ((List.range (L + 1)).map (fun l => (uniformStart l, 8 ^ l)))).levels_
      = (List.range (L + 1)).map (fun l => (uniformStart l, 8 ^ l)) from rfl, hlast] at ha
    injection ha with ha
    subst ha
    rw [uniform_refinedBefore]
    show uniformStart L + 8 ^ L = _ ∧ _ = 1 + 8 * min (uniformStart L) (uniformStart L)
    rw [Nat.min_self]
    simp only
    rw [hlen]
    exact ⟨h2.symm, h3⟩
  · intro a i n ha hi hn
    rw [show (CellOctree.mk _ ((List.range (L + 1)).map (fun l => (uniformStart l, 8 ^ l)))).levels_
      = (List.range (L + 1)).map (fun l => (uniformStart l, 8 ^ l)) from rfl, hlast] at ha
    injection ha with ha
    subst ha
    rcases uniform_getElem _ _ i n hn with ⟨h1, _⟩ | ⟨_, h1⟩
    · exact absurd hi (by show ¬ uniformStart L ≤ i; omega)
    · rw [h1]; decide
  · intro i n hn hr
    rw [uniform_refinedBefore]
    rcases uniform_getElem _ _ i n hn with ⟨h1, h4⟩ | ⟨_, h1⟩
    · rw [h4, Node.childrenStartIndex_create, Nat.min_eq_left (by omega)]
      exact Nat.mod_eq_of_lt (by omega)
    · rw [h1] at hr
      exact absurd hr (by decide)

/-- Every well-formed octree has the level-grouped layout. -/
theorem WellFormed.storeInv {t : CellOctree} (h : WellFormed t) : StoreInv t := by
  rcases h with ⟨d, hlen, hg, hd⟩ | ⟨L, hL, rfl⟩
  · exact fromDescriptor_storeInv d t hlen hg hd
  · exact uniformGrid_storeInv L hL

theorem uniformStart_eq (l : Nat) : uniformStart l = (8 ^ l - 1) / 7 := by
  have h := seven_uniformStart l
  have hp : 0 < 8 ^ l := Nat.pos_pow_of_pos _ (by decide)
  omega

/-- For the levels up to `20`, `createUniformGrid` is its two reservations followed by
the octree `uniformGrid`. -/
theorem createUniformGrid_unfold (available L : Nat) (h : L ≤ 20) :
    createUniformGrid available L =
      (reserve 16 available (L + 1)).bind (fun rest =>
        (reserve 8 rest (uniformStart (L + 1))).bind (fun _ => .ok (uniformGrid L))) := by
  have hlv := uniformLevels_eq L 0 (by omega)
  have e0 : (List.range (0 + 1)).map (fun l => (uniformStart l, 8 ^ l)) = [(0, 1)] := by
    simp [List.range_succ, uniformStart]
  rw [e0, Nat.zero_add] at hlv
  have hlast : ((List.range (L + 1)).map (fun l => (uniformStart l, 8 ^ l))).getLastD (0, 0) =
      (uniformStart L, 8 ^ L) := by
    rw [List.range_succ, List.map_append]
    simp
  have hs := uniformStart_lt (show L + 1 ≤ 21 by omega)
  have h2 : uniformStart (L + 1) = uniformStart L + 8 ^ L := rfl
  have hw1 : wrap (uniformStart L + 8 ^ L) = uniformStart (L + 1) := by
    unfold wrap WORD
    rw [← h2]; exact Nat.mod_eq_of_lt (by omega)
  have hw0 : wrap (L + 1) = L + 1 := by
    unfold wrap WORD
    exact Nat.mod_eq_of_lt (by omega)
  have hnot : ¬ (L + 1 ≥ WORD) := by unfold WORD; omega
  unfold createUniformGrid uniformGrid
  rw [hw0]
  cases h16 : reserve 16 available (L + 1) with
  | error e => rfl
  | ok rest =>
    dsimp only [Except.bind]
    rw [if_neg hnot, hlv, Nat.add_comm 1 L]
    simp only [hlast]
    simp only [hw1]
    cases h8 : reserve 8 rest (uniformStart (L + 1)) with
    | error e => rfl
    | ok r2 => rfl

/-- For the levels up to `19`, `createUniformGrid` returns `uniformGrid` as soon as the
allocator can provide the level table and the node stream. -/
theorem createUniformGrid_ok (available L : Nat) (hL : L ≤ 19)
    (hmem : 16 * (L + 1) + 8 * ((8 ^ (L + 1) - 1) / 7) ≤ available) :
    createUniformGrid available L = .ok (uniformGrid L) := by
  rw [createUniformGrid_unfold available L (by omega)]
  rw [← uniformStart_eq] at hmem
  have hs : uniformStart (L + 1) ≤ uniformStart 20 := by
    rw [uniformStart_eq, uniformStart_eq]
    have hp : 8 ^ (L + 1) ≤ 8 ^ 20 := Nat.pow_le_pow_right (by decide) (by omega)
    omega
  have h20 : uniformStart 20 = 164703072086692425 := by decide
  rw [h20] at hs
  have r1 : reserve 16 available (L + 1) = .ok (available - (L + 1) * 16) := by
    unfold reserve vectorMaxSize
    rw [if_neg (by norm_num; omega), if_neg (by omega)]
  rw [r1]
  dsimp only [Except.bind]
  have r2 : reserve 8 (available - (L + 1) * 16) (uniformStart (L + 1)) =
      .ok (available - (L + 1) * 16 - uniformStart (L + 1) * 8) := by
    unfold reserve vectorMaxSize
    rw [if_neg (by norm_num; omega), if_neg (by omega)]
  rw [r2]

/-- At level `20` the node stream would have `(8 ^ 21 - 1) / 7` nodes, more than
`max_size()`: `nodes.reserve` throws `std::length_error`, unless the level table already
failed to be reserved. -/
theorem createUniformGrid_twenty (available : Nat) :
    createUniformGrid available 20 =
      if 336 ≤ available then .error .lengthError else .error .badAlloc := by
  rw [createUniformGrid_unfold available 20 (by omega)]
  have h21 : uniformStart (20 + 1) = 1317624576693539401 := by decide
  rw [h21]
  unfold reserve vectorMaxSize
  by_cases h : 336 ≤ available
  · rw [if_pos h, if_neg (by norm_num), if_neg (by omega)]
    dsimp only [Except.bind]
    rw [if_pos (by norm_num)]
  · rw [if_neg h, if_neg (by norm_num), if_pos (by omega)]
    rfl

/-- With a petabyte of memory, the reservation of the node stream fails at the levels
`18` and `19`. -/
theorem createUniformGrid_petabyte :
    createUniformGrid (2 ^ 50) 18 = .error .badAlloc ∧
    createUniformGrid (2 ^ 50) 19 = .error .badAlloc := by
  constructor
  · rw [createUniformGrid_unfold _ 18 (by omega)]
    decide
  · rw [createUniformGrid_unfold _ 19 (by omega)]
    decide

end CellOctree

namespace CellOctree

/-! ## Lookup by Morton key -/

theorem StoreInv.root_exists {t : CellOctree} (h : StoreInv t) :
    ∃ root, t.nodesStream_[0]? = some root := by
  have h1 := StoreInv.level_end_le h h.levels_first
  exact ⟨t.nodesStream_[0], List.getElem?_eq_getElem (by simp at h1; omega)⟩

theorem walk_getCellLoop {t : CellOctree} (h : StoreInv t) (path : List Nat) :
    ∀ (l : Nat) (a : Nat × Nat) (i : Nat) (n : Node), t.levels_[l]? = some a → a.1 ≤ i →
    i < a.1 + a.2 → t.nodesStream_[i]? = some n → (∀ c ∈ path, c < 8) →
    (walk t path i = none → getCellLoop t.nodesStream_ path i n = .ok none) ∧
    (∀ j, walk t path i = some j → ∃ (m : Node) (b : Nat × Nat), t.nodesStream_[j]? = some m ∧
      getCellLoop t.nodesStream_ path i n = .ok (some (j, m)) ∧
      t.levels_[l + path.length]? = some b ∧ b.1 ≤ j ∧ j < b.1 + b.2) := by
  induction path with
  | nil =>
    intro l a i n ha h1 h2 hn _
    refine ⟨fun hw => by simp [walk] at hw, ?_⟩
    intro j hw
    simp only [walk, Option.some.injEq] at hw
    subst hw
    exact ⟨n, a, hn, rfl, by simpa using ha, h1, h2⟩
  | cons c rest ih =>
    intro l a i n ha h1 h2 hn hp
    have hc : c < 8 := hp c (List.mem_cons_self _ _)
    have hrest : ∀ x ∈ rest, x < 8 := fun x hx => hp x (List.mem_cons_of_mem _ hx)
    simp only [walk, hn, getCellLoop]
    by_cases hr : n.isRefined = true
    · obtain ⟨b, hb, hb1, hb2, _, _⟩ := StoreInv.children_in_next h ha h1 h2 hn hr
      have hble := StoreInv.level_end_le h hb
      have hsz := h.size_lt
      have hidx : n.childIndex c = n.childrenStartIndex + c := by
        unfold Node.childIndex wrap WORD
        exact Nat.mod_eq_of_lt (by omega)
      have hlt : n.childrenStartIndex + c < t.nodesStream_.length := by omega
      obtain ⟨next, hnext⟩ : ∃ next, t.nodesStream_[n.childrenStartIndex + c]? = some next :=
        ⟨t.nodesStream_[n.childrenStartIndex + c], List.getElem?_eq_getElem hlt⟩
      simp only [hr, if_true, Bool.not_true, Bool.false_eq_true, if_false, hidx, hnext]
      have := ih (l + 1) b (n.childrenStartIndex + c) next hb (by omega) (by omega) hnext hrest
      have e : l + 1 + rest.length = l + (c :: rest).length := by simp; omega
      rw [e] at this
      exact this
    · have hr' : n.isRefined = false := by simpa using hr
      simp [hr']

theorem getCell_eq_cellAt {t : CellOctree} (h : StoreInv t) {k : MortonIndex} (hk : k.Valid)
    {path : List Nat} (hp : MortonIndex.getPath k = .ok path) :
    getCell t k = .ok (cellAt t k path) := by
  obtain ⟨hbits, _, hlt, _, hlen⟩ := MortonIndex.valid_data hk hp
  obtain ⟨root, hroot⟩ := StoreInv.root_exists h
  have hl0 := h.levels_first
  unfold getCell cellAt
  by_cases hr : k.isRoot = true
  · have hb : k.bits = 1 := by
      unfold MortonIndex.isRoot at hr
      exact eq_of_beq hr
    have hpath : path = [] := by
      have : MortonIndex.getPath k = .ok [] := by
        have hk1 : k = MortonIndex.mk 1 := by
          cases k with
          | mk b => cases hb; rfl
        rw [hk1]; decide
      rw [this] at hp
      injection hp with hp
      exact hp.symm
    subst hpath
    rw [if_pos hr, hroot]
    simp only [walk]
    rw [hroot]
    dsimp only
    split <;> rfl
  · rw [if_neg hr, hroot, hp]
    dsimp only
    obtain ⟨h1, h2⟩ := walk_getCellLoop h path 0 (0, 1) 0 root hl0 (Nat.le_refl _)
      (Nat.lt_succ_self 0) hroot hlt
    by_cases hlev : k.level ≥ t.numberOfLevels
    · rw [if_pos hlev]
      cases hw : walk t path 0 with
      | none => rfl
      | some j =>
        obtain ⟨m, b, _, _, hb, _, _⟩ := h2 j hw
        rw [Nat.zero_add, hlen] at hb
        unfold numberOfLevels at hlev
        rw [List.getElem?_eq_none hlev] at hb
        cases hb
    · rw [if_neg hlev]
      cases hw : walk t path 0 with
      | none => rw [h1 hw]
      | some j =>
        obtain ⟨m, b, hm, hloop, _, _, _⟩ := h2 j hw
        rw [hloop]
        dsimp only
        rw [hm]
        dsimp only
        split <;> rfl

theorem cellAt_eq_some {t : CellOctree} {k : MortonIndex} {path : List Nat} {v : CellView} :
    cellAt t k path = some v ↔
      ∃ (i : Nat) (n : Node), walk t path 0 = some i ∧ t.nodesStream_[i]? = some n ∧
        n.isPhantom = false ∧ v = CellView.create n k i := by
  unfold cellAt
  cases hw : walk t path 0 with
  | none =>
    dsimp only
    constructor
    · intro h; cases h
    · rintro ⟨i, n, h, _⟩; cases h
  | some i =>
    dsimp only
    cases hn : t.nodesStream_[i]? with
    | none =>
      dsimp only
      constructor
      · intro h; cases h
      · rintro ⟨i', n, h1, h2, _⟩
        injection h1 with h1
        subst h1
        rw [hn] at h2; cases h2
    | some n =>
      dsimp only
      cases hph : n.isPhantom with
      | true =>
        rw [if_pos rfl]
        constructor
        · intro h; cases h
        · rintro ⟨i', n', h1, h2, h3, _⟩
          injection h1 with h1
          subst h1
          rw [hn] at h2
          injection h2 with h2
          subst h2
          rw [hph] at h3; cases h3
      | false =>
        rw [if_neg (by simp)]
        constructor
        · intro h
          injection h with h
          exact ⟨i, n, rfl, hn, hph, h.symm⟩
        · rintro ⟨i', n', h1, h2, _, h4⟩
          injection h1 with h1
          subst h1
          rw [hn] at h2
          injection h2 with h2
          subst h2
          rw [h4]

/-- C8: for every well-formed octree and every valid Morton key `k` (with path `path`),
`getCell k` returns a cell view if and only if the walk from the root along the path of
`k` finds every intermediate node refined and ends on a node that is not phantom; a returned
view carries the key `k`, the level of `k` and the stream index of that final node; in
every other case `getCell` returns none (it never throws). -/
theorem getCell_iff_walk (t : CellOctree) (k : MortonIndex) (hwf : WellFormed t)
    (hk : k.Valid) :
    ∃ path, MortonIndex.getPath k = .ok path ∧
      getCell t k = .ok (cellAt t k path) ∧
      ((∃ v, getCell t k = .ok (some v)) ↔
        ∃ (i : Nat) (n : Node), walk t path 0 = some i ∧ t.nodesStream_[i]? = some n ∧
          n.isPhantom = false) ∧
      (∀ v, getCell t k = .ok (some v) →
        v.m = k ∧ v.level = k.level ∧ walk t path 0 = some v.streamIndex) ∧
      ((¬ ∃ v, getCell t k = .ok (some v)) → getCell t k = .ok none) := by
  obtain ⟨path, hp, _⟩ := MortonIndex.valid_path hk
  have heq := getCell_eq_cellAt hwf.storeInv hk hp
  refine ⟨path, hp, heq, ?_, ?_, ?_⟩
  · rw [heq]
    constructor
    · rintro ⟨v, hv⟩
      injection hv with hv
      obtain ⟨i, n, h1, h2, h3, _⟩ := cellAt_eq_some.1 hv
      exact ⟨i, n, h1, h2, h3⟩
    · rintro ⟨i, n, hw, hn, hph⟩
      exact ⟨CellView.create n k i, by rw [cellAt_eq_some.2 ⟨i, n, hw, hn, hph, rfl⟩]⟩
  · intro v hv
    rw [heq] at hv
    injection hv with hv
    obtain ⟨i, n, h1, _, _, h4⟩ := cellAt_eq_some.1 hv
    subst h4
    exact ⟨rfl, rfl, h1⟩
  · intro hno
    rw [heq] at hno ⊢
    cases hc : cellAt t k path with
    | none => rfl
    | some v => exact absurd ⟨v, by rw [hc]⟩ hno

theorem getCell_iff_walk_witness :
    ∃ t, fromDescriptor "X|..PP..RX|................" = .ok t ∧
    ∃ path, MortonIndex.getPath ⟨0b1000⟩ = .ok path ∧
      getCell t ⟨0b1000⟩ = .ok (cellAt t ⟨0b1000⟩ path) ∧
      ((∃ v, getCell t ⟨0b1000⟩ = .ok (some v)) ↔
        ∃ (i : Nat) (n : Node), walk t path 0 = some i ∧ t.nodesStream_[i]? = some n ∧
          n.isPhantom = false) ∧
      (∀ v, getCell t ⟨0b1000⟩ = .ok (some v) →
        v.m = ⟨0b1000⟩ ∧ v.level = MortonIndex.level ⟨0b1000⟩ ∧
          walk t path 0 = some v.streamIndex) ∧
      ((¬ ∃ v, getCell t ⟨0b1000⟩ = .ok (some v)) → getCell t ⟨0b1000⟩ = .ok none) := by
  have hok : (fromDescriptor "X|..PP..RX|................").isOk = true := by decide
  cases hfd : fromDescriptor "X|..PP..RX|................" with
  | error e => rw [hfd] at hok; cases hok
  | ok t =>
    exact ⟨t, rfl, getCell_iff_walk t ⟨0b1000⟩
      (Or.inl ⟨"X|..PP..RX|................", by decide, by decide, hfd⟩) (by decide)⟩

end CellOctree

/-! ## Cursor paths that name a node -/

namespace CellOctree

theorem StoreInv.children_mod {t : CellOctree} (h : StoreInv t) {i : Nat} {n : Node}
    (hn : t.nodesStream_[i]? = some n) (hr : n.isRefined = true) :
    n.childrenStartIndex % 8 = 1 ∧ 1 ≤ n.childrenStartIndex := by
  have := h.children i n hn hr
  omega

theorem getElem?_lt_length {α : Type} {l : List α} {i : Nat} {x : α} (h : l[i]? = some x) :
    i < l.length := by
  by_contra hge
  rw [List.getElem?_eq_none (by omega)] at h; cases h

theorem Chain.level {t : CellOctree} (h : StoreInv t) : ∀ (up : List Nat) (i : Nat),
    Chain t (i :: up) →
    ∃ (a : Nat × Nat) (n : Node), t.levels_[up.length]? = some a ∧ a.1 ≤ i ∧ i < a.1 + a.2 ∧
      t.nodesStream_[i]? = some n := by
  intro up
  induction up with
  | nil =>
    intro i hc
    simp only [Chain] at hc
    subst hc
    obtain ⟨root, hroot⟩ := StoreInv.root_exists h
    exact ⟨(0, 1), root, h.levels_first, Nat.le_refl _, Nat.lt_succ_self 0, hroot⟩
  | cons j up ih =>
    intro i hc
    simp only [Chain] at hc
    obtain ⟨⟨nj, hnj, hr, h1, h2⟩, hc'⟩ := hc
    obtain ⟨a, _, ha, ha1, ha2, _⟩ := ih j hc'
    obtain ⟨b, hb, hb1, hb2, _, _⟩ := StoreInv.children_in_next h ha ha1 ha2 hnj hr
    have hble := StoreInv.level_end_le h hb
    have hlt : i < t.nodesStream_.length := by omega
    exact ⟨b, t.nodesStream_[i], hb, by omega, by omega, List.getElem?_eq_getElem hlt⟩

theorem Chain.ne_nil {t : CellOctree} {p : List Nat} (h : Chain t p) : p ≠ [] := by
  intro hp; subst hp; exact h

theorem Chain.length_le {t : CellOctree} (h : StoreInv t) {p : List Nat} (hc : Chain t p) :
    p.length ≤ t.numberOfLevels := by
  cases p with
  | nil => exact absurd hc (by simp [Chain])
  | cons i up =>
    obtain ⟨a, _, ha, _⟩ := Chain.level h up i hc
    have := getElem?_lt_length ha
    simp only [List.length_cons, numberOfLevels]; omega

theorem walk_append (t : CellOctree) (p q : List Nat) : ∀ i : Nat,
    walk t (p ++ q) i = (walk t p i).bind (walk t q) := by
  induction p with
  | nil => intro i; rfl
  | cons c p ih =>
    intro i
    simp only [List.cons_append, walk]
    cases hn : t.nodesStream_[i]? with
    | none => rfl
    | some n =>
      dsimp only
      by_cases hr : n.isRefined = true
      · rw [if_pos hr, if_pos hr]; exact ih _
      · rw [if_neg hr, if_neg hr]; rfl

theorem selectors_length : ∀ p : List Nat, (selectors p).length = p.length - 1
  | [] => rfl
  | [_] => rfl
  | i :: j :: up => by
    have := selectors_length (j :: up)
    simp only [selectors, List.length_append, List.length_cons, List.length_nil] at this ⊢
    omega

theorem selectors_lt : ∀ p : List Nat, ∀ c ∈ selectors p, c < 8
  | [], c, hc => by simp [selectors] at hc
  | [_], c, hc => by simp [selectors] at hc
  | i :: j :: up, c, hc => by
    simp only [selectors, List.mem_append, List.mem_singleton] at hc
    rcases hc with hc | hc
    · exact selectors_lt (j :: up) c hc
    · rw [hc]; exact Nat.mod_lt _ (by decide)

end CellOctree

namespace OctreeCursor

theorem mortonIndex_cons (i j : Nat) (up : List Nat) (h1 : 0 < i) (h2 : i < WORD) :
    mortonIndex ⟨i :: j :: up⟩ = (mortonIndex ⟨j :: up⟩).child ((i - 1) % 8) := by
  unfold mortonIndex MortonIndex.child
  have hw : wrap (i + WORD - 1) = i - 1 := by
    unfold wrap
    have : i + WORD - 1 = (i - 1) + WORD := by omega
    rw [this, Nat.add_mod_right]; exact Nat.mod_eq_of_lt (by omega)
  simp only [List.dropLast_cons₂, List.foldr_cons, hw, MortonIndex.land_seven]

end OctreeCursor

namespace CellOctree

theorem Chain.morton {t : CellOctree} (h : StoreInv t) : ∀ p : List Nat, Chain t p →
    p.length ≤ 22 →
    (OctreeCursor.mortonIndex ⟨p⟩).bits = MortonIndex.ofPath (selectors p) ∧
      walk t (selectors p) 0 = p.head? := by
  intro p
  induction p with
  | nil => intro hc; exact absurd hc (by simp [Chain])
  | cons i up ih =>
    cases up with
    | nil =>
      intro hc _
      simp only [Chain] at hc
      subst hc
      exact ⟨rfl, rfl⟩
    | cons j up =>
      intro hc hlen
      have hc0 := hc
      simp only [Chain] at hc
      obtain ⟨⟨nj, hnj, hr, h1, h2⟩, hc'⟩ := hc
      simp only [List.length_cons] at hlen
      obtain ⟨hbits, hwalk⟩ := ih hc' (by simp only [List.length_cons]; omega)
      obtain ⟨a, _, _, _, _, hni⟩ := Chain.level h (j :: up) i hc0
      have hilt := getElem?_lt_length hni
      have hsz := h.size_lt
      obtain ⟨hmod, hpos⟩ := StoreInv.children_mod h hnj hr
      have hsel := selectors_length (j :: up)
      have hsl := selectors_lt (j :: up)
      simp only [List.length_cons] at hsel
      have hB := (MortonIndex.ofPath_bounds (selectors (j :: up)) hsl).2
      have hp : 8 ^ (selectors (j :: up)).length ≤ 8 ^ 20 :=
        Nat.pow_le_pow_right (by decide) (by omega)
      constructor
      · rw [OctreeCursor.mortonIndex_cons i j up (by omega) (by unfold WORD; omega),
          MortonIndex.child_bits (by rw [hbits]; norm_num at hp ⊢; omega)
            (Nat.mod_lt _ (by decide)), hbits]
        simp only [selectors]
        rw [MortonIndex.ofPath_append_single]
      · simp only [selectors]
        rw [walk_append, hwalk]
        simp only [List.head?_cons, Option.bind_some]
        show (walk t [(i - 1) % 8] j) = some i
        simp only [walk, hnj, hr, if_true, Option.some.injEq]
        omega

/-- The cell view of a cursor that names a node no deeper than the maximal key depth. -/
theorem Chain.currentCell {t : CellOctree} (h : StoreInv t) {i : Nat} {up : List Nat} {n : Node}
    (hc : Chain t (i :: up)) (hlen : (i :: up).length ≤ 22) (hn : t.nodesStream_[i]? = some n) :
    OctreeCursor.currentCell t ⟨i :: up⟩ =
      if n.isPhantom = true then none
      else some (CellView.create n (OctreeCursor.mortonIndex ⟨i :: up⟩) i) := by
  obtain ⟨hbits, hwalk⟩ := Chain.morton h (i :: up) hc hlen
  have hsel := selectors_length (i :: up)
  have hsl := selectors_lt (i :: up)
  simp only [List.length_cons] at hsel hlen
  have hk : OctreeCursor.mortonIndex ⟨i :: up⟩ = ⟨MortonIndex.ofPath (selectors (i :: up))⟩ := by
    cases hm : OctreeCursor.mortonIndex ⟨i :: up⟩ with
    | mk b => rw [hm] at hbits; simp only at hbits; rw [hbits]
  have hvalid := MortonIndex.valid_ofPath (selectors (i :: up)) hsl (by omega)
  have hpath := MortonIndex.getPath_ofPath (selectors (i :: up)) hsl (by omega)
  unfold OctreeCursor.currentCell
  rw [hk, getCell_eq_cellAt h hvalid hpath]
  dsimp only
  unfold cellAt
  rw [hwalk]
  simp only [List.head?_cons, hn]

end CellOctree

namespace CellOctree

theorem currentNode_of_level {t : CellOctree} (h : StoreInv t) {i : Nat} {up : List Nat}
    {a : Nat × Nat} {n : Node} (ha : t.levels_[up.length]? = some a) (h1 : a.1 ≤ i)
    (h2 : i < a.1 + a.2) (hn : t.nodesStream_[i]? = some n) :
    OctreeCursor.currentNode t ⟨i :: up⟩ = .ok n := by
  have hlt := getElem?_lt_length hn
  have hsz := h.size_lt
  have hw : wrap (i + WORD - a.1) = i - a.1 := by
    unfold wrap
    have : i + WORD - a.1 = (i - a.1) + WORD := by omega
    rw [this, Nat.add_mod_right]
    exact Nat.mod_eq_of_lt (by unfold WORD; omega)
  obtain ⟨a1, a2⟩ := a
  unfold OctreeCursor.currentNode
  simp only [ha]
  simp only at hw h1 h2
  rw [hw, if_neg (by omega), hn]

theorem Chain.currentNode {t : CellOctree} (h : StoreInv t) {i : Nat} {up : List Nat}
    {n : Node} (hc : Chain t (i :: up)) (hn : t.nodesStream_[i]? = some n) :
    OctreeCursor.currentNode t ⟨i :: up⟩ = .ok n := by
  obtain ⟨a, _, ha, h1, h2, _⟩ := Chain.level h up i hc
  exact currentNode_of_level h ha h1 h2 hn

theorem Chain.node {t : CellOctree} (h : StoreInv t) {p : List Nat} (hc : Chain t p) :
    ∃ i up n, p = i :: up ∧ t.nodesStream_[i]? = some n := by
  cases p with
  | nil => exact absurd hc (by simp [Chain])
  | cons i up =>
    obtain ⟨_, n, _, _, _, hn⟩ := Chain.level h up i hc
    exact ⟨i, up, n, rfl, hn⟩

theorem Chain.child {t : CellOctree} {i : Nat} {up : List Nat} {n : Node}
    (hc : Chain t (i :: up)) (hn : t.nodesStream_[i]? = some n) (hr : n.isRefined = true)
    {x : Nat} (h1 : n.childrenStartIndex ≤ x) (h2 : x < n.childrenStartIndex + 8) :
    Chain t (x :: i :: up) :=
  ⟨⟨n, hn, hr, h1, h2⟩, hc⟩

theorem Chain.next {t : CellOctree} (h : StoreInv t) {i j : Nat} {up : List Nat}
    (hc : Chain t (i :: j :: up)) (hi : i % 8 ≠ 0) : Chain t ((i + 1) :: j :: up) := by
  obtain ⟨⟨n, hn, hr, h1, h2⟩, hc2⟩ := hc
  have := h.children_mod hn hr
  exact ⟨⟨n, hn, hr, by omega, by omega⟩, hc2⟩

theorem range_eight_map {α : Type} (f : Nat → α) :
    (List.range 8).map f = [f 0, f 1, f 2, f 3, f 4, f 5, f 6, f 7] := rfl

theorem childPaths_refined {t : CellOctree} {i : Nat} {up : List Nat} {n : Node}
    (hn : t.nodesStream_[i]? = some n) (hr : n.isRefined = true) :
    childPaths t (i :: up) = (n.childrenStartIndex :: i :: up) ::
      laterSiblings (n.childrenStartIndex :: i :: up) ∨ n.childrenStartIndex % 8 ≠ 1 := by
  by_cases hm : n.childrenStartIndex % 8 = 1
  · left
    unfold childPaths laterSiblings
    simp only [hn, hr, if_true]
    have : (8 - n.childrenStartIndex % 8) % 8 = 7 := by omega
    rw [this, range_eight_map]
    simp [List.range']
  · right; exact hm

theorem childPaths_unrefined {t : CellOctree} {i : Nat} {up : List Nat} {n : Node}
    (hn : t.nodesStream_[i]? = some n) (hr : n.isRefined = false) :
    childPaths t (i :: up) = [] := by
  unfold childPaths
  simp [hn, hr]

theorem subtree_rest (t : CellOctree) (q : List Nat) (hq : q.length ≤ t.numberOfLevels) :
    subtreePaths t (t.numberOfLevels + 1 - q.length) q ++
      restPaths t (t.numberOfLevels + 1 - q.length) q = q :: followPaths t q := by
  have : t.numberOfLevels + 1 - q.length = (t.numberOfLevels - q.length) + 1 := by omega
  unfold followPaths
  rw [this, subtreePaths]
  simp

theorem laterSiblings_next (i j : Nat) (up : List Nat) (hi : i % 8 ≠ 0) :
    laterSiblings (i :: j :: up) = ((i + 1) :: j :: up) :: laterSiblings ((i + 1) :: j :: up) := by
  have : (8 - i % 8) % 8 = (8 - (i + 1) % 8) % 8 + 1 := by omega
  show List.map _ (List.range' (i + 1) ((8 - i % 8) % 8)) = _ :: List.map _ _
  rw [this, List.range'_succ]
  simp

theorem laterSiblings_last (i j : Nat) (up : List Nat) (hi : i % 8 = 0) :
    laterSiblings (i :: j :: up) = [] := by
  have : (8 - i % 8) % 8 = 0 := by omega
  show List.map _ (List.range' (i + 1) ((8 - i % 8) % 8)) = _
  rw [this]; rfl

theorem restPaths_next (t : CellOctree) (d i j : Nat) (up : List Nat) (hi : i % 8 ≠ 0) :
    restPaths t d (i :: j :: up) =
      subtreePaths t d ((i + 1) :: j :: up) ++ restPaths t d ((i + 1) :: j :: up) := by
  rw [restPaths, restPaths, laterSiblings_next i j up hi]
  simp

theorem restPaths_last (t : CellOctree) (d i j : Nat) (up : List Nat) (hi : i % 8 = 0) :
    restPaths t d (i :: j :: up) = restPaths t (d + 1) (j :: up) := by
  rw [restPaths, laterSiblings_last i j up hi]
  simp

theorem land_seven_mod (i : Nat) : i &&& 7 = i % 8 := by
  have := Nat.and_pow_two_sub_one_eq_mod i 3
  simpa using this

theorem wrap_succ {t : CellOctree} (h : StoreInv t) {i : Nat} {n : Node}
    (hn : t.nodesStream_[i]? = some n) : wrap (i + 1) = i + 1 := by
  have := getElem?_lt_length hn
  have := h.size_lt
  unfold wrap WORD
  exact Nat.mod_eq_of_lt (by omega)

end CellOctree

namespace CellOctree

theorem lastSibling_cons (i j : Nat) (up : List Nat) :
    OctreeCursor.lastSibling ⟨i :: j :: up⟩ = decide (i % 8 = 0) := by
  show ((i &&& 7) == 0) = _
  rw [land_seven_mod]
  by_cases h : i % 8 = 0 <;> simp [h]

theorem ascendLoop_spec {t : CellOctree} (h : StoreInv t) : ∀ p : List Nat, Chain t p →
    OctreeCursor.lastSibling ⟨p⟩ = true →
    (restPaths t (t.numberOfLevels + 1 - p.length) p = [] ∧
        DfsPolicy.ascendLoop p = ([], true)) ∨
      (∃ q, Chain t q ∧ restPaths t (t.numberOfLevels + 1 - p.length) p = q :: followPaths t q ∧
        DfsPolicy.ascendLoop p = (q, false)) := by
  intro p
  induction p with
  | nil => intro hc; exact absurd hc (by simp [Chain])
  | cons i up ih =>
    intro hc hl
    cases up with
    | nil => left; exact ⟨rfl, rfl⟩
    | cons j up2 =>
      have hlen := Chain.length_le h hc
      rw [lastSibling_cons] at hl
      have hi : i % 8 = 0 := by simpa using hl
      have hc2 : Chain t (j :: up2) := hc.2
      have hd : t.numberOfLevels + 1 - (i :: j :: up2).length + 1 =
          t.numberOfLevels + 1 - (j :: up2).length := by
        simp only [List.length_cons] at hlen ⊢; omega
      rw [restPaths_last t _ i j up2 hi, hd]
      by_cases hl2 : OctreeCursor.lastSibling ⟨j :: up2⟩ = true
      · have hasc : DfsPolicy.ascendLoop (i :: j :: up2) = DfsPolicy.ascendLoop (j :: up2) := by
          rw [DfsPolicy.ascendLoop]
          simp [hl2]
        rw [hasc]
        exact ih hc2 hl2
      · right
        cases up2 with
        | nil => exact absurd rfl hl2
        | cons j2 up3 =>
          rw [lastSibling_cons] at hl2
          have hj : j % 8 ≠ 0 := by simpa using hl2
          obtain ⟨⟨n, hn, _⟩, _⟩ := hc
          obtain ⟨_, _, nj, hpj, hnj⟩ := Chain.node h hc2
          cases hpj
          have hw := wrap_succ h hnj
          refine ⟨(j + 1) :: j2 :: up3, Chain.next h hc2 hj, ?_, ?_⟩
          · rw [restPaths_next t _ j j2 up3 hj]
            have := subtree_rest t ((j + 1) :: j2 :: up3)
              (by simp only [List.length_cons] at hlen ⊢; omega)
            simpa using this
          · rw [DfsPolicy.ascendLoop]
            have hls : OctreeCursor.lastSibling ⟨j :: j2 :: up3⟩ = false := by
              rw [lastSibling_cons]; simpa using hj
            simp [hls, OctreeCursor.nextSibling, hw]

theorem move_spec {t : CellOctree} (h : StoreInv t) {p : List Nat} (hc : Chain t p) :
    (followPaths t p = [] ∧ DfsPolicy.move t ⟨p⟩ = .ok none) ∨
      (∃ q, Chain t q ∧ followPaths t p = q :: followPaths t q ∧
        DfsPolicy.move t ⟨p⟩ = .ok (some ⟨q⟩)) := by
  obtain ⟨i, up, n, hp, hn⟩ := Chain.node h hc
  subst hp
  have hcur := Chain.currentNode h hc hn
  have hlen := Chain.length_le h hc
  by_cases hr : n.isRefined = true
  · right
    have hm := h.children_mod hn hr
    have hcq : Chain t (n.childrenStartIndex :: i :: up) :=
      Chain.child hc hn hr (le_refl _) (by omega)
    have hlq := Chain.length_le h hcq
    refine ⟨n.childrenStartIndex :: i :: up, hcq, ?_, ?_⟩
    · rcases @childPaths_refined t i up n hn hr with hcp | hcp
      · rw [← subtree_rest t _ hlq]
        rw [followPaths, hcp, restPaths]
        simp only [List.length_cons] at hlq ⊢
        have e1 : t.numberOfLevels - (up.length + 1) = t.numberOfLevels + 1 - (up.length + 1 + 1) := by
          omega
        have e2 : t.numberOfLevels + 1 - (up.length + 1 + 1) + 1 =
            t.numberOfLevels + 1 - (up.length + 1) := by omega
        rw [e1, e2]
        simp
      · exact absurd hm.1 hcp
    · unfold DfsPolicy.move
      rw [hcur]
      simp only [hr, if_true]
      unfold OctreeCursor.descend
      rw [hcur]
      simp [OctreeCursor.isEnd, hr]
  · have hr2 : n.isRefined = false := by simpa using hr
    have hfp : followPaths t (i :: up) = restPaths t (t.numberOfLevels + 1 - (i :: up).length) (i :: up) := by
      rw [followPaths, childPaths_unrefined hn hr2]; simp
    rw [hfp]
    by_cases hl : OctreeCursor.lastSibling ⟨i :: up⟩ = true
    · rcases ascendLoop_spec h (i :: up) hc hl with ⟨h1, h2⟩ | ⟨q, hq, h1, h2⟩
      · left
        refine ⟨h1, ?_⟩
        unfold DfsPolicy.move
        rw [hcur]
        simp [hr2, hl, h2]
      · right
        refine ⟨q, hq, h1, ?_⟩
        unfold DfsPolicy.move
        rw [hcur]
        simp [hr2, hl, h2]
    · right
      cases up with
      | nil => exact absurd rfl hl
      | cons j up2 =>
        rw [lastSibling_cons] at hl
        have hi : i % 8 ≠ 0 := by simpa using hl
        have hw := wrap_succ h hn
        refine ⟨(i + 1) :: j :: up2, Chain.next h hc hi, ?_, ?_⟩
        · rw [restPaths_next t _ i j up2 hi]
          have := subtree_rest t ((i + 1) :: j :: up2) hlen
          simpa using this
        · have hls : OctreeCursor.lastSibling ⟨i :: j :: up2⟩ = false := by
            rw [lastSibling_cons]; simpa using hi
          unfold DfsPolicy.move
          rw [hcur]
          simp [hr2, hls, OctreeCursor.nextSibling, hw]

end CellOctree

namespace CellOctree

theorem cellOf_phantom {t : CellOctree} {q : List Nat} (hq : phantomAt t q = true) :
    cellOf t q = none := by
  cases q with
  | nil => rfl
  | cons i up =>
    dsimp only [phantomAt] at hq
    dsimp only [CellOctree.cellOf]
    cases hn : t.nodesStream_[i]? with
    | none => rfl
    | some n =>
      rw [hn] at hq
      dsimp only at hq ⊢
      rw [if_pos hq]

theorem filterMap_dropWhile_phantom (t : CellOctree) : ∀ L : List (List Nat),
    (L.dropWhile (phantomAt t)).filterMap (cellOf t) = L.filterMap (cellOf t)
  | [] => rfl
  | q :: L => by
    by_cases hq : phantomAt t q = true
    · rw [List.dropWhile_cons_of_pos hq, filterMap_dropWhile_phantom t L,
        List.filterMap_cons_none (cellOf_phantom hq)]
    · rw [List.dropWhile_cons_of_neg hq]

theorem Chain.cellOf {t : CellOctree} (h : StoreInv t) {p : List Nat} (hc : Chain t p)
    (hlen : t.numberOfLevels ≤ 22) : OctreeCursor.currentCell t ⟨p⟩ = cellOf t p := by
  obtain ⟨i, up, n, hp, hn⟩ := Chain.node h hc
  subst hp
  have hl := Chain.length_le h hc
  rw [Chain.currentCell h hc (by omega) hn]
  unfold CellOctree.cellOf
  simp only [hn]

theorem advance_spec {t : CellOctree} (h : StoreInv t) : ∀ (L : List (List Nat)) (p : List Nat)
    (fuel : Nat), Chain t p → followPaths t p = L → L.length < fuel →
    (L.dropWhile (phantomAt t) = [] ∧ DfsPolicy.advance t fuel ⟨p⟩ = .ok OctreeCursor.toEnd) ∨
    (∃ q, Chain t q ∧ phantomAt t q = false ∧
      L.dropWhile (phantomAt t) = q :: followPaths t q ∧
      DfsPolicy.advance t fuel ⟨p⟩ = .ok ⟨q⟩) := by
  intro L
  induction L with
  | nil =>
    intro p fuel hc hf hfuel
    left
    refine ⟨rfl, ?_⟩
    obtain ⟨i, up, n, hp, hn⟩ := Chain.node h hc
    subst hp
    cases fuel with
    | zero => omega
    | succ fuel =>
      rcases move_spec h hc with ⟨_, hm⟩ | ⟨q, _, hq, _⟩
      · rw [DfsPolicy.advance, hm]; rfl
      · rw [hf] at hq; cases hq
  | cons q L ih =>
    intro p fuel hc hf hfuel
    obtain ⟨i, up, n, hp, hn⟩ := Chain.node h hc
    subst hp
    cases fuel with
    | zero => omega
    | succ fuel =>
      rcases move_spec h hc with ⟨hq, _⟩ | ⟨q2, hcq, hq, hm⟩
      · rw [hf] at hq; cases hq
      · rw [hf] at hq
        injection hq with hq1 hq2
        subst hq1
        obtain ⟨iq, upq, nq, hpq, hnq⟩ := Chain.node h hcq
        subst hpq
        have hcur := Chain.currentNode h hcq hnq
        have hph : phantomAt t (iq :: upq) = nq.isPhantom := by
          unfold phantomAt; simp only [hnq]
        by_cases hpq : nq.isPhantom = true
        · have hadv : DfsPolicy.advance t (fuel + 1) ⟨i :: up⟩ =
              DfsPolicy.advance t fuel ⟨iq :: upq⟩ := by
            rw [DfsPolicy.advance, hm]
            simp [OctreeCursor.isEnd, hcur, hpq]
          rw [hadv, List.dropWhile_cons_of_pos (by rw [hph]; exact hpq)]
          exact ih (iq :: upq) fuel hcq hq2.symm
            (by simp only [List.length_cons] at hfuel; omega)
        · right
          refine ⟨iq :: upq, hcq, by rw [hph]; simpa using hpq, ?_, ?_⟩
          · rw [List.dropWhile_cons_of_neg (by rw [hph]; exact hpq), hq2]
          · rw [DfsPolicy.advance, hm]
            simp [OctreeCursor.isEnd, hcur, hpq]

theorem collect_spec {t : CellOctree} (h : StoreInv t) (hlen : t.numberOfLevels ≤ 22)
    (fa : Nat) : ∀ (k : Nat) (L : List (List Nat)) (p : List Nat) (fuel : Nat),
    L.length ≤ k → Chain t p → phantomAt t p = false → followPaths t p = L →
    L.length < fa → L.length + 1 < fuel →
    OctreeIterator.collect t (DfsPolicy.advance t fa) fuel ⟨p⟩ =
      .ok ((p :: L).filterMap (cellOf t)) := by
  intro k
  induction k with
  | zero =>
    intro L p fuel hk hc hph hf hfa hfuel
    have hL : L = [] := List.length_eq_zero.mp (by omega)
    subst hL
    obtain ⟨i, up, n, hp, hn⟩ := Chain.node h hc
    subst hp
    have hnp : n.isPhantom = false := by
      unfold phantomAt at hph; simpa only [hn] using hph
    have hcell : cellOf t (i :: up) = some (CellView.create n (OctreeCursor.mortonIndex ⟨i :: up⟩) i) := by
      unfold cellOf; simp only [hn]; simp [hnp]
    obtain ⟨fuel, rfl⟩ : ∃ f, fuel = f + 2 := ⟨fuel - 2, by simp only [List.length_nil] at hfuel; omega⟩
    rcases advance_spec h [] (i :: up) fa hc hf hfa with ⟨_, hadv⟩ | ⟨q, _, _, hq, _⟩
    · rw [OctreeIterator.collect, Chain.cellOf h hc hlen, hcell, hadv]
      simp [OctreeCursor.isEnd, OctreeIterator.collect, OctreeCursor.toEnd, hcell]
    · cases hq
  | succ k ih =>
    intro L p fuel hk hc hph hf hfa hfuel
    obtain ⟨i, up, n, hp, hn⟩ := Chain.node h hc
    subst hp
    have hnp : n.isPhantom = false := by
      unfold phantomAt at hph; simpa only [hn] using hph
    have hcell : cellOf t (i :: up) = some (CellView.create n (OctreeCursor.mortonIndex ⟨i :: up⟩) i) := by
      unfold cellOf; simp only [hn]; simp [hnp]
    obtain ⟨fuel, rfl⟩ : ∃ f, fuel = f + 2 := ⟨fuel - 2, by omega⟩
    have hfm : ((i :: up) :: L).filterMap (cellOf t) =
        CellView.create n (OctreeCursor.mortonIndex ⟨i :: up⟩) i ::
          (L.dropWhile (phantomAt t)).filterMap (cellOf t) := by
      rw [List.filterMap_cons_some hcell, filterMap_dropWhile_phantom]
    rcases advance_spec h L (i :: up) fa hc hf hfa with ⟨hdw, hadv⟩ | ⟨q, hcq, hpq, hdw, hadv⟩
    · rw [hfm, hdw, OctreeIterator.collect, Chain.cellOf h hc hlen, hcell, hadv]
      simp [OctreeCursor.isEnd, OctreeIterator.collect, OctreeCursor.toEnd]
    · have hle : (List.dropWhile (phantomAt t) L).length ≤ L.length :=
        (List.dropWhile_sublist _).length_le
      rw [hdw] at hle
      simp only [List.length_cons] at hle
      have := ih (followPaths t q) q (fuel + 1) (by omega) hcq hpq rfl (by omega) (by omega)
      rw [hfm, hdw, OctreeIterator.collect, Chain.cellOf h hc hlen, hcell, hadv]
      simp only [OctreeCursor.isEnd, List.isEmpty_cons, Bool.false_eq_true, if_false]
      rw [this]

end CellOctree

namespace CellOctree

theorem chain_root (t : CellOctree) : Chain t [0] := rfl

theorem subtreePaths_root {t : CellOctree} (h : StoreInv t) :
    subtreePaths t t.numberOfLevels [0] = [0] :: followPaths t [0] := by
  have hl := Chain.length_le h (chain_root t)
  have := subtree_rest t [0] hl
  simp only [List.length_singleton, Nat.add_sub_cancel] at this
  rw [← this]
  simp [restPaths]

theorem dfs_toList {t : CellOctree} (h : StoreInv t) (hlen : t.numberOfLevels ≤ 22)
    (fuel : Nat) (hfuel : (followPaths t [0]).length + 2 ≤ fuel) :
    preOrderDepthFirstRange t fuel =
      .ok ((subtreePaths t t.numberOfLevels [0]).filterMap (cellOf t)) := by
  rw [subtreePaths_root h]
  have hc := chain_root t
  obtain ⟨i, up, n, hp, hn⟩ := Chain.node h hc
  cases hp
  have hcur := Chain.currentNode h hc hn
  obtain ⟨f, rfl⟩ : ∃ f, fuel = f + 2 := ⟨fuel - 2, by omega⟩
  unfold preOrderDepthFirstRange OctreeIterator.toList
  by_cases hph : n.isPhantom = true
  · have hpa : phantomAt t [0] = true := by
      dsimp only [phantomAt]; rw [hn]; exact hph
    rw [List.filterMap_cons_none (cellOf_phantom hpa), ← filterMap_dropWhile_phantom]
    rcases advance_spec h _ [0] (f + 2) hc rfl (by omega) with ⟨hdw, hadv⟩ | ⟨q, hcq, hpq, hdw, hadv⟩
    · have hcr : OctreeIterator.create t (DfsPolicy.advance t (f + 2)) (f + 2) ⟨[0]⟩ =
          .ok OctreeCursor.toEnd := by
        rw [OctreeIterator.create, hcur, hadv]
        simp [OctreeCursor.isEnd, hph, OctreeIterator.create, OctreeCursor.toEnd]
      rw [hcr, hdw]
      rfl
    · obtain ⟨iq, upq, nq, hpq2, hnq⟩ := Chain.node h hcq
      subst hpq2
      have hcurq := Chain.currentNode h hcq hnq
      have hnpq : nq.isPhantom = false := by
        dsimp only [phantomAt] at hpq; rw [hnq] at hpq; exact hpq
      have hcr : OctreeIterator.create t (DfsPolicy.advance t (f + 2)) (f + 2) ⟨[0]⟩ =
          .ok ⟨iq :: upq⟩ := by
        rw [OctreeIterator.create, hcur, hadv]
        simp [OctreeCursor.isEnd, hph, OctreeIterator.create, hcurq, hnpq]
      have hle : (List.dropWhile (phantomAt t) (followPaths t [0])).length ≤
          (followPaths t [0]).length := (List.dropWhile_sublist _).length_le
      rw [hdw] at hle
      simp only [List.length_cons] at hle
      rw [hcr, hdw]
      exact collect_spec h hlen (f + 2) _ _ (iq :: upq) (f + 2) (le_refl _) hcq hpq rfl
        (by omega) (by omega)
  · have hnp : n.isPhantom = false := by simpa using hph
    have hpa : phantomAt t [0] = false := by
      dsimp only [phantomAt]; rw [hn]; exact hnp
    have hcr : OctreeIterator.create t (DfsPolicy.advance t (f + 2)) (f + 2) ⟨[0]⟩ =
        .ok ⟨[0]⟩ := by
      rw [OctreeIterator.create, hcur]
      simp [OctreeCursor.isEnd, hnp]
    rw [hcr]
    exact collect_spec h hlen (f + 2) _ _ [0] (f + 2) (le_refl _) hc hpa rfl
      (by omega) (by omega)

theorem flatMap_congr_mem {α β : Type} {f g : α → List β} : ∀ (l : List α),
    (∀ a ∈ l, f a = g a) → l.flatMap f = l.flatMap g
  | [], _ => rfl
  | a :: l, hfg => by
    rw [List.flatMap_cons, List.flatMap_cons, hfg a (List.mem_cons_self _ _),
      flatMap_congr_mem l (fun b hb => hfg b (List.mem_cons_of_mem _ hb))]

theorem paths_preOrder {t : CellOctree} (h : StoreInv t) : ∀ (d i : Nat) (up : List Nat),
    Chain t (i :: up) →
    (subtreePaths t d (i :: up)).filterMap (cellOf t) =
      preOrder t d i (OctreeCursor.mortonIndex ⟨i :: up⟩) := by
  intro d
  induction d with
  | zero => intro i up _; rfl
  | succ d ih =>
    intro i up hc
    obtain ⟨_, _, n, hp, hn⟩ := Chain.node h hc
    cases hp
    rw [subtreePaths, preOrder]
    simp only [hn]
    have hhead : List.filterMap (cellOf t) [i :: up] =
        if n.isPhantom = true then []
        else [CellView.create n (OctreeCursor.mortonIndex ⟨i :: up⟩) i] := by
      dsimp only [List.filterMap, CellOctree.cellOf]
      rw [hn]
      dsimp only
      by_cases hph : n.isPhantom = true
      · rw [if_pos hph, if_pos hph]
      · rw [if_neg hph, if_neg hph]
    rw [← List.singleton_append, List.filterMap_append, hhead]
    congr 1
    by_cases hr : n.isRefined = true
    · rw [if_pos hr, List.filterMap_flatMap]
      dsimp only [childPaths]
      rw [hn]
      dsimp only
      rw [if_pos hr, List.flatMap_map]
      apply flatMap_congr_mem
      intro b hb
      have hb8 : b < 8 := List.mem_range.mp hb
      have hm := h.children_mod hn hr
      have hcc : Chain t ((n.childrenStartIndex + b) :: i :: up) :=
        Chain.child hc hn hr (by omega) (by omega)
      obtain ⟨_, _, nc, hpc, hnc⟩ := Chain.node h hcc
      cases hpc
      have hlt := getElem?_lt_length hnc
      have hsz := h.size_lt
      rw [ih _ _ hcc, OctreeCursor.mortonIndex_cons _ _ _ (by omega) (by unfold WORD; omega)]
      have : (n.childrenStartIndex + b - 1) % 8 = b := by omega
      rw [this]
    · have hr2 : n.isRefined = false := by simpa using hr
      rw [childPaths_unrefined hn hr2]
      simp [hr2]

end CellOctree

namespace CellOctree

theorem countP_take_reach {α : Type} (p : α → Bool) (l : List α) (g : Nat) : ∀ e : Nat,
    g < (l.take e).countP p →
    ∃ j x, j < e ∧ l[j]? = some x ∧ p x = true ∧ (l.take j).countP p = g := by
  intro e
  induction e with
  | zero => intro hg; simp at hg
  | succ e ih =>
    intro hg
    by_cases hlt : g < (l.take e).countP p
    · obtain ⟨j, x, hj, hx, hp, hc⟩ := ih hlt
      exact ⟨j, x, by omega, hx, hp, hc⟩
    · cases hx : l[e]? with
      | none =>
        have hlen : l.length ≤ e := by
          by_contra hcon
          rw [List.getElem?_eq_getElem (by omega)] at hx; cases hx
        rw [List.take_of_length_le (by omega)] at hg
        rw [List.take_of_length_le hlen] at hlt
        exact absurd hg hlt
      | some x =>
        have h1 := countP_take_succ p l e x hx
        by_cases hp : p x = true
        · rw [hp] at h1
          simp only [if_true] at h1
          exact ⟨e, x, by omega, hx, hp, by omega⟩
        · have hp2 : p x = false := by simpa using hp
          rw [hp2] at h1
          simp only [Bool.false_eq_true, if_false] at h1
          omega

theorem StoreInv.parent_exists {t : CellOctree} (h : StoreInv t) {l i : Nat} {a b : Nat × Nat}
    (ha : t.levels_[l]? = some a) (hb : t.levels_[l + 1]? = some b) (h1 : b.1 ≤ i)
    (h2 : i < b.1 + b.2) :
    ∃ j n, a.1 ≤ j ∧ j < a.1 + a.2 ∧ t.nodesStream_[j]? = some n ∧ n.isRefined = true ∧
      n.childrenStartIndex ≤ i ∧ i < n.childrenStartIndex + 8 := by
  have hn := h.levels_next l a b ha hb
  have he := StoreInv.level_end h hb
  have hg : (i - 1) / 8 < refinedBefore t (a.1 + a.2) := by
    rw [← hn.1]; omega
  obtain ⟨j, n, hj, hnj, hr, hc⟩ := countP_take_reach Node.isRefined t.nodesStream_ _ _ hg
  have hcs := h.children j n hnj hr
  have hcj : refinedBefore t j = (i - 1) / 8 := hc
  refine ⟨j, n, ?_, hj, hnj, hr, by omega, by omega⟩
  by_contra hlt
  have := StoreInv.refinedBefore_lt t hnj hr (show j < a.1 by omega)
  omega

theorem StoreInv.parent_unique {t : CellOctree} (h : StoreInv t) {i j1 j2 : Nat} {n1 n2 : Node}
    (hn1 : t.nodesStream_[j1]? = some n1) (hr1 : n1.isRefined = true)
    (hn2 : t.nodesStream_[j2]? = some n2) (hr2 : n2.isRefined = true)
    (h1 : n1.childrenStartIndex ≤ i) (h1b : i < n1.childrenStartIndex + 8)
    (h2 : n2.childrenStartIndex ≤ i) (h2b : i < n2.childrenStartIndex + 8) : j1 = j2 := by
  have hc1 := h.children j1 n1 hn1 hr1
  have hc2 := h.children j2 n2 hn2 hr2
  rcases Nat.lt_trichotomy j1 j2 with hlt | heq | hgt
  · have := StoreInv.refinedBefore_lt t hn1 hr1 hlt; omega
  · exact heq
  · have := StoreInv.refinedBefore_lt t hn2 hr2 hgt; omega

theorem StoreInv.level_below {t : CellOctree} (h : StoreInv t) : ∀ (l : Nat) (a : Nat × Nat),
    t.levels_[l]? = some a → ∀ i, i < a.1 + a.2 →
    ∃ (l2 : Nat) (a2 : Nat × Nat), t.levels_[l2]? = some a2 ∧ a2.1 ≤ i ∧ i < a2.1 + a2.2 := by
  intro l
  induction l with
  | zero =>
    intro a ha i hi
    rw [h.levels_first] at ha
    cases ha
    exact ⟨0, (0, 1), h.levels_first, Nat.zero_le _, hi⟩
  | succ l ih =>
    intro b hb i hi
    have hl := getElem?_lt_length hb
    have ha : t.levels_[l]? = some t.levels_[l] := List.getElem?_eq_getElem (by omega)
    have hn := h.levels_next l _ b ha hb
    by_cases hlt : i < b.1
    · exact ih _ ha i (by omega)
    · exact ⟨l + 1, b, hb, by omega, hi⟩

theorem StoreInv.level_of_index {t : CellOctree} (h : StoreInv t) {i : Nat}
    (hi : i < t.nodesStream_.length) :
    ∃ (l : Nat) (a : Nat × Nat), t.levels_[l]? = some a ∧ a.1 ≤ i ∧ i < a.1 + a.2 := by
  have hpos := StoreInv.levels_ne_nil h
  have hlast : t.levels_.getLast? = some (t.levels_[t.levels_.length - 1]) := by
    rw [List.getLast?_eq_getElem?, List.getElem?_eq_getElem (by omega)]
  have hend := h.levels_last _ hlast
  exact StoreInv.level_below h (t.levels_.length - 1) _
    (List.getElem?_eq_getElem (by omega)) i (by omega)

theorem StoreInv.chain_exists {t : CellOctree} (h : StoreInv t) : ∀ (l : Nat) (a : Nat × Nat)
    (i : Nat), t.levels_[l]? = some a → a.1 ≤ i → i < a.1 + a.2 →
    ∃ up, Chain t (i :: up) ∧ up.length = l := by
  intro l
  induction l with
  | zero =>
    intro a i ha h1 h2
    rw [h.levels_first] at ha
    cases ha
    have : i = 0 := by simp at h2; omega
    subst this
    exact ⟨[], rfl, rfl⟩
  | succ l ih =>
    intro b i hb h1 h2
    have hl := getElem?_lt_length hb
    have ha : t.levels_[l]? = some t.levels_[l] := List.getElem?_eq_getElem (by omega)
    obtain ⟨j, n, hj1, hj2, hn, hr, hc1, hc2⟩ := StoreInv.parent_exists h ha hb h1 h2
    obtain ⟨up, hup, hlen⟩ := ih _ j ha hj1 hj2
    exact ⟨j :: up, ⟨⟨n, hn, hr, hc1, hc2⟩, hup⟩, by simp [hlen]⟩

theorem Chain.unique {t : CellOctree} (h : StoreInv t) : ∀ (p q : List Nat), Chain t p →
    Chain t q → p.head? = q.head? → p = q := by
  intro p
  induction p with
  | nil => intro q hp; exact absurd hp (by simp [Chain])
  | cons i up ih =>
    intro q hp hq hh
    cases q with
    | nil => exact absurd hq (by simp [Chain])
    | cons i2 up2 =>
      simp only [List.head?_cons, Option.some.injEq] at hh
      subst hh
      cases up with
      | nil =>
        have hi : i = 0 := hp
        cases up2 with
        | nil => rfl
        | cons j2 up3 =>
          obtain ⟨⟨n, hn, hr, hc1, hc2⟩, _⟩ := hq
          have := h.children_mod hn hr
          omega
      | cons j up1 =>
        obtain ⟨⟨n, hn, hr, hc1, hc2⟩, hp2⟩ := hp
        cases up2 with
        | nil =>
          have hi : i = 0 := hq
          have := h.children_mod hn hr
          omega
        | cons j2 up3 =>
          obtain ⟨⟨n2, hn2, hr2, hd1, hd2⟩, hq2⟩ := hq
          have hj := StoreInv.parent_unique h hn hr hn2 hr2 hc1 hc2 hd1 hd2
          subst hj
          have := ih (j :: up3) hp2 hq2 rfl
          rw [this]

end CellOctree

namespace CellOctree

theorem childPaths_mem {t : CellOctree} {q c : List Nat} (hc : c ∈ childPaths t q) :
    ∃ i up n b, q = i :: up ∧ t.nodesStream_[i]? = some n ∧ n.isRefined = true ∧ b < 8 ∧
      c = (n.childrenStartIndex + b) :: q := by
  cases q with
  | nil => simp [childPaths] at hc
  | cons i up =>
    dsimp only [childPaths] at hc
    cases hn : t.nodesStream_[i]? with
    | none => rw [hn] at hc; simp at hc
    | some n =>
      rw [hn] at hc
      dsimp only at hc
      by_cases hr : n.isRefined = true
      · rw [if_pos hr] at hc
        obtain ⟨b, hb, rfl⟩ := List.mem_map.mp hc
        exact ⟨i, up, n, b, rfl, hn, hr, List.mem_range.mp hb, rfl⟩
      · rw [if_neg hr] at hc; simp at hc

theorem childPaths_chain {t : CellOctree} {q c : List Nat} (hq : Chain t q)
    (hc : c ∈ childPaths t q) : Chain t c ∧ c.length = q.length + 1 ∧ q <:+ c := by
  obtain ⟨i, up, n, b, rfl, hn, hr, hb, rfl⟩ := childPaths_mem hc
  exact ⟨Chain.child hq hn hr (by omega) (by omega), rfl, List.suffix_cons _ _⟩

theorem subtreePaths_chain {t : CellOctree} : ∀ (d : Nat) (q p : List Nat), Chain t q →
    p ∈ subtreePaths t d q → Chain t p ∧ q <:+ p := by
  intro d
  induction d with
  | zero => intro q p _ hp; simp [subtreePaths] at hp
  | succ d ih =>
    intro q p hq hp
    rw [subtreePaths, List.mem_cons, List.mem_flatMap] at hp
    rcases hp with rfl | ⟨c, hc, hpc⟩
    · exact ⟨hq, List.suffix_refl _⟩
    · obtain ⟨hcc, _, hsuf⟩ := childPaths_chain hq hc
      obtain ⟨h1, h2⟩ := ih c p hcc hpc
      exact ⟨h1, hsuf.trans h2⟩

theorem subtreePaths_children {t : CellOctree} : ∀ (d : Nat) (q x c : List Nat),
    x ∈ subtreePaths t d q → c ∈ childPaths t x → c.length < q.length + d →
    c ∈ subtreePaths t d q := by
  intro d
  induction d with
  | zero => intro q x c hx; simp [subtreePaths] at hx
  | succ d ih =>
    intro q x c hx hc hlen
    obtain ⟨i, up, n, b, rfl, hn, hr, hb, rfl⟩ := childPaths_mem hc
    rw [subtreePaths, List.mem_cons, List.mem_flatMap] at hx
    rw [subtreePaths, List.mem_cons, List.mem_flatMap]
    right
    rcases hx with rfl | ⟨c2, hc2, hx2⟩
    · refine ⟨_, hc, ?_⟩
      obtain ⟨d2, rfl⟩ : ∃ d2, d = d2 + 1 := ⟨d - 1, by simp only [List.length_cons] at hlen; omega⟩
      rw [subtreePaths]
      exact List.mem_cons_self _ _
    · refine ⟨c2, hc2, ih c2 _ _ hx2 hc ?_⟩
      obtain ⟨_, _, _, _, rfl, _, _, _, rfl⟩ := childPaths_mem hc2
      simp only [List.length_cons] at hlen ⊢
      omega

theorem Chain.mem_subtreePaths {t : CellOctree} (h : StoreInv t) : ∀ p : List Nat, Chain t p →
    p ∈ subtreePaths t t.numberOfLevels [0] := by
  intro p
  induction p with
  | nil => intro hc; exact absurd hc (by simp [Chain])
  | cons i up ih =>
    intro hc
    have hlen := Chain.length_le h hc
    cases up with
    | nil =>
      have hi : i = 0 := hc
      subst hi
      rw [subtreePaths_root h]
      exact List.mem_cons_self _ _
    | cons j up2 =>
      obtain ⟨⟨n, hn, hr, h1, h2⟩, hc2⟩ := hc
      have hmem := ih hc2
      apply subtreePaths_children _ _ (j :: up2) _ hmem
      · dsimp only [childPaths]
        rw [hn]
        dsimp only
        rw [if_pos hr]
        exact List.mem_map.mpr ⟨i - n.childrenStartIndex, List.mem_range.mpr (by omega),
          by congr 1; omega⟩
      · simp only [List.length_cons, List.length_nil] at hlen ⊢
        omega

theorem suffix_eq_of_length {α : Type} {a b p : List α} (ha : a <:+ p) (hb : b <:+ p)
    (hl : a.length = b.length) : a = b := by
  have hab : a <:+ b := List.suffix_of_suffix_length_le ha hb (by omega)
  exact hab.eq_of_length hl

theorem childPaths_nodup (t : CellOctree) (q : List Nat) : (childPaths t q).Nodup := by
  cases q with
  | nil => simp [childPaths]
  | cons i up =>
    dsimp only [childPaths]
    cases hn : t.nodesStream_[i]? with
    | none => simp
    | some n =>
      dsimp only
      by_cases hr : n.isRefined = true
      · rw [if_pos hr]
        apply List.Nodup.map _ (List.nodup_range 8)
        intro a b hab
        simp only [List.cons.injEq, and_true] at hab
        omega
      · rw [if_neg hr]; exact List.nodup_nil

theorem subtreePaths_nodup {t : CellOctree} : ∀ (d : Nat) (q : List Nat), Chain t q →
    (subtreePaths t d q).Nodup := by
  intro d
  induction d with
  | zero => intro q _; simp [subtreePaths]
  | succ d ih =>
    intro q hq
    rw [subtreePaths, List.nodup_cons]
    constructor
    · intro hmem
      obtain ⟨c, hc, hqc⟩ := List.mem_flatMap.mp hmem
      obtain ⟨hcc, hlen, _⟩ := childPaths_chain hq hc
      have := (subtreePaths_chain d c q hcc hqc).2.length_le
      omega
    · rw [List.nodup_flatMap]
      refine ⟨fun c hc => ih c (childPaths_chain hq hc).1, ?_⟩
      have hnd := childPaths_nodup t q
      refine List.Pairwise.imp_of_mem ?_ hnd
      intro c1 c2 h1 h2 hne
      intro p hp1 hp2
      obtain ⟨hcc1, hl1, _⟩ := childPaths_chain hq h1
      obtain ⟨hcc2, hl2, _⟩ := childPaths_chain hq h2
      exact hne (suffix_eq_of_length (subtreePaths_chain d c1 p hcc1 hp1).2
        (subtreePaths_chain d c2 p hcc2 hp2).2 (by omega))

theorem subtree_heads_perm {t : CellOctree} (h : StoreInv t) :
    ((subtreePaths t t.numberOfLevels [0]).map (fun p => p.headD 0)).Perm
      (List.range t.numberOfNodes) := by
  have hch : ∀ p ∈ subtreePaths t t.numberOfLevels [0], Chain t p :=
    fun p hp => (subtreePaths_chain _ _ p (chain_root t) hp).1
  have hnd : ((subtreePaths t t.numberOfLevels [0]).map (fun p => p.headD 0)).Nodup := by
    apply List.Nodup.map_on _ (subtreePaths_nodup _ _ (chain_root t))
    intro p hp q hq hpq
    have hcp := hch p hp
    have hcq := hch q hq
    apply Chain.unique h p q hcp hcq
    cases p with
    | nil => exact absurd hcp (by simp [Chain])
    | cons i up =>
      cases q with
      | nil => exact absurd hcq (by simp [Chain])
      | cons j uq =>
        simp only [List.headD_cons] at hpq
        simp [hpq]
  rw [List.perm_ext_iff_of_nodup hnd (List.nodup_range _)]
  intro i
  rw [List.mem_range, List.mem_map]
  constructor
  · rintro ⟨p, hp, rfl⟩
    obtain ⟨j, up, n, rfl, hn⟩ := Chain.node h (hch p hp)
    exact getElem?_lt_length hn
  · intro hi
    obtain ⟨l, a, ha, h1, h2⟩ := StoreInv.level_of_index h hi
    obtain ⟨up, hup, _⟩ := StoreInv.chain_exists h l a i ha h1 h2
    exact ⟨i :: up, Chain.mem_subtreePaths h _ hup, rfl⟩

theorem filterMap_cellOf_streamIndex {t : CellOctree} (h : StoreInv t) :
    ∀ L : List (List Nat), (∀ p ∈ L, Chain t p) →
    (L.filterMap (cellOf t)).map CellView.streamIndex =
      (L.map (fun p => p.headD 0)).filter (nonPhantomAt t) := by
  intro L
  induction L with
  | nil => intro _; rfl
  | cons p L ih =>
    intro hL
    have ihL := ih (fun q hq => hL q (List.mem_cons_of_mem _ hq))
    obtain ⟨i, up, n, rfl, hn⟩ := Chain.node h (hL p (List.mem_cons_self _ _))
    rw [List.map_cons, List.headD_cons]
    by_cases hph : n.isPhantom = true
    · have h1 : cellOf t (i :: up) = none := by
        dsimp only [CellOctree.cellOf]; rw [hn]; dsimp only; rw [if_pos hph]
      have h2 : nonPhantomAt t i = false := by
        unfold nonPhantomAt; rw [hn]; simp [hph]
      rw [List.filterMap_cons_none h1, List.filter_cons_of_neg (by simp [h2]), ihL]
    · have h1 : cellOf t (i :: up) =
          some (CellView.create n (OctreeCursor.mortonIndex ⟨i :: up⟩) i) := by
        dsimp only [CellOctree.cellOf]; rw [hn]; dsimp only; rw [if_neg hph]
      have h2 : nonPhantomAt t i = true := by
        unfold nonPhantomAt; rw [hn]; simpa using hph
      rw [List.filterMap_cons_some h1, List.filter_cons_of_pos h2, List.map_cons, ihL]
      rfl

end CellOctree

namespace CellOctree

theorem cellOf_getCell {t : CellOctree} (h : StoreInv t) (hlen : t.numberOfLevels ≤ 22)
    {p : List Nat} (hc : Chain t p) {v : CellView} (hv : cellOf t p = some v) :
    getCell t v.m = .ok (some v) := by
  have hcur := Chain.cellOf h hc hlen
  rw [hv] at hcur
  obtain ⟨i, up, n, rfl, hn⟩ := Chain.node h hc
  have hm : v.m = OctreeCursor.mortonIndex ⟨i :: up⟩ := by
    dsimp only [CellOctree.cellOf] at hv
    rw [hn] at hv
    dsimp only at hv
    by_cases hph : n.isPhantom = true
    · rw [if_pos hph] at hv; cases hv
    · rw [if_neg hph] at hv
      injection hv with hv
      rw [← hv]; rfl
  rw [hm]
  unfold OctreeCursor.currentCell at hcur
  cases hg : getCell t (OctreeCursor.mortonIndex ⟨i :: up⟩) with
  | error e => rw [hg] at hcur; cases hcur
  | ok r => rw [hg] at hcur; dsimp only at hcur; rw [hcur]

/-- C9 (amended): for every well-formed octree with at most 22 levels (depth at most
`MAX_DEPTH = 21`), iterating `preOrderDepthFirstRange()` terminates and yields exactly the
pre-order list of the tree: a node before its descendants, children in selector order
`0..7`, phantom nodes left out while the children of refined phantom nodes are still
visited. The stream indices of the yielded views are a permutation of the indices of the
non-phantom nodes (each once), and each view is the one `getCell` returns for its Morton
key. -/
theorem preOrderDepthFirstRange_preOrder (t : CellOctree) (hwf : WellFormed t)
    (hlen : t.numberOfLevels ≤ 22) :
    ∃ N, ∀ fuel, N ≤ fuel → ∃ vs, preOrderDepthFirstRange t fuel = .ok vs ∧
      vs = preOrder t t.numberOfLevels 0 MortonIndex.root ∧
      (vs.map CellView.streamIndex).Perm (cellIndices t) ∧
      ∀ v ∈ vs, getCell t v.m = .ok (some v) := by
  have h := hwf.storeInv
  refine ⟨(followPaths t [0]).length + 2, fun fuel hf => ?_⟩
  have hch : ∀ p ∈ subtreePaths t t.numberOfLevels [0], Chain t p :=
    fun p hp => (subtreePaths_chain _ _ p (chain_root t) hp).1
  refine ⟨_, dfs_toList h hlen fuel hf, paths_preOrder h _ 0 [] (chain_root t), ?_, ?_⟩
  · rw [filterMap_cellOf_streamIndex h _ hch]
    exact (subtree_heads_perm h).filter _
  · intro v hv
    obtain ⟨p, hp, hpv⟩ := List.mem_filterMap.mp hv
    exact cellOf_getCell h hlen (hch p hp) hpv

theorem preOrderDepthFirstRange_preOrder_witness :
    ∃ t, fromDescriptor "X|X.....PP|....PP.." = .ok t ∧ t.numberOfLevels ≤ 22 ∧
      ∃ N, ∀ fuel, N ≤ fuel → ∃ vs, preOrderDepthFirstRange t fuel = .ok vs ∧
        vs.map (fun v => v.m.bits) = [0b1000000, 0b1000001, 0b1000010, 0b1000011, 0b1000110,
          0b1000111, 0b1001, 0b1010, 0b1011, 0b1100, 0b1101] ∧
        (vs.map CellView.streamIndex).Perm (cellIndices t) ∧
        ∀ v ∈ vs, getCell t v.m = .ok (some v) := by
  refine ⟨(match fromDescriptor "X|X.....PP|....PP.." with
    | .ok t => t
    | .error _ => CellOctree.empty), by decide, by decide, ?_⟩
  obtain ⟨N, hN⟩ := preOrderDepthFirstRange_preOrder
    (match fromDescriptor "X|X.....PP|....PP.." with
    | .ok t => t
    | .error _ => CellOctree.empty)
    (Or.inl ⟨"X|X.....PP|....PP..", by decide, by decide, by decide⟩) (by decide)
  refine ⟨N, fun fuel hf => ?_⟩
  obtain ⟨vs, h1, h2, h3, h4⟩ := hN fuel hf
  refine ⟨vs, h1, ?_, h3, h4⟩
  rw [h2]
  decide

set_option maxRecDepth 100000 in
theorem preOrderDepthFirstRange_deep_counterexample :
    ∃ t, WellFormed t ∧ t.numberOfLevels = 23 ∧ cellIndices t = [0, 170] ∧
      (preOrderDepthFirstRange t 200).map (List.map (fun v => (v.streamIndex, v.m.bits))) =
        .ok [(0, 1), (0, 1)] := by
  refine ⟨(match fromDescriptor "R|XPPPPPPP|XPPPPPPP|XPPPPPPP|XPPPPPPP|XPPPPPPP|XPPPPPPP|XPPPPPPP|XPPPPPPP|XPPPPPPP|XPPPPPPP|XPPPPPPP|XPPPPPPP|XPPPPPPP|XPPPPPPP|XPPPPPPP|XPPPPPPP|XPPPPPPP|XPPPPPPP|XPPPPPPP|XPPPPPPP|XPPPPPPP|P.PPPPPP" with
    | .ok t => t
    | .error _ => CellOctree.empty),
    Or.inl ⟨"R|XPPPPPPP|XPPPPPPP|XPPPPPPP|XPPPPPPP|XPPPPPPP|XPPPPPPP|XPPPPPPP|XPPPPPPP|XPPPPPPP|XPPPPPPP|XPPPPPPP|XPPPPPPP|XPPPPPPP|XPPPPPPP|XPPPPPPP|XPPPPPPP|XPPPPPPP|XPPPPPPP|XPPPPPPP|XPPPPPPP|XPPPPPPP|P.PPPPPP", by decide, by decide, by decide⟩,
    by decide, by decide, by decide⟩

end CellOctree

namespace CellOctree

theorem wrap_add_sub {i s : Nat} (hs : s ≤ i) (hi : i < WORD) : wrap (i + WORD - s) = i - s := by
  unfold wrap
  have : i + WORD - s = (i - s) + WORD := by omega
  rw [this, Nat.add_mod_right]
  exact Nat.mod_eq_of_lt (by omega)

theorem group_eq {i : Nat} (h1 : 1 ≤ i) (hi : i < WORD) :
    wrap (i + WORD - 1) >>> 3 = (i - 1) / 8 := by
  rw [wrap_add_sub h1 hi, Nat.shiftRight_eq_div_pow]

theorem Chain.getLast {t : CellOctree} : ∀ p : List Nat, Chain t p → p.getLastD 1 = 0
  | [], h => absurd h (by simp [Chain])
  | [i], h => by
    have hi : i = 0 := h
    subst hi; rfl
  | i :: j :: up, h => by
    have := Chain.getLast (j :: up) h.2
    simpa [List.getLastD] using this

theorem dropLast_append_last : ∀ p : List Nat, p ≠ [] → p.getLastD 1 = 0 →
    p.dropLast ++ [0] = p
  | [], h, _ => absurd rfl h
  | [i], _, h => by
    have hi : i = 0 := h
    subst hi; rfl
  | i :: j :: up, _, h => by
    have h2 : (j :: up).getLastD 1 = 0 := by simpa [List.getLastD] using h
    have := dropLast_append_last (j :: up) (by simp) h2
    simp only [List.dropLast_cons₂, List.cons_append, this]

theorem findParent_eq (i j : Nat) : ∀ (ns : List Node) (k0 : Nat),
    (∀ (m : Nat) (n : Node), ns[m]? = some n → n.isRefined = true →
      n.childrenStartIndex ≤ i → i < wrap (n.childrenStartIndex + 8) → k0 + m = j) →
    (∃ (m : Nat) (n : Node), ns[m]? = some n ∧ n.isRefined = true ∧
      n.childrenStartIndex ≤ i ∧ i < wrap (n.childrenStartIndex + 8) ∧ k0 + m = j) →
    k0 + ns.length < WORD →
    OctreeCursor.findParent ns k0 i = some j := by
  intro ns
  induction ns with
  | nil =>
    intro k0 _ hex _
    obtain ⟨m, n, hm, _⟩ := hex
    simp at hm
  | cons x ns ih =>
    intro k0 huniq hex hlen
    rw [OctreeCursor.findParent]
    by_cases hx : x.isRefined = true ∧ x.childrenStartIndex ≤ i ∧
        i < wrap (x.childrenStartIndex + 8)
    · have := huniq 0 x (List.getElem?_cons_zero) hx.1 hx.2.1 hx.2.2
      rw [if_pos (by simp [hx.1, hx.2.1, hx.2.2])]
      simp only [Nat.add_zero] at this
      rw [this]
    · rw [if_neg (by
        intro hcon
        simp only [Bool.and_eq_true, decide_eq_true_eq, ge_iff_le] at hcon
        exact hx ⟨hcon.1, hcon.2.1, hcon.2.2⟩)]
      simp only [List.length_cons] at hlen
      have hw : wrap (k0 + 1) = k0 + 1 := by
        unfold wrap; exact Nat.mod_eq_of_lt (by omega)
      rw [hw]
      apply ih (k0 + 1)
      · intro m n hm hr h1 h2
        have := huniq (m + 1) n (by simpa using hm) hr h1 h2
        omega
      · obtain ⟨m, n, hm, hr, h1, h2, hj⟩ := hex
        cases m with
        | zero =>
          simp only [List.getElem?_cons_zero, Option.some.injEq] at hm
          subst hm
          exact absurd ⟨hr, h1, h2⟩ hx
        | succ m =>
          exact ⟨m, n, by simpa using hm, hr, h1, h2, by omega⟩
      · omega

theorem nodesStream_getElem {t : CellOctree} {l : Nat} {a : Nat × Nat}
    (ha : t.levels_[l]? = some a) (m : Nat) (n : Node)
    (hm : (t.nodesStream l)[m]? = some n) :
    m < a.2 ∧ t.nodesStream_[a.1 + m]? = some n := by
  unfold nodesStream at hm
  rw [ha] at hm
  obtain ⟨a1, a2⟩ := a
  dsimp only at hm ⊢
  have hlt := getElem?_lt_length hm
  rw [List.length_take] at hlt
  rw [List.getElem?_take_of_lt (by omega), List.getElem?_drop] at hm
  exact ⟨by omega, hm⟩

theorem nodesStream_length_le {t : CellOctree} {l : Nat} {a : Nat × Nat}
    (ha : t.levels_[l]? = some a) : (t.nodesStream l).length ≤ a.2 := by
  unfold nodesStream
  rw [ha]
  obtain ⟨a1, a2⟩ := a
  dsimp only
  rw [List.length_take]
  omega

theorem nodesStream_getElem_of {t : CellOctree} {l : Nat} {a : Nat × Nat}
    (ha : t.levels_[l]? = some a) {j : Nat} {n : Node} (h1 : a.1 ≤ j) (h2 : j < a.1 + a.2)
    (hn : t.nodesStream_[j]? = some n) : (t.nodesStream l)[j - a.1]? = some n := by
  unfold nodesStream
  rw [ha]
  obtain ⟨a1, a2⟩ := a
  dsimp only at h1 h2 ⊢
  rw [List.getElem?_take_of_lt (by omega), List.getElem?_drop]
  have : a1 + (j - a1) = j := by omega
  rw [this, hn]

theorem updatePathLoop_spec {t : CellOctree} (h : StoreInv t) : ∀ (l i : Nat) (up : List Nat),
    Chain t (i :: up) → up.length = l →
    OctreeCursor.updatePathLoop t l i = .ok ((i :: up).dropLast) := by
  intro l
  induction l with
  | zero =>
    intro i up _ hl
    have : up = [] := List.length_eq_zero.mp hl
    subst this; rfl
  | succ l ih =>
    intro i up hc hl
    cases up with
    | nil => simp at hl
    | cons j up2 =>
      have hl2 : up2.length = l := by simpa using hl
      obtain ⟨⟨n, hn, hr, h1, h2⟩, hc2⟩ := hc
      obtain ⟨a, _, ha, hj1, hj2, _⟩ := Chain.level h up2 j hc2
      rw [hl2] at ha
      obtain ⟨b, hb, hb1, hb2, _, _⟩ := StoreInv.children_in_next h ha hj1 hj2 hn hr
      have hend := StoreInv.level_end_le h hb
      have henda := StoreInv.level_end_le h ha
      have hsz := h.size_lt
      have hwr : ∀ (n2 : Node) (k : Nat), t.nodesStream_[k]? = some n2 → n2.isRefined = true →
          a.1 ≤ k → k < a.1 + a.2 →
          wrap (n2.childrenStartIndex + 8) = n2.childrenStartIndex + 8 := by
        intro n2 k hk hr2 hk1 hk2
        obtain ⟨b2, hb2, _, hb4, _, _⟩ := StoreInv.children_in_next h ha hk1 hk2 hk hr2
        rw [hb] at hb2
        cases hb2
        unfold wrap WORD
        exact Nat.mod_eq_of_lt (by omega)
      have hfp : OctreeCursor.findParent (t.nodesStream l) a.1 i = some j := by
        apply findParent_eq
        · intro m n2 hm hr2 hc1 hc2
          obtain ⟨hm1, hm2⟩ := nodesStream_getElem ha m n2 hm
          rw [hwr n2 (a.1 + m) hm2 hr2 (by omega) (by omega)] at hc2
          exact StoreInv.parent_unique h hm2 hr2 hn hr hc1 hc2 h1 h2
        · refine ⟨j - a.1, n, nodesStream_getElem_of ha hj1 hj2 hn, hr, h1, ?_, by omega⟩
          rw [hwr n j hn hr hj1 hj2]
          exact h2
        · have := nodesStream_length_le (t := t) ha
          unfold WORD
          omega
      rw [OctreeCursor.updatePathLoop, ha]
      obtain ⟨a1, a2⟩ := a
      dsimp only at hfp ⊢
      rw [hfp]
      dsimp only
      rw [ih j up2 hc2 hl2]
      rfl

end CellOctree

namespace CellOctree

theorem Chain.getLastD_zero {t : CellOctree} : ∀ p : List Nat, Chain t p → p.getLastD 0 = 0
  | [], h => absurd h (by simp [Chain])
  | [i], h => by
    have hi : i = 0 := h
    subst hi; rfl
  | i :: j :: up, h => by
    have := Chain.getLastD_zero (j :: up) h.2
    simpa [List.getLastD] using this

theorem updatePath_spec {t : CellOctree} (h : StoreInv t) {cur k : Nat} {up0 up : List Nat}
    {a : Nat × Nat} (ha : t.levels_[up0.length]? = some a) (h1 : a.1 ≤ k)
    (h2 : k < a.1 + a.2) (hc : Chain t (k :: up)) (hl : up.length = up0.length)
    (hlast : (cur :: up0).getLastD 0 = 0) :
    OctreeCursor.updatePath t ⟨cur :: up0⟩ k = .ok ⟨k :: up⟩ := by
  have hend := StoreInv.level_end_le h ha
  have hsz := h.size_lt
  have hw := wrap_add_sub h1 (show k < WORD by unfold WORD; omega)
  have hloop := updatePathLoop_spec h up0.length k up hc hl
  unfold OctreeCursor.updatePath
  dsimp only
  rw [ha]
  obtain ⟨a1, a2⟩ := a
  dsimp only at h1 h2 hw ⊢
  rw [hw, if_neg (by omega), hloop]
  dsimp only
  rw [hlast, dropLast_append_last _ (by simp) (Chain.getLast _ hc)]

theorem filter_range_first (p : Nat → Bool) : ∀ (m a k : Nat) (rest : List Nat),
    (List.range' a m).filter p = k :: rest →
    a ≤ k ∧ k < a + m ∧ p k = true ∧
      (List.range' a m).filter p = (List.range' k (a + m - k)).filter p := by
  intro m
  induction m with
  | zero => intro a k rest hf; simp at hf
  | succ m ih =>
    intro a k rest hf
    rw [List.range'_succ] at hf ⊢
    by_cases hp : p a = true
    · rw [List.filter_cons_of_pos hp] at hf
      injection hf with hk _
      subst hk
      have : a + (m + 1) - a = m + 1 := by omega
      rw [this, List.range'_succ]
      exact ⟨le_refl _, by omega, hp, rfl⟩
    · rw [List.filter_cons_of_neg hp] at hf ⊢
      obtain ⟨h1, h2, h3, h4⟩ := ih (a + 1) k rest hf
      have : a + 1 + m - k = a + (m + 1) - k := by omega
      rw [this] at h4
      exact ⟨by omega, by omega, h3, h4⟩

theorem advanceLoop_spec {t : CellOctree} (h : StoreInv t) {up : List Nat} {s c g0 : Nat}
    (ha : t.levels_[up.length]? = some (s, c))
    (hup : ∀ k, s ≤ k → k < s + c → 1 ≤ k → (k - 1) / 8 = g0 → Chain t (k :: up))
    (hlast : ∀ k, s ≤ k → k < s + c → (k :: up).getLastD 0 = 0) :
    ∀ (n fuel i : Nat), s ≤ i → i < s + c → s + c - i ≤ n → n ≤ fuel →
    ∃ cur, HorizontalPolicy.advanceLoop t g0 fuel ⟨i :: up⟩ = .ok cur ∧
      ((List.range' (i + 1) (s + c - (i + 1))).filter (nonPhantomAt t) = [] →
        cur = OctreeCursor.toEnd) ∧
      (∀ k rest, (List.range' (i + 1) (s + c - (i + 1))).filter (nonPhantomAt t) = k :: rest →
        ∃ upk, cur = ⟨k :: upk⟩ ∧ Chain t (k :: upk) ∧ upk.length = up.length) := by
  have hend := StoreInv.level_end_le h ha
  have hsz := h.size_lt
  dsimp only at hend
  intro n
  induction n with
  | zero => intro fuel i h1 h2 hn; omega
  | succ n ih =>
    intro fuel i h1 h2 hn hfuel
    obtain ⟨f, rfl⟩ : ∃ f, fuel = f + 1 := ⟨fuel - 1, by omega⟩
    have hw1 : wrap (i + 1) = i + 1 := by
      unfold wrap WORD; exact Nat.mod_eq_of_lt (by omega)
    have hw2 : wrap (i + 1 + WORD - s) = i + 1 - s :=
      wrap_add_sub (by omega) (by unfold WORD; omega)
    rw [HorizontalPolicy.advanceLoop]
    by_cases hlast_i : i + 1 - s ≥ c
    · have hadv : OctreeCursor.advanceStreamIndex t ⟨i :: up⟩ = .ok OctreeCursor.toEnd := by
        rw [OctreeCursor.advanceStreamIndex, ha]
        dsimp only
        rw [hw1, hw2, if_pos hlast_i]
      rw [hadv]
      refine ⟨OctreeCursor.toEnd, rfl, fun _ => rfl, ?_⟩
      intro k rest hk
      have : s + c - (i + 1) = 0 := by omega
      rw [this] at hk
      simp at hk
    · have hadv : OctreeCursor.advanceStreamIndex t ⟨i :: up⟩ = .ok ⟨(i + 1) :: up⟩ := by
        rw [OctreeCursor.advanceStreamIndex, ha]
        dsimp only
        rw [hw1, hw2, if_neg hlast_i]
      have hlt : i + 1 < t.nodesStream_.length := by omega
      have hnode : t.nodesStream_[i + 1]? = some t.nodesStream_[i + 1] :=
        List.getElem?_eq_getElem hlt
      have hcur := @currentNode_of_level t h (i + 1) up (s, c) _ ha (by dsimp only; omega)
        (by dsimp only; omega) hnode
      obtain ⟨m, hm⟩ : ∃ m, s + c - (i + 1) = m + 1 := ⟨s + c - (i + 1) - 1, by omega⟩
      rw [hadv]
      dsimp only [OctreeCursor.isEnd, List.isEmpty_cons]
      rw [if_neg (by simp), hcur]
      dsimp only
      rw [hm, List.range'_succ]
      by_cases hph : (t.nodesStream_[i + 1]).isPhantom = true
      · have hnp : nonPhantomAt t (i + 1) = false := by
          unfold nonPhantomAt; rw [hnode]; simp [hph]
        rw [if_neg (by simp [hph]), List.filter_cons_of_neg (by simp [hnp])]
        obtain ⟨cur, hcur2, hc1, hc2⟩ := ih f (i + 1) (by omega) (by omega) (by omega) (by omega)
        have hm2 : s + c - (i + 1 + 1) = m := by omega
        rw [hm2] at hc1 hc2
        exact ⟨cur, hcur2, hc1, hc2⟩
      · have hnp : nonPhantomAt t (i + 1) = true := by
          unfold nonPhantomAt; rw [hnode]; simpa using hph
        rw [if_pos (by simpa using hph), List.filter_cons_of_pos hnp]
        have hg : wrap (i + 1 + WORD - 1) >>> 3 = (i + 1 - 1) / 8 :=
          group_eq (by omega) (by unfold WORD; omega)
        rw [hg]
        by_cases hgrp : g0 ≠ (i + 1 - 1) / 8
        · rw [if_pos hgrp]
          obtain ⟨upk, hck, hlk⟩ := StoreInv.chain_exists h up.length (s, c) (i + 1) ha
            (by dsimp only; omega) (by dsimp only; omega)
          refine ⟨⟨(i + 1) :: upk⟩, ?_, ?_, ?_⟩
          · exact updatePath_spec h ha (by dsimp only; omega) (by dsimp only; omega) hck hlk
              (hlast (i + 1) (by omega) (by omega))
          · intro hcon; cases hcon
          · intro k rest hk
            injection hk with hk1 _
            subst hk1
            exact ⟨upk, rfl, hck, hlk⟩
        · rw [if_neg hgrp]
          have hgrp2 : (i + 1 - 1) / 8 = g0 := by
            by_contra hne; exact hgrp (fun heq => hne heq.symm)
          refine ⟨⟨(i + 1) :: up⟩, rfl, ?_, ?_⟩
          · intro hcon; cases hcon
          · intro k rest hk
            injection hk with hk1 _
            subst hk1
            exact ⟨up, rfl, hup (i + 1) (by omega) (by omega) (by omega) hgrp2, rfl⟩

end CellOctree

namespace CellOctree

theorem horizontal_advance_spec {t : CellOctree} (h : StoreInv t) {i : Nat} {up : List Nat}
    {s c : Nat} (hc : Chain t (i :: up)) (ha : t.levels_[up.length]? = some (s, c))
    (fuel : Nat) (hfuel : c ≤ fuel) :
    ∃ cur, HorizontalPolicy.advance t fuel ⟨i :: up⟩ = .ok cur ∧
      ((List.range' (i + 1) (s + c - (i + 1))).filter (nonPhantomAt t) = [] →
        cur = OctreeCursor.toEnd) ∧
      (∀ k rest, (List.range' (i + 1) (s + c - (i + 1))).filter (nonPhantomAt t) = k :: rest →
        ∃ upk, cur = ⟨k :: upk⟩ ∧ Chain t (k :: upk) ∧ upk.length = up.length) := by
  obtain ⟨a, n, ha2, h1, h2, hn⟩ := Chain.level h up i hc
  rw [ha] at ha2
  cases ha2
  dsimp only at h1 h2
  have hsz := h.size_lt
  have hlt := getElem?_lt_length hn
  show ∃ cur, HorizontalPolicy.advanceLoop t (wrap (i + WORD - 1) >>> 3) fuel ⟨i :: up⟩ =
    .ok cur ∧ _
  apply advanceLoop_spec h ha _ _ c fuel i h1 h2 (by omega) hfuel
  · intro k hk1 hk2 hk3 hg
    cases up with
    | nil =>
      have ha0 : t.levels_[0]? = some (s, c) := ha
      rw [h.levels_first] at ha0
      cases ha0
      omega
    | cons j up2 =>
      obtain ⟨⟨nj, hnj, hr, hc1, hc2⟩, hcj⟩ := hc
      have hm := h.children_mod hnj hr
      rw [group_eq (by omega) (by unfold WORD; omega)] at hg
      exact ⟨⟨nj, hnj, hr, by omega, by omega⟩, hcj⟩
  · intro k hk1 hk2
    cases up with
    | nil =>
      have ha0 : t.levels_[0]? = some (s, c) := ha
      rw [h.levels_first] at ha0
      cases ha0
      have : k = 0 := by omega
      subst this; rfl
    | cons j up2 =>
      have := Chain.getLastD_zero (j :: up2) hc.2
      simpa [List.getLastD] using this

theorem Chain.cell_valid {t : CellOctree} (h : StoreInv t) (hlen : t.numberOfLevels ≤ 22)
    {i : Nat} {up : List Nat} (hc : Chain t (i :: up)) {v : CellView}
    (hv : CellOctree.cellOf t (i :: up) = some v) : v.m.Valid ∧ v.m.level = up.length := by
  have hl := Chain.length_le h hc
  simp only [List.length_cons] at hl
  obtain ⟨hbits, _⟩ := Chain.morton h (i :: up) hc (by simp only [List.length_cons]; omega)
  have hsl := selectors_length (i :: up)
  simp only [List.length_cons, Nat.add_sub_cancel] at hsl
  have hm : v.m = ⟨MortonIndex.ofPath (selectors (i :: up))⟩ := by
    dsimp only [CellOctree.cellOf] at hv
    cases hn : t.nodesStream_[i]? with
    | none => rw [hn] at hv; cases hv
    | some n =>
      rw [hn] at hv
      dsimp only at hv
      by_cases hph : n.isPhantom = true
      · rw [if_pos hph] at hv; cases hv
      · rw [if_neg hph] at hv
        injection hv with hv
        rw [← hv, ← hbits]
        rfl
  rw [hm]
  constructor
  · exact MortonIndex.valid_ofPath _ (selectors_lt _) (by omega)
  · rw [MortonIndex.level_ofPath _ (selectors_lt _) (by omega), hsl]

theorem horizontal_collect {t : CellOctree} (h : StoreInv t) (hlen : t.numberOfLevels ≤ 22)
    {L s c : Nat} (ha : t.levels_[L]? = some (s, c)) (fa : Nat) (hfa : c ≤ fa) :
    ∀ (n i : Nat) (up : List Nat) (fuel : Nat), Chain t (i :: up) → up.length = L →
    nonPhantomAt t i = true → s + c - i ≤ n → n + 1 ≤ fuel →
    ∃ vs, OctreeIterator.collect t (HorizontalPolicy.advance t fa) fuel ⟨i :: up⟩ = .ok vs ∧
      vs.map CellView.streamIndex = (List.range' i (s + c - i)).filter (nonPhantomAt t) ∧
      ∀ v ∈ vs, getCell t v.m = .ok (some v) ∧ v.m.Valid ∧ v.m.level = L := by
  intro n
  induction n with
  | zero =>
    intro i up fuel hc hl _ hn _
    rw [← hl] at ha
    obtain ⟨a, _, ha2, h1, h2, _⟩ := Chain.level h up i hc
    rw [ha] at ha2
    cases ha2
    dsimp only at h2
    omega
  | succ n ih =>
    intro i up fuel hc hl hnp hn hfuel
    have haL := ha
    rw [← hl] at ha
    obtain ⟨a, nd, ha2, h1, h2, hnd⟩ := Chain.level h up i hc
    rw [ha] at ha2
    cases ha2
    dsimp only at h1 h2
    obtain ⟨f, rfl⟩ : ∃ f, fuel = f + 2 := ⟨fuel - 2, by omega⟩
    have hph : nd.isPhantom = false := by
      unfold nonPhantomAt at hnp; rw [hnd] at hnp; simpa using hnp
    have hcell : cellOf t (i :: up) =
        some (CellView.create nd (OctreeCursor.mortonIndex ⟨i :: up⟩) i) := by
      dsimp only [CellOctree.cellOf]; rw [hnd]; dsimp only; rw [if_neg (by simp [hph])]
    have hval := Chain.cell_valid h hlen hc hcell
    rw [hl] at hval
    have hget := And.intro (cellOf_getCell h hlen hc hcell) hval
    obtain ⟨m, hm⟩ : ∃ m, s + c - i = m + 1 := ⟨s + c - i - 1, by omega⟩
    have hm2 : s + c - (i + 1) = m := by omega
    obtain ⟨cur, hadv, hend, hnext⟩ := horizontal_advance_spec h hc ha fa hfa
    rw [hm2] at hend hnext
    rw [OctreeIterator.collect, Chain.cellOf h hc hlen, hcell, hadv, hm, List.range'_succ,
      List.filter_cons_of_pos hnp]
    simp only [OctreeCursor.isEnd, List.isEmpty_cons, Bool.false_eq_true, if_false]
    cases hf : (List.range' (i + 1) m).filter (nonPhantomAt t) with
    | nil =>
      rw [hend hf]
      refine ⟨[CellView.create nd (OctreeCursor.mortonIndex ⟨i :: up⟩) i], ?_, rfl, ?_⟩
      · simp [OctreeIterator.collect, OctreeCursor.toEnd, OctreeCursor.isEnd]
      · intro v hv
        rw [List.mem_singleton] at hv
        subst hv
        exact hget
    | cons k rest =>
      obtain ⟨upk, rfl, hck, hlk⟩ := hnext k rest hf
      obtain ⟨hk1, hk2, hk3, hk4⟩ := filter_range_first _ _ _ _ _ hf
      obtain ⟨vs, hvs, hmap, hall⟩ := ih k upk (f + 1) hck (by rw [hlk, hl]) hk3
        (by omega) (by omega)
      refine ⟨CellView.create nd (OctreeCursor.mortonIndex ⟨i :: up⟩) i :: vs, ?_, ?_, ?_⟩
      · rw [hvs]
      · rw [List.map_cons, hmap, ← hf, hk4]
        have : i + 1 + m - k = s + c - k := by omega
        rw [this]
        rfl
      · intro v hv
        rcases List.mem_cons.mp hv with rfl | hv
        · exact hget
        · exact hall v hv

end CellOctree

namespace CellOctree

theorem getLastD_replicate_zero : ∀ L : Nat, (List.replicate (L + 1) 0).getLastD 0 = 0
  | 0 => rfl
  | L + 1 => by
    have := getLastD_replicate_zero L
    rw [List.replicate_succ] at this ⊢
    rw [List.replicate_succ]
    simpa [List.getLastD] using this

theorem horizontalRange_missing (t : CellOctree) (L : Nat) (hL : t.numberOfLevels ≤ L)
    (fuel : Nat) (hfuel : 1 ≤ fuel) : horizontalRange t L fuel = .ok [] := by
  obtain ⟨f, rfl⟩ : ∃ f, fuel = f + 1 := ⟨fuel - 1, by omega⟩
  unfold horizontalRange horizontalStart
  rw [if_pos hL]
  rfl

theorem horizontalRange_spec {t : CellOctree} (h : StoreInv t) (hlen : t.numberOfLevels ≤ 22)
    {L s c : Nat} (ha : t.levels_[L]? = some (s, c)) (hc : 0 < c) (fuel : Nat)
    (hfuel : c + 2 ≤ fuel) :
    ∃ vs, horizontalRange t L fuel = .ok vs ∧
      vs.map CellView.streamIndex = (List.range' s c).filter (nonPhantomAt t) ∧
      ∀ v ∈ vs, getCell t v.m = .ok (some v) ∧ v.m.Valid ∧ v.m.level = L := by
  have hL := getElem?_lt_length ha
  obtain ⟨ups, hcs, hls⟩ := StoreInv.chain_exists h L (s, c) s ha (le_refl _)
    (by dsimp only; omega)
  have hstart : horizontalStart t L = .ok ⟨s :: ups⟩ := by
    unfold horizontalStart
    rw [if_neg (by unfold numberOfLevels; omega), ha]
    dsimp only
    rw [List.replicate_succ]
    have ha2 : t.levels_[(List.replicate L 0).length]? = some (s, c) := by
      rw [List.length_replicate]; exact ha
    refine updatePath_spec h ha2 (le_refl _) (by dsimp only; omega) hcs
      (by rw [hls, List.length_replicate]) ?_
    rw [← List.replicate_succ]
    exact getLastD_replicate_zero L
  obtain ⟨_, _, nd, hp, hnd⟩ := Chain.node h hcs
  cases hp
  have hcur := Chain.currentNode h hcs hnd
  have hal : t.levels_[ups.length]? = some (s, c) := by rw [hls]; exact ha
  obtain ⟨f, rfl⟩ : ∃ f, fuel = f + 2 := ⟨fuel - 2, by omega⟩
  obtain ⟨m, rfl⟩ : ∃ m, c = m + 1 := ⟨c - 1, by omega⟩
  unfold horizontalRange OctreeIterator.toList
  rw [hstart]
  dsimp only
  rw [List.range'_succ]
  by_cases hph : nd.isPhantom = true
  · have hnp : nonPhantomAt t s = false := by
      unfold nonPhantomAt; rw [hnd]; simp [hph]
    rw [List.filter_cons_of_neg (by simp [hnp])]
    obtain ⟨cur, hadv, hend, hnext⟩ := horizontal_advance_spec h hcs hal (f + 2) (by omega)
    have hm2 : s + (m + 1) - (s + 1) = m := by omega
    rw [hm2] at hend hnext
    cases hf : (List.range' (s + 1) m).filter (nonPhantomAt t) with
    | nil =>
      have hcr : OctreeIterator.create t (HorizontalPolicy.advance t (f + 2)) (f + 2)
          ⟨s :: ups⟩ = .ok OctreeCursor.toEnd := by
        rw [OctreeIterator.create, hcur, hadv, hend hf]
        simp [OctreeCursor.isEnd, hph, OctreeIterator.create, OctreeCursor.toEnd]
      rw [hcr]
      exact ⟨[], rfl, rfl, fun v hv => absurd hv (List.not_mem_nil _)⟩
    | cons k rest =>
      obtain ⟨upk, rfl, hck, hlk⟩ := hnext k rest hf
      obtain ⟨hk1, hk2, hk3, hk4⟩ := filter_range_first _ _ _ _ _ hf
      obtain ⟨_, _, nk, hpk, hnk⟩ := Chain.node h hck
      cases hpk
      have hcurk := Chain.currentNode h hck hnk
      have hnpk : nk.isPhantom = false := by
        unfold nonPhantomAt at hk3; rw [hnk] at hk3; simpa using hk3
      have hcr : OctreeIterator.create t (HorizontalPolicy.advance t (f + 2)) (f + 2)
          ⟨s :: ups⟩ = .ok ⟨k :: upk⟩ := by
        rw [OctreeIterator.create, hcur, hadv]
        simp [OctreeCursor.isEnd, hph, OctreeIterator.create, hcurk, hnpk]
      rw [hcr]
      obtain ⟨vs, hvs, hmap, hall⟩ := horizontal_collect h hlen ha (f + 2) (by omega)
        (m + 1) k upk (f + 2) hck (by rw [hlk, hls]) hk3 (by omega) (by omega)
      refine ⟨vs, hvs, ?_, hall⟩
      rw [hmap, ← hf, hk4]
      have : s + 1 + m - k = s + (m + 1) - k := by omega
      rw [this]
  · have hnp : nonPhantomAt t s = true := by
      unfold nonPhantomAt; rw [hnd]; simpa using hph
    have hcr : OctreeIterator.create t (HorizontalPolicy.advance t (f + 2)) (f + 2)
        ⟨s :: ups⟩ = .ok ⟨s :: ups⟩ := by
      rw [OctreeIterator.create, hcur]
      simp [OctreeCursor.isEnd, hph]
    rw [hcr]
    obtain ⟨vs, hvs, hmap, hall⟩ := horizontal_collect h hlen ha (f + 2) (by omega)
      (m + 1) s ups (f + 2) hcs hls hnp (by omega) (by omega)
    refine ⟨vs, hvs, ?_, hall⟩
    rw [hmap]
    have : s + (m + 1) - s = m + 1 := by omega
    rw [this, List.range'_succ]

/-- C10 (amended): for every well-formed octree with at most 22 levels and every level `L`
that holds at least one node, iterating `horizontalRange(L)` terminates and yields exactly
the non-phantom nodes whose stream index lies in the range of level `L`, in ascending
stream-index order, and each yielded view is the one `getCell` returns for the Morton key
it carries (the cursor path is re-anchored when a sibling group is left); for
`L >= numberOfLevels()` the range is empty. -/
theorem horizontalRange_level (t : CellOctree) (L : Nat) (hwf : WellFormed t)
    (hlen : t.numberOfLevels ≤ 22) :
    (t.numberOfLevels ≤ L → ∀ fuel, 1 ≤ fuel → horizontalRange t L fuel = .ok []) ∧
    (∀ s c, t.levels_[L]? = some (s, c) → 0 < c →
      ∃ N, ∀ fuel, N ≤ fuel → ∃ vs, horizontalRange t L fuel = .ok vs ∧
        vs.map CellView.streamIndex = (List.range' s c).filter (nonPhantomAt t) ∧
        ∀ v ∈ vs, getCell t v.m = .ok (some v)) :=
  ⟨fun hL fuel hfuel => horizontalRange_missing t L hL fuel hfuel,
    fun _ c ha hc => ⟨c + 2, fun fuel hfuel => by
      obtain ⟨vs, h1, h2, h3⟩ := horizontalRange_spec hwf.storeInv hlen ha hc fuel hfuel
      exact ⟨vs, h1, h2, fun v hv => (h3 v hv).1⟩⟩⟩

theorem horizontalRange_level_witness :
    ∃ t, fromDescriptor "X|X..PP..X|P.....PP.P.P.P.P" = .ok t ∧ t.numberOfLevels ≤ 22 ∧
      t.levels_[2]? = some (9, 16) ∧
      (horizontalRange t 2 100).map (List.map (fun v => v.m.bits)) =
        .ok [0b1000001, 0b1000010, 0b1000011, 0b1000100, 0b1000101, 0b1111000, 0b1111010,
          0b1111100, 0b1111110] ∧
      (∀ fuel, 1 ≤ fuel → horizontalRange t 3 fuel = .ok []) ∧
      ∃ N, ∀ fuel, N ≤ fuel → ∃ vs, horizontalRange t 2 fuel = .ok vs ∧
        vs.map CellView.streamIndex = [10, 11, 12, 13, 14, 17, 19, 21, 23] ∧
        ∀ v ∈ vs, getCell t v.m = .ok (some v) := by
  have hthm := horizontalRange_level
    (match fromDescriptor "X|X..PP..X|P.....PP.P.P.P.P" with
    | .ok t => t
    | .error _ => CellOctree.empty) 2
    (Or.inl ⟨"X|X..PP..X|P.....PP.P.P.P.P", by decide, by decide, by decide⟩) (by decide)
  have hthm3 := horizontalRange_level
    (match fromDescriptor "X|X..PP..X|P.....PP.P.P.P.P" with
    | .ok t => t
    | .error _ => CellOctree.empty) 3
    (Or.inl ⟨"X|X..PP..X|P.....PP.P.P.P.P", by decide, by decide, by decide⟩) (by decide)
  refine ⟨_, by decide, by decide, by decide, by decide, hthm3.1 (by decide), ?_⟩
  obtain ⟨N, hN⟩ := hthm.2 9 16 (by decide) (by decide)
  refine ⟨N, fun fuel hf => ?_⟩
  obtain ⟨vs, h1, h2, h3⟩ := hN fuel hf
  refine ⟨vs, h1, ?_, h3⟩
  rw [h2]
  decide

set_option maxRecDepth 100000 in
theorem horizontalRange_deep_counterexample :
    (∃ t, WellFormed t ∧ t.numberOfLevels = 23 ∧ t.levels_[22]? = some (169, 8) ∧
      (List.range' 169 8).filter (nonPhantomAt t) = [170] ∧
      (horizontalRange t 22 200).map (List.map (fun v => (v.streamIndex, v.m.bits))) =
        .ok [(0, 1)]) ∧
    (∃ t, WellFormed t ∧ t.levels_ = [(0, 1), (1, 8), (9, 0)] ∧
      horizontalRange t 2 50 = .error .outOfRange) := by
  refine ⟨?_, (match fromDescriptor "R|........|" with
    | .ok t => t
    | .error _ => CellOctree.empty),
    Or.inl ⟨"R|........|", by decide, by decide, by decide⟩, by decide, by decide⟩
  exact ⟨(match fromDescriptor "R|XPPPPPPP|XPPPPPPP|XPPPPPPP|XPPPPPPP|XPPPPPPP|XPPPPPPP|XPPPPPPP|XPPPPPPP|XPPPPPPP|XPPPPPPP|XPPPPPPP|XPPPPPPP|XPPPPPPP|XPPPPPPP|XPPPPPPP|XPPPPPPP|XPPPPPPP|XPPPPPPP|XPPPPPPP|XPPPPPPP|XPPPPPPP|P.PPPPPP" with
    | .ok t => t
    | .error _ => CellOctree.empty),
    Or.inl ⟨"R|XPPPPPPP|XPPPPPPP|XPPPPPPP|XPPPPPPP|XPPPPPPP|XPPPPPPP|XPPPPPPP|XPPPPPPP|XPPPPPPP|XPPPPPPP|XPPPPPPP|XPPPPPPP|XPPPPPPP|XPPPPPPP|XPPPPPPP|XPPPPPPP|XPPPPPPP|XPPPPPPP|XPPPPPPP|XPPPPPPP|XPPPPPPP|P.PPPPPP", by decide, by decide, by decide⟩,
    by decide, by decide, by decide, by decide⟩

end CellOctree

namespace MortonIndex

theorem parent_child_any {k : MortonIndex} (hk : k.bits < WORD) (hr : k.isRoot = false) :
    k.parent.child k.siblingIndex = k := by
  obtain ⟨bits⟩ := k
  simp only at hk
  unfold siblingIndex
  rw [hr]
  simp only [Bool.false_eq_true, if_false]
  unfold child parent
  simp only
  congr 1
  have h1 : (bits >>> 3) <<< 3 = 8 * (bits / 8) := by
    rw [Nat.shiftRight_eq_div_pow, Nat.shiftLeft_eq]; omega
  have h2 : wrap (8 * (bits / 8)) = 8 * (bits / 8) := by
    unfold wrap; exact Nat.mod_eq_of_lt (by omega)
  rw [h1, h2, land_seven, eight_mul_or (Nat.mod_lt _ (by decide))]
  omega

theorem child_facts {k : MortonIndex} (hk : k.Valid) (hl : k.level < 21) {b : Nat}
    (hb : b < 8) :
    (k.child b).parent = k ∧ (k.child b).siblingIndex = b ∧
    (k.child b).level = k.level + 1 ∧ (k.child b).Valid ∧
    ∃ p, getPath k = .ok p ∧ getPath (k.child b) = .ok (p ++ [b]) := by
  obtain ⟨p, hp, hlen, _, hlt, hof⟩ := valid_path hk
  have hd := valid_depth hk
  have hpow : 8 ^ k.level ≤ 8 ^ 20 := Nat.pow_le_pow_right (by decide) (by omega)
  have hbits : k.bits < 2 ^ 61 := by
    have : (8 : Nat) ^ 20 = 2 ^ 60 := by norm_num
    omega
  have hcb := child_bits hbits hb
  have hp2 : ∀ c ∈ p ++ [b], c < 8 := by
    intro c hc
    rcases List.mem_append.mp hc with h | h
    · exact hlt c h
    · rw [List.mem_singleton] at h; omega
  have hlen2 : (p ++ [b]).length ≤ 21 := by simp; omega
  have hck : k.child b = ⟨ofPath (p ++ [b])⟩ := by
    have hstruct : k.child b = ⟨(k.child b).bits⟩ := rfl
    rw [hstruct, hcb, ofPath_append_single, hof]
  have hpos : 0 < k.bits := hk.1
  refine ⟨?_, ?_, ?_, ?_, p, hp, ?_⟩
  · obtain ⟨bits⟩ := k
    unfold parent
    simp only at hcb ⊢
    rw [hcb, Nat.shiftRight_eq_div_pow]
    congr 1
    omega
  · unfold siblingIndex isRoot
    rw [hcb]
    have : (8 * k.bits + b == 1) = false := by
      rw [beq_eq_false_iff_ne]; omega
    rw [this]
    simp only [Bool.false_eq_true, if_false]
    rw [land_seven]
    omega
  · rw [hck, level_ofPath _ hp2 hlen2]
    simp [hlen]
  · rw [hck]; exact valid_ofPath _ hp2 hlen2
  · rw [hck]; exact getPath_ofPath _ hp2 hlen2

/-- C17: for every non-root key `k` (a 64-bit word), `child(parent(k), siblingIndex(k))`
is `k`; and for every valid key `k` of level below 21 and every selector `b` in `0..7`,
the key `c = child(k, b)` has parent `k`, sibling index `b`, level `level(k) + 1` and the
path of `k` followed by `b`. -/
theorem parent_child_roundtrip (k : MortonIndex) (b : Nat) (hw : k.bits < WORD) :
    (k.isRoot = false → k.parent.child k.siblingIndex = k) ∧
    (k.Valid → k.level < 21 → b ≤ 7 →
      (k.child b).parent = k ∧ (k.child b).siblingIndex = b ∧
      (k.child b).level = k.level + 1 ∧
      ∃ p, getPath k = .ok p ∧ getPath (k.child b) = .ok (p ++ [b])) := by
  refine ⟨fun hr => parent_child_any hw hr, fun hk hl hb => ?_⟩
  obtain ⟨h1, h2, h3, _, h5⟩ := child_facts hk hl (show b < 8 by omega)
  exact ⟨h1, h2, h3, h5⟩

theorem parent_child_roundtrip_witness :
    (parent ⟨0o1203⟩).child (siblingIndex ⟨0o1203⟩) = ⟨0o1203⟩ ∧
    (child ⟨0o1203⟩ 5).parent = ⟨0o1203⟩ ∧ (child ⟨0o1203⟩ 5).siblingIndex = 5 ∧
    (child ⟨0o1203⟩ 5).level = level ⟨0o1203⟩ + 1 ∧
    ∃ p, getPath ⟨0o1203⟩ = .ok p ∧ getPath (child ⟨0o1203⟩ 5) = .ok (p ++ [5]) :=
  ⟨(parent_child_roundtrip ⟨0o1203⟩ 5 (by decide)).1 (by decide),
    (parent_child_roundtrip ⟨0o1203⟩ 5 (by decide)).2 (by decide) (by decide) (by decide)⟩

end MortonIndex

namespace MortonIndex

theorem wrap_double_add {x l : Nat} (hx : x < 2 ^ 62) (hl : l ≤ 1) :
    wrap (wrap (x <<< 1) + l) = 2 * x + l := by
  have h1 : x <<< 1 = 2 * x := by rw [Nat.shiftLeft_eq]; omega
  have h2 : wrap (2 * x) = 2 * x := by
    unfold wrap WORD; exact Nat.mod_eq_of_lt (by omega)
  rw [h1, h2]
  unfold wrap WORD
  exact Nat.mod_eq_of_lt (by omega)

theorem local_bits (s : Nat) :
    (if s &&& 1 = 1 then 1 else 0) = s % 2 ∧ (if s &&& 2 = 2 then 1 else 0) = s / 2 % 2 ∧
    (if s &&& 4 = 4 then 1 else 0) = s / 4 % 2 := by
  have h1 : s &&& 1 = s % 2 := Nat.and_one_is_mod s
  have h2 : s &&& 2 = 2 * (s / 2 % 2) := by
    have := Nat.and_two_pow s 1
    simp only [pow_one] at this
    rw [this, Nat.testBit, Nat.shiftRight_eq_div_pow]
    simp only [pow_one, Nat.one_and_eq_mod_two]
    rcases Nat.mod_two_eq_zero_or_one (s / 2) with h | h <;> simp [h]
  have h4 : s &&& 4 = 4 * (s / 4 % 2) := by
    have := Nat.and_two_pow s 2
    have e : (2 : Nat) ^ 2 = 4 := by norm_num
    rw [e] at this
    rw [this, Nat.testBit, Nat.shiftRight_eq_div_pow, e]
    simp only [Nat.one_and_eq_mod_two]
    rcases Nat.mod_two_eq_zero_or_one (s / 4) with h | h <;> simp [h]
  rw [h1, h2, h4]
  refine ⟨?_, ?_, ?_⟩
  · rcases Nat.mod_two_eq_zero_or_one s with h | h <;> simp [h]
  · rcases Nat.mod_two_eq_zero_or_one (s / 2) with h | h <;> simp [h]
  · rcases Nat.mod_two_eq_zero_or_one (s / 4) with h | h <;> simp [h]

theorem gridCoordinates_lt_bits : ∀ (fuel : Nat) (m : MortonIndex) (g : UnsignedGridCoordinates),
    m.bits < WORD → gridCoordinates fuel m = .ok g →
    1 ≤ m.bits ∧ g.x < m.bits ∧ g.y < m.bits ∧ g.z < m.bits := by
  intro fuel
  induction fuel with
  | zero => intro m g _ h; simp [gridCoordinates] at h
  | succ fuel ih =>
    intro m g hm h
    rw [gridCoordinates] at h
    by_cases hr : m.isRoot = true
    · rw [if_pos hr] at h
      injection h with h
      subst h
      have : m.bits = 1 := by simpa [isRoot] using hr
      simp [this]
    · rw [if_neg hr] at h
      cases hp : gridCoordinates fuel m.parent with
      | error e => rw [hp] at h; cases h
      | ok p =>
        rw [hp] at h
        simp only at h
        injection h with h
        have hpar : m.parent.bits = m.bits / 8 := by
          unfold parent; simp only; rw [Nat.shiftRight_eq_div_pow]
        have := ih m.parent p (by rw [hpar]; omega) hp
        rw [hpar] at this
        obtain ⟨lx, ly, lz⟩ := local_bits m.siblingIndex
        have hx := wrap_double_add (x := p.x) (l := m.siblingIndex % 2)
          (by unfold WORD at hm; omega) (by omega)
        have hy := wrap_double_add (x := p.y) (l := m.siblingIndex / 2 % 2)
          (by unfold WORD at hm; omega) (by omega)
        have hz := wrap_double_add (x := p.z) (l := m.siblingIndex / 4 % 2)
          (by unfold WORD at hm; omega) (by omega)
        rw [lx, ly, lz, hx, hy, hz] at h
        subst h
        simp only
        omega

theorem gridCoordinates_step {k : MortonIndex} (hw : k.bits < WORD) (hr : k.isRoot = false)
    {fuel : Nat} {p : UnsignedGridCoordinates} (hp : gridCoordinates fuel k.parent = .ok p) :
    gridCoordinates (fuel + 1) k =
      .ok ⟨2 * p.x + k.siblingIndex % 2, 2 * p.y + k.siblingIndex / 2 % 2,
        2 * p.z + k.siblingIndex / 4 % 2⟩ := by
  have hpar : k.parent.bits = k.bits / 8 := by
    unfold parent; simp only; rw [Nat.shiftRight_eq_div_pow]
  have hb := gridCoordinates_lt_bits fuel k.parent p (by rw [hpar]; omega) hp
  rw [hpar] at hb
  obtain ⟨lx, ly, lz⟩ := local_bits k.siblingIndex
  have hx := wrap_double_add (x := p.x) (l := k.siblingIndex % 2)
    (by unfold WORD at hw; omega) (by omega)
  have hy := wrap_double_add (x := p.y) (l := k.siblingIndex / 2 % 2)
    (by unfold WORD at hw; omega) (by omega)
  have hz := wrap_double_add (x := p.z) (l := k.siblingIndex / 4 % 2)
    (by unfold WORD at hw; omega) (by omega)
  rw [gridCoordinates, hr, hp]
  simp only [Bool.false_eq_true, if_false]
  rw [lx, ly, lz, hx, hy, hz]

theorem gridCoordinates_ofPath (n : Nat) : ∀ (p : List Nat), p.length = n →
    (∀ c ∈ p, c < 8) → n ≤ 21 → ∀ fuel, n < fuel →
    ∃ g, gridCoordinates fuel ⟨ofPath p⟩ = .ok g ∧
      fromGridCoordinates n g = ⟨ofPath p⟩ ∧ g.x < 2 ^ n ∧ g.y < 2 ^ n ∧ g.z < 2 ^ n := by
  induction n with
  | zero =>
    intro p hp _ _ fuel hf
    have : p = [] := List.length_eq_zero.mp hp
    subst this
    obtain ⟨f, rfl⟩ : ∃ f, fuel = f + 1 := ⟨fuel - 1, by omega⟩
    exact ⟨⟨0, 0, 0⟩, rfl, rfl, by simp, by simp, by simp⟩
  | succ n ih =>
    intro p hp hlt hn fuel hf
    rcases List.eq_nil_or_concat p with rfl | ⟨q, c, hqc⟩
    · simp at hp
    · rw [List.concat_eq_append] at hqc
      subst hqc
      have hq : q.length = n := by simpa using hp
      have hqlt : ∀ x ∈ q, x < 8 := fun x hx => hlt x (List.mem_append_left _ hx)
      have hc : c < 8 := hlt c (by simp)
      obtain ⟨f, rfl⟩ : ∃ f, fuel = f + 1 := ⟨fuel - 1, by omega⟩
      obtain ⟨g, hg, hfg, gx, gy, gz⟩ := ih q hq hqlt (by omega) f (by omega)
      have hA := ofPath_bounds q hqlt
      have hAw := ofPath_lt_WORD (q ++ [c]) hlt (by rw [hp]; exact hn)
      rw [ofPath_append_single] at hAw ⊢
      have hroot : isRoot ⟨8 * ofPath q + c⟩ = false := by
        unfold isRoot
        rw [beq_eq_false_iff_ne]
        have : 0 < 8 ^ q.length := Nat.pos_pow_of_pos _ (by decide)
        simp only; omega
      have hpar : parent ⟨8 * ofPath q + c⟩ = ⟨ofPath q⟩ := by
        unfold parent; simp only; rw [Nat.shiftRight_eq_div_pow]; congr 1; omega
      have hsib : siblingIndex ⟨8 * ofPath q + c⟩ = c := by
        unfold siblingIndex
        rw [hroot]
        simp only [Bool.false_eq_true, if_false]
        rw [land_seven]; omega
      have hstep := @gridCoordinates_step ⟨8 * ofPath q + c⟩ hAw hroot f g
        (by rw [hpar]; exact hg)
      rw [hsib] at hstep
      refine ⟨_, hstep, ?_, ?_, ?_, ?_⟩
      · rw [fromGridCoordinates]
        simp only
        have e1 : ∀ (a b : Nat), b ≤ 1 → (2 * a + b) >>> 1 = a := by
          intro a b hb; rw [Nat.shiftRight_eq_div_pow]; omega
        rw [e1 _ _ (by omega), e1 _ _ (by omega), e1 _ _ (by omega), hfg]
        have hqb : (⟨ofPath q⟩ : MortonIndex).bits < 2 ^ 61 := by
          simp only
          have h8 : 8 ^ q.length ≤ 8 ^ 20 := Nat.pow_le_pow_right (by decide) (by omega)
          have : (8 : Nat) ^ 20 = 2 ^ 60 := by norm_num
          omega
        have e2 : ∀ (a b : Nat), b ≤ 1 → (2 * a + b) &&& 1 = b := by
          intro a b hb; rw [Nat.and_one_is_mod]; omega
        rw [e2 _ _ (by omega), e2 _ _ (by omega), e2 _ _ (by omega)]
        have hli : ((c / 4 % 2) <<< 2) ||| ((c / 2 % 2) <<< 1) ||| (c % 2) = c := by
          interval_cases c <;> rfl
        rw [hli]
        have hstruct : child ⟨ofPath q⟩ c = ⟨(child ⟨ofPath q⟩ c).bits⟩ := rfl
        rw [hstruct, child_bits hqb hc]
      · simp only; rw [pow_succ]; omega
      · simp only; rw [pow_succ]; omega
      · simp only; rw [pow_succ]; omega

theorem gridCoordinates_valid {k : MortonIndex} (hk : k.Valid) {fuel : Nat}
    (hf : k.level < fuel) :
    ∃ g, gridCoordinates fuel k = .ok g ∧ fromGridCoordinates k.level g = k ∧
      g.x < 2 ^ k.level ∧ g.y < 2 ^ k.level ∧ g.z < 2 ^ k.level := by
  obtain ⟨p, _, hlen, h21, hlt, hof⟩ := valid_path hk
  have hke : k = ⟨ofPath p⟩ := by
    obtain ⟨bits⟩ := k
    simp only at hof
    rw [hof]
  rw [← hlen]
  have := gridCoordinates_ofPath p.length p rfl hlt h21 fuel (by omega)
  rw [← hke] at this
  exact this

/-- C19: `gridCoordinates` of the root is `(0, 0, 0)`; for every non-root key `k` (a
64-bit word) whose parent has the coordinates `(px, py, pz)`, `gridCoordinates(k)` is
`(2 * px + bit0(s), 2 * py + bit1(s), 2 * pz + bit2(s))` for the sibling index `s` of `k`;
the recursion returns for every valid key; and `0b1011001000110` has the coordinates
`(12, 9, 1)`. -/
theorem gridCoordinates_bits (k : MortonIndex) (fuel : Nat) (p : UnsignedGridCoordinates)
    (hw : k.bits < WORD) (hr : k.isRoot = false)
    (hp : gridCoordinates fuel k.parent = .ok p) :
    gridCoordinates (fuel + 1) root = .ok ⟨0, 0, 0⟩ ∧
    gridCoordinates (fuel + 1) k =
      .ok ⟨2 * p.x + k.siblingIndex % 2, 2 * p.y + k.siblingIndex / 2 % 2,
        2 * p.z + k.siblingIndex / 4 % 2⟩ ∧
    (∀ m : MortonIndex, m.Valid → ∀ f, m.level < f → ∃ g, gridCoordinates f m = .ok g) ∧
    gridCoordinates 5 ⟨0b1011001000110⟩ = .ok ⟨12, 9, 1⟩ := by
  refine ⟨rfl, gridCoordinates_step hw hr hp, ?_, by decide⟩
  intro m hm f hf
  obtain ⟨g, hg, _⟩ := gridCoordinates_ofPath m.level
    (getPathLoop m.bits m.level (3 * m.level)) (getPathLoop_length _ _ _)
    (getPathLoop_lt _ _ _) (valid_depth hm).1 f hf
  rw [ofPath_getPathLoop hm] at hg
  exact ⟨g, hg⟩

theorem gridCoordinates_bits_witness :
    gridCoordinates 4 (parent ⟨0b1011001000110⟩) = .ok ⟨6, 4, 0⟩ ∧
    siblingIndex ⟨0b1011001000110⟩ = 6 ∧
    gridCoordinates 5 ⟨0b1011001000110⟩ = .ok ⟨2 * 6 + 6 % 2, 2 * 4 + 6 / 2 % 2,
      2 * 0 + 6 / 4 % 2⟩ :=
  ⟨by decide, by decide,
    (gridCoordinates_bits ⟨0b1011001000110⟩ 4 ⟨6, 4, 0⟩ (by decide) (by decide)
      (by decide)).2.1⟩

theorem fromPathLoop_invalid : ∀ (p : List Nat) (s b : Nat), (∃ c ∈ p, 7 < c) →
    fromPathLoop p s b = .error .invalidArgument := by
  intro p
  induction p with
  | nil => intro s b h; simp at h
  | cons c p ih =>
    intro s b h
    rw [fromPathLoop]
    by_cases hc : (c &&& 7) ≠ c
    · rw [if_pos hc]
    · rw [if_neg hc]
      have hc7 : c < 8 := by
        have h1 : c &&& 7 = c := by simpa using hc
        rw [land_seven] at h1
        have := Nat.mod_lt c (show 0 < 8 by decide)
        omega
      obtain ⟨x, hx, hx7⟩ := h
      rcases List.mem_cons.mp hx with rfl | hxp
      · omega
      · exact ih _ _ ⟨x, hxp, hx7⟩

theorem fromPathLoop_cases : ∀ (p : List Nat) (s b : Nat),
    fromPathLoop p s b = .error .invalidArgument ∨ ∃ r, fromPathLoop p s b = .ok r := by
  intro p
  induction p with
  | nil => intro s b; exact Or.inr ⟨b, rfl⟩
  | cons c p ih =>
    intro s b
    rw [fromPathLoop]
    by_cases hc : (c &&& 7) ≠ c
    · rw [if_pos hc]; exact Or.inl rfl
    · rw [if_neg hc]; exact ih _ _

theorem fromPathLoop_valid : ∀ (p : List Nat) (s b : Nat), (∀ c ∈ p, c ≤ 7) →
    ∃ r, fromPathLoop p s b = .ok r := by
  intro p
  induction p with
  | nil => intro s b _; exact ⟨b, rfl⟩
  | cons c p ih =>
    intro s b h
    rw [fromPathLoop]
    have hc : c &&& 7 = c := by
      rw [land_seven]
      exact Nat.mod_eq_of_lt (by have := h c (List.mem_cons_self _ _); omega)
    rw [if_neg (by simp [hc])]
    exact ih _ _ (fun x hx => h x (List.mem_cons_of_mem _ hx))

theorem fromPath_shift (p : List Nat) (h : p.length ≤ 21) :
    wrap (p.length + wrap (p.length <<< 1)) = 3 * p.length := by
  have h1 : p.length <<< 1 = 2 * p.length := by rw [Nat.shiftLeft_eq]; omega
  rw [h1]
  have e1 : wrap (2 * p.length) = 2 * p.length :=
    Nat.mod_eq_of_lt (show 2 * p.length < 2 ^ 64 by omega)
  rw [e1]
  have e2 : p.length + 2 * p.length = 3 * p.length := by omega
  rw [e2]
  exact Nat.mod_eq_of_lt (show 3 * p.length < 2 ^ 64 by omega)

/-- C20: `fromPath` throws `invalid_argument` if and only if the path has more than 21
selectors or some selector is above 7; in every other case it returns a key. -/
theorem fromPath_error_cases (p : List Nat) :
    (fromPath p = .error .invalidArgument ↔ (21 < p.length ∨ ∃ c ∈ p, 7 < c)) ∧
    (¬ (21 < p.length ∨ ∃ c ∈ p, 7 < c) → ∃ k, fromPath p = .ok k) := by
  by_cases hlen : 21 < p.length
  · have herr : fromPath p = .error .invalidArgument := by
      unfold fromPath
      rw [if_pos (by unfold MAX_DEPTH; omega)]
    exact ⟨⟨fun _ => Or.inl hlen, fun _ => herr⟩, fun hno => absurd (Or.inl hlen) hno⟩
  · have hsh := fromPath_shift p (by omega)
    have hfp : fromPath p =
        match fromPathLoop p (3 * p.length) (intOneShiftLeft (3 * p.length)) with
        | .error e => .error e
        | .ok b => .ok ⟨b⟩ := by
      unfold fromPath
      rw [if_neg (by unfold MAX_DEPTH; omega)]
      simp only [hsh]
    have hvalid : (∀ c ∈ p, c ≤ 7) → ∃ k, fromPath p = .ok k := by
      intro hall
      obtain ⟨r, hr⟩ := fromPathLoop_valid p (3 * p.length) (intOneShiftLeft (3 * p.length))
        hall
      exact ⟨⟨r⟩, by rw [hfp, hr]⟩
    refine ⟨⟨?_, ?_⟩, ?_⟩
    · intro herr
      right
      by_contra hno
      have hall : ∀ c ∈ p, c ≤ 7 := by
        intro c hc
        by_contra h7
        exact hno ⟨c, hc, by omega⟩
      obtain ⟨k, hk⟩ := hvalid hall
      rw [hk] at herr
      cases herr
    · rintro (h | hex)
      · exact absurd h hlen
      · rw [hfp, fromPathLoop_invalid p _ _ hex]
    · intro hno
      apply hvalid
      intro c hc
      by_contra h7
      exact hno (Or.inr ⟨c, hc, by omega⟩)

theorem fromPath_error_cases_witness :
    fromPath [8, 0, 0, 0, 0, 0, 0, 0, 0, 0, 0] = .error .invalidArgument ∧
    fromPath (List.replicate 22 0) = .error .invalidArgument ∧
    (∃ k, fromPath [1, 2, 3, 4, 5, 6, 7, 0, 1, 2, 3, 4] = .ok k) ∧
    (∃ k, fromPath (List.replicate 21 7) = .ok k) :=
  ⟨(fromPath_error_cases _).1.mpr (Or.inr ⟨8, by decide, by decide⟩),
    (fromPath_error_cases _).1.mpr (Or.inl (by decide)),
    (fromPath_error_cases _).2 (by decide),
    (fromPath_error_cases _).2 (by decide)⟩

end MortonIndex

namespace CellOctree

theorem foldl_nonPhantom_count : ∀ (l : List Node) (acc : Nat), acc + l.length < WORD →
    l.foldl (fun acc node => wrap (acc + (!node.isPhantom).toNat)) acc =
      acc + l.countP (fun n => !n.isPhantom) := by
  intro l
  induction l with
  | nil => intro acc _; rfl
  | cons n l ih =>
    intro acc hacc
    simp only [List.length_cons] at hacc
    rw [List.foldl_cons, List.countP_cons]
    have hb : (!n.isPhantom).toNat ≤ 1 := by cases n.isPhantom <;> decide
    have hw : wrap (acc + (!n.isPhantom).toNat) = acc + (!n.isPhantom).toNat := by
      unfold wrap; exact Nat.mod_eq_of_lt (by omega)
    rw [hw, ih _ (by omega)]
    cases n.isPhantom <;> simp; omega

theorem countP_slice (p : Node → Bool) (nodes : List Node) (s : Nat) : ∀ c : Nat,
    s + c ≤ nodes.length →
    ((nodes.drop s).take c).countP p =
      ((List.range' s c).filter (fun i =>
        match nodes[i]? with
        | none => false
        | some n => p n)).length := by
  intro c
  induction c with
  | zero => intro _; rfl
  | succ c ih =>
    intro hc
    have hlt : s + c < nodes.length := by omega
    have hget : (nodes.drop s)[c]? = some nodes[s + c] := by
      rw [List.getElem?_drop, List.getElem?_eq_getElem hlt]
    rw [List.take_succ, hget, List.range'_concat, List.filter_append, List.countP_append,
      List.length_append, ih (by omega)]
    congr 1
    simp only [Option.toList, List.countP_cons, List.countP_nil, Nat.zero_add, Nat.mul_one]
    rw [Nat.one_mul, List.filter_cons, List.getElem?_eq_getElem hlt]
    simp only
    by_cases hp : p nodes[s + c] = true
    · rw [if_pos hp, if_pos hp]; rfl
    · rw [if_neg hp, if_neg hp]; rfl

theorem numberOfNonPhantomNodes_eq {t : CellOctree} (h : StoreInv t) {l s c : Nat}
    (ha : t.levels_[l]? = some (s, c)) :
    numberOfNonPhantomNodes t l = ((List.range' s c).filter (nonPhantomAt t)).length := by
  have hend := StoreInv.level_end_le h ha
  have hsz := h.size_lt
  dsimp only at hend
  unfold numberOfNonPhantomNodes
  rw [ha]
  dsimp only
  rw [foldl_nonPhantom_count _ _ (by
    rw [List.length_take, List.length_drop]; unfold WORD; omega), Nat.zero_add,
    countP_slice _ _ _ _ hend]
  rfl

theorem numberOfNonPhantomNodes_missing (t : CellOctree) {l : Nat}
    (hl : t.numberOfLevels ≤ l) : numberOfNonPhantomNodes t l = 0 := by
  unfold numberOfNonPhantomNodes
  rw [List.getElem?_eq_none hl]

theorem uniform_level (L : Nat) (hL : L ≤ 20) (l : Nat) (hl : l ≤ L) :
    (uniformGrid L).levels_[l]? = some (uniformStart l, 8 ^ l) := by
  rw [uniformGrid_eq L hL]
  simp only
  rw [List.getElem?_map, List.getElem?_range (by omega)]
  rfl

theorem uniform_inner (L : Nat) (hL : L ≤ 20) (i : Nat) (hi : i < uniformStart L) :
    (uniformGrid L).nodesStream_[i]? = some (Node.create true true (1 + 8 * i)) := by
  rw [uniformGrid_eq L hL]
  simp only
  rw [List.getElem?_append_left (by simp; exact hi), List.getElem?_map,
    List.getElem?_range hi]
  rfl

theorem uniform_leaf (L : Nat) (hL : L ≤ 20) (i : Nat) (h1 : uniformStart L ≤ i)
    (h2 : i < uniformStart (L + 1)) :
    (uniformGrid L).nodesStream_[i]? = some Node.default := by
  have h3 : uniformStart (L + 1) = uniformStart L + 8 ^ L := rfl
  rw [uniformGrid_eq L hL]
  simp only
  rw [List.getElem?_append_right (by simp; exact h1)]
  simp only [List.length_map, List.length_range]
  rw [List.getElem?_replicate, if_pos (by omega)]

theorem uniform_inner_children (L : Nat) (hL : L ≤ 20) (i : Nat) (hi : i < uniformStart L) :
    (Node.create true true (1 + 8 * i)).childrenStartIndex = 8 * i + 1 := by
  have := uniformStart_lt (show L + 1 ≤ 21 by omega)
  have := uniformStart_succ L
  rw [Node.childrenStartIndex_create]
  have : 1 + 8 * i < 2 ^ 62 := by omega
  rw [Nat.mod_eq_of_lt this]
  omega

/-- The layout of `uniformGrid L` for `L ≤ 20`: `L + 1` levels where level `l` is
`((8^l - 1)/7, 8^l)`; every node at stream index `i` in the levels `0..L-1` is refined
and phantom with children start `8 * i + 1`; every node of level `L` is unrefined and
non-phantom; so `numberOfNonPhantomNodes(L) = 8^L` and `numberOfNonPhantomNodes(l) = 0`
for `l < L`. -/
theorem uniformGrid_layout (L : Nat) (hL : L ≤ 20) :
    (uniformGrid L).numberOfLevels = L + 1 ∧
    (∀ l, l ≤ L → (uniformGrid L).levels_[l]? = some ((8 ^ l - 1) / 7, 8 ^ l)) ∧
    (∀ l i, l < L → (8 ^ l - 1) / 7 ≤ i → i < (8 ^ l - 1) / 7 + 8 ^ l →
      ∃ n, (uniformGrid L).nodesStream_[i]? = some n ∧ n.isRefined = true ∧
        n.isPhantom = true ∧ n.childrenStartIndex = 8 * i + 1) ∧
    (∀ i, (8 ^ L - 1) / 7 ≤ i → i < (8 ^ L - 1) / 7 + 8 ^ L →
      ∃ n, (uniformGrid L).nodesStream_[i]? = some n ∧ n.isRefined = false ∧
        n.isPhantom = false) ∧
    (uniformGrid L).numberOfNonPhantomNodes L = 8 ^ L ∧
    (∀ l, l < L → (uniformGrid L).numberOfNonPhantomNodes l = 0) := by
  have hinv := uniformGrid_storeInv L hL
  have hleaf : ∀ i, uniformStart L ≤ i → i < uniformStart L + 8 ^ L →
      ∃ n, (uniformGrid L).nodesStream_[i]? = some n ∧ n.isRefined = false ∧
        n.isPhantom = false := by
    intro i h1 h2
    exact ⟨Node.default, uniform_leaf L hL i h1 h2, Node.default_flags.1,
      Node.default_flags.2.1⟩
  have hinner : ∀ l i, l < L → uniformStart l ≤ i → i < uniformStart l + 8 ^ l →
      ∃ n, (uniformGrid L).nodesStream_[i]? = some n ∧ n.isRefined = true ∧
        n.isPhantom = true ∧ n.childrenStartIndex = 8 * i + 1 := by
    intro l i hl h1 h2
    have h3 : uniformStart (l + 1) = uniformStart l + 8 ^ l := rfl
    have h4 := uniformStart_mono (show l + 1 ≤ L by omega)
    have hi : i < uniformStart L := by omega
    exact ⟨_, uniform_inner L hL i hi, Node.isRefined_create _ _ _,
      Node.isPhantom_create _ _ _, uniform_inner_children L hL i hi⟩
  refine ⟨?_, ?_, ?_, ?_, ?_, ?_⟩
  · rw [uniformGrid_eq L hL]
    simp [numberOfLevels]
  · intro l hl
    rw [← uniformStart_eq]
    exact uniform_level L hL l hl
  · intro l i hl
    rw [← uniformStart_eq]
    exact hinner l i hl
  · rw [← uniformStart_eq]
    exact hleaf
  · rw [numberOfNonPhantomNodes_eq hinv (uniform_level L hL L (le_refl _)),
      List.filter_eq_self.mpr, List.length_range']
    intro i hi
    rw [List.mem_range'_1] at hi
    obtain ⟨n, hn, _, hp⟩ := hleaf i hi.1 hi.2
    unfold nonPhantomAt
    rw [hn]
    simp [hp]
  · intro l hl
    rw [numberOfNonPhantomNodes_eq hinv (uniform_level L hL l (by omega)),
      List.filter_eq_nil_iff.mpr, List.length_nil]
    intro i hi
    rw [List.mem_range'_1] at hi
    obtain ⟨n, hn, _, hp, _⟩ := hinner l i hl hi.1 hi.2
    unfold nonPhantomAt
    rw [hn]
    simp [hp]

/-- C15 (amended): for every level `L ≤ 19` such that the allocator can provide the
`16 * (L + 1)` bytes of the level table and the `8 * (8^(L+1) - 1)/7` bytes of the node
stream, `createUniformGrid(L)` returns an octree with `L + 1` levels where level `l` is
`((8^l - 1)/7, 8^l)`; every node at stream index `i` in the levels `0..L-1` is refined
and phantom with children start `8 * i + 1`; every node of level `L` is unrefined and
non-phantom; so `numberOfNonPhantomNodes(L) = 8^L` and `numberOfNonPhantomNodes(l) = 0`
for `l < L`. -/
theorem createUniformGrid_layout (available L : Nat) (hL : L ≤ 19)
    (hmem : 16 * (L + 1) + 8 * ((8 ^ (L + 1) - 1) / 7) ≤ available) :
    ∃ t, createUniformGrid available L = .ok t ∧
    t.numberOfLevels = L + 1 ∧
    (∀ l, l ≤ L → t.levels_[l]? = some ((8 ^ l - 1) / 7, 8 ^ l)) ∧
    (∀ l i, l < L → (8 ^ l - 1) / 7 ≤ i → i < (8 ^ l - 1) / 7 + 8 ^ l →
      ∃ n, t.nodesStream_[i]? = some n ∧ n.isRefined = true ∧
        n.isPhantom = true ∧ n.childrenStartIndex = 8 * i + 1) ∧
    (∀ i, (8 ^ L - 1) / 7 ≤ i → i < (8 ^ L - 1) / 7 + 8 ^ L →
      ∃ n, t.nodesStream_[i]? = some n ∧ n.isRefined = false ∧
        n.isPhantom = false) ∧
    t.numberOfNonPhantomNodes L = 8 ^ L ∧
    (∀ l, l < L → t.numberOfNonPhantomNodes l = 0) :=
  ⟨uniformGrid L, createUniformGrid_ok available L hL hmem,
    uniformGrid_layout L (by omega)⟩

theorem createUniformGrid_layout_witness :
    ∃ t, createUniformGrid 1000 2 = .ok t ∧
    t.numberOfLevels = 2 + 1 ∧
    (∀ l, l ≤ 2 → t.levels_[l]? = some ((8 ^ l - 1) / 7, 8 ^ l)) ∧
    (∀ l i, l < 2 → (8 ^ l - 1) / 7 ≤ i → i < (8 ^ l - 1) / 7 + 8 ^ l →
      ∃ n, t.nodesStream_[i]? = some n ∧ n.isRefined = true ∧
        n.isPhantom = true ∧ n.childrenStartIndex = 8 * i + 1) ∧
    (∀ i, (8 ^ 2 - 1) / 7 ≤ i → i < (8 ^ 2 - 1) / 7 + 8 ^ 2 →
      ∃ n, t.nodesStream_[i]? = some n ∧ n.isRefined = false ∧
        n.isPhantom = false) ∧
    t.numberOfNonPhantomNodes 2 = 8 ^ 2 ∧
    (∀ l, l < 2 → t.numberOfNonPhantomNodes l = 0) :=
  createUniformGrid_layout 1000 2 (by decide) (by decide)

/-- At level `20`, `createUniformGrid` returns no octree, whatever memory there is: the
node stream would have `(8^21 - 1)/7 = 1317624576693539401` nodes, more than the
`max_size()` of the vector, and `nodes.reserve` throws `std::length_error`; at the
levels `18` and `19` a petabyte of memory does not hold the node stream and
`nodes.reserve` throws `std::bad_alloc`. -/
theorem createUniformGrid_layout_counterexample :
    (¬ ∃ (available : Nat) (t : CellOctree), createUniformGrid available 20 = .ok t) ∧
    createUniformGrid (2 ^ 64) 20 = .error .lengthError ∧
    (8 ^ 21 - 1) / 7 = 1317624576693539401 ∧
    vectorMaxSize 8 < 1317624576693539401 ∧
    createUniformGrid (2 ^ 50) 18 = .error .badAlloc ∧
    createUniformGrid (2 ^ 50) 19 = .error .badAlloc := by
  refine ⟨?_, ?_, by norm_num, by unfold vectorMaxSize; norm_num,
    createUniformGrid_petabyte.1, createUniformGrid_petabyte.2⟩
  · rintro ⟨available, t, h⟩
    rw [createUniformGrid_twenty] at h
    split at h <;> cases h
  · rw [createUniformGrid_twenty]
    rfl

end CellOctree

namespace CellOctree

theorem flatMap_range_blocks (m a : Nat) : ∀ n : Nat,
    (List.range n).flatMap (fun b => List.range' (a + b * m) m) = List.range' a (n * m) := by
  intro n
  induction n with
  | zero => simp
  | succ n ih =>
    rw [List.range_succ, List.flatMap_append, ih]
    simp only [List.flatMap_cons, List.flatMap_nil, List.append_nil]
    have := List.range'_append_1 a (n * m) m
    rw [this]
    congr 1
    rw [Nat.succ_mul]
    omega

theorem uniform_preOrder (L : Nat) (hL : L ≤ 20) : ∀ (r l i : Nat) (k : MortonIndex),
    l + r = L → uniformStart l ≤ i → i < uniformStart (l + 1) → k.bits < 2 * 8 ^ l →
    (preOrder (uniformGrid L) (r + 1) i k).map (fun v => v.m.bits) =
      List.range' (k.bits * 8 ^ r) (8 ^ r) := by
  intro r
  induction r with
  | zero =>
    intro l i k hl h1 h2 _
    have hlL : l = L := by omega
    subst hlL
    rw [preOrder, uniform_leaf l hL i h1 h2]
    simp only [Node.default_flags.1, Node.default_flags.2.1, Bool.false_eq_true, if_false,
      List.append_nil, List.map_cons, List.map_nil, pow_zero, Nat.mul_one]
    rfl
  | succ r ih =>
    intro l i k hl h1 h2 hk
    have h3 : uniformStart (l + 1) = uniformStart l + 8 ^ l := rfl
    have h4 := uniformStart_mono (show l + 1 ≤ L by omega)
    have hi : i < uniformStart L := by omega
    have h5 := uniformStart_succ l
    have h6 := uniformStart_succ (l + 1)
    have hpow : 8 ^ l ≤ 8 ^ 20 := Nat.pow_le_pow_right (by decide) (by omega)
    have hk61 : k.bits < 2 ^ 61 := by
      have : (8 : Nat) ^ 20 = 2 ^ 60 := by norm_num
      omega
    rw [preOrder, uniform_inner L hL i hi]
    simp only [Node.isRefined_create, Node.isPhantom_create, if_true, List.nil_append]
    rw [uniform_inner_children L hL i hi, List.map_flatMap]
    have hcongr : ∀ b ∈ List.range 8,
        (preOrder (uniformGrid L) (r + 1) (8 * i + 1 + b) (k.child b)).map
          (fun v => v.m.bits) = List.range' (k.bits * 8 ^ (r + 1) + b * 8 ^ r) (8 ^ r) := by
      intro b hb
      have hb8 : b < 8 := List.mem_range.mp hb
      have hcb := MortonIndex.child_bits hk61 hb8
      rw [ih (l + 1) (8 * i + 1 + b) (k.child b) (by omega) (by omega) (by omega)
        (by rw [hcb, pow_succ]; omega), hcb]
      congr 1
      rw [pow_succ]
      ring
    rw [flatMap_congr_mem _ hcongr, flatMap_range_blocks]
    congr 1
    rw [pow_succ]
    ring

/-- The octree `uniformGrid L` for `L ≤ 20` has `L + 1` levels and iterating
`preOrderDepthFirstRange()` over it terminates and yields exactly the Morton keys with
bits `8^L, 8^L + 1, …, 2 * 8^L - 1` in this ascending order, all of level `L`. -/
theorem uniform_preOrderDepthFirstRange (L : Nat) (hL : L ≤ 20) :
    (uniformGrid L).numberOfLevels = L + 1 ∧
    ∃ N, ∀ fuel, N ≤ fuel → ∃ vs,
      preOrderDepthFirstRange (uniformGrid L) fuel = .ok vs ∧
      vs.map (fun v => v.m.bits) = List.range' (8 ^ L) (8 ^ L) ∧
      ∀ v ∈ vs, v.m.level = L := by
  have hinv := uniformGrid_storeInv L hL
  have hlev : (uniformGrid L).numberOfLevels = L + 1 := by
    rw [uniformGrid_eq L hL]
    simp [numberOfLevels]
  refine ⟨hlev, (followPaths (uniformGrid L) [0]).length + 2, fun fuel hf => ?_⟩
  have hkeys : (preOrder (uniformGrid L) (L + 1) 0 MortonIndex.root).map
      (fun v => v.m.bits) = List.range' (8 ^ L) (8 ^ L) := by
    have := uniform_preOrder L hL L 0 0 MortonIndex.root (by omega) (le_refl _)
      (by decide) (by decide)
    rw [this]
    congr 1
    show 1 * 8 ^ L = 8 ^ L
    omega
  refine ⟨_, dfs_toList hinv (by omega) fuel hf, ?_, ?_⟩
  · rw [paths_preOrder hinv _ 0 [] (chain_root _), hlev]
    exact hkeys
  · intro v hv
    rw [paths_preOrder hinv _ 0 [] (chain_root _), hlev] at hv
    have hmem : v.m.bits ∈ List.range' (8 ^ L) (8 ^ L) := by
      rw [← hkeys]
      exact List.mem_map_of_mem _ hv
    rw [List.mem_range'_1] at hmem
    exact MortonIndex.level_of_bounds (by omega) hmem.1 (by omega)

/-- C16 (amended): for every level `L ≤ 19` such that the allocator can provide the
`16 * (L + 1)` bytes of the level table and the `8 * (8^(L+1) - 1)/7` bytes of the node
stream, `createUniformGrid(L)` returns an octree of `L + 1` levels, and iterating
`preOrderDepthFirstRange()` over it terminates and yields exactly the Morton keys with
bits `8^L, 8^L + 1, …, 2 * 8^L - 1` in this ascending order, all of level `L` (only the
leaves, in Z-order). -/
theorem createUniformGrid_preOrder (available L : Nat) (hL : L ≤ 19)
    (hmem : 16 * (L + 1) + 8 * ((8 ^ (L + 1) - 1) / 7) ≤ available) :
    ∃ t, createUniformGrid available L = .ok t ∧
    t.numberOfLevels = L + 1 ∧
    ∃ N, ∀ fuel, N ≤ fuel → ∃ vs,
      preOrderDepthFirstRange t fuel = .ok vs ∧
      vs.map (fun v => v.m.bits) = List.range' (8 ^ L) (8 ^ L) ∧
      ∀ v ∈ vs, v.m.level = L :=
  ⟨uniformGrid L, createUniformGrid_ok available L hL hmem,
    uniform_preOrderDepthFirstRange L (by omega)⟩

theorem createUniformGrid_preOrder_witness :
    ∃ t, createUniformGrid 1000 1 = .ok t ∧
    t.numberOfLevels = 1 + 1 ∧
    ∃ N, ∀ fuel, N ≤ fuel → ∃ vs,
      preOrderDepthFirstRange t fuel = .ok vs ∧
      vs.map (fun v => v.m.bits) = [8, 9, 10, 11, 12, 13, 14, 15] ∧
      ∀ v ∈ vs, v.m.level = 1 :=
  createUniformGrid_preOrder 1000 1 (by decide) (by decide)

/-- At level `20` there is no octree to iterate over: `createUniformGrid(20)` throws,
`std::length_error` as soon as the level table could be reserved. -/
theorem createUniformGrid_preOrder_counterexample :
    (¬ ∃ (available fuel : Nat) (t : CellOctree) (vs : List CellView),
      createUniformGrid available 20 = .ok t ∧ preOrderDepthFirstRange t fuel = .ok vs) ∧
    createUniformGrid (2 ^ 40) 20 = .error .lengthError := by
  constructor
  · rintro ⟨available, fuel, t, vs, h, _⟩
    rw [createUniformGrid_twenty] at h
    split at h <;> cases h
  · rw [createUniformGrid_twenty]
    rfl

end CellOctree

namespace CellOctree

theorem mortonIndex_lt (c : OctreeCursor) : (OctreeCursor.mortonIndex c).bits < WORD := by
  unfold OctreeCursor.mortonIndex
  simp only
  generalize c.vPath.dropLast = l
  induction l with
  | nil => decide
  | cons i l _ =>
    rw [List.foldr_cons]
    have h1 : wrap (List.foldr (fun index bits =>
        wrap (bits <<< 3) ||| (wrap (index + WORD - 1) &&& 7)) 1 l <<< 3) < 2 ^ 64 :=
      Nat.mod_lt _ (by decide)
    have h2 : wrap (i + WORD - 1) &&& 7 < 2 ^ 64 := by
      have := Nat.and_le_right (n := wrap (i + WORD - 1)) (m := 7)
      omega
    exact Nat.or_lt_two_pow h1 h2

theorem except_cases {ε α : Type} (x : Except ε α) :
    (∃ e, x = .error e) ∨ ∃ a, x = .ok a := by
  cases x with
  | error e => exact Or.inl ⟨e, rfl⟩
  | ok a => exact Or.inr ⟨a, rfl⟩

theorem option_cases {α : Type} (x : Option α) : x = none ∨ ∃ a, x = some a := by
  cases x with
  | none => exact Or.inl rfl
  | some a => exact Or.inr ⟨a, rfl⟩

theorem getCell_shape (t : CellOctree) (m : MortonIndex) :
    (∃ e, getCell t m = .error e) ∨ getCell t m = .ok none ∨
      ∃ n i, getCell t m = .ok (some (CellView.create n m i)) := by
  by_cases hr : m.isRoot = true
  · rcases option_cases (t.nodesStream_[0]?) with h0 | ⟨root, h0⟩
    · left
      unfold getCell
      rw [if_pos hr, h0]; exact ⟨_, rfl⟩
    · right
      unfold getCell
      rw [if_pos hr, h0]
      dsimp only
      by_cases hp : root.isPhantom = true
      · rw [if_pos hp]; exact Or.inl rfl
      · rw [if_neg hp]; exact Or.inr ⟨_, _, rfl⟩
  · by_cases hl : m.level ≥ t.numberOfLevels
    · right; left
      unfold getCell
      rw [if_neg hr, if_pos hl]
    · rcases option_cases (t.nodesStream_[0]?) with h0 | ⟨root, h0⟩
      · left
        unfold getCell
        rw [if_neg hr, if_neg hl, h0]; exact ⟨_, rfl⟩
      · rcases except_cases m.getPath with ⟨e, hp⟩ | ⟨path, hp⟩
        · left
          unfold getCell
          rw [if_neg hr, if_neg hl, h0, hp]; exact ⟨_, rfl⟩
        · rcases except_cases (getCellLoop t.nodesStream_ path 0 root) with
            ⟨e, hg⟩ | ⟨r, hg⟩
          · left
            unfold getCell
            rw [if_neg hr, if_neg hl, h0, hp]
            dsimp only
            rw [hg]; exact ⟨_, rfl⟩
          · right
            unfold getCell
            rw [if_neg hr, if_neg hl, h0, hp]
            dsimp only
            rw [hg]
            cases r with
            | none => exact Or.inl rfl
            | some pr =>
              obtain ⟨idx, cur⟩ := pr
              dsimp only
              by_cases hph : cur.isPhantom = true
              · rw [if_pos hph]; exact Or.inl rfl
              · rw [if_neg hph]; exact Or.inr ⟨_, _, rfl⟩

theorem getCell_key {t : CellOctree} {m : MortonIndex} {v : CellView}
    (h : getCell t m = .ok (some v)) : v.m.bits = m.bits := by
  rcases getCell_shape t m with ⟨e, he⟩ | hn | ⟨n, i, hs⟩
  · rw [he] at h; cases h
  · rw [hn] at h; cases h
  · rw [hs] at h
    injection h with h
    injection h with h
    rw [← h]; rfl

theorem collect_bits_lt (t : CellOctree) (adv : OctreeCursor → Except Error OctreeCursor) :
    ∀ (fuel : Nat) (c : OctreeCursor) (vs : List CellView),
    OctreeIterator.collect t adv fuel c = .ok vs → ∀ v ∈ vs, v.m.bits < WORD := by
  intro fuel
  induction fuel with
  | zero => intro c vs h; cases h
  | succ fuel ih =>
    intro c vs h
    rw [OctreeIterator.collect] at h
    by_cases he : c.isEnd = true
    · rw [if_pos he] at h
      injection h with h
      subst h
      intro v hv; cases hv
    · rw [if_neg he] at h
      cases hc : OctreeCursor.currentCell t c with
      | none => rw [hc] at h; cases h
      | some v0 =>
        rw [hc] at h
        dsimp only at h
        cases ha : adv c with
        | error e => rw [ha] at h; cases h
        | ok c2 =>
          rw [ha] at h
          dsimp only at h
          cases hr : OctreeIterator.collect t adv fuel c2 with
          | error e => rw [hr] at h; cases h
          | ok rest =>
            rw [hr] at h
            dsimp only at h
            injection h with h
            subst h
            intro v hv
            rcases List.mem_cons.mp hv with rfl | hv
            · unfold OctreeCursor.currentCell at hc
              cases hg : getCell t (OctreeCursor.mortonIndex c) with
              | error e => rw [hg] at hc; cases hc
              | ok r =>
                rw [hg] at hc
                dsimp only at hc
                subst hc
                rw [getCell_key hg]
                exact mortonIndex_lt c
            · exact ih c2 rest hr v hv

theorem toList_bits_lt (t : CellOctree) (adv : OctreeCursor → Except Error OctreeCursor)
    (fuel : Nat) (c : OctreeCursor) (vs : List CellView)
    (h : OctreeIterator.toList t adv fuel c = .ok vs) : ∀ v ∈ vs, v.m.bits < WORD := by
  unfold OctreeIterator.toList at h
  cases hc : OctreeIterator.create t adv fuel c with
  | error e => rw [hc] at h; cases h
  | ok c2 =>
    rw [hc] at h
    exact collect_bits_lt t adv fuel c2 vs h

theorem dfs_bits_lt (t : CellOctree) (fuel : Nat) (vs : List CellView)
    (h : preOrderDepthFirstRange t fuel = .ok vs) : ∀ v ∈ vs, v.m.bits < WORD :=
  toList_bits_lt t (DfsPolicy.advance t fuel) fuel ⟨[0]⟩ vs h

end CellOctree

namespace CellGridBuilder

theorem set_append_replicate {α : Type} (keys : List α) (r : Nat) (d k : α) (hr : 0 < r) :
    (keys ++ List.replicate r d).set keys.length k =
      (keys ++ [k]) ++ List.replicate (r - 1) d := by
  obtain ⟨r2, rfl⟩ : ∃ r2, r = r2 + 1 := ⟨r - 1, by omega⟩
  rw [List.set_append_right _ _ (le_refl _), Nat.sub_self, List.replicate_succ, List.set_cons_zero]
  simp

theorem enumerateCells_spec : ∀ (cells : List CellView) (keys : List MortonIndex) (r : Nat)
    (s2e : List Nat) (st : EnumState), keys.length + r < WORD →
    enumerateCells cells ⟨keys ++ List.replicate r MortonIndex.root, s2e, keys.length⟩ = .ok st →
    cells.length ≤ r ∧
    st.mortonIndices = (keys ++ cells.map (fun v => v.m)) ++
      List.replicate (r - cells.length) MortonIndex.root ∧
    st.idx = keys.length + cells.length ∧ st.streamIndexToEnum.length = s2e.length ∧
    ∀ v ∈ cells, v.streamIndex < s2e.length := by
  intro cells
  induction cells with
  | nil =>
    intro keys r s2e st _ h
    rw [enumerateCells] at h
    injection h with h
    subst h
    simp
  | cons cell rest ih =>
    intro keys r s2e st hlen h
    rw [enumerateCells] at h
    cases hc : enumerateCell ⟨keys ++ List.replicate r MortonIndex.root, s2e, keys.length⟩ cell with
    | error e => rw [hc] at h; cases h
    | ok st1 =>
      rw [hc] at h
      dsimp only at h
      unfold enumerateCell at hc
      dsimp only at hc
      by_cases h1 : keys.length < (keys ++ List.replicate r MortonIndex.root).length
      · rw [if_pos h1] at hc
        by_cases h2 : cell.streamIndex < s2e.length
        · rw [if_pos h2] at hc
          injection hc with hc
          have hr : 0 < r := by
            rw [List.length_append, List.length_replicate] at h1; omega
          have hw : wrap (keys.length + 1) = (keys ++ [cell.m]).length := by
            rw [List.length_append, List.length_singleton]
            unfold wrap; exact Nat.mod_eq_of_lt (by omega)
          rw [set_append_replicate keys r _ _ hr, hw] at hc
          subst hc
          have := ih (keys ++ [cell.m]) (r - 1) _ st (by
            rw [List.length_append, List.length_singleton]; omega) h
          obtain ⟨a1, a2, a3, a4, a5⟩ := this
          rw [List.length_append, List.length_singleton] at a3
          rw [List.length_set] at a4 a5
          refine ⟨by simp only [List.length_cons]; omega, ?_, by
            simp only [List.length_cons]; omega, a4, ?_⟩
          · rw [a2]
            simp only [List.length_cons, List.map_cons, List.append_assoc, List.singleton_append]
            congr 3
            omega
          · intro v hv
            rcases List.mem_cons.mp hv with rfl | hv
            · exact h2
            · exact a5 v hv
        · rw [if_neg h2] at hc; cases hc
      · rw [if_neg h1] at hc; cases hc

theorem enumerateLevels_spec (t : CellOctree) (fuel : Nat) : ∀ (levels : List Nat)
    (keys : List MortonIndex) (r : Nat) (s2e : List Nat) (st : EnumState),
    keys.length + r < WORD →
    enumerateLevels t fuel levels ⟨keys ++ List.replicate r MortonIndex.root, s2e, keys.length⟩
      = .ok st →
    ∃ cellss : List (List CellView),
      List.Forall₂ (fun l cells => t.horizontalRange l fuel = .ok cells) levels cellss ∧
      cellss.flatten.length ≤ r ∧
      st.mortonIndices = (keys ++ cellss.flatten.map (fun v => v.m)) ++
        List.replicate (r - cellss.flatten.length) MortonIndex.root ∧
      st.streamIndexToEnum.length = s2e.length ∧
      ∀ v ∈ cellss.flatten, v.streamIndex < s2e.length := by
  intro levels
  induction levels with
  | nil =>
    intro keys r s2e st _ h
    rw [enumerateLevels] at h
    injection h with h
    subst h
    exact ⟨[], List.Forall₂.nil, by simp, by simp, rfl, by simp⟩
  | cons lvl rest ih =>
    intro keys r s2e st hlen h
    rw [enumerateLevels] at h
    cases hh : t.horizontalRange lvl fuel with
    | error e => rw [hh] at h; cases h
    | ok cells =>
      rw [hh] at h
      dsimp only at h
      cases hc : enumerateCells cells
          ⟨keys ++ List.replicate r MortonIndex.root, s2e, keys.length⟩ with
      | error e => rw [hc] at h; cases h
      | ok st1 =>
        rw [hc] at h
        dsimp only at h
        obtain ⟨a1, a2, a3, a4, a5⟩ := enumerateCells_spec cells keys r s2e st1 hlen hc
        have hst1 : st1 = ⟨(keys ++ cells.map (fun v => v.m)) ++
            List.replicate (r - cells.length) MortonIndex.root, st1.streamIndexToEnum,
            (keys ++ cells.map (fun v => v.m)).length⟩ := by
          obtain ⟨m1, m2, m3⟩ := st1
          simp only at a2 a3
          rw [a2, a3]
          simp
        rw [hst1] at h
        obtain ⟨cellss, b1, b2, b3, b4, b5⟩ := ih _ _ _ st (by
          rw [List.length_append, List.length_map]; omega) h
        refine ⟨cells :: cellss, List.Forall₂.cons hh b1, ?_, ?_, by rw [b4, a4], ?_⟩
        · rw [List.flatten_cons, List.length_append]; omega
        · have e : r - cells.length - cellss.flatten.length =
              r - (cells.length + cellss.flatten.length) := by omega
          rw [b3, List.flatten_cons, List.length_append, List.map_append, e]
          simp only [List.append_assoc]
        · intro v hv
          rw [List.flatten_cons] at hv
          rcases List.mem_append.mp hv with hv | hv
          · exact a5 v hv
          · rw [← a4]; exact b5 v hv

theorem wrap_sum_mod (t : CellOctree) : ∀ (levels : List Nat) (acc : Nat),
    levels.foldl (fun sum lvlNum => wrap (sum + t.numberOfNonPhantomNodes lvlNum)) acc % WORD =
      (acc + (levels.map t.numberOfNonPhantomNodes).sum) % WORD := by
  intro levels
  induction levels with
  | nil => intro acc; simp
  | cons l rest ih =>
    intro acc
    rw [List.foldl_cons, ih, List.map_cons, List.sum_cons]
    unfold wrap
    rw [Nat.add_mod, Nat.mod_mod, ← Nat.add_mod, Nat.add_assoc]

theorem numberOfNonPhantomNodesOf_mod (t : CellOctree) (levels : List Nat) :
    numberOfNonPhantomNodesOf t levels = (levels.map t.numberOfNonPhantomNodes).sum % WORD := by
  unfold numberOfNonPhantomNodesOf
  have h := wrap_sum_mod t levels 0
  rw [Nat.zero_add] at h
  rw [← h]
  symm
  apply Nat.mod_eq_of_lt
  cases levels.eq_nil_or_concat with
  | inl hn => subst hn; show 0 < WORD; decide
  | inr hc =>
    obtain ⟨L, b, rfl⟩ := hc
    rw [List.concat_eq_append, List.foldl_append]
    simp only [List.foldl_cons, List.foldl_nil]
    exact Nat.mod_lt _ (by decide)

/-- What a successful `build` returns, read off its definition. -/
theorem build_inv {b : CellGridBuilder} {equalRange : List Nat → List Nat} {fuel : Nat}
    {g : CellGrid} (h : build b equalRange fuel = .ok g) :
    ∃ cellss : List (List CellView),
      List.Forall₂ (fun l cells => b.octree_.horizontalRange l fuel = .ok cells)
        b.selectedLevels cellss ∧
      cellss.flatten.length ≤ numberOfNonPhantomNodesOf b.octree_ b.selectedLevels ∧
      g.mortonIndices_ = cellss.flatten.map (fun v => v.m) ++
        List.replicate (numberOfNonPhantomNodesOf b.octree_ b.selectedLevels -
          cellss.flatten.length) MortonIndex.root ∧
      (∀ v ∈ cellss.flatten, v.streamIndex < b.octree_.numberOfNodes) ∧
      g.adjacencyOffsets_ = b.adjacencyOffsets_ ∧
      (b.adjacencyOffsets_ = [] → g.adjacencyLists_ = []) ∧
      (b.adjacencyOffsets_ ≠ [] → ∃ coords,
        coordinatesOf fuel g.mortonIndices_ = .ok coords ∧
        neighborRows (neighborEntry (b.periodicityHandler_.getD .noPeriodicity) equalRange fuel
          g.mortonIndices_ coords) g.mortonIndices_ b.adjacencyOffsets_ =
            .ok g.adjacencyLists_) := by
  unfold build at h
  dsimp only at h
  have hn : numberOfNonPhantomNodesOf b.octree_ b.selectedLevels < WORD := by
    rw [numberOfNonPhantomNodesOf_mod]; exact Nat.mod_lt _ (by decide)
  cases he : enumerateLevels b.octree_ fuel b.selectedLevels
      ⟨List.replicate (numberOfNonPhantomNodesOf b.octree_ b.selectedLevels) MortonIndex.root,
        List.replicate b.octree_.numberOfNodes CellGrid.NOT_ENUMERATED, 0⟩ with
  | error e => rw [he] at h; cases h
  | ok st =>
    rw [he] at h
    dsimp only at h
    have he2 : enumerateLevels b.octree_ fuel b.selectedLevels
        ⟨[] ++ List.replicate (numberOfNonPhantomNodesOf b.octree_ b.selectedLevels)
          MortonIndex.root, List.replicate b.octree_.numberOfNodes CellGrid.NOT_ENUMERATED,
          ([] : List MortonIndex).length⟩ = .ok st := he
    obtain ⟨cellss, a1, a2, a3, a4, a5⟩ := enumerateLevels_spec _ _ _ [] _ _ st
      (by rw [List.length_nil, Nat.zero_add]; exact hn) he2
    rw [List.nil_append] at a3
    rw [List.length_replicate] at a5
    by_cases ho : b.adjacencyOffsets_.isEmpty = true
    · rw [if_pos ho] at h
      injection h with h
      subst h
      refine ⟨cellss, a1, a2, a3, a5, rfl, fun _ => rfl, ?_⟩
      intro hne
      exact absurd (List.isEmpty_iff.mp ho) hne
    · rw [if_neg ho] at h
      cases hco : coordinatesOf fuel st.mortonIndices with
      | error e => rw [hco] at h; cases h
      | ok coords =>
        rw [hco] at h
        dsimp only at h
        cases hr : neighborRows (neighborEntry (b.periodicityHandler_.getD .noPeriodicity)
            equalRange fuel st.mortonIndices coords) st.mortonIndices b.adjacencyOffsets_ with
        | error e => rw [hr] at h; cases h
        | ok rows =>
          rw [hr] at h
          dsimp only at h
          injection h with h
          subst h
          refine ⟨cellss, a1, a2, a3, a5, rfl, ?_, fun _ => ⟨coords, hco, hr⟩⟩
          intro hnil
          rw [hnil] at ho
          exact absurd rfl ho

end CellGridBuilder

namespace CellOctree

theorem horizontalRange_empty_level {t : CellOctree} {L s : Nat}
    (ha : t.levels_[L]? = some (s, 0)) (fuel : Nat) :
    horizontalRange t L fuel = .error .outOfRange := by
  have hL := getElem?_lt_length ha
  have hstart : horizontalStart t L = .error .outOfRange := by
    unfold horizontalStart
    rw [if_neg (by unfold numberOfLevels; omega), ha]
    dsimp only
    rw [List.replicate_succ]
    unfold OctreeCursor.updatePath
    dsimp only
    rw [List.length_replicate, ha]
    dsimp only
    rw [if_pos (Nat.zero_le _)]
  unfold horizontalRange
  rw [hstart]

theorem horizontal_collect_len {t : CellOctree} (h : StoreInv t)
    {L s c : Nat} (ha : t.levels_[L]? = some (s, c)) (fa : Nat) (hfa : c ≤ fa) :
    ∀ (n i : Nat) (up : List Nat) (fuel : Nat) (vs : List CellView), Chain t (i :: up) →
    up.length = L → nonPhantomAt t i = true → s + c - i ≤ n → n + 1 ≤ fuel →
    OctreeIterator.collect t (HorizontalPolicy.advance t fa) fuel ⟨i :: up⟩ = .ok vs →
    vs.length = ((List.range' i (s + c - i)).filter (nonPhantomAt t)).length := by
  intro n
  induction n with
  | zero =>
    intro i up fuel vs hc hl _ hn _ _
    rw [← hl] at ha
    obtain ⟨a, _, ha2, h1, h2, _⟩ := Chain.level h up i hc
    rw [ha] at ha2
    cases ha2
    dsimp only at h2
    omega
  | succ n ih =>
    intro i up fuel vs hc hl hnp hn hfuel hvs
    rw [← hl] at ha
    obtain ⟨a, nd, ha2, h1, h2, hnd⟩ := Chain.level h up i hc
    rw [ha] at ha2
    cases ha2
    dsimp only at h1 h2
    obtain ⟨f, rfl⟩ : ∃ f, fuel = f + 2 := ⟨fuel - 2, by omega⟩
    obtain ⟨m, hm⟩ : ∃ m, s + c - i = m + 1 := ⟨s + c - i - 1, by omega⟩
    have hm2 : s + c - (i + 1) = m := by omega
    obtain ⟨cur, hadv, hend, hnext⟩ := horizontal_advance_spec h hc ha fa hfa
    rw [hm2] at hend hnext
    rw [hm, List.range'_succ, List.filter_cons_of_pos hnp, List.length_cons]
    rw [OctreeIterator.collect] at hvs
    simp only [OctreeCursor.isEnd, List.isEmpty_cons, Bool.false_eq_true, if_false] at hvs
    rcases option_cases (OctreeCursor.currentCell t ⟨i :: up⟩) with hcc | ⟨v, hcc⟩
    · rw [hcc] at hvs; cases hvs
    · rw [hcc, hadv] at hvs
      dsimp only at hvs
      rcases except_cases (OctreeIterator.collect t (HorizontalPolicy.advance t fa) (f + 1) cur)
        with ⟨e, hr⟩ | ⟨rest, hr⟩
      · rw [hr] at hvs; cases hvs
      · rw [hr] at hvs
        dsimp only at hvs
        injection hvs with hvs
        subst hvs
        rw [List.length_cons]
        congr 1
        cases hf : (List.range' (i + 1) m).filter (nonPhantomAt t) with
        | nil =>
          rw [hend hf] at hr
          rw [OctreeIterator.collect] at hr
          simp only [OctreeCursor.isEnd, OctreeCursor.toEnd, List.isEmpty_nil, if_true] at hr
          injection hr with hr
          subst hr
          rfl
        | cons k rest2 =>
          obtain ⟨upk, rfl, hck, hlk⟩ := hnext k rest2 hf
          obtain ⟨hk1, hk2, hk3, hk4⟩ := filter_range_first _ _ _ _ _ hf
          have := ih k upk (f + 1) rest hck (by rw [hlk, hl]) hk3 (by omega) (by omega) hr
          rw [this, ← hf, hk4]
          have e : i + 1 + m - k = s + c - k := by omega
          rw [e]

theorem horizontalRange_length {t : CellOctree} (h : StoreInv t) {L : Nat} {fuel : Nat}
    (hfuel : t.numberOfNodes + 2 ≤ fuel) {cells : List CellView}
    (hr : horizontalRange t L fuel = .ok cells) :
    cells.length = numberOfNonPhantomNodes t L := by
  by_cases hL : t.numberOfLevels ≤ L
  · rw [horizontalRange_missing t L hL fuel (by omega)] at hr
    injection hr with hr
    subst hr
    rw [numberOfNonPhantomNodes_missing t hL]
    rfl
  · have hlt : L < t.levels_.length := by unfold numberOfLevels at hL; omega
    obtain ⟨s, c, ha⟩ : ∃ s c, t.levels_[L]? = some (s, c) :=
      ⟨(t.levels_[L]).1, (t.levels_[L]).2, List.getElem?_eq_getElem hlt⟩
    have hend := StoreInv.level_end_le h ha
    dsimp only at hend
    rw [numberOfNonPhantomNodes_eq h ha]
    by_cases hc0 : c = 0
    · subst hc0
      rw [horizontalRange_empty_level ha] at hr
      cases hr
    · have hc : 0 < c := by omega
      have hcf : c + 2 ≤ fuel := by unfold numberOfNodes at hfuel; omega
      obtain ⟨ups, hcs, hls⟩ := StoreInv.chain_exists h L (s, c) s ha (le_refl _)
        (by dsimp only; omega)
      have hstart : horizontalStart t L = .ok ⟨s :: ups⟩ := by
        unfold horizontalStart
        rw [if_neg (by unfold numberOfLevels; omega), ha]
        dsimp only
        rw [List.replicate_succ]
        have ha2 : t.levels_[(List.replicate L 0).length]? = some (s, c) := by
          rw [List.length_replicate]; exact ha
        refine updatePath_spec h ha2 (le_refl _) (by dsimp only; omega) hcs
          (by rw [hls, List.length_replicate]) ?_
        rw [← List.replicate_succ]
        exact getLastD_replicate_zero L
      obtain ⟨_, _, nd, hp, hnd⟩ := Chain.node h hcs
      cases hp
      have hcur := Chain.currentNode h hcs hnd
      have hal : t.levels_[ups.length]? = some (s, c) := by rw [hls]; exact ha
      obtain ⟨f, rfl⟩ : ∃ f, fuel = f + 2 := ⟨fuel - 2, by omega⟩
      obtain ⟨m, rfl⟩ : ∃ m, c = m + 1 := ⟨c - 1, by omega⟩
      unfold horizontalRange OctreeIterator.toList at hr
      rw [hstart] at hr
      dsimp only at hr
      rw [List.range'_succ]
      by_cases hph : nd.isPhantom = true
      · have hnp : nonPhantomAt t s = false := by
          unfold nonPhantomAt; rw [hnd]; simp [hph]
        rw [List.filter_cons_of_neg (by simp [hnp])]
        obtain ⟨cur, hadv, hend2, hnext⟩ := horizontal_advance_spec h hcs hal (f + 2) (by omega)
        have hm2 : s + (m + 1) - (s + 1) = m := by omega
        rw [hm2] at hend2 hnext
        cases hf : (List.range' (s + 1) m).filter (nonPhantomAt t) with
        | nil =>
          have hcr : OctreeIterator.create t (HorizontalPolicy.advance t (f + 2)) (f + 2)
              ⟨s :: ups⟩ = .ok OctreeCursor.toEnd := by
            rw [OctreeIterator.create, hcur, hadv, hend2 hf]
            simp [OctreeCursor.isEnd, hph, OctreeIterator.create, OctreeCursor.toEnd]
          rw [hcr] at hr
          dsimp only at hr
          rw [OctreeIterator.collect] at hr
          simp only [OctreeCursor.isEnd, OctreeCursor.toEnd, List.isEmpty_nil, if_true] at hr
          injection hr with hr
          subst hr
          rfl
        | cons k rest =>
          obtain ⟨upk, rfl, hck, hlk⟩ := hnext k rest hf
          obtain ⟨hk1, hk2, hk3, hk4⟩ := filter_range_first _ _ _ _ _ hf
          obtain ⟨_, _, nk, hpk, hnk⟩ := Chain.node h hck
          cases hpk
          have hcurk := Chain.currentNode h hck hnk
          have hnpk : nk.isPhantom = false := by
            unfold nonPhantomAt at hk3; rw [hnk] at hk3; simpa using hk3
          have hcr : OctreeIterator.create t (HorizontalPolicy.advance t (f + 2)) (f + 2)
              ⟨s :: ups⟩ = .ok ⟨k :: upk⟩ := by
            rw [OctreeIterator.create, hcur, hadv]
            simp [OctreeCursor.isEnd, hph, OctreeIterator.create, hcurk, hnpk]
          rw [hcr] at hr
          dsimp only at hr
          have := horizontal_collect_len h ha (f + 2) (by omega) (m + 1) k upk (f + 2) cells
            hck (by rw [hlk, hls]) hk3 (by omega) (by omega) hr
          rw [this, ← hf, hk4]
          have e : s + 1 + m - k = s + (m + 1) - k := by omega
          rw [e]
      · have hnp : nonPhantomAt t s = true := by
          unfold nonPhantomAt; rw [hnd]; simpa using hph
        have hcr : OctreeIterator.create t (HorizontalPolicy.advance t (f + 2)) (f + 2)
            ⟨s :: ups⟩ = .ok ⟨s :: ups⟩ := by
          rw [OctreeIterator.create, hcur]
          simp [OctreeCursor.isEnd, hph]
        rw [hcr] at hr
        dsimp only at hr
        have := horizontal_collect_len h ha (f + 2) (by omega) (m + 1) s ups (f + 2) cells
          hcs hls hnp (by omega) (by omega) hr
        rw [this]
        have e : s + (m + 1) - s = m + 1 := by omega
        rw [e, List.range'_succ]

end CellOctree

namespace CellGridBuilder

theorem forall₂_length_sum {t : CellOctree} {fuel : Nat} (f : Nat → Nat)
    (hf : ∀ l cells, t.horizontalRange l fuel = .ok cells → cells.length = f l) :
    ∀ (levels : List Nat) (cellss : List (List CellView)),
    List.Forall₂ (fun l cells => t.horizontalRange l fuel = .ok cells) levels cellss →
    cellss.flatten.length = (levels.map f).sum := by
  intro levels cellss h
  induction h with
  | nil => rfl
  | cons hr _ ih =>
    rw [List.flatten_cons, List.length_append, List.map_cons, List.sum_cons, ih, hf _ _ hr]

theorem build_keys {b : CellGridBuilder} {equalRange : List Nat → List Nat} {fuel : Nat}
    {g : CellGrid} (hinv : CellOctree.StoreInv b.octree_)
    (hfuel : b.octree_.numberOfNodes + 2 ≤ fuel) (h : build b equalRange fuel = .ok g) :
    ∃ cellss : List (List CellView),
      List.Forall₂ (fun l cells => b.octree_.horizontalRange l fuel = .ok cells)
        b.selectedLevels cellss ∧
      g.mortonIndices_ = cellss.flatten.map (fun v => v.m) ∧
      g.mortonIndices_.length = (b.selectedLevels.map b.octree_.numberOfNonPhantomNodes).sum ∧
      (∀ v ∈ cellss.flatten, v.streamIndex < b.octree_.numberOfNodes) := by
  obtain ⟨cellss, a1, a2, a3, a4, _⟩ := build_inv h
  have hlen := forall₂_length_sum b.octree_.numberOfNonPhantomNodes
    (fun l cells hr => CellOctree.horizontalRange_length hinv hfuel hr) _ _ a1
  have hmod := numberOfNonPhantomNodesOf_mod b.octree_ b.selectedLevels
  have hle := Nat.mod_le (b.selectedLevels.map b.octree_.numberOfNonPhantomNodes).sum WORD
  have hn : numberOfNonPhantomNodesOf b.octree_ b.selectedLevels = cellss.flatten.length := by
    omega
  rw [hn, Nat.sub_self, List.replicate_zero, List.append_nil] at a3
  refine ⟨cellss, a1, a3, ?_, a4⟩
  rw [a3, List.length_map, hlen]

/-- C11: for every cell grid built over a well-formed octree (the ranges and the
recursions given enough fuel), `mortonIndices()` is the concatenation, over the selected
levels in the order in which they were given (all levels `0..numberOfLevels-1` when none
were given), of the Morton keys yielded by `horizontalRange(level)`, and `size()` is the
sum over the selected levels of `numberOfNonPhantomNodes(level)`. -/
theorem build_mortonIndices (t : CellOctree) (lvls : List Nat)
    (offsets : List SignedGridCoordinates) (handler : Option PeriodicityMapper)
    (equalRange : List Nat → List Nat) (fuel : Nat) (g : CellGrid)
    (hwf : CellOctree.WellFormed t) (hfuel : t.numberOfNodes + 2 ≤ fuel)
    (hb : build ⟨t, lvls, offsets, handler⟩ equalRange fuel = .ok g) :
    ∃ cellss : List (List CellView),
      List.Forall₂ (fun l cells => t.horizontalRange l fuel = .ok cells)
        (if lvls.isEmpty then List.range t.numberOfLevels else lvls) cellss ∧
      g.mortonIndices = cellss.flatten.map (fun v => v.m) ∧
      g.size = ((if lvls.isEmpty then List.range t.numberOfLevels else lvls).map
        t.numberOfNonPhantomNodes).sum := by
  obtain ⟨cellss, a1, a2, a3, _⟩ := build_keys (b := ⟨t, lvls, offsets, handler⟩)
    hwf.storeInv hfuel hb
  exact ⟨cellss, a1, a2, a3⟩

theorem build_mortonIndices_witness :
    ∃ t g, CellOctree.fromDescriptor "X|X..PP..X|P.....PP.P.P.P.P" = .ok t ∧
      build ⟨t, [2, 0], [], none⟩ id 40 = .ok g ∧
      g.mortonIndices.map (fun m => m.bits) = [0o101, 0o102, 0o103, 0o104, 0o105, 0o170,
        0o172, 0o174, 0o176] ∧
      ∃ cellss : List (List CellView),
        List.Forall₂ (fun l cells => t.horizontalRange l 40 = .ok cells) [2, 0] cellss ∧
        g.mortonIndices = cellss.flatten.map (fun v => v.m) ∧
        g.size = ([2, 0].map t.numberOfNonPhantomNodes).sum := by
  refine ⟨(match CellOctree.fromDescriptor "X|X..PP..X|P.....PP.P.P.P.P" with
    | .ok t => t
    | .error _ => CellOctree.empty),
    (match build ⟨(match CellOctree.fromDescriptor "X|X..PP..X|P.....PP.P.P.P.P" with
      | .ok t => t
      | .error _ => CellOctree.empty), [2, 0], [], none⟩ id 40 with
    | .ok g => g
    | .error _ => ⟨[], [], [], []⟩), by decide, by decide, by decide, ?_⟩
  exact build_mortonIndices _ [2, 0] [] none id 40 _
    (Or.inl ⟨"X|X..PP..X|P.....PP.P.P.P.P", by decide, by decide, by decide⟩) (by decide)
    (by decide)

end CellGridBuilder

namespace CellGridBuilder

theorem coordinatesOf_get (fuel : Nat) : ∀ (mi : List MortonIndex)
    (coords : List UnsignedGridCoordinates), coordinatesOf fuel mi = .ok coords →
    coords.length = mi.length ∧
    ∀ (j : Nat) (key : MortonIndex), mi[j]? = some key →
      ∃ c, coords[j]? = some c ∧ key.gridCoordinates fuel = .ok c := by
  intro mi
  induction mi with
  | nil =>
    intro coords h
    rw [coordinatesOf] at h
    injection h with h
    subst h
    exact ⟨rfl, fun j key hj => by simp at hj⟩
  | cons m rest ih =>
    intro coords h
    rw [coordinatesOf] at h
    rcases CellOctree.except_cases (m.gridCoordinates fuel) with ⟨e, hc⟩ | ⟨c, hc⟩
    · rw [hc] at h; cases h
    · rw [hc] at h
      dsimp only at h
      rcases CellOctree.except_cases (coordinatesOf fuel rest) with ⟨e, hr⟩ | ⟨cs, hr⟩
      · rw [hr] at h; cases h
      · rw [hr] at h
        dsimp only at h
        injection h with h
        subst h
        obtain ⟨h1, h2⟩ := ih cs hr
        refine ⟨by simp [h1], ?_⟩
        intro j key hj
        cases j with
        | zero =>
          simp only [List.getElem?_cons_zero, Option.some.injEq] at hj
          subst hj
          exact ⟨c, List.getElem?_cons_zero, hc⟩
        | succ j =>
          simp only [List.getElem?_cons_succ] at hj ⊢
          exact h2 j key hj

theorem neighborRow_get (f : MortonIndex → Except Error Nat) : ∀ (mi : List MortonIndex)
    (row : List Nat), neighborRow f mi = .ok row →
    row.length = mi.length ∧
    ∀ (i : Nat) (key : MortonIndex), mi[i]? = some key →
      ∃ e, row[i]? = some e ∧ f key = .ok e := by
  intro mi
  induction mi with
  | nil =>
    intro row h
    rw [neighborRow] at h
    injection h with h
    subst h
    exact ⟨rfl, fun j key hj => by simp at hj⟩
  | cons m rest ih =>
    intro row h
    rw [neighborRow] at h
    rcases CellOctree.except_cases (f m) with ⟨e, hc⟩ | ⟨c, hc⟩
    · rw [hc] at h; cases h
    · rw [hc] at h
      dsimp only at h
      rcases CellOctree.except_cases (neighborRow f rest) with ⟨e, hr⟩ | ⟨cs, hr⟩
      · rw [hr] at h; cases h
      · rw [hr] at h
        dsimp only at h
        injection h with h
        subst h
        obtain ⟨h1, h2⟩ := ih cs hr
        refine ⟨by simp [h1], ?_⟩
        intro j key hj
        cases j with
        | zero =>
          simp only [List.getElem?_cons_zero, Option.some.injEq] at hj
          subst hj
          exact ⟨c, List.getElem?_cons_zero, hc⟩
        | succ j =>
          simp only [List.getElem?_cons_succ] at hj ⊢
          exact h2 j key hj

theorem neighborRows_get (f : SignedGridCoordinates → MortonIndex → Except Error Nat)
    (mi : List MortonIndex) : ∀ (offsets : List SignedGridCoordinates) (rows : List (List Nat)),
    neighborRows f mi offsets = .ok rows →
    rows.length = offsets.length ∧
    ∀ (oi : Nat) (o : SignedGridCoordinates), offsets[oi]? = some o →
      ∃ row, rows[oi]? = some row ∧ neighborRow (f o) mi = .ok row := by
  intro offsets
  induction offsets with
  | nil =>
    intro rows h
    rw [neighborRows] at h
    injection h with h
    subst h
    exact ⟨rfl, fun j key hj => by simp at hj⟩
  | cons o rest ih =>
    intro rows h
    rw [neighborRows] at h
    rcases CellOctree.except_cases (neighborRow (f o) mi) with ⟨e, hc⟩ | ⟨c, hc⟩
    · rw [hc] at h; cases h
    · rw [hc] at h
      dsimp only at h
      rcases CellOctree.except_cases (neighborRows f mi rest) with ⟨e, hr⟩ | ⟨cs, hr⟩
      · rw [hr] at h; cases h
      · rw [hr] at h
        dsimp only at h
        injection h with h
        subst h
        obtain ⟨h1, h2⟩ := ih cs hr
        refine ⟨by simp [h1], ?_⟩
        intro j key hj
        cases j with
        | zero =>
          simp only [List.getElem?_cons_zero, Option.some.injEq] at hj
          subst hj
          exact ⟨c, List.getElem?_cons_zero, hc⟩
        | succ j =>
          simp only [List.getElem?_cons_succ] at hj ⊢
          exact h2 j key hj

theorem mem_candidates {coords : List UnsignedGridCoordinates} {goal : UnsignedGridCoordinates}
    {j : Nat} : j ∈ candidates coords goal ↔ coords[j]? = some goal := by
  unfold candidates
  rw [List.mem_filter, List.mem_range]
  constructor
  · intro h; simpa using h.2
  · intro h
    exact ⟨CellOctree.getElem?_lt_length h, by simpa using h⟩

theorem selectNeighbor_spec (mi : List MortonIndex) (lvl : Nat) : ∀ (cands : List Nat)
    (entry0 : Nat), (∀ j ∈ cands, j < mi.length) →
    ∃ e, selectNeighbor mi lvl cands entry0 = .ok e ∧
      ((∃ j ∈ cands, ∃ k, mi[j]? = some k ∧ k.level = lvl) →
        e ∈ cands ∧ ∃ k, mi[e]? = some k ∧ k.level = lvl) ∧
      ((¬ ∃ j ∈ cands, ∃ k, mi[j]? = some k ∧ k.level = lvl) → e = entry0) := by
  intro cands
  induction cands with
  | nil =>
    intro entry0 _
    refine ⟨entry0, rfl, ?_, fun _ => rfl⟩
    rintro ⟨j, hj, _⟩
    cases hj
  | cons j rest ih =>
    intro entry0 hb
    have hj := hb j (List.mem_cons_self _ _)
    have hget : mi[j]? = some mi[j] := List.getElem?_eq_getElem hj
    rw [selectNeighbor, hget]
    dsimp only
    obtain ⟨e, he, h1, h2⟩ := ih (if (mi[j]).level = lvl then j else entry0)
      (fun x hx => hb x (List.mem_cons_of_mem _ hx))
    refine ⟨e, he, ?_, ?_⟩
    · intro hex
      by_cases hrest : ∃ x ∈ rest, ∃ k, mi[x]? = some k ∧ k.level = lvl
      · obtain ⟨hm, hk⟩ := h1 hrest
        exact ⟨List.mem_cons_of_mem _ hm, hk⟩
      · have he2 := h2 hrest
        obtain ⟨x, hx, k, hk, hkl⟩ := hex
        rcases List.mem_cons.mp hx with rfl | hx
        · rw [hget] at hk
          injection hk with hk
          rw [← hk] at hkl
          rw [if_pos hkl] at he2
          rw [he2]
          exact ⟨List.mem_cons_self _ _, mi[x], hget, hkl⟩
        · exact absurd ⟨x, hx, k, hk, hkl⟩ hrest
    · intro hno
      have hrest : ¬ ∃ x ∈ rest, ∃ k, mi[x]? = some k ∧ k.level = lvl := by
        rintro ⟨x, hx, hk⟩
        exact hno ⟨x, List.mem_cons_of_mem _ hx, hk⟩
      have hjl : ¬ (mi[j]).level = lvl := by
        intro hl
        exact hno ⟨j, List.mem_cons_self _ _, mi[j], hget, hl⟩
      rw [h2 hrest, if_neg hjl]

theorem neighborEntry_spec {mapper : PeriodicityMapper} {equalRange : List Nat → List Nat}
    (hperm : ∀ l, (equalRange l).Perm l) {fuel : Nat} {mi : List MortonIndex}
    {coords : List UnsignedGridCoordinates} (hco : coordinatesOf fuel mi = .ok coords)
    {o : SignedGridCoordinates} {key : MortonIndex} {entry : Nat}
    (he : neighborEntry mapper equalRange fuel mi coords o key = .ok entry) :
    ∃ c sum goal, key.gridCoordinates fuel = .ok c ∧ (toSigned c).add o = .ok sum ∧
      mapper.getNeighborCoordinates sum key.level = .ok goal ∧
      (isInvalidCoordinates goal = true → entry = CellGrid.NO_NEIGHBOR) ∧
      (isInvalidCoordinates goal = false →
        ((∃ (j : Nat) (k : MortonIndex), mi[j]? = some k ∧ k.level = key.level ∧
            k.gridCoordinates fuel = .ok (toUnsigned goal)) →
          ∃ k, mi[entry]? = some k ∧ k.level = key.level ∧
            k.gridCoordinates fuel = .ok (toUnsigned goal)) ∧
        ((¬ ∃ (j : Nat) (k : MortonIndex), mi[j]? = some k ∧ k.level = key.level ∧
            k.gridCoordinates fuel = .ok (toUnsigned goal)) →
          entry = CellGrid.NO_NEIGHBOR)) := by
  obtain ⟨hlen, hget⟩ := coordinatesOf_get fuel mi coords hco
  unfold neighborEntry at he
  rcases CellOctree.except_cases (key.gridCoordinates fuel) with ⟨e, hc⟩ | ⟨c, hc⟩
  · rw [hc] at he; cases he
  · rw [hc] at he
    dsimp only at he
    rcases CellOctree.except_cases ((toSigned c).add o) with ⟨e, hs⟩ | ⟨sum, hs⟩
    · rw [hs] at he; cases he
    · rw [hs] at he
      dsimp only at he
      rcases CellOctree.except_cases (mapper.getNeighborCoordinates sum key.level) with
        ⟨e, hg⟩ | ⟨goal, hg⟩
      · rw [hg] at he; cases he
      · rw [hg] at he
        dsimp only at he
        refine ⟨c, sum, goal, hc, hs, hg, ?_, ?_⟩
        · intro hinv
          rw [if_pos hinv] at he
          injection he with he
          exact he.symm
        · intro hinv
          rw [if_neg (by simp [hinv])] at he
          have hmem : ∀ j, j ∈ equalRange (candidates coords (toUnsigned goal)) ↔
              coords[j]? = some (toUnsigned goal) := by
            intro j
            rw [(hperm _).mem_iff, mem_candidates]
          have hb : ∀ j ∈ equalRange (candidates coords (toUnsigned goal)), j < mi.length := by
            intro j hj
            rw [← hlen]
            exact CellOctree.getElem?_lt_length ((hmem j).mp hj)
          obtain ⟨e2, he2, h1, h2⟩ := selectNeighbor_spec mi key.level _
            CellGrid.NO_NEIGHBOR hb
          rw [he2] at he
          injection he with he
          subst he
          have hiff : (∃ j ∈ equalRange (candidates coords (toUnsigned goal)),
              ∃ k, mi[j]? = some k ∧ k.level = key.level) ↔
              ∃ (j : Nat) (k : MortonIndex), mi[j]? = some k ∧ k.level = key.level ∧
                k.gridCoordinates fuel = .ok (toUnsigned goal) := by
            constructor
            · rintro ⟨j, hj, k, hk, hl⟩
              obtain ⟨cj, hcj, hgj⟩ := hget j k hk
              rw [(hmem j).mp hj] at hcj
              injection hcj with hcj
              rw [← hcj] at hgj
              exact ⟨j, k, hk, hl, hgj⟩
            · rintro ⟨j, k, hk, hl, hgj⟩
              obtain ⟨cj, hcj, hgj2⟩ := hget j k hk
              rw [hgj] at hgj2
              injection hgj2 with hgj2
              rw [← hgj2] at hcj
              exact ⟨j, (hmem j).mpr hcj, k, hk, hl⟩
          constructor
          · intro hex
            obtain ⟨hm, k, hk, hl⟩ := h1 (hiff.mpr hex)
            obtain ⟨cj, hcj, hgj⟩ := hget e2 k hk
            rw [(hmem e2).mp hm] at hcj
            injection hcj with hcj
            rw [← hcj] at hgj
            exact ⟨k, hk, hl, hgj⟩
          · intro hno
            exact h2 (fun hex => hno (hiff.mp hex))

end CellGridBuilder

namespace CellOctree

theorem horizontalRange_facts {t : CellOctree} (h : StoreInv t) (hlen : t.numberOfLevels ≤ 22)
    {L fuel : Nat} (hfuel : t.numberOfNodes + 2 ≤ fuel) {cells : List CellView}
    (hr : horizontalRange t L fuel = .ok cells) :
    (cells.map (fun v => v.m)).Nodup ∧ ∀ v ∈ cells, v.m.Valid ∧ v.m.level = L := by
  by_cases hL : t.numberOfLevels ≤ L
  · rw [horizontalRange_missing t L hL fuel (by omega)] at hr
    injection hr with hr
    subst hr
    exact ⟨List.nodup_nil, fun v hv => absurd hv (List.not_mem_nil _)⟩
  · have hlt : L < t.levels_.length := by unfold numberOfLevels at hL; omega
    obtain ⟨s, c, ha⟩ : ∃ s c, t.levels_[L]? = some (s, c) :=
      ⟨(t.levels_[L]).1, (t.levels_[L]).2, List.getElem?_eq_getElem hlt⟩
    have hend := StoreInv.level_end_le h ha
    dsimp only at hend
    by_cases hc0 : c = 0
    · subst hc0
      rw [horizontalRange_empty_level ha] at hr
      cases hr
    · obtain ⟨vs, h1, h2, h3⟩ := horizontalRange_spec h hlen ha (by omega) fuel
        (by unfold numberOfNodes at hfuel; omega)
      rw [hr] at h1
      injection h1 with h1
      subst h1
      refine ⟨?_, fun v hv => (h3 v hv).2⟩
      have hnd : (cells.map CellView.streamIndex).Nodup := by
        rw [h2]
        exact (List.nodup_range' s c).filter _
      apply List.Nodup.map_on _ (List.Nodup.of_map _ hnd)
      intro x hx y hy hxy
      have e1 := (h3 x hx).1
      have e2 := (h3 y hy).1
      simp only at hxy
      rw [hxy, e2] at e1
      injection e1 with e1
      injection e1 with e1
      exact e1.symm

end CellOctree

namespace CellGridBuilder

theorem keys_nodup {t : CellOctree} (h : CellOctree.StoreInv t) (hlen : t.numberOfLevels ≤ 22)
    {fuel : Nat} (hfuel : t.numberOfNodes + 2 ≤ fuel) :
    ∀ (levels : List Nat) (cellss : List (List CellView)),
    List.Forall₂ (fun l cells => t.horizontalRange l fuel = .ok cells) levels cellss →
    levels.Nodup →
    (cellss.flatten.map (fun v => v.m)).Nodup ∧
    ∀ v ∈ cellss.flatten, v.m.Valid ∧ v.m.level ∈ levels := by
  intro levels cellss hf
  induction hf with
  | nil =>
    intro _
    exact ⟨List.nodup_nil, fun v hv => absurd hv (List.not_mem_nil _)⟩
  | @cons l cells levels cellss hr _ ih =>
    intro hnd
    rw [List.nodup_cons] at hnd
    obtain ⟨h1, h2⟩ := ih hnd.2
    obtain ⟨f1, f2⟩ := CellOctree.horizontalRange_facts h hlen hfuel hr
    constructor
    · rw [List.flatten_cons, List.map_append, List.nodup_append]
      refine ⟨f1, h1, ?_⟩
      intro k hk1 hk2
      obtain ⟨v, hv, rfl⟩ := List.mem_map.mp hk1
      obtain ⟨w, hw, hwv⟩ := List.mem_map.mp hk2
      have e1 := (f2 v hv).2
      have e2 := (h2 w hw).2
      have hwv2 : w.m = v.m := hwv
      rw [hwv2, e1] at e2
      exact hnd.1 e2
    · intro v hv
      rw [List.flatten_cons] at hv
      rcases List.mem_append.mp hv with hv | hv
      · exact ⟨(f2 v hv).1, by rw [(f2 v hv).2]; exact List.mem_cons_self _ _⟩
      · exact ⟨(h2 v hv).1, List.mem_cons_of_mem _ (h2 v hv).2⟩

theorem selectedLevels_nodup (b : CellGridBuilder) (h : b.levels_.Nodup) :
    b.selectedLevels.Nodup := by
  unfold selectedLevels
  split
  · exact List.nodup_range _
  · exact h

/-- The keys of a grid built over a level-grouped octree of at most 22 levels from levels
without repetition are valid and pairwise distinct. -/
theorem build_keys_valid {b : CellGridBuilder} {equalRange : List Nat → List Nat} {fuel : Nat}
    {g : CellGrid} (hinv : CellOctree.StoreInv b.octree_)
    (hlen : b.octree_.numberOfLevels ≤ 22) (hnd : b.levels_.Nodup)
    (hfuel : b.octree_.numberOfNodes + 2 ≤ fuel) (h : build b equalRange fuel = .ok g) :
    g.mortonIndices_.Nodup ∧ ∀ k ∈ g.mortonIndices_, k.Valid := by
  obtain ⟨cellss, a1, a2, _, _⟩ := build_keys hinv hfuel h
  obtain ⟨h1, h2⟩ := keys_nodup hinv hlen hfuel _ _ a1 (selectedLevels_nodup b hnd)
  rw [a2]
  refine ⟨h1, ?_⟩
  intro k hk
  obtain ⟨v, hv, rfl⟩ := List.mem_map.mp hk
  exact (h2 v hv).1

theorem gridCoordinates_succ : ∀ (fuel : Nat) (m : MortonIndex) (c : UnsignedGridCoordinates),
    m.gridCoordinates fuel = .ok c → m.gridCoordinates (fuel + 1) = .ok c := by
  intro fuel
  induction fuel with
  | zero => intro m c h; cases h
  | succ fuel ih =>
    intro m c h
    rw [MortonIndex.gridCoordinates] at h ⊢
    by_cases hr : m.isRoot = true
    · rw [if_pos hr] at h ⊢
      exact h
    · rw [if_neg hr] at h ⊢
      rcases CellOctree.except_cases (m.parent.gridCoordinates fuel) with ⟨e, hp⟩ | ⟨p, hp⟩
      · rw [hp] at h; cases h
      · rw [hp] at h
        rw [ih m.parent p hp]
        exact h

theorem gridCoordinates_mono {fuel : Nat} {m : MortonIndex} {c : UnsignedGridCoordinates}
    (h : m.gridCoordinates fuel = .ok c) : ∀ k : Nat, m.gridCoordinates (fuel + k) = .ok c := by
  intro k
  induction k with
  | zero => exact h
  | succ k ih => exact gridCoordinates_succ _ _ _ ih

theorem gridCoordinates_inverse {k : MortonIndex} (hk : k.Valid) {fuel : Nat}
    {c : UnsignedGridCoordinates} (hc : k.gridCoordinates fuel = .ok c) :
    MortonIndex.fromGridCoordinates k.level c = k ∧
      c.x < 2 ^ k.level ∧ c.y < 2 ^ k.level ∧ c.z < 2 ^ k.level := by
  have h1 := gridCoordinates_mono hc (k.level + 1)
  obtain ⟨g, hg, hfg, hb⟩ := MortonIndex.gridCoordinates_valid hk
    (show k.level < fuel + (k.level + 1) by omega)
  rw [h1] at hg
  injection hg with hg
  subst hg
  exact ⟨hfg, hb⟩

theorem valid_key_unique {k1 k2 : MortonIndex} (h1 : k1.Valid) (h2 : k2.Valid)
    (hl : k1.level = k2.level) {fuel : Nat} {c : UnsignedGridCoordinates}
    (hc1 : k1.gridCoordinates fuel = .ok c) (hc2 : k2.gridCoordinates fuel = .ok c) :
    k1 = k2 := by
  rw [← (gridCoordinates_inverse h1 hc1).1, ← (gridCoordinates_inverse h2 hc2).1, hl]

theorem nodup_index_unique {α : Type} {l : List α} (h : l.Nodup) {i j : Nat} {a : α}
    (hi : l[i]? = some a) (hj : l[j]? = some a) : i = j := by
  have h1 := CellOctree.getElem?_lt_length hi
  have h2 := CellOctree.getElem?_lt_length hj
  rw [List.getElem?_eq_getElem h1] at hi
  rw [List.getElem?_eq_getElem h2] at hj
  injection hi with hi
  injection hj with hj
  exact (List.Nodup.getElem_inj_iff h).mp (hi.trans hj.symm)

end CellGridBuilder

namespace CellGridBuilder

theorem isInvalidCoordinates_iff (goal : SignedGridCoordinates) :
    isInvalidCoordinates goal = true ↔ (goal.x < 0 ∨ goal.y < 0 ∨ goal.z < 0) := by
  unfold isInvalidCoordinates
  simp [or_assoc]

/-- C12 (amended): for every cell grid built over a well-formed octree of at most 22
levels with levels selected without repetition, every configured offset `o` (at position
`oi`) and every ordinal `i` with key `key`: with
`goal = mapper(gridCoordinates(key) + o, level(key))`, the table entry is `NO_NEIGHBOR`
when some component of `goal` is negative; otherwise it is the ordinal of the enumerated
cell on the level of `key` with the grid coordinates `goal` when such a cell exists (it
is the only one), and `NO_NEIGHBOR` when none exists (cells of other levels with these
coordinates do not count). Every entry other than `NO_NEIGHBOR` names a cell on the level
of cell `i`. -/
theorem build_neighbor_entries (t : CellOctree) (lvls : List Nat)
    (offsets : List SignedGridCoordinates) (handler : Option PeriodicityMapper)
    (equalRange : List Nat → List Nat) (fuel : Nat) (g : CellGrid) (oi i : Nat)
    (o : SignedGridCoordinates) (key : MortonIndex)
    (hwf : CellOctree.WellFormed t) (hlen : t.numberOfLevels ≤ 22) (hnd : lvls.Nodup)
    (hperm : ∀ l, (equalRange l).Perm l) (hfuel : t.numberOfNodes + 2 ≤ fuel)
    (hb : build ⟨t, lvls, offsets, handler⟩ equalRange fuel = .ok g)
    (ho : offsets[oi]? = some o) (hk : g.mortonIndices[i]? = some key) :
    ∃ c sum goal row entry, key.gridCoordinates fuel = .ok c ∧
      (toSigned c).add o = .ok sum ∧
      (handler.getD .noPeriodicity).getNeighborCoordinates sum key.level = .ok goal ∧
      g.adjacencyLists_[oi]? = some row ∧ row[i]? = some entry ∧
      ((goal.x < 0 ∨ goal.y < 0 ∨ goal.z < 0) → entry = CellGrid.NO_NEIGHBOR) ∧
      (¬ (goal.x < 0 ∨ goal.y < 0 ∨ goal.z < 0) →
        ((∃ (j : Nat) (k : MortonIndex), g.mortonIndices[j]? = some k ∧ k.level = key.level ∧
            k.gridCoordinates fuel = .ok (toUnsigned goal)) →
          ∃ k, g.mortonIndices[entry]? = some k ∧ k.level = key.level ∧
            k.gridCoordinates fuel = .ok (toUnsigned goal)) ∧
        ((¬ ∃ (j : Nat) (k : MortonIndex), g.mortonIndices[j]? = some k ∧
            k.level = key.level ∧ k.gridCoordinates fuel = .ok (toUnsigned goal)) →
          entry = CellGrid.NO_NEIGHBOR) ∧
        (∀ (j : Nat) (k : MortonIndex),
          g.mortonIndices[j]? = some k → k.level = key.level →
          k.gridCoordinates fuel = .ok (toUnsigned goal) → entry = j)) ∧
      (entry ≠ CellGrid.NO_NEIGHBOR →
        ∃ k, g.mortonIndices[entry]? = some k ∧ k.level = key.level) := by
  obtain ⟨cellss, _, _, _, _, hoff, _, hrows⟩ := build_inv hb
  have hne : offsets ≠ [] := by
    intro hnil; rw [hnil] at ho; simp at ho
  obtain ⟨coords, hco, hr⟩ := hrows hne
  obtain ⟨_, hrow⟩ := neighborRows_get _ _ _ _ hr
  obtain ⟨row, hrow1, hrow2⟩ := hrow oi o ho
  obtain ⟨_, hent⟩ := neighborRow_get _ _ _ hrow2
  obtain ⟨entry, he1, he2⟩ := hent i key hk
  obtain ⟨c, sum, goal, hc, hs, hg, hinv, hval⟩ := neighborEntry_spec hperm hco he2
  refine ⟨c, sum, goal, row, entry, hc, hs, hg, hrow1, he1, ?_, ?_, ?_⟩
  · intro hneg
    exact hinv ((isInvalidCoordinates_iff goal).mpr hneg)
  · intro hnn
    have hfalse : isInvalidCoordinates goal = false := by
      rw [← Bool.not_eq_true]
      intro htrue
      exact hnn ((isInvalidCoordinates_iff goal).mp htrue)
    obtain ⟨h1, h2⟩ := hval hfalse
    refine ⟨h1, h2, ?_⟩
    intro j k hj hl hcj
    obtain ⟨k2, hk2, hl2, hc2⟩ := h1 ⟨j, k, hj, hl, hcj⟩
    obtain ⟨hnodup, hvalid⟩ := build_keys_valid (b := ⟨t, lvls, offsets, handler⟩)
      hwf.storeInv hlen hnd hfuel hb
    have hkk : k2 = k := valid_key_unique (hvalid k2 (List.getElem?_mem hk2))
      (hvalid k (List.getElem?_mem hj)) (by rw [hl2, hl]) hc2 hcj
    rw [hkk] at hk2
    exact nodup_index_unique hnodup hk2 hj
  · intro hne2
    by_cases hneg : goal.x < 0 ∨ goal.y < 0 ∨ goal.z < 0
    · exact absurd (hinv ((isInvalidCoordinates_iff goal).mpr hneg)) hne2
    · have hfalse : isInvalidCoordinates goal = false := by
        rw [← Bool.not_eq_true]
        intro htrue
        exact hneg ((isInvalidCoordinates_iff goal).mp htrue)
      obtain ⟨h1, h2⟩ := hval hfalse
      by_cases hex : ∃ (j : Nat) (k : MortonIndex), g.mortonIndices_[j]? = some k ∧
          k.level = key.level ∧ k.gridCoordinates fuel = .ok (toUnsigned goal)
      · obtain ⟨k, hk1, hk2, _⟩ := h1 hex
        exact ⟨k, hk1, hk2⟩
      · exact absurd (h2 hex) hne2

theorem build_neighbor_entries_witness :
    ∃ t g, CellOctree.fromDescriptor "R|........" = .ok t ∧
      build ⟨t, [], [⟨-1, 0, 0⟩, ⟨1, 0, 0⟩], none⟩ id 30 = .ok g ∧
      g.mortonIndices[1]? = some ⟨0b1000⟩ ∧
      g.adjacencyLists_ = [[CellGrid.NO_NEIGHBOR, CellGrid.NO_NEIGHBOR, 1,
          CellGrid.NO_NEIGHBOR, 3, CellGrid.NO_NEIGHBOR, 5, CellGrid.NO_NEIGHBOR, 7],
        [CellGrid.NO_NEIGHBOR, 2, CellGrid.NO_NEIGHBOR, 4, CellGrid.NO_NEIGHBOR, 6,
          CellGrid.NO_NEIGHBOR, 8, CellGrid.NO_NEIGHBOR]] ∧
      ∃ c sum goal row entry, MortonIndex.gridCoordinates 30 ⟨0b1000⟩ = .ok c ∧
        (toSigned c).add ⟨1, 0, 0⟩ = .ok sum ∧
        PeriodicityMapper.noPeriodicity.getNeighborCoordinates sum
          (MortonIndex.level ⟨0b1000⟩) = .ok goal ∧
        g.adjacencyLists_[1]? = some row ∧ row[1]? = some entry ∧
        ((goal.x < 0 ∨ goal.y < 0 ∨ goal.z < 0) → entry = CellGrid.NO_NEIGHBOR) ∧
        (¬ (goal.x < 0 ∨ goal.y < 0 ∨ goal.z < 0) →
          ((∃ (j : Nat) (k : MortonIndex), g.mortonIndices[j]? = some k ∧
              k.level = MortonIndex.level ⟨0b1000⟩ ∧
              k.gridCoordinates 30 = .ok (toUnsigned goal)) →
            ∃ k, g.mortonIndices[entry]? = some k ∧ k.level = MortonIndex.level ⟨0b1000⟩ ∧
              k.gridCoordinates 30 = .ok (toUnsigned goal)) ∧
          ((¬ ∃ (j : Nat) (k : MortonIndex), g.mortonIndices[j]? = some k ∧
              k.level = MortonIndex.level ⟨0b1000⟩ ∧
              k.gridCoordinates 30 = .ok (toUnsigned goal)) →
            entry = CellGrid.NO_NEIGHBOR) ∧
          (∀ (j : Nat) (k : MortonIndex),
            g.mortonIndices[j]? = some k → k.level = MortonIndex.level ⟨0b1000⟩ →
            k.gridCoordinates 30 = .ok (toUnsigned goal) → entry = j)) ∧
        (entry ≠ CellGrid.NO_NEIGHBOR →
          ∃ k, g.mortonIndices[entry]? = some k ∧ k.level = MortonIndex.level ⟨0b1000⟩) := by
  refine ⟨(match CellOctree.fromDescriptor "R|........" with
    | .ok t => t
    | .error _ => CellOctree.empty),
    (match build ⟨(match CellOctree.fromDescriptor "R|........" with
      | .ok t => t
      | .error _ => CellOctree.empty), [], [⟨-1, 0, 0⟩, ⟨1, 0, 0⟩], none⟩ id 30 with
    | .ok g => g
    | .error _ => ⟨[], [], [], []⟩), by decide, by decide, by decide, by decide, ?_⟩
  exact build_neighbor_entries (match CellOctree.fromDescriptor "R|........" with
    | .ok t => t
    | .error _ => CellOctree.empty) [] [⟨-1, 0, 0⟩, ⟨1, 0, 0⟩] none id 30 _ 1 1 ⟨1, 0, 0⟩
    ⟨0b1000⟩ (Or.inl ⟨"R|........", by decide, by decide, by decide⟩) (by decide)
    List.nodup_nil
    (fun l => List.Perm.refl l) (by decide) (by decide) (by decide) (by decide)

set_option maxRecDepth 100000 in
/-- In a well-formed octree of 23 levels the keys of the level 22 wrap around: with the
levels `0` and `22` selected, the horizontal ranges of both levels yield the key `1`, so
the grid has two ordinals with the key of the root. For the offset `(0, 0, 0)` and the
ordinal `0` the goal is `(0, 0, 0)` on level `0`, which both ordinals match: the entry is
`1` when the multimap lists the matches in insertion order, and for the ordinal `1` it is
`0` when it lists them in reverse. -/
theorem build_neighbor_entries_counterexample :
    ∃ t, CellOctree.WellFormed t ∧ t.numberOfLevels = 23 ∧ [0, 22].Nodup ∧
      (∃ v, t.horizontalRange 0 200 = .ok [v] ∧ v.m = ⟨1⟩) ∧
      (∃ v, t.horizontalRange 22 200 = .ok [v] ∧ v.m = ⟨1⟩) ∧
      MortonIndex.gridCoordinates 200 ⟨1⟩ = .ok ⟨0, 0, 0⟩ ∧
      (toSigned ⟨0, 0, 0⟩).add ⟨0, 0, 0⟩ = .ok ⟨0, 0, 0⟩ ∧
      PeriodicityMapper.noPeriodicity.getNeighborCoordinates ⟨0, 0, 0⟩
        (MortonIndex.level ⟨1⟩) = .ok ⟨0, 0, 0⟩ ∧
      toUnsigned ⟨0, 0, 0⟩ = ⟨0, 0, 0⟩ ∧
      (∃ g row, build ⟨t, [0, 22], [⟨0, 0, 0⟩], none⟩ id 200 = .ok g ∧
        g.mortonIndices = [⟨1⟩, ⟨1⟩] ∧ g.adjacencyLists_[0]? = some row ∧
        row[0]? = some 1 ∧ (1 : Nat) ≠ 0) ∧
      (∃ g row, build ⟨t, [0, 22], [⟨0, 0, 0⟩], none⟩ List.reverse 200 = .ok g ∧
        g.mortonIndices = [⟨1⟩, ⟨1⟩] ∧ g.adjacencyLists_[0]? = some row ∧
        row[1]? = some 0 ∧ (0 : Nat) ≠ 1) := by
  refine ⟨(match CellOctree.fromDescriptor "R|XPPPPPPP|XPPPPPPP|XPPPPPPP|XPPPPPPP|XPPPPPPP|XPPPPPPP|XPPPPPPP|XPPPPPPP|XPPPPPPP|XPPPPPPP|XPPPPPPP|XPPPPPPP|XPPPPPPP|XPPPPPPP|XPPPPPPP|XPPPPPPP|XPPPPPPP|XPPPPPPP|XPPPPPPP|XPPPPPPP|XPPPPPPP|P.PPPPPP" with
    | .ok t => t
    | .error _ => CellOctree.empty),
    Or.inl ⟨"R|XPPPPPPP|XPPPPPPP|XPPPPPPP|XPPPPPPP|XPPPPPPP|XPPPPPPP|XPPPPPPP|XPPPPPPP|XPPPPPPP|XPPPPPPP|XPPPPPPP|XPPPPPPP|XPPPPPPP|XPPPPPPP|XPPPPPPP|XPPPPPPP|XPPPPPPP|XPPPPPPP|XPPPPPPP|XPPPPPPP|XPPPPPPP|P.PPPPPP", by decide, by decide, by decide⟩,
    by decide, by decide,
    ⟨⟨0, ⟨4611686018427387905⟩, ⟨1⟩⟩, by decide, rfl⟩,
    ⟨⟨0, ⟨4611686018427387905⟩, ⟨1⟩⟩, by decide, rfl⟩,
    by decide, by decide, by decide, by decide,
    ⟨⟨[⟨1⟩, ⟨1⟩], 1 :: List.replicate 176 CellGrid.NOT_ENUMERATED, [⟨0, 0, 0⟩], [[1, 1]]⟩,
      [1, 1], by decide, by decide, by decide, by decide, by decide⟩,
    ⟨⟨[⟨1⟩, ⟨1⟩], 1 :: List.replicate 176 CellGrid.NOT_ENUMERATED, [⟨0, 0, 0⟩], [[0, 0]]⟩,
      [0, 0], by decide, by decide, by decide, by decide, by decide⟩⟩

end CellGridBuilder

namespace CellGridBuilder

theorem neighborIndicesLoop_spec (o : SignedGridCoordinates) :
    ∀ (offsets : List SignedGridCoordinates) (lists : List (List Nat)) (tab : List Nat),
    CellGrid.neighborIndicesLoop o offsets lists = .ok tab →
    ∃ oi : Nat, offsets[oi]? = some o ∧ lists[oi]? = some tab := by
  intro offsets
  induction offsets with
  | nil => intro lists tab h; cases h
  | cons x rest ih =>
    intro lists tab h
    unfold CellGrid.neighborIndicesLoop at h
    by_cases hx : x = o
    · rw [if_pos hx] at h
      cases lists with
      | nil => cases h
      | cons l ls =>
        dsimp only at h
        injection h with h
        subst h
        exact ⟨0, by rw [hx]; exact List.getElem?_cons_zero, List.getElem?_cons_zero⟩
    · rw [if_neg hx] at h
      obtain ⟨oi, h1, h2⟩ := ih _ _ h
      refine ⟨oi + 1, by simpa using h1, ?_⟩
      cases lists with
      | nil => simp at h2
      | cons l ls => simpa using h2

theorem addPtrdiff_ok {a b s : Int} (h : addPtrdiff a b = .ok s) : s = a + b := by
  unfold addPtrdiff at h
  split at h
  · injection h with h; exact h.symm
  · cases h

theorem add_ok {a b s : SignedGridCoordinates} (h : a.add b = .ok s) :
    s.x = a.x + b.x ∧ s.y = a.y + b.y ∧ s.z = a.z + b.z := by
  unfold SignedGridCoordinates.add at h
  rcases CellOctree.except_cases (addPtrdiff a.x b.x) with ⟨e, hx⟩ | ⟨x, hx⟩
  · rw [hx] at h; cases h
  · rw [hx] at h
    dsimp only at h
    rcases CellOctree.except_cases (addPtrdiff a.y b.y) with ⟨e, hy⟩ | ⟨y, hy⟩
    · rw [hy] at h; cases h
    · rw [hy] at h
      dsimp only at h
      rcases CellOctree.except_cases (addPtrdiff a.z b.z) with ⟨e, hz⟩ | ⟨z, hz⟩
      · rw [hz] at h; cases h
      · rw [hz] at h
        dsimp only at h
        injection h with h
        subst h
        exact ⟨addPtrdiff_ok hx, addPtrdiff_ok hy, addPtrdiff_ok hz⟩

theorem add_of_bounds {a b : SignedGridCoordinates}
    (hx : -(2 ^ 63) ≤ a.x + b.x ∧ a.x + b.x < 2 ^ 63)
    (hy : -(2 ^ 63) ≤ a.y + b.y ∧ a.y + b.y < 2 ^ 63)
    (hz : -(2 ^ 63) ≤ a.z + b.z ∧ a.z + b.z < 2 ^ 63) :
    a.add b = .ok ⟨a.x + b.x, a.y + b.y, a.z + b.z⟩ := by
  unfold SignedGridCoordinates.add addPtrdiff
  rw [if_pos hx, if_pos hy, if_pos hz]

theorem noPeriodicity_cases {sum goal : SignedGridCoordinates} {lvl : Nat} (hl : lvl < 31)
    (h : NoPeriodicity.getNeighborCoordinates sum lvl = .ok goal) :
    goal = ⟨-1, -1, -1⟩ ∨
    (goal = sum ∧ 0 ≤ sum.x ∧ sum.x < 2 ^ lvl ∧ 0 ≤ sum.y ∧ sum.y < 2 ^ lvl ∧
      0 ≤ sum.z ∧ sum.z < 2 ^ lvl) := by
  unfold NoPeriodicity.getNeighborCoordinates intOneShiftLeftSigned at h
  rw [if_pos hl] at h
  dsimp only at h
  split at h
  · injection h with h; exact Or.inl h.symm
  · split at h
    · injection h with h; exact Or.inl h.symm
    · split at h
      · injection h with h; exact Or.inl h.symm
      · injection h with h
        right
        refine ⟨h.symm, ?_⟩
        omega

theorem noPeriodicity_inside {sum : SignedGridCoordinates} {lvl : Nat} (hl : lvl < 31)
    (hx : 0 ≤ sum.x ∧ sum.x < 2 ^ lvl) (hy : 0 ≤ sum.y ∧ sum.y < 2 ^ lvl)
    (hz : 0 ≤ sum.z ∧ sum.z < 2 ^ lvl) :
    NoPeriodicity.getNeighborCoordinates sum lvl = .ok sum := by
  unfold NoPeriodicity.getNeighborCoordinates intOneShiftLeftSigned
  rw [if_pos hl]
  dsimp only
  rw [if_neg (by omega), if_neg (by omega), if_neg (by omega)]

theorem toSignedWord_small {v : Nat} (h : v < 2 ^ 63) : toSignedWord v = (v : Int) := by
  unfold toSignedWord
  rw [if_pos h]

theorem toUnsignedWord_nonneg {x : Int} (h0 : 0 ≤ x) (h1 : x < 2 ^ 64) :
    ((toUnsignedWord x : Nat) : Int) = x := by
  unfold toUnsignedWord
  rw [Int.emod_eq_of_lt h0 h1]
  exact Int.toNat_of_nonneg h0

end CellGridBuilder

namespace CellGridBuilder

theorem table_row {b : CellGridBuilder} {equalRange : List Nat → List Nat} {fuel : Nat}
    {g : CellGrid} (h : build b equalRange fuel = .ok g) {o : SignedGridCoordinates}
    {tab : List Nat} (ht : g.neighborIndices o = .ok tab) :
    ∃ coords, coordinatesOf fuel g.mortonIndices_ = .ok coords ∧
      neighborRow (neighborEntry (b.periodicityHandler_.getD .noPeriodicity) equalRange fuel
        g.mortonIndices_ coords o) g.mortonIndices_ = .ok tab := by
  obtain ⟨cellss, _, _, _, _, hoff, _, hrows⟩ := build_inv h
  unfold CellGrid.neighborIndices at ht
  obtain ⟨oi, h1, h2⟩ := neighborIndicesLoop_spec o _ _ _ ht
  rw [hoff] at h1
  have hne : b.adjacencyOffsets_ ≠ [] := by
    intro hnil; rw [hnil] at h1; simp at h1
  obtain ⟨coords, hco, hr⟩ := hrows hne
  obtain ⟨_, hrow⟩ := neighborRows_get _ _ _ _ hr
  obtain ⟨row, hrow1, hrow2⟩ := hrow oi o h1
  rw [h2] at hrow1
  injection hrow1 with hrow1
  subst hrow1
  exact ⟨coords, hco, hrow2⟩

theorem valid_coords_cast {k : MortonIndex} (hk : k.Valid) {fuel : Nat}
    {c : UnsignedGridCoordinates} (hc : k.gridCoordinates fuel = .ok c) :
    k.level < 31 ∧ toSigned c = ⟨(c.x : Int), (c.y : Int), (c.z : Int)⟩ ∧
    (c.x : Int) < 2 ^ k.level ∧ (c.y : Int) < 2 ^ k.level ∧ (c.z : Int) < 2 ^ k.level ∧
    (2 : Int) ^ k.level ≤ 2 ^ 21 := by
  obtain ⟨_, hx, hy, hz⟩ := gridCoordinates_inverse hk hc
  have hl := (MortonIndex.valid_depth hk).1
  have hp : 2 ^ k.level ≤ 2 ^ 21 := Nat.pow_le_pow_right (by decide) hl
  have hpi : (2 : Int) ^ k.level ≤ 2 ^ 21 := by exact_mod_cast hp
  refine ⟨by omega, ?_, by exact_mod_cast hx, by exact_mod_cast hy, by exact_mod_cast hz, hpi⟩
  unfold toSigned
  rw [toSignedWord_small (by omega), toSignedWord_small (by omega),
    toSignedWord_small (by omega)]

theorem toUnsigned_cast (c : UnsignedGridCoordinates) (hx : c.x < 2 ^ 64) (hy : c.y < 2 ^ 64)
    (hz : c.z < 2 ^ 64) : toUnsigned ⟨(c.x : Int), (c.y : Int), (c.z : Int)⟩ = c := by
  obtain ⟨x, y, z⟩ := c
  unfold toUnsigned toUnsignedWord
  simp only at hx hy hz ⊢
  have e : ∀ v : Nat, v < 2 ^ 64 → ((v : Int) % 2 ^ 64).toNat = v := by
    intro v hv
    rw [Int.emod_eq_of_lt (Int.ofNat_nonneg v) (by exact_mod_cast hv)]
    exact Int.toNat_ofNat v
  rw [e x hx, e y hy, e z hz]

/-- C13 (amended): for every cell grid built with identity (no) periodicity over a
well-formed octree of at most 22 levels and a set of levels (no repetition), and every
offset `o` such that both `o` and `-o` are in the neighborhood: if the table for `o` maps
the ordinal `i` to `j` and `j` is not `NO_NEIGHBOR`, then the table for `-o` maps `j` to
`i`. -/
theorem build_adjacency_symmetric (t : CellOctree) (lvls : List Nat)
    (offsets : List SignedGridCoordinates) (handler : Option PeriodicityMapper)
    (equalRange : List Nat → List Nat) (fuel : Nat) (g : CellGrid)
    (o o2 : SignedGridCoordinates) (tab tab2 : List Nat) (i j : Nat)
    (hwf : CellOctree.WellFormed t) (hlen : t.numberOfLevels ≤ 22) (hnd : lvls.Nodup)
    (hh : handler = none ∨ handler = some .noPeriodicity)
    (hperm : ∀ l, (equalRange l).Perm l) (hfuel : t.numberOfNodes + 2 ≤ fuel)
    (hb : build ⟨t, lvls, offsets, handler⟩ equalRange fuel = .ok g)
    (hneg : o2.x = -o.x ∧ o2.y = -o.y ∧ o2.z = -o.z)
    (ht : g.neighborIndices o = .ok tab) (ht2 : g.neighborIndices o2 = .ok tab2)
    (hij : tab[i]? = some j) (hj : j ≠ CellGrid.NO_NEIGHBOR) :
    tab2[j]? = some i := by
  have hm : (CellGridBuilder.mk t lvls offsets handler).periodicityHandler_.getD
      .noPeriodicity = .noPeriodicity := by
    rcases hh with rfl | rfl <;> rfl
  obtain ⟨hnodup, hvalid⟩ := build_keys_valid (b := ⟨t, lvls, offsets, handler⟩)
    hwf.storeInv hlen hnd hfuel hb
  obtain ⟨coords, hco, hrow⟩ := table_row hb ht
  obtain ⟨coords2, hco2, hrow2⟩ := table_row hb ht2
  rw [hco] at hco2
  injection hco2 with hco2
  subst hco2
  rw [hm] at hrow hrow2
  obtain ⟨hlen1, hget1⟩ := neighborRow_get _ _ _ hrow
  obtain ⟨hlen2, hget2⟩ := neighborRow_get _ _ _ hrow2
  have hi : i < g.mortonIndices_.length := by
    rw [← hlen1]; exact CellOctree.getElem?_lt_length hij
  have hki : g.mortonIndices_[i]? = some g.mortonIndices_[i] := List.getElem?_eq_getElem hi
  obtain ⟨e, he1, he2⟩ := hget1 i _ hki
  rw [hij] at he1
  injection he1 with he1
  subst he1
  have hvi := hvalid _ (List.getElem?_mem hki)
  obtain ⟨c, sum, goal, hc, hs, hg, hinv, hval⟩ := neighborEntry_spec hperm hco he2
  obtain ⟨hl31, hts, hcx, hcy, hcz, hpow⟩ := valid_coords_cast hvi hc
  have hfalse : isInvalidCoordinates goal = false := by
    rw [← Bool.not_eq_true]
    intro htrue
    exact hj (hinv htrue)
  obtain ⟨h1, h2⟩ := hval hfalse
  have hex : ∃ (j2 : Nat) (k : MortonIndex), g.mortonIndices_[j2]? = some k ∧
      k.level = (g.mortonIndices_[i]).level ∧
      k.gridCoordinates fuel = .ok (toUnsigned goal) := by
    by_contra hno
    exact hj (h2 hno)
  obtain ⟨kj, hkj, hlj, hcj⟩ := h1 hex
  have hvj := hvalid _ (List.getElem?_mem hkj)
  have hsum := add_ok hs
  rw [hts] at hsum
  simp only at hsum
  have hgoal : goal = sum ∧ 0 ≤ sum.x ∧ sum.x < 2 ^ (g.mortonIndices_[i]).level ∧
      0 ≤ sum.y ∧ sum.y < 2 ^ (g.mortonIndices_[i]).level ∧
      0 ≤ sum.z ∧ sum.z < 2 ^ (g.mortonIndices_[i]).level := by
    rcases noPeriodicity_cases hl31 hg with hbad | hgood
    · rw [hbad] at hfalse
      exact absurd hfalse (by decide)
    · exact hgood
  obtain ⟨hgs, sx0, sx1, sy0, sy1, sz0, sz1⟩ := hgoal
  subst hgs
  obtain ⟨e2, he3, he4⟩ := hget2 j kj hkj
  obtain ⟨c2, sum2, goal2, hc2, hs2, hg2, hinv2, hval2⟩ := neighborEntry_spec hperm hco he4
  rw [hcj] at hc2
  injection hc2 with hc2
  subst hc2
  have hsum2 := add_ok hs2
  have hux : ((toUnsigned goal).x : Int) = goal.x :=
    toUnsignedWord_nonneg sx0 (by omega)
  have huy : ((toUnsigned goal).y : Int) = goal.y :=
    toUnsignedWord_nonneg sy0 (by omega)
  have huz : ((toUnsigned goal).z : Int) = goal.z :=
    toUnsignedWord_nonneg sz0 (by omega)
  have hts2 : toSigned (toUnsigned goal) = goal := by
    obtain ⟨_, hts2, _⟩ := valid_coords_cast hvj hcj
    rw [hts2, hux, huy, huz]
  rw [hts2] at hsum2
  have hsum2c : sum2 = ⟨(c.x : Int), (c.y : Int), (c.z : Int)⟩ := by
    obtain ⟨x2, y2, z2⟩ := sum2
    simp only at hsum2
    obtain ⟨a1, a2, a3⟩ := hsum2
    obtain ⟨n1, n2, n3⟩ := hneg
    obtain ⟨b1, b2, b3⟩ := hsum
    congr 1 <;> omega
  rw [hlj] at hg2
  have hg3 := @noPeriodicity_inside sum2 _ hl31
    (by rw [hsum2c]; exact ⟨Int.ofNat_nonneg _, hcx⟩)
    (by rw [hsum2c]; exact ⟨Int.ofNat_nonneg _, hcy⟩)
    (by rw [hsum2c]; exact ⟨Int.ofNat_nonneg _, hcz⟩)
  have hg2' : NoPeriodicity.getNeighborCoordinates sum2 (g.mortonIndices_[i]).level =
      .ok goal2 := hg2
  rw [hg3] at hg2'
  injection hg2' with hg2'
  subst hg2'
  have hfalse2 : isInvalidCoordinates sum2 = false := by
    rw [hsum2c]
    unfold isInvalidCoordinates
    simp
  obtain ⟨h3, _⟩ := hval2 hfalse2
  have hcu : toUnsigned sum2 = c := by
    rw [hsum2c]
    exact toUnsigned_cast c (by omega) (by omega) (by omega)
  rw [hcu, hlj] at h3
  obtain ⟨k3, hk3, hl3, hc3⟩ := h3 ⟨i, _, hki, rfl, hc⟩
  have hk3v := hvalid _ (List.getElem?_mem hk3)
  have hkk : k3 = g.mortonIndices_[i] := valid_key_unique hk3v hvi hl3 hc3 hc
  rw [hkk] at hk3
  have : e2 = i := nodup_index_unique hnodup hk3 hki
  rw [this] at he3
  exact he3

end CellGridBuilder

namespace CellGridBuilder

theorem build_adjacency_symmetric_witness :
    ∃ t g tab tab2, CellOctree.fromDescriptor "R|........" = .ok t ∧
      build ⟨t, [], [⟨-1, 0, 0⟩, ⟨1, 0, 0⟩], none⟩ id 30 = .ok g ∧
      g.neighborIndices ⟨1, 0, 0⟩ = .ok tab ∧ g.neighborIndices ⟨-1, 0, 0⟩ = .ok tab2 ∧
      tab[1]? = some 2 ∧ tab2[2]? = some 1 :=
  ⟨(match CellOctree.fromDescriptor "R|........" with
    | .ok t => t
    | .error _ => CellOctree.empty),
    (match build ⟨(match CellOctree.fromDescriptor "R|........" with
      | .ok t => t
      | .error _ => CellOctree.empty), [], [⟨-1, 0, 0⟩, ⟨1, 0, 0⟩], none⟩ id 30 with
    | .ok g => g
    | .error _ => ⟨[], [], [], []⟩),
    [CellGrid.NO_NEIGHBOR, 2, CellGrid.NO_NEIGHBOR, 4, CellGrid.NO_NEIGHBOR, 6,
      CellGrid.NO_NEIGHBOR, 8, CellGrid.NO_NEIGHBOR],
    [CellGrid.NO_NEIGHBOR, CellGrid.NO_NEIGHBOR, 1, CellGrid.NO_NEIGHBOR, 3,
      CellGrid.NO_NEIGHBOR, 5, CellGrid.NO_NEIGHBOR, 7],
    by decide, by decide, by decide, by decide, by decide,
    build_adjacency_symmetric
      (match CellOctree.fromDescriptor "R|........" with
    | .ok t => t
    | .error _ => CellOctree.empty)
      [] [⟨-1, 0, 0⟩, ⟨1, 0, 0⟩] none id 30
      (match build ⟨(match CellOctree.fromDescriptor "R|........" with
      | .ok t => t
      | .error _ => CellOctree.empty), [], [⟨-1, 0, 0⟩, ⟨1, 0, 0⟩], none⟩ id 30 with
    | .ok g => g
    | .error _ => ⟨[], [], [], []⟩)
      ⟨1, 0, 0⟩ ⟨-1, 0, 0⟩
      [CellGrid.NO_NEIGHBOR, 2, CellGrid.NO_NEIGHBOR, 4, CellGrid.NO_NEIGHBOR, 6,
      CellGrid.NO_NEIGHBOR, 8, CellGrid.NO_NEIGHBOR]
      [CellGrid.NO_NEIGHBOR, CellGrid.NO_NEIGHBOR, 1, CellGrid.NO_NEIGHBOR, 3,
      CellGrid.NO_NEIGHBOR, 5, CellGrid.NO_NEIGHBOR, 7]
      1 2 (Or.inl ⟨"R|........", by decide, by decide, by decide⟩) (by decide)
      List.nodup_nil (Or.inl rfl) (fun l => List.Perm.refl l) (by decide) (by decide)
      (by decide) (by decide) (by decide) (by decide) (by decide)⟩

set_option maxRecDepth 100000 in
theorem build_adjacency_symmetric_counterexample :
    ∃ t, CellOctree.WellFormed t ∧ t.numberOfLevels = 23 ∧
      (∃ g tab, build ⟨t, [0, 22], [⟨0, 0, 0⟩], none⟩ id 200 = .ok g ∧
        g.mortonIndices = [⟨1⟩, ⟨1⟩] ∧ g.neighborIndices ⟨0, 0, 0⟩ = .ok tab ∧
        tab[0]? = some 1 ∧ 1 ≠ CellGrid.NO_NEIGHBOR ∧ tab[1]? = some 1) ∧
      (∃ g tab, build ⟨t, [0, 22], [⟨0, 0, 0⟩], none⟩ List.reverse 200 = .ok g ∧
        g.mortonIndices = [⟨1⟩, ⟨1⟩] ∧ g.neighborIndices ⟨0, 0, 0⟩ = .ok tab ∧
        tab[1]? = some 0 ∧ 0 ≠ CellGrid.NO_NEIGHBOR ∧ tab[0]? = some 0) := by
  refine ⟨(match CellOctree.fromDescriptor "R|XPPPPPPP|XPPPPPPP|XPPPPPPP|XPPPPPPP|XPPPPPPP|XPPPPPPP|XPPPPPPP|XPPPPPPP|XPPPPPPP|XPPPPPPP|XPPPPPPP|XPPPPPPP|XPPPPPPP|XPPPPPPP|XPPPPPPP|XPPPPPPP|XPPPPPPP|XPPPPPPP|XPPPPPPP|XPPPPPPP|XPPPPPPP|P.PPPPPP" with
    | .ok t => t
    | .error _ => CellOctree.empty),
    Or.inl ⟨"R|XPPPPPPP|XPPPPPPP|XPPPPPPP|XPPPPPPP|XPPPPPPP|XPPPPPPP|XPPPPPPP|XPPPPPPP|XPPPPPPP|XPPPPPPP|XPPPPPPP|XPPPPPPP|XPPPPPPP|XPPPPPPP|XPPPPPPP|XPPPPPPP|XPPPPPPP|XPPPPPPP|XPPPPPPP|XPPPPPPP|XPPPPPPP|P.PPPPPP", by decide, by decide, by decide⟩,
    by decide,
    ⟨⟨[⟨1⟩, ⟨1⟩], 1 :: List.replicate 176 CellGrid.NOT_ENUMERATED, [⟨0, 0, 0⟩], [[1, 1]]⟩,
      [1, 1], by decide, by decide, by decide, by decide, by decide, by decide⟩,
    ⟨⟨[⟨1⟩, ⟨1⟩], 1 :: List.replicate 176 CellGrid.NOT_ENUMERATED, [⟨0, 0, 0⟩], [[0, 0]]⟩,
      [0, 0], by decide, by decide, by decide, by decide, by decide, by decide⟩⟩

end CellGridBuilder

namespace CellOctree

theorem horizontalRange_streamIndex {t : CellOctree} (h : StoreInv t)
    (hlen : t.numberOfLevels ≤ 22) {L fuel : Nat} (hfuel : t.numberOfNodes + 2 ≤ fuel)
    {cells : List CellView} (hr : horizontalRange t L fuel = .ok cells) :
    ∀ v ∈ cells, v.streamIndex < t.numberOfNodes := by
  by_cases hL : t.numberOfLevels ≤ L
  · rw [horizontalRange_missing t L hL fuel (by omega)] at hr
    injection hr with hr
    subst hr
    exact fun v hv => absurd hv (List.not_mem_nil _)
  · have hlt : L < t.levels_.length := by unfold numberOfLevels at hL; omega
    obtain ⟨s, c, ha⟩ : ∃ s c, t.levels_[L]? = some (s, c) :=
      ⟨(t.levels_[L]).1, (t.levels_[L]).2, List.getElem?_eq_getElem hlt⟩
    have hend := StoreInv.level_end_le h ha
    dsimp only at hend
    by_cases hc0 : c = 0
    · subst hc0
      rw [horizontalRange_empty_level ha] at hr
      cases hr
    · obtain ⟨vs, h1, h2, _⟩ := horizontalRange_spec h hlen ha (by omega) fuel
        (by unfold numberOfNodes at hfuel; omega)
      rw [hr] at h1
      injection h1 with h1
      subst h1
      intro v hv
      have hm : v.streamIndex ∈ cells.map CellView.streamIndex := List.mem_map_of_mem _ hv
      rw [h2, List.mem_filter, List.mem_range'_1] at hm
      unfold numberOfNodes
      omega

theorem horizontalRange_ok {t : CellOctree} (h : StoreInv t) (hlen : t.numberOfLevels ≤ 22)
    {L fuel : Nat} (hfuel : t.numberOfNodes + 2 ≤ fuel)
    (hne : ∀ s, t.levels_[L]? ≠ some (s, 0)) :
    ∃ cells, horizontalRange t L fuel = .ok cells := by
  by_cases hL : t.numberOfLevels ≤ L
  · exact ⟨[], horizontalRange_missing t L hL fuel (by omega)⟩
  · have hlt : L < t.levels_.length := by unfold numberOfLevels at hL; omega
    obtain ⟨s, c, ha⟩ : ∃ s c, t.levels_[L]? = some (s, c) :=
      ⟨(t.levels_[L]).1, (t.levels_[L]).2, List.getElem?_eq_getElem hlt⟩
    have hend := StoreInv.level_end_le h ha
    dsimp only at hend
    have hc : 0 < c := by
      rcases Nat.eq_zero_or_pos c with h0 | h0
      · subst h0; exact absurd ha (hne s)
      · exact h0
    obtain ⟨vs, h1, _⟩ := horizontalRange_spec h hlen ha hc fuel
      (by unfold numberOfNodes at hfuel; omega)
    exact ⟨vs, h1⟩

end CellOctree

namespace CellGridBuilder

theorem ranges_ok {t : CellOctree} (h : CellOctree.StoreInv t) (hlen : t.numberOfLevels ≤ 22)
    {fuel : Nat} (hfuel : t.numberOfNodes + 2 ≤ fuel) : ∀ levels : List Nat,
    (∀ l ∈ levels, ∀ s, t.levels_[l]? ≠ some (s, 0)) →
    ∃ cellss : List (List CellView),
      List.Forall₂ (fun l cells => t.horizontalRange l fuel = .ok cells) levels cellss := by
  intro levels
  induction levels with
  | nil => intro _; exact ⟨[], List.Forall₂.nil⟩
  | cons l rest ih =>
    intro hne
    obtain ⟨cells, hc⟩ := CellOctree.horizontalRange_ok h hlen hfuel
      (hne l (List.mem_cons_self _ _))
    obtain ⟨cellss, hcs⟩ := ih (fun x hx => hne x (List.mem_cons_of_mem _ hx))
    exact ⟨cells :: cellss, List.Forall₂.cons hc hcs⟩

theorem enumerateCells_ok : ∀ (cells : List CellView) (keys : List MortonIndex) (r : Nat)
    (s2e : List Nat), keys.length + r < WORD → cells.length ≤ r →
    (∀ v ∈ cells, v.streamIndex < s2e.length) →
    ∃ st, enumerateCells cells ⟨keys ++ List.replicate r MortonIndex.root, s2e, keys.length⟩
      = .ok st := by
  intro cells
  induction cells with
  | nil => intro keys r s2e _ _ _; exact ⟨_, rfl⟩
  | cons cell rest ih =>
    intro keys r s2e hlen hr hs
    simp only [List.length_cons] at hr
    have h1 : keys.length < (keys ++ List.replicate r MortonIndex.root).length := by
      rw [List.length_append, List.length_replicate]; omega
    have h2 := hs cell (List.mem_cons_self _ _)
    have hw : wrap (keys.length + 1) = (keys ++ [cell.m]).length := by
      rw [List.length_append, List.length_singleton]
      unfold wrap; exact Nat.mod_eq_of_lt (by omega)
    have hcell : enumerateCell ⟨keys ++ List.replicate r MortonIndex.root, s2e, keys.length⟩
        cell = .ok ⟨(keys ++ [cell.m]) ++ List.replicate (r - 1) MortonIndex.root,
          s2e.set cell.streamIndex keys.length, (keys ++ [cell.m]).length⟩ := by
      unfold enumerateCell
      dsimp only
      rw [if_pos h1, if_pos h2, set_append_replicate keys r _ _ (by omega), hw]
    rw [enumerateCells, hcell]
    dsimp only
    apply ih
    · rw [List.length_append, List.length_singleton]; omega
    · omega
    · intro v hv
      rw [List.length_set]
      exact hs v (List.mem_cons_of_mem _ hv)

theorem enumerateLevels_ok (t : CellOctree) (fuel : Nat) : ∀ (levels : List Nat)
    (cellss : List (List CellView)),
    List.Forall₂ (fun l cells => t.horizontalRange l fuel = .ok cells) levels cellss →
    ∀ (keys : List MortonIndex) (r : Nat) (s2e : List Nat), keys.length + r < WORD →
    cellss.flatten.length ≤ r → (∀ v ∈ cellss.flatten, v.streamIndex < s2e.length) →
    ∃ st, enumerateLevels t fuel levels
      ⟨keys ++ List.replicate r MortonIndex.root, s2e, keys.length⟩ = .ok st := by
  intro levels cellss hf
  induction hf with
  | nil => intro keys r s2e _ _ _; exact ⟨_, rfl⟩
  | @cons l cells levels cellss hr _ ih =>
    intro keys r s2e hlen hle hs
    rw [List.flatten_cons, List.length_append] at hle
    rw [List.flatten_cons] at hs
    obtain ⟨st1, hst1⟩ := enumerateCells_ok cells keys r s2e hlen (by omega)
      (fun v hv => hs v (List.mem_append_left _ hv))
    obtain ⟨a1, a2, a3, a4, a5⟩ := enumerateCells_spec cells keys r s2e st1 hlen hst1
    have hst : st1 = ⟨(keys ++ cells.map (fun v => v.m)) ++
        List.replicate (r - cells.length) MortonIndex.root, st1.streamIndexToEnum,
        (keys ++ cells.map (fun v => v.m)).length⟩ := by
      obtain ⟨m1, m2, m3⟩ := st1
      simp only at a2 a3
      rw [a2, a3]
      simp
    rw [enumerateLevels, hr]
    dsimp only
    rw [hst1]
    dsimp only
    rw [hst]
    apply ih
    · rw [List.length_append, List.length_map]; omega
    · omega
    · intro v hv
      rw [a4]
      exact hs v (List.mem_append_right _ hv)

theorem coordinatesOf_ok {fuel : Nat} (hfuel : 22 ≤ fuel) : ∀ (mi : List MortonIndex),
    (∀ k ∈ mi, k.Valid) → ∃ coords, coordinatesOf fuel mi = .ok coords := by
  intro mi
  induction mi with
  | nil => intro _; exact ⟨[], rfl⟩
  | cons m rest ih =>
    intro hv
    have hm := hv m (List.mem_cons_self _ _)
    obtain ⟨c, hc, _⟩ := MortonIndex.gridCoordinates_valid hm
      (show m.level < fuel by have := (MortonIndex.valid_depth hm).1; omega)
    obtain ⟨cs, hcs⟩ := ih (fun k hk => hv k (List.mem_cons_of_mem _ hk))
    exact ⟨c :: cs, by rw [coordinatesOf, hc]; dsimp only; rw [hcs]⟩

theorem mapper_ok (mapper : PeriodicityMapper) (sum : SignedGridCoordinates) {lvl : Nat}
    (hl : lvl < 31) : ∃ goal, mapper.getNeighborCoordinates sum lvl = .ok goal := by
  cases mapper with
  | noPeriodicity =>
    unfold PeriodicityMapper.getNeighborCoordinates NoPeriodicity.getNeighborCoordinates
      intOneShiftLeftSigned
    dsimp only
    rw [if_pos hl]
    dsimp only
    split
    · exact ⟨_, rfl⟩
    · split
      · exact ⟨_, rfl⟩
      · split
        · exact ⟨_, rfl⟩
        · exact ⟨_, rfl⟩
  | torus px py pz =>
    unfold PeriodicityMapper.getNeighborCoordinates Torus.getNeighborCoordinates
      intOneShiftLeftSigned
    dsimp only
    rw [if_pos hl]
    exact ⟨_, rfl⟩

theorem neighborEntry_ok {mapper : PeriodicityMapper} {equalRange : List Nat → List Nat}
    (hperm : ∀ l, (equalRange l).Perm l) {fuel : Nat} (hfuel : 22 ≤ fuel)
    {mi : List MortonIndex} {coords : List UnsignedGridCoordinates}
    (hco : coordinatesOf fuel mi = .ok coords) {o : SignedGridCoordinates}
    (ho : (-(2 ^ 62) ≤ o.x ∧ o.x ≤ 2 ^ 62) ∧ (-(2 ^ 62) ≤ o.y ∧ o.y ≤ 2 ^ 62) ∧
      (-(2 ^ 62) ≤ o.z ∧ o.z ≤ 2 ^ 62)) {key : MortonIndex} (hk : key.Valid) :
    ∃ e, neighborEntry mapper equalRange fuel mi coords o key = .ok e := by
  obtain ⟨hlen, _⟩ := coordinatesOf_get fuel mi coords hco
  obtain ⟨c, hc, _⟩ := MortonIndex.gridCoordinates_valid hk
    (show key.level < fuel by have := (MortonIndex.valid_depth hk).1; omega)
  obtain ⟨hl31, hts, hcx, hcy, hcz, hpow⟩ := valid_coords_cast hk hc
  have hadd := add_of_bounds (a := toSigned c) (b := o)
    (by rw [hts]; simp only; have := Int.ofNat_nonneg c.x; omega)
    (by rw [hts]; simp only; have := Int.ofNat_nonneg c.y; omega)
    (by rw [hts]; simp only; have := Int.ofNat_nonneg c.z; omega)
  obtain ⟨goal, hg⟩ := mapper_ok mapper
    ⟨(toSigned c).x + o.x, (toSigned c).y + o.y, (toSigned c).z + o.z⟩ hl31
  unfold neighborEntry
  rw [hc]
  dsimp only
  rw [hadd]
  dsimp only
  rw [hg]
  dsimp only
  by_cases hinv : isInvalidCoordinates goal = true
  · rw [if_pos hinv]; exact ⟨_, rfl⟩
  · rw [if_neg hinv]
    have hb : ∀ j ∈ equalRange (candidates coords (toUnsigned goal)), j < mi.length := by
      intro j hj
      rw [← hlen]
      rw [(hperm _).mem_iff, mem_candidates] at hj
      exact CellOctree.getElem?_lt_length hj
    obtain ⟨e, he, _⟩ := selectNeighbor_spec mi key.level _ CellGrid.NO_NEIGHBOR hb
    exact ⟨e, he⟩

theorem neighborRow_ok (f : MortonIndex → Except Error Nat) : ∀ (mi : List MortonIndex),
    (∀ k ∈ mi, ∃ e, f k = .ok e) → ∃ row, neighborRow f mi = .ok row := by
  intro mi
  induction mi with
  | nil => intro _; exact ⟨[], rfl⟩
  | cons m rest ih =>
    intro h
    obtain ⟨e, he⟩ := h m (List.mem_cons_self _ _)
    obtain ⟨row, hrow⟩ := ih (fun k hk => h k (List.mem_cons_of_mem _ hk))
    exact ⟨e :: row, by rw [neighborRow, he]; dsimp only; rw [hrow]⟩

theorem neighborRows_ok (f : SignedGridCoordinates → MortonIndex → Except Error Nat)
    (mi : List MortonIndex) : ∀ (offsets : List SignedGridCoordinates),
    (∀ o ∈ offsets, ∀ k ∈ mi, ∃ e, f o k = .ok e) →
    ∃ rows, neighborRows f mi offsets = .ok rows := by
  intro offsets
  induction offsets with
  | nil => intro _; exact ⟨[], rfl⟩
  | cons o rest ih =>
    intro h
    obtain ⟨row, hrow⟩ := neighborRow_ok (f o) mi (h o (List.mem_cons_self _ _))
    obtain ⟨rows, hrows⟩ := ih (fun x hx => h x (List.mem_cons_of_mem _ hx))
    exact ⟨row :: rows, by rw [neighborRows, hrow]; dsimp only; rw [hrows]⟩

end CellGridBuilder

namespace CellGridBuilder

theorem flatten_mem {t : CellOctree} {fuel : Nat} : ∀ (levels : List Nat)
    (cellss : List (List CellView)),
    List.Forall₂ (fun l cells => t.horizontalRange l fuel = .ok cells) levels cellss →
    ∀ v ∈ cellss.flatten, ∃ l cells, l ∈ levels ∧ t.horizontalRange l fuel = .ok cells ∧
      v ∈ cells := by
  intro levels cellss hf
  induction hf with
  | nil => intro v hv; exact absurd hv (List.not_mem_nil _)
  | @cons l cells levels cellss hr _ ih =>
    intro v hv
    rw [List.flatten_cons] at hv
    rcases List.mem_append.mp hv with hv | hv
    · exact ⟨l, cells, List.mem_cons_self _ _, hr, hv⟩
    · obtain ⟨l2, c2, h1, h2, h3⟩ := ih v hv
      exact ⟨l2, c2, List.mem_cons_of_mem _ h1, h2, h3⟩

/-- Termination of `build`: over a level-grouped octree of at most 22 levels, when no
selected level exists with zero nodes, the number of selected cells fits a word and the
offsets are far from the ends of `std::ptrdiff_t`, `build` returns a grid. -/
theorem build_ok {b : CellGridBuilder} {equalRange : List Nat → List Nat} {fuel : Nat}
    (hinv : CellOctree.StoreInv b.octree_) (hlen : b.octree_.numberOfLevels ≤ 22)
    (hne : ∀ l ∈ b.selectedLevels, ∀ s, b.octree_.levels_[l]? ≠ some (s, 0))
    (hsum : (b.selectedLevels.map b.octree_.numberOfNonPhantomNodes).sum < WORD)
    (hoff : ∀ o ∈ b.adjacencyOffsets_, (-(2 ^ 62) ≤ o.x ∧ o.x ≤ 2 ^ 62) ∧
      (-(2 ^ 62) ≤ o.y ∧ o.y ≤ 2 ^ 62) ∧ (-(2 ^ 62) ≤ o.z ∧ o.z ≤ 2 ^ 62))
    (hperm : ∀ l, (equalRange l).Perm l) (hfuel : b.octree_.numberOfNodes + 23 ≤ fuel) :
    ∃ g, build b equalRange fuel = .ok g := by
  have hfuel2 : b.octree_.numberOfNodes + 2 ≤ fuel := by omega
  obtain ⟨cellss, hcs⟩ := ranges_ok hinv hlen hfuel2 b.selectedLevels hne
  have hl := forall₂_length_sum b.octree_.numberOfNonPhantomNodes
    (fun l cells hr => CellOctree.horizontalRange_length hinv hfuel2 hr) _ _ hcs
  have hN : numberOfNonPhantomNodesOf b.octree_ b.selectedLevels = cellss.flatten.length := by
    rw [numberOfNonPhantomNodesOf_mod, Nat.mod_eq_of_lt hsum, hl]
  have hsi : ∀ v ∈ cellss.flatten, v.streamIndex <
      (List.replicate b.octree_.numberOfNodes CellGrid.NOT_ENUMERATED).length := by
    intro v hv
    obtain ⟨l, cells, _, h2, h3⟩ := flatten_mem _ _ hcs v hv
    rw [List.length_replicate]
    exact CellOctree.horizontalRange_streamIndex hinv hlen hfuel2 h2 v h3
  have hlt : ([] : List MortonIndex).length +
      numberOfNonPhantomNodesOf b.octree_ b.selectedLevels < WORD := by
    rw [List.length_nil, Nat.zero_add, hN, hl]; exact hsum
  obtain ⟨st, hst⟩ := enumerateLevels_ok b.octree_ fuel _ _ hcs []
    (numberOfNonPhantomNodesOf b.octree_ b.selectedLevels)
    (List.replicate b.octree_.numberOfNodes CellGrid.NOT_ENUMERATED) hlt (by omega) hsi
  obtain ⟨cellss2, a1, a2, a3, a4, a5⟩ := enumerateLevels_spec _ _ _ [] _ _ st hlt hst
  rw [List.nil_append] at a3
  have hval : ∀ k ∈ st.mortonIndices, k.Valid := by
    intro k hk
    rw [a3] at hk
    rcases List.mem_append.mp hk with hk | hk
    · obtain ⟨v, hv, rfl⟩ := List.mem_map.mp hk
      obtain ⟨l, cells, _, h2, h3⟩ := flatten_mem _ _ a1 v hv
      exact ((CellOctree.horizontalRange_facts hinv hlen hfuel2 h2).2 v h3).1
    · rw [(List.mem_replicate.mp hk).2]
      decide
  have hst2 : enumerateLevels b.octree_ fuel b.selectedLevels
        ⟨List.replicate (numberOfNonPhantomNodesOf b.octree_ b.selectedLevels)
          MortonIndex.root, List.replicate b.octree_.numberOfNodes CellGrid.NOT_ENUMERATED,
          0⟩ = .ok st := hst
  unfold build
  dsimp only
  rw [hst2]
  dsimp only
  by_cases ho : b.adjacencyOffsets_.isEmpty = true
  · rw [if_pos ho]; exact ⟨_, rfl⟩
  · rw [if_neg ho]
    obtain ⟨coords, hco⟩ := coordinatesOf_ok (show 22 ≤ fuel by omega) st.mortonIndices hval
    rw [hco]
    dsimp only
    obtain ⟨rows, hrows⟩ := neighborRows_ok
      (neighborEntry (b.periodicityHandler_.getD .noPeriodicity) equalRange fuel
        st.mortonIndices coords) st.mortonIndices b.adjacencyOffsets_
      (fun o ho2 k hk => neighborEntry_ok hperm (show 22 ≤ fuel by omega) hco (hoff o ho2)
        (hval k hk))
    rw [hrows]
    exact ⟨_, rfl⟩

end CellGridBuilder

namespace CellOctree

theorem uniform_numberOfLevels (L : Nat) (hL : L ≤ 20) :
    (uniformGrid L).numberOfLevels = L + 1 := by
  rw [uniformGrid_eq L hL]
  simp [numberOfLevels]

end CellOctree

namespace CellGridBuilder

theorem neighborIndicesLoop_ok (o : SignedGridCoordinates) :
    ∀ (offsets : List SignedGridCoordinates) (lists : List (List Nat)),
    lists.length = offsets.length → o ∈ offsets →
    ∃ tab, CellGrid.neighborIndicesLoop o offsets lists = .ok tab := by
  intro offsets
  induction offsets with
  | nil => intro lists _ h; exact absurd h (List.not_mem_nil _)
  | cons x rest ih =>
    intro lists hlen hmem
    cases lists with
    | nil => simp at hlen
    | cons l ls =>
      unfold CellGrid.neighborIndicesLoop
      by_cases hx : x = o
      · rw [if_pos hx]; exact ⟨l, rfl⟩
      · rw [if_neg hx]
        rcases List.mem_cons.mp hmem with h | h
        · exact absurd h.symm hx
        · exact ih ls (by simpa using hlen) h

theorem build_size_lt {b : CellGridBuilder} {equalRange : List Nat → List Nat} {fuel : Nat}
    {g : CellGrid} (h : build b equalRange fuel = .ok g) : g.size < WORD := by
  obtain ⟨cellss, _, a2, a3, _⟩ := build_inv h
  have hn : numberOfNonPhantomNodesOf b.octree_ b.selectedLevels < WORD := by
    rw [numberOfNonPhantomNodesOf_mod]; exact Nat.mod_lt _ (by decide)
  unfold CellGrid.size
  rw [a3, List.length_append, List.length_map, List.length_replicate]
  omega

end CellGridBuilder

namespace CellGridBuilder

end CellGridBuilder

/-! ## Checked navigation -/

namespace MortonIndex

theorem top_bit_iff {k : MortonIndex} (hk : k.Valid) : k.bits >>> (8 * 8 - 1) = 1 ↔ k.level = 21 := by
  obtain ⟨h21, _, hlo, hhi⟩ := valid_depth hk
  have hW : k.bits < 2 ^ 64 := hk.2.1
  rw [Nat.shiftRight_eq_div_pow]
  constructor
  · intro h
    by_contra hne
    have hl : k.level ≤ 20 := by omega
    have hp : 8 ^ k.level ≤ 8 ^ 20 := Nat.pow_le_pow_right (by decide) hl
    have hsmall : k.bits < 2 ^ 63 := by norm_num at hp ⊢; omega
    rw [Nat.div_eq_of_lt hsmall] at h
    cases h
  · intro h
    rw [h] at hlo
    have hge : 2 ^ 63 ≤ k.bits := by norm_num at hlo ⊢; omega
    have h1 : 1 ≤ k.bits / 2 ^ (8 * 8 - 1) := (Nat.le_div_iff_mul_le (by norm_num)).mpr (by norm_num at hge ⊢; omega)
    have h2 : k.bits / 2 ^ (8 * 8 - 1) < 2 := (Nat.div_lt_iff_lt_mul (by norm_num)).mpr (by norm_num at hW ⊢; omega)
    omega

/-- C21: `safeParent(k)` fails with `LogicError` exactly when `k` is the root and is
`parent(k)` otherwise; for a valid key `k`, `safeChild(k, b)` fails with `LogicError`
exactly when `level(k) = 21` and is `child(k, b)` otherwise; `n + 1 ≤ 21` successive
`safeChild(0)` calls from the root succeed and give the bits `1 << 3 * (n + 1)`, and every
`safeChild` on the key reached after 21 calls fails. -/
theorem safe_navigation (k : MortonIndex) (b : Nat) :
    ((k.safeParent = .error .logicError ↔ k.isRoot = true) ∧
      (k.isRoot = false → k.safeParent = .ok k.parent)) ∧
    (k.Valid →
      (k.safeChild b = .error .logicError ↔ k.level = 21) ∧
      (k.level ≠ 21 → k.safeChild b = .ok (k.child b))) ∧
    (∀ n, n < 21 → (List.replicate (n + 1) 0).foldlM (fun m c => safeChild m c) root =
      .ok ⟨1 <<< (3 * (n + 1))⟩) ∧
    (∀ c, safeChild ⟨1 <<< 63⟩ c = .error .logicError) := by
  refine ⟨⟨?_, ?_⟩, ?_, ?_, ?_⟩
  · unfold safeParent
    cases h : k.isRoot
    · simp
    · simp
  · intro h
    unfold safeParent
    rw [h]
    rfl
  · intro hk
    have ht := top_bit_iff hk
    unfold safeChild
    constructor
    · constructor
      · intro h
        by_cases hb : k.bits >>> (8 * 8 - 1) = 1
        · exact ht.mp hb
        · rw [if_neg hb] at h; cases h
      · intro h
        rw [if_pos (ht.mpr h)]
    · intro h
      rw [if_neg (fun hb => h (ht.mp hb))]
  · decide
  · intro c
    unfold safeChild
    rw [if_pos (by decide)]

theorem safe_navigation_witness :
    (Valid ⟨0o17⟩ ∧ safeChild ⟨0o17⟩ 3 = .ok (child ⟨0o17⟩ 3) ∧
      safeParent ⟨0o17⟩ = .ok (parent ⟨0o17⟩)) ∧
    (Valid ⟨1 <<< 63⟩ ∧ safeChild ⟨1 <<< 63⟩ 3 = .error .logicError) ∧
    safeParent root = .error .logicError :=
  ⟨⟨by decide, ((safe_navigation ⟨0o17⟩ 3).2.1 (by decide)).2 (by decide),
      (safe_navigation ⟨0o17⟩ 3).1.2 (by decide)⟩,
    ⟨by decide, ((safe_navigation ⟨1 <<< 63⟩ 3).2.1 (by decide)).1.mpr (by decide)⟩,
    (safe_navigation root 0).1.1.mpr (by decide)⟩

end MortonIndex

/-! ## Node setters -/

namespace Node

theorem not_refined_mask_eq : bitNot REFINED_BIT_MASK = 2 ^ 64 - 1 - 2 ^ 62 := by decide

theorem not_phantom_mask_eq : bitNot PHANTOM_BIT_MASK = 2 ^ 64 - 1 - 2 ^ 63 := by decide

theorem testBit_not_refined (j : Nat) :
    (2 ^ 64 - 1 - 2 ^ 62 : Nat).testBit j = (decide (j < 64) && !decide (j = 62)) := by
  have e : (2 ^ 64 - 1 - 2 ^ 62 : Nat) = (2 ^ 64 - 1) ^^^ 2 ^ 62 := by decide
  rw [e, Nat.testBit_xor, Nat.testBit_two_pow_sub_one, Nat.testBit_two_pow]
  by_cases h : j = 62
  · subst h; decide
  · have h2 : ¬ 62 = j := fun h3 => h h3.symm
    simp [h, h2]

theorem testBit_not_phantom (j : Nat) :
    (2 ^ 64 - 1 - 2 ^ 63 : Nat).testBit j = (decide (j < 64) && !decide (j = 63)) := by
  have e : (2 ^ 64 - 1 - 2 ^ 63 : Nat) = (2 ^ 64 - 1) ^^^ 2 ^ 63 := by decide
  rw [e, Nat.testBit_xor, Nat.testBit_two_pow_sub_one, Nat.testBit_two_pow]
  by_cases h : j = 63
  · subst h; decide
  · have h2 : ¬ 63 = j := fun h3 => h h3.symm
    simp [h, h2]

theorem setRefined_testBit (n : Node) (v : Bool) (j : Nat) (hj : j < 64) :
    (n.setRefined v).data.testBit j = if j = 62 then v else n.data.testBit j := by
  unfold setRefined
  cases v
  · simp only [Bool.false_eq_true, if_false]
    rw [not_refined_mask_eq, Nat.testBit_and, testBit_not_refined]
    by_cases h : j = 62
    · simp [h]
    · simp [h, hj]
  · simp only [if_true]
    rw [refined_mask_eq, Nat.testBit_or, Nat.testBit_two_pow]
    by_cases h : j = 62
    · simp [h]
    · have h2 : ¬ 62 = j := fun h3 => h h3.symm
      simp [h, h2]

theorem setPhantom_testBit (n : Node) (v : Bool) (j : Nat) (hj : j < 64) :
    (n.setPhantom v).data.testBit j = if j = 63 then v else n.data.testBit j := by
  unfold setPhantom
  cases v
  · simp only [Bool.false_eq_true, if_false]
    rw [not_phantom_mask_eq, Nat.testBit_and, testBit_not_phantom]
    by_cases h : j = 63
    · simp [h]
    · simp [h, hj]
  · simp only [if_true]
    rw [phantom_mask_eq, Nat.testBit_or, Nat.testBit_two_pow]
    by_cases h : j = 63
    · simp [h]
    · have h2 : ¬ 63 = j := fun h3 => h h3.symm
      simp [h, h2]

theorem mod_eq_of_low_bits {x y : Nat} (h : ∀ j, j < 62 → x.testBit j = y.testBit j) :
    x % 2 ^ 62 = y % 2 ^ 62 := by
  apply Nat.eq_of_testBit_eq
  intro i
  simp only [Nat.testBit_mod_two_pow]
  by_cases hi : i < 62
  · simp [hi, h i hi]
  · simp [hi]

theorem setRefined_fields (n : Node) (v : Bool) :
    (n.setRefined v).isRefined = v ∧ (n.setRefined v).isPhantom = n.isPhantom ∧
    (n.setRefined v).childrenStartIndex = n.childrenStartIndex := by
  refine ⟨?_, ?_, ?_⟩
  · rw [isRefined_eq, setRefined_testBit n v 62 (by decide), if_pos rfl]
  · rw [isPhantom_eq, isPhantom_eq, setRefined_testBit n v 63 (by decide), if_neg (by decide)]
  · rw [childrenStartIndex_eq, childrenStartIndex_eq]
    apply mod_eq_of_low_bits
    intro j hj
    rw [setRefined_testBit n v j (by omega), if_neg (by omega)]

theorem setPhantom_fields (n : Node) (v : Bool) :
    (n.setPhantom v).isPhantom = v ∧ (n.setPhantom v).isRefined = n.isRefined ∧
    (n.setPhantom v).childrenStartIndex = n.childrenStartIndex := by
  refine ⟨?_, ?_, ?_⟩
  · rw [isPhantom_eq, setPhantom_testBit n v 63 (by decide), if_pos rfl]
  · rw [isRefined_eq, isRefined_eq, setPhantom_testBit n v 62 (by decide), if_neg (by decide)]
  · rw [childrenStartIndex_eq, childrenStartIndex_eq]
    apply mod_eq_of_low_bits
    intro j hj
    rw [setPhantom_testBit n v j (by omega), if_neg (by omega)]

/-- C24: for all booleans `r`, `p` and every index `c < 2 ^ 62`, `Node(r, p, c)` reports
`isRefined() = r`, `isPhantom() = p`, `childrenStartIndex() = c` and
`childIndex(b) = c + b` (for every `b` whose sum with `c` is a `size_t`); and on every
node each setter changes only its own field: `setRefined(v)` sets the refined flag and
leaves `isPhantom` and `childrenStartIndex`, `setPhantom(v)` sets the phantom flag and
leaves `isRefined` and `childrenStartIndex`, and `setChildrenStartIndex(s)` leaves both
flags and stores `s mod 2 ^ 62`. -/
theorem node_fields (r p : Bool) (c : Nat) (hc : c < 2 ^ 62) :
    ((create r p c).isRefined = r ∧ (create r p c).isPhantom = p ∧
      (create r p c).childrenStartIndex = c ∧
      ∀ b, c + b < 2 ^ 64 → (create r p c).childIndex b = c + b) ∧
    ∀ (n : Node) (v : Bool) (s : Nat),
      ((n.setRefined v).isRefined = v ∧ (n.setRefined v).isPhantom = n.isPhantom ∧
        (n.setRefined v).childrenStartIndex = n.childrenStartIndex) ∧
      ((n.setPhantom v).isPhantom = v ∧ (n.setPhantom v).isRefined = n.isRefined ∧
        (n.setPhantom v).childrenStartIndex = n.childrenStartIndex) ∧
      ((n.setChildrenStartIndex s).isRefined = n.isRefined ∧
        (n.setChildrenStartIndex s).isPhantom = n.isPhantom ∧
        (n.setChildrenStartIndex s).childrenStartIndex = s % 2 ^ 62) := by
  have hcs : (create r p c).childrenStartIndex = c := by
    rw [childrenStartIndex_create, Nat.mod_eq_of_lt hc]
  refine ⟨⟨isRefined_create r p c, isPhantom_create r p c, hcs, ?_⟩, ?_⟩
  · intro b hb
    unfold childIndex wrap WORD
    rw [hcs, Nat.mod_eq_of_lt hb]
  · intro n v s
    exact ⟨setRefined_fields n v, setPhantom_fields n v,
      isRefined_set n s, isPhantom_set n s, childrenStartIndex_set n s⟩

theorem node_fields_witness :
    ((create true false 9).isRefined = true ∧ (create true false 9).isPhantom = false ∧
      (create true false 9).childrenStartIndex = 9 ∧
      ∀ b, 9 + b < 2 ^ 64 → (create true false 9).childIndex b = 9 + b) ∧
    ∀ (n : Node) (v : Bool) (s : Nat),
      ((n.setRefined v).isRefined = v ∧ (n.setRefined v).isPhantom = n.isPhantom ∧
        (n.setRefined v).childrenStartIndex = n.childrenStartIndex) ∧
      ((n.setPhantom v).isPhantom = v ∧ (n.setPhantom v).isRefined = n.isRefined ∧
        (n.setPhantom v).childrenStartIndex = n.childrenStartIndex) ∧
      ((n.setChildrenStartIndex s).isRefined = n.isRefined ∧
        (n.setChildrenStartIndex s).isPhantom = n.isPhantom ∧
        (n.setChildrenStartIndex s).childrenStartIndex = s % 2 ^ 62) :=
  node_fields true false 9 (by decide)

end Node

/-! ## Periodicity mappers -/

namespace CellGridBuilder

/-- C25: for every level `lvl ≤ 21` and every signed coordinate triple `g`,
`NoPeriodicity::getNeighborCoordinates(g, lvl)` returns `g` unchanged when all three
components lie in `[0, 2 ^ lvl)`, and `(-1, -1, -1)` otherwise. -/
theorem noPeriodicity_getNeighborCoordinates (g : SignedGridCoordinates) (lvl : Nat)
    (hl : lvl ≤ 21) :
    (((0 ≤ g.x ∧ g.x < 2 ^ lvl) ∧ (0 ≤ g.y ∧ g.y < 2 ^ lvl) ∧ (0 ≤ g.z ∧ g.z < 2 ^ lvl)) →
      NoPeriodicity.getNeighborCoordinates g lvl = .ok g) ∧
    (¬ ((0 ≤ g.x ∧ g.x < 2 ^ lvl) ∧ (0 ≤ g.y ∧ g.y < 2 ^ lvl) ∧ (0 ≤ g.z ∧ g.z < 2 ^ lvl)) →
      NoPeriodicity.getNeighborCoordinates g lvl = .ok ⟨-1, -1, -1⟩) := by
  have h31 : lvl < 31 := by omega
  constructor
  · intro h
    exact noPeriodicity_inside h31 h.1 h.2.1 h.2.2
  · intro h
    unfold NoPeriodicity.getNeighborCoordinates intOneShiftLeftSigned
    rw [if_pos h31]
    dsimp only
    by_cases hx : g.x < 0 ∨ g.x ≥ 2 ^ lvl
    · rw [if_pos hx]
    · rw [if_neg hx]
      by_cases hy : g.y < 0 ∨ g.y ≥ 2 ^ lvl
      · rw [if_pos hy]
      · rw [if_neg hy]
        by_cases hz : g.z < 0 ∨ g.z ≥ 2 ^ lvl
        · rw [if_pos hz]
        · exfalso
          apply h
          refine ⟨⟨?_, ?_⟩, ⟨?_, ?_⟩, ⟨?_, ?_⟩⟩ <;> omega

theorem noPeriodicity_getNeighborCoordinates_witness :
    NoPeriodicity.getNeighborCoordinates ⟨3, 0, 1⟩ 2 = .ok ⟨3, 0, 1⟩ ∧
    NoPeriodicity.getNeighborCoordinates ⟨3, 4, 1⟩ 2 = .ok ⟨-1, -1, -1⟩ ∧
    NoPeriodicity.getNeighborCoordinates ⟨-1, 0, 1⟩ 2 = .ok ⟨-1, -1, -1⟩ :=
  ⟨(noPeriodicity_getNeighborCoordinates ⟨3, 0, 1⟩ 2 (by decide)).1 (by decide),
    (noPeriodicity_getNeighborCoordinates ⟨3, 4, 1⟩ 2 (by decide)).2 (by decide),
    (noPeriodicity_getNeighborCoordinates ⟨-1, 0, 1⟩ 2 (by decide)).2 (by decide)⟩

theorem wrapCoordinate_emod (a s : Int) (hs : 0 < s) :
    Torus.wrapCoordinate true a s = a % s := by
  unfold Torus.wrapCoordinate
  rw [if_pos rfl]
  have h1 : -s < a.tmod s := by
    rcases le_or_lt 0 a with ha | ha
    · have := Int.tmod_nonneg s ha; omega
    · have h2 : 0 ≤ (-a).tmod s := Int.tmod_nonneg s (by omega)
      have e : (-a).tmod s = -(a.tmod s) := by
        rw [Int.tmod_def, Int.tmod_def, Int.neg_tdiv]; ring
      rw [e] at h2
      have h3 : a.tmod s < s := Int.tmod_lt_of_pos a hs
      have h4 : (-a).tmod s < s := Int.tmod_lt_of_pos (-a) hs
      rw [e] at h4
      omega
  rw [Int.tmod_eq_emod (by omega) (le_of_lt hs), Int.tmod_def]
  have e2 : a - s * a.tdiv s + s = a + s * (1 - a.tdiv s) := by ring
  rw [e2, Int.add_mul_emod_self_left]

/-- C26: for every level `lvl ≤ 21`, every signed coordinate triple `g` (negative
components included) and `N = 2 ^ lvl`, `Torus(px, py, pz)::getNeighborCoordinates(g, lvl)`
returns, on each periodic axis, the unique `r` with `0 ≤ r < N` and `r` congruent to the
input component modulo `N`, and on each non-periodic axis the input component. -/
theorem torus_getNeighborCoordinates (px py pz : Bool) (g : SignedGridCoordinates) (lvl : Nat)
    (hl : lvl ≤ 21) :
    ∃ r, Torus.getNeighborCoordinates px py pz g lvl = .ok r ∧
      (px = true → (0 ≤ r.x ∧ r.x < 2 ^ lvl ∧ (2 : Int) ^ lvl ∣ r.x - g.x) ∧
        ∀ q : Int, 0 ≤ q → q < 2 ^ lvl → (2 : Int) ^ lvl ∣ q - g.x → q = r.x) ∧
      (py = true → (0 ≤ r.y ∧ r.y < 2 ^ lvl ∧ (2 : Int) ^ lvl ∣ r.y - g.y) ∧
        ∀ q : Int, 0 ≤ q → q < 2 ^ lvl → (2 : Int) ^ lvl ∣ q - g.y → q = r.y) ∧
      (pz = true → (0 ≤ r.z ∧ r.z < 2 ^ lvl ∧ (2 : Int) ^ lvl ∣ r.z - g.z) ∧
        ∀ q : Int, 0 ≤ q → q < 2 ^ lvl → (2 : Int) ^ lvl ∣ q - g.z → q = r.z) ∧
      (px = false → r.x = g.x) ∧ (py = false → r.y = g.y) ∧ (pz = false → r.z = g.z) := by
  have hpos : (0 : Int) < 2 ^ lvl := by positivity
  have key : ∀ a : Int, (0 ≤ a % 2 ^ lvl ∧ a % 2 ^ lvl < 2 ^ lvl ∧
      (2 : Int) ^ lvl ∣ a % 2 ^ lvl - a) ∧
      ∀ q : Int, 0 ≤ q → q < 2 ^ lvl → (2 : Int) ^ lvl ∣ q - a → q = a % 2 ^ lvl := by
    intro a
    refine ⟨⟨Int.emod_nonneg _ (ne_of_gt hpos), Int.emod_lt_of_pos _ hpos, ?_⟩, ?_⟩
    · refine ⟨-(a / 2 ^ lvl), ?_⟩
      have := Int.emod_add_ediv a (2 ^ lvl)
      linarith
    · intro q h0 h1 hd
      obtain ⟨k, hk⟩ := hd
      have hq : q = a + 2 ^ lvl * k := by linarith
      rw [← Int.emod_eq_of_lt h0 h1, hq, Int.add_mul_emod_self_left]
  refine ⟨⟨Torus.wrapCoordinate px g.x (2 ^ lvl), Torus.wrapCoordinate py g.y (2 ^ lvl),
    Torus.wrapCoordinate pz g.z (2 ^ lvl)⟩, ?_, ?_, ?_, ?_, ?_, ?_, ?_⟩
  · unfold Torus.getNeighborCoordinates intOneShiftLeftSigned
    rw [if_pos (by omega)]
  · intro h; subst h; dsimp only; rw [wrapCoordinate_emod _ _ hpos]; exact key g.x
  · intro h; subst h; dsimp only; rw [wrapCoordinate_emod _ _ hpos]; exact key g.y
  · intro h; subst h; dsimp only; rw [wrapCoordinate_emod _ _ hpos]; exact key g.z
  · intro h; subst h; rfl
  · intro h; subst h; rfl
  · intro h; subst h; rfl

theorem torus_getNeighborCoordinates_witness :
    Torus.getNeighborCoordinates true true false ⟨-1, 5, -3⟩ 2 = .ok ⟨3, 1, -3⟩ ∧
    ∃ r, Torus.getNeighborCoordinates true true false ⟨-1, 5, -3⟩ 2 = .ok r ∧
      (true = true → (0 ≤ r.x ∧ r.x < 2 ^ 2 ∧ (2 : Int) ^ 2 ∣ r.x - (-1)) ∧
        ∀ q : Int, 0 ≤ q → q < 2 ^ 2 → (2 : Int) ^ 2 ∣ q - (-1) → q = r.x) ∧
      (true = true → (0 ≤ r.y ∧ r.y < 2 ^ 2 ∧ (2 : Int) ^ 2 ∣ r.y - 5) ∧
        ∀ q : Int, 0 ≤ q → q < 2 ^ 2 → (2 : Int) ^ 2 ∣ q - 5 → q = r.y) ∧
      (false = true → (0 ≤ r.z ∧ r.z < 2 ^ 2 ∧ (2 : Int) ^ 2 ∣ r.z - (-3)) ∧
        ∀ q : Int, 0 ≤ q → q < 2 ^ 2 → (2 : Int) ^ 2 ∣ q - (-3) → q = r.z) ∧
      (true = false → r.x = -1) ∧ (true = false → r.y = 5) ∧ (false = false → r.z = -3) :=
  ⟨by decide, torus_getNeighborCoordinates true true false ⟨-1, 5, -3⟩ 2 (by decide)⟩

end CellGridBuilder

/-! ## Export of payload vectors -/

namespace CellGridExporter

/-- C30: for every payload vector `data` shorter than the octree's total node count `n`,
`CellGridExporter::writeGridVector` writes a vector of length `n` made of
`n - length(data)` zeros followed by `data` unchanged; a payload of length at least `n` is
written unchanged. -/
theorem writeGridVector_padding {T : Type} [OfNat T 0] (octree : CellOctree) (data : List T) :
    (data.length < octree.numberOfNodes →
      (writeGridVector octree data).length = octree.numberOfNodes ∧
      writeGridVector octree data =
        List.replicate (octree.numberOfNodes - data.length) 0 ++ data ∧
      (∀ i, i < octree.numberOfNodes - data.length →
        (writeGridVector octree data)[i]? = some 0) ∧
      (∀ i, (writeGridVector octree data)[octree.numberOfNodes - data.length + i]? =
        data[i]?)) ∧
    (octree.numberOfNodes ≤ data.length → writeGridVector octree data = data) := by
  unfold CellOctree.numberOfNodes
  constructor
  · intro h
    have e : writeGridVector octree data =
        List.replicate (octree.nodesStream_.length - data.length) 0 ++ data := by
      unfold writeGridVector
      dsimp only
      rw [if_pos h]
    refine ⟨?_, e, ?_, ?_⟩
    · rw [e, List.length_append, List.length_replicate]; omega
    · intro i hi
      rw [e, List.getElem?_append_left (by rw [List.length_replicate]; exact hi),
        List.getElem?_replicate, if_pos hi]
    · intro i
      rw [e, List.getElem?_append_right (by rw [List.length_replicate]; omega),
        List.length_replicate, Nat.add_sub_cancel_left]
  · intro h
    unfold writeGridVector
    dsimp only
    rw [if_neg (by omega)]

theorem writeGridVector_padding_witness :
    writeGridVector (CellOctree.uniformGrid 1) [5, 6, 7] =
      [0, 0, 0, 0, 0, 0, 5, 6, 7] ∧
    (writeGridVector (CellOctree.uniformGrid 1) [5, 6, 7]).length = 9 ∧
    writeGridVector (CellOctree.uniformGrid 1) [1, 2, 3, 4, 5, 6, 7, 8, 9, 10] =
      [1, 2, 3, 4, 5, 6, 7, 8, 9, 10] :=
  ⟨((writeGridVector_padding (CellOctree.uniformGrid 1) [5, 6, 7]).1
      (by decide)).2.1,
    ((writeGridVector_padding (CellOctree.uniformGrid 1) [5, 6, 7]).1 (by decide)).1,
    (writeGridVector_padding (CellOctree.uniformGrid 1)
      [1, 2, 3, 4, 5, 6, 7, 8, 9, 10]).2 (by decide)⟩

end CellGridExporter

/-! ## Lookup of adjacency tables -/

namespace CellGridBuilder

theorem neighborIndicesLoop_missing (o : SignedGridCoordinates) :
    ∀ (offsets : List SignedGridCoordinates) (lists : List (List Nat)),
    o ∉ offsets → CellGrid.neighborIndicesLoop o offsets lists = .error .outOfRange := by
  intro offsets
  induction offsets with
  | nil => intro lists _; rfl
  | cons x rest ih =>
    intro lists h
    unfold CellGrid.neighborIndicesLoop
    have hx : ¬ x = o := by
      intro hx
      apply h
      rw [hx]
      exact List.mem_cons_self _ _
    rw [if_neg hx]
    exact ih _ (fun hm => h (List.mem_cons_of_mem _ hm))

theorem build_offsets {b : CellGridBuilder} {equalRange : List Nat → List Nat} {fuel : Nat}
    {g : CellGrid} (h : build b equalRange fuel = .ok g) :
    g.adjacencyOffsets_ = b.adjacencyOffsets_ ∧
    g.adjacencyLists_.length = b.adjacencyOffsets_.length := by
  obtain ⟨_, _, _, _, _, hoff, hnil, hrows⟩ := build_inv h
  refine ⟨hoff, ?_⟩
  by_cases he : b.adjacencyOffsets_ = []
  · rw [hnil he, he]
    rfl
  · obtain ⟨coords, _, hr⟩ := hrows he
    exact (neighborRows_get _ _ _ _ hr).1

/-- C28: on a built grid, `neighborIndices(o)` returns the precomputed table for `o`
(the adjacency list at a position of `o` among the offsets, the row of neighbour entries
computed for `o`), of length `size()`, when `o` is one of the offsets given to the
builder, and fails with `OutOfRange` when `o` is not among them; a grid built without a
neighborhood rejects every offset. -/
theorem neighborIndices_lookup (b : CellGridBuilder) (equalRange : List Nat → List Nat)
    (fuel : Nat) (g : CellGrid) (o : SignedGridCoordinates)
    (hb : build b equalRange fuel = .ok g) :
    (o ∈ b.adjacencyOffsets_ → ∃ tab, g.neighborIndices o = .ok tab ∧ tab.length = g.size ∧
      (∃ oi : Nat, b.adjacencyOffsets_[oi]? = some o ∧ g.adjacencyLists_[oi]? = some tab) ∧
      ∃ coords, coordinatesOf fuel g.mortonIndices_ = .ok coords ∧
        neighborRow (neighborEntry (b.periodicityHandler_.getD .noPeriodicity) equalRange fuel
          g.mortonIndices_ coords o) g.mortonIndices_ = .ok tab) ∧
    (o ∉ b.adjacencyOffsets_ → g.neighborIndices o = .error .outOfRange) ∧
    (b.adjacencyOffsets_ = [] → g.neighborIndices o = .error .outOfRange) := by
  obtain ⟨hoff, hlen⟩ := build_offsets hb
  have hmiss : o ∉ b.adjacencyOffsets_ → g.neighborIndices o = .error .outOfRange := by
    intro h
    unfold CellGrid.neighborIndices
    rw [hoff]
    exact neighborIndicesLoop_missing o _ _ h
  refine ⟨?_, hmiss, ?_⟩
  · intro hmem
    obtain ⟨tab, htab⟩ := neighborIndicesLoop_ok o g.adjacencyOffsets_ g.adjacencyLists_
      (by rw [hlen, hoff]) (by rw [hoff]; exact hmem)
    have ht : g.neighborIndices o = .ok tab := htab
    obtain ⟨coords, hco, hrow⟩ := table_row hb ht
    obtain ⟨oi, h1, h2⟩ := neighborIndicesLoop_spec o _ _ _ htab
    rw [hoff] at h1
    exact ⟨tab, ht, (neighborRow_get _ _ _ hrow).1, ⟨oi, h1, h2⟩, coords, hco, hrow⟩
  · intro he
    apply hmiss
    rw [he]
    exact List.not_mem_nil _

theorem neighborIndices_lookup_witness :
    build ⟨CellOctree.uniformGrid 1, [], [⟨1, 0, 0⟩], none⟩ id 30 =
      .ok (match build ⟨CellOctree.uniformGrid 1, [], [⟨1, 0, 0⟩], none⟩ id 30 with
      | .ok g => g
      | .error _ => ⟨[], [], [], []⟩) ∧
    (match build ⟨CellOctree.uniformGrid 1, [], [⟨1, 0, 0⟩], none⟩ id 30 with
      | .ok g => g
      | .error _ => ⟨[], [], [], []⟩).neighborIndices ⟨1, 0, 0⟩ =
      .ok [1, CellGrid.NO_NEIGHBOR, 3, CellGrid.NO_NEIGHBOR, 5, CellGrid.NO_NEIGHBOR, 7,
        CellGrid.NO_NEIGHBOR] ∧
    (match build ⟨CellOctree.uniformGrid 1, [], [⟨1, 0, 0⟩], none⟩ id 30 with
      | .ok g => g
      | .error _ => ⟨[], [], [], []⟩).neighborIndices ⟨0, 1, 0⟩ = .error .outOfRange :=
  ⟨by decide, by decide,
    (neighborIndices_lookup ⟨CellOctree.uniformGrid 1, [], [⟨1, 0, 0⟩], none⟩ id 30
      (match build ⟨CellOctree.uniformGrid 1, [], [⟨1, 0, 0⟩], none⟩ id 30 with
      | .ok g => g
      | .error _ => ⟨[], [], [], []⟩) ⟨0, 1, 0⟩ (by decide)).2.1 (by decide)⟩

end CellGridBuilder

/-! ## The order of the comparison operators -/

namespace MortonIndex

theorem eq_of_path_eq {a b : MortonIndex} (ha : a.Valid) (hb : b.Valid) {p : List Nat}
    (hpa : getPath a = .ok p) (hpb : getPath b = .ok p) : a = b := by
  obtain ⟨ea, _⟩ := valid_data ha hpa
  obtain ⟨eb, _⟩ := valid_data hb hpb
  obtain ⟨x⟩ := a
  obtain ⟨y⟩ := b
  simp only at ea eb
  rw [ea, eb]

/-- C22: on valid Morton keys the comparison operators form a partial order:
`operator>=` and `operator<=` are reflexive, antisymmetric and transitive; `a > b` holds
exactly when `a >= b` and `a != b` (and `a < b` exactly when `a <= b` and `a != b`);
`a > b` holds exactly when `b < a`, and `a >= b` exactly when `b <= a`. -/
theorem comparison_partial_order (a b c : MortonIndex) (ha : a.Valid) (hb : b.Valid)
    (hc : c.Valid) :
    (ge a a = true ∧ le a a = true) ∧
    ((ge a b = true → ge b a = true → a = b) ∧ (le a b = true → le b a = true → a = b)) ∧
    ((ge a b = true → ge b c = true → ge a c = true) ∧
      (le a b = true → le b c = true → le a c = true)) ∧
    ((gt a b = true ↔ ge a b = true ∧ a ≠ b) ∧ (lt a b = true ↔ le a b = true ∧ a ≠ b)) ∧
    (gt a b = lt b a ∧ ge a b = le b a) := by
  obtain ⟨pa, hpa, _⟩ := valid_path ha
  obtain ⟨pb, hpb, _⟩ := valid_path hb
  obtain ⟨pc, hpc, _⟩ := valid_path hc
  have hne : a ≠ b ↔ pa ≠ pb := by
    constructor
    · intro h hp
      rw [hp] at hpa
      exact h (eq_of_path_eq ha hb hpa hpb)
    · intro h hab
      rw [hab, hpb] at hpa
      injection hpa with hpa
      exact h hpa.symm
  refine ⟨⟨?_, ?_⟩, ⟨?_, ?_⟩, ⟨?_, ?_⟩, ⟨?_, ?_⟩, ?_, ?_⟩
  · exact (ge_iff_prefixOf ha ha hpa hpa).mpr (List.prefix_refl _)
  · exact (le_iff_prefixOf ha ha hpa hpa).mpr (List.prefix_refl _)
  · intro h1 h2
    have p1 := (ge_iff_prefixOf ha hb hpa hpb).mp h1
    have p2 := (ge_iff_prefixOf hb ha hpb hpa).mp h2
    have e := prefix_length_eq p1 p2.length_le
    rw [e] at hpa
    exact eq_of_path_eq ha hb hpa hpb
  · intro h1 h2
    have p1 := (le_iff_prefixOf ha hb hpa hpb).mp h1
    have p2 := (le_iff_prefixOf hb ha hpb hpa).mp h2
    have e := prefix_length_eq p2 p1.length_le
    rw [e] at hpa
    exact eq_of_path_eq ha hb hpa hpb
  · intro h1 h2
    exact (ge_iff_prefixOf ha hc hpa hpc).mpr
      (((ge_iff_prefixOf ha hb hpa hpb).mp h1).trans ((ge_iff_prefixOf hb hc hpb hpc).mp h2))
  · intro h1 h2
    exact (le_iff_prefixOf ha hc hpa hpc).mpr
      (((le_iff_prefixOf hb hc hpb hpc).mp h2).trans ((le_iff_prefixOf ha hb hpa hpb).mp h1))
  · rw [gt_iff_prefixOf ha hb hpa hpb, ge_iff_prefixOf ha hb hpa hpb, hne]
  · rw [lt_iff_prefixOf ha hb hpa hpb, le_iff_prefixOf ha hb hpa hpb, hne]
  · rw [Bool.eq_iff_iff, gt_iff_prefixOf ha hb hpa hpb, lt_iff_prefixOf hb ha hpb hpa]
    exact ⟨fun h => ⟨h.1, fun e => h.2 e.symm⟩, fun h => ⟨h.1, fun e => h.2 e.symm⟩⟩
  · rw [Bool.eq_iff_iff, ge_iff_prefixOf ha hb hpa hpb, le_iff_prefixOf hb ha hpb hpa]

theorem comparison_partial_order_witness :
    (Valid ⟨0o12⟩ ∧ Valid ⟨0o123⟩ ∧ Valid ⟨0o1234⟩) ∧
    (ge ⟨0o12⟩ ⟨0o123⟩ = true ∧ ge ⟨0o123⟩ ⟨0o1234⟩ = true ∧ ge ⟨0o12⟩ ⟨0o1234⟩ = true) ∧
    (gt ⟨0o12⟩ ⟨0o123⟩ = true ∧ lt ⟨0o123⟩ ⟨0o12⟩ = true) ∧
    (ge ⟨0o12⟩ ⟨0o12⟩ = true ∧ le ⟨0o12⟩ ⟨0o12⟩ = true) :=
  ⟨⟨by decide, by decide, by decide⟩,
    ⟨by decide, by decide,
      (comparison_partial_order ⟨0o12⟩ ⟨0o123⟩ ⟨0o1234⟩ (by decide) (by decide)
        (by decide)).2.2.1.1 (by decide) (by decide)⟩,
    ⟨((comparison_partial_order ⟨0o12⟩ ⟨0o123⟩ ⟨0o1234⟩ (by decide) (by decide)
        (by decide)).2.2.2.1.1).mpr ⟨by decide, by decide⟩, by decide⟩,
    (comparison_partial_order ⟨0o12⟩ ⟨0o123⟩ ⟨0o1234⟩ (by decide) (by decide)
      (by decide)).1⟩

end MortonIndex

/-! ## Order of the enumeration -/

namespace CellGridBuilder

theorem pairwise_of_all {α : Type} {R : α → α → Prop} : ∀ (l : List α),
    (∀ a ∈ l, ∀ b ∈ l, R a b) → l.Pairwise R := by
  intro l
  induction l with
  | nil => intro _; exact List.Pairwise.nil
  | cons x rest ih =>
    intro h
    rw [List.pairwise_cons]
    exact ⟨fun b hb => h x (List.mem_cons_self _ _) b (List.mem_cons_of_mem _ hb),
      ih (fun a ha b hb => h a (List.mem_cons_of_mem _ ha) b (List.mem_cons_of_mem _ hb))⟩

theorem keys_levels_sorted {t : CellOctree} (h : CellOctree.StoreInv t)
    (hlen : t.numberOfLevels ≤ 22) {fuel : Nat} (hfuel : t.numberOfNodes + 2 ≤ fuel) :
    ∀ (levels : List Nat) (cellss : List (List CellView)),
    List.Forall₂ (fun l cells => t.horizontalRange l fuel = .ok cells) levels cellss →
    levels.Pairwise (fun a b => a ≤ b) →
    (cellss.flatten.map (fun v => v.m)).Pairwise (fun a b => a.level ≤ b.level) := by
  intro levels cellss hf
  induction hf with
  | nil => intro _; exact List.Pairwise.nil
  | @cons l cells levels cellss hr hrest ih =>
    intro hp
    rw [List.pairwise_cons] at hp
    obtain ⟨_, f2⟩ := CellOctree.horizontalRange_facts h hlen hfuel hr
    rw [List.flatten_cons, List.map_append, List.pairwise_append]
    refine ⟨?_, ih hp.2, ?_⟩
    · apply pairwise_of_all
      intro a ha b hb
      obtain ⟨v, hv, rfl⟩ := List.mem_map.mp ha
      obtain ⟨w, hw, rfl⟩ := List.mem_map.mp hb
      rw [(f2 v hv).2, (f2 w hw).2]
    · intro a ha b hb
      obtain ⟨v, hv, rfl⟩ := List.mem_map.mp ha
      obtain ⟨w, hw, rfl⟩ := List.mem_map.mp hb
      obtain ⟨l2, cells2, hl2, hr2, hw2⟩ := flatten_mem _ _ hrest w hw
      obtain ⟨_, g2⟩ := CellOctree.horizontalRange_facts h hlen hfuel hr2
      rw [(f2 v hv).2, (g2 w hw2).2]
      exact hp.1 l2 hl2

/-- C29 (amended): for every cell grid built over a well-formed octree of at most 22
levels with the levels passed to the builder in ascending order (or left at their
default), the enumeration is in ascending level order: for all ordinals `i < j`,
`level(mortonIndices()[i]) ≤ level(mortonIndices()[j])`. -/
theorem build_levels_ascending (t : CellOctree) (lvls : List Nat)
    (offsets : List SignedGridCoordinates) (handler : Option PeriodicityMapper)
    (equalRange : List Nat → List Nat) (fuel : Nat) (g : CellGrid) (i j : Nat)
    (ki kj : MortonIndex)
    (hwf : CellOctree.WellFormed t) (hlen : t.numberOfLevels ≤ 22)
    (hs : lvls.Pairwise (fun a b => a ≤ b)) (hfuel : t.numberOfNodes + 2 ≤ fuel)
    (hb : build ⟨t, lvls, offsets, handler⟩ equalRange fuel = .ok g)
    (hij : i < j) (hi : g.mortonIndices[i]? = some ki) (hj : g.mortonIndices[j]? = some kj) :
    ki.level ≤ kj.level := by
  obtain ⟨cellss, a1, a2, _, _⟩ := build_keys (b := ⟨t, lvls, offsets, handler⟩)
    hwf.storeInv hfuel hb
  have hsel : (selectedLevels ⟨t, lvls, offsets, handler⟩).Pairwise (fun a b => a ≤ b) := by
    unfold selectedLevels
    dsimp only
    split
    · exact (List.pairwise_lt_range _).imp (fun h => Nat.le_of_lt h)
    · exact hs
  have hp := keys_levels_sorted hwf.storeInv hlen hfuel _ _ a1 hsel
  rw [← a2] at hp
  have hi2 : i < g.mortonIndices_.length := CellOctree.getElem?_lt_length hi
  have hj2 : j < g.mortonIndices_.length := CellOctree.getElem?_lt_length hj
  have hrel := List.pairwise_iff_getElem.mp hp i j hi2 hj2 hij
  have ei : g.mortonIndices_[i]? = some ki := hi
  have ej : g.mortonIndices_[j]? = some kj := hj
  rw [List.getElem?_eq_getElem hi2] at ei
  rw [List.getElem?_eq_getElem hj2] at ej
  injection ei with ei
  injection ej with ej
  rw [← ei, ← ej]
  exact hrel

theorem build_levels_ascending_witness :
    ∃ t g, CellOctree.fromDescriptor "R|........" = .ok t ∧
      build ⟨t, [0, 1], [], none⟩ id 30 = .ok g ∧
      g.mortonIndices[0]? = some ⟨1⟩ ∧ g.mortonIndices[1]? = some ⟨0o10⟩ ∧
      MortonIndex.level ⟨1⟩ ≤ MortonIndex.level ⟨0o10⟩ :=
  ⟨(match CellOctree.fromDescriptor "R|........" with
      | .ok t => t
      | .error _ => CellOctree.empty),
    (match build ⟨(match CellOctree.fromDescriptor "R|........" with
      | .ok t => t
      | .error _ => CellOctree.empty), [0, 1], [], none⟩ id 30 with
      | .ok g => g
      | .error _ => ⟨[], [], [], []⟩),
    by decide, by decide, by decide, by decide,
    build_levels_ascending
      (match CellOctree.fromDescriptor "R|........" with
      | .ok t => t
      | .error _ => CellOctree.empty)
      [0, 1] [] none id 30
      (match build ⟨(match CellOctree.fromDescriptor "R|........" with
      | .ok t => t
      | .error _ => CellOctree.empty), [0, 1], [], none⟩ id 30 with
      | .ok g => g
      | .error _ => ⟨[], [], [], []⟩)
      0 1 ⟨1⟩ ⟨0o10⟩
      (Or.inl ⟨"R|........", by decide, by decide, by decide⟩) (by decide) (by decide)
      (by decide) (by decide) (by decide) (by decide) (by decide)⟩

/-- The levels are enumerated in the order in which they were passed: with the levels
`{1, 0}` on `"R|........"` the eight cells of level 1 come before the root. -/
theorem build_levels_ascending_counterexample :
    ∃ t g, CellOctree.WellFormed t ∧ CellOctree.fromDescriptor "R|........" = .ok t ∧
      build ⟨t, [1, 0], [], none⟩ id 30 = .ok g ∧
      ∃ (i j : Nat) (ki kj : MortonIndex), i < j ∧ g.mortonIndices[i]? = some ki ∧
        g.mortonIndices[j]? = some kj ∧ ¬ ki.level ≤ kj.level :=
  ⟨(match CellOctree.fromDescriptor "R|........" with
      | .ok t => t
      | .error _ => CellOctree.empty),
    (match build ⟨(match CellOctree.fromDescriptor "R|........" with
      | .ok t => t
      | .error _ => CellOctree.empty), [1, 0], [], none⟩ id 30 with
      | .ok g => g
      | .error _ => ⟨[], [], [], []⟩),
    Or.inl ⟨"R|........", by decide, by decide, by decide⟩, by decide, by decide,
    0, 8, ⟨0o10⟩, ⟨1⟩, by decide, by decide, by decide, by decide⟩

end CellGridBuilder

/-! ## What `fromDescriptor` stores -/

namespace CellOctree

theorem assignChildren_flags (N : Nat) : ∀ (rn : List Nat) (k : Nat) (nodes nodes2 : List Node),
    assignChildren N rn k nodes = .ok nodes2 →
    nodes2.map (fun n => (n.isRefined, n.isPhantom)) =
      nodes.map (fun n => (n.isRefined, n.isPhantom)) := by
  intro rn
  induction rn with
  | nil =>
    intro k nodes nodes2 h
    rw [assignChildren] at h
    injection h with h
    rw [h]
  | cons i rest ih =>
    intro k nodes nodes2 h
    rw [assignChildren] at h
    rcases option_cases (nodes[i]?) with hn | ⟨n, hn⟩
    · rw [hn] at h; cases h
    · rw [hn] at h
      dsimp only at h
      rw [ih _ _ _ h, List.map_set]
      apply List.ext_getElem?
      intro j
      by_cases hj : i = j
      · subst hj
        have hi : i < nodes.length := getElem?_lt_length hn
        rw [List.getElem?_set_self (by rw [List.length_map]; exact hi), List.getElem?_map, hn,
          Node.isRefined_set, Node.isPhantom_set]
        rfl
      · rw [List.getElem?_set_ne hj]

theorem splitLevels_node (c : Char) (cs : List Char) (hc : c ≠ '|') :
    ∃ s0 rest, splitLevels cs = s0 :: rest ∧ splitLevels (c :: cs) = (c :: s0) :: rest := by
  rcases hs : splitLevels cs with _ | ⟨s0, rest⟩
  · exact absurd hs (splitLevels_ne_nil cs)
  · refine ⟨s0, rest, rfl, ?_⟩
    rw [splitLevels, if_neg hc, hs]

theorem splitLevels_length (d : List Char) : (splitLevels d).length = 1 + d.count '|' := by
  induction d with
  | nil => rfl
  | cons c cs ih =>
    by_cases hc : c = '|'
    · subst hc
      rw [splitLevels, if_pos rfl, List.length_cons, ih, List.count_cons_self]
      omega
    · obtain ⟨s0, rest, h1, h2⟩ := splitLevels_node c cs hc
      rw [h2, List.length_cons, List.count_cons_of_ne (fun h => hc h.symm), ← ih, h1,
        List.length_cons]

/-- The nodes and the level sizes that the loop of `fromDescriptor` adds to the tree built
so far, whose last level `(s, c)` is still open. -/
theorem fromDescriptorLoop_content (cs : List Char) :
    ∀ (tree : CellOctree) (rn : List Nat) (init : List (Nat × Nat)) (s c : Nat) (t : CellOctree),
    tree.levels_ = init ++ [(s, c)] → c + cs.length < 2 ^ 64 →
    fromDescriptorLoop cs tree rn = .ok t →
    t.nodesStream_.map (fun n => (n.isRefined, n.isPhantom)) =
      tree.nodesStream_.map (fun n => (n.isRefined, n.isPhantom)) ++
        (cs.filter (fun ch => ch != '|')).map
          (fun ch => (ch == 'R' || ch == 'X', ch == 'P' || ch == 'X')) ∧
    (∀ ch ∈ cs, ch = '.' ∨ ch = 'R' ∨ ch = 'P' ∨ ch = 'X' ∨ ch = '|') ∧
    ∃ s0 rest, splitLevels cs = s0 :: rest ∧
      t.levels_.map Prod.snd = init.map Prod.snd ++ (c + s0.length) :: rest.map List.length := by
  induction cs with
  | nil =>
    intro tree rn init s c t hl _ h
    rw [fromDescriptorLoop] at h
    injection h with h
    subst h
    refine ⟨by simp, fun ch hch => absurd hch (List.not_mem_nil _), [], [], rfl, ?_⟩
    rw [hl]
    simp
  | cons ch cs ih =>
    intro tree rn init s c t hl hlen h
    rw [List.length_cons] at hlen
    unfold fromDescriptorLoop at h
    by_cases hnode : ch = '.' ∨ ch = 'R' ∨ ch = 'P' ∨ ch = 'X'
    · rw [if_pos hnode] at h
      dsimp only at h
      have hne : ch ≠ '|' := by
        rcases hnode with h1 | h1 | h1 | h1 <;> (rw [h1]; decide)
      have hl1 : incrementLastCount tree.levels_ = init ++ [(s, c + 1)] := by
        rw [hl, incrementLastCount_append]
        unfold wrap WORD
        rw [Nat.mod_eq_of_lt (by omega)]
      obtain ⟨a1, a2, s0, rest, a3, a4⟩ := ih _ _ init s (c + 1) t hl1 (by omega) h
      obtain ⟨s0b, restb, b1, b2⟩ := splitLevels_node ch cs hne
      rw [a3] at b1
      injection b1 with b1 b1r
      subst b1 b1r
      refine ⟨?_, ?_, ch :: s0, rest, b2, ?_⟩
      · rw [a1, List.map_append, List.append_assoc]
        congr 1
        have hfil : (ch :: cs).filter (fun x => x != '|') =
            ch :: cs.filter (fun x => x != '|') := by
          rw [List.filter_cons]
          simp [hne]
        rw [hfil, List.map_cons]
        simp only [List.map_cons, List.map_nil, List.singleton_append, Node.isRefined_create,
          Node.isPhantom_create]
      · intro x hx
        rcases List.mem_cons.mp hx with rfl | hx
        · rcases hnode with h1 | h1 | h1 | h1
          · exact Or.inl h1
          · exact Or.inr (Or.inl h1)
          · exact Or.inr (Or.inr (Or.inl h1))
          · exact Or.inr (Or.inr (Or.inr (Or.inl h1)))
        · exact a2 x hx
      · rw [a4, List.length_cons]
        congr 2
        omega
    · rw [if_neg hnode] at h
      by_cases hp : ch = '|'
      · rw [if_pos hp] at h
        rcases except_cases (assignChildren tree.numberOfNodes rn 0 tree.nodesStream_) with
          ⟨e, he⟩ | ⟨nodes1, he⟩
        · rw [he] at h; cases h
        · rw [he] at h
          dsimp only at h
          have hl1 : (⟨nodes1, tree.levels_ ++ [(tree.numberOfNodes, 0)]⟩ : CellOctree).levels_ =
              (init ++ [(s, c)]) ++ [(tree.numberOfNodes, 0)] := by
            rw [hl]
          obtain ⟨a1, a2, s0, rest, a3, a4⟩ := ih _ _ (init ++ [(s, c)]) tree.numberOfNodes 0 t
            hl1 (by omega) h
          subst hp
          refine ⟨?_, ?_, [], s0 :: rest, ?_, ?_⟩
          · rw [a1]
            dsimp only
            rw [assignChildren_flags _ _ _ _ _ he]
            congr 1
          · intro x hx
            rcases List.mem_cons.mp hx with rfl | hx
            · exact Or.inr (Or.inr (Or.inr (Or.inr rfl)))
            · exact a2 x hx
          · rw [splitLevels, if_pos rfl, a3]
          · rw [a4]
            simp
      · rw [if_neg hp] at h
        cases h

end CellOctree

namespace CellOctree

theorem splitLevels_no_separator (d : List Char) :
    ∀ seg ∈ splitLevels d, ∀ ch ∈ seg, ch ≠ '|' := by
  induction d with
  | nil =>
    intro seg hs ch hch
    simp only [splitLevels, List.mem_singleton] at hs
    subst hs
    exact absurd hch (List.not_mem_nil _)
  | cons c cs ih =>
    intro seg hs ch hch
    by_cases hc : c = '|'
    · subst hc
      rw [splitLevels, if_pos rfl] at hs
      rcases List.mem_cons.mp hs with rfl | hs
      · exact absurd hch (List.not_mem_nil _)
      · exact ih seg hs ch hch
    · obtain ⟨s0, rest, h1, h2⟩ := splitLevels_node c cs hc
      rw [h2] at hs
      rw [h1] at ih
      rcases List.mem_cons.mp hs with rfl | hs
      · rcases List.mem_cons.mp hch with rfl | hch
        · exact hc
        · exact ih s0 (List.mem_cons_self _ _) ch hch
      · exact ih seg (List.mem_cons_of_mem _ hs) ch hch

theorem splitLevels_intercalate (d : List Char) :
    List.intercalate ['|'] (splitLevels d) = d := by
  induction d with
  | nil => rfl
  | cons c cs ih =>
    by_cases hc : c = '|'
    · subst hc
      rw [splitLevels, if_pos rfl]
      rcases hs : splitLevels cs with _ | ⟨s0, rest⟩
      · exact absurd hs (splitLevels_ne_nil cs)
      · rw [hs] at ih
        rw [← ih]
        simp [List.intercalate, List.intersperse]
    · obtain ⟨s0, rest, h1, h2⟩ := splitLevels_node c cs hc
      rw [h1] at ih
      rw [h2, ← ih]
      cases rest with
      | nil => simp [List.intercalate, List.intersperse]
      | cons r rs => simp [List.intercalate, List.intersperse]

/-- C23: for every accepted descriptor `d` (a `string_view`, so shorter than `2 ^ 64`
characters), the octree `fromDescriptor(d)` has `numberOfNodes()` equal to the number of
node characters of `d`, `numberOfLevels()` equal to `1 +` the number of `'|'` in `d`,
`numberOfNodes(l)` equal to the number of characters of the `l`-th piece of `d` between
separators (the pieces hold no `'|'` and give back `d` when joined with `'|'`; `0` past
the last piece), and the node at stream index `i` has the flags of the `i`-th node
character: `'.'` unrefined non-phantom, `'R'` refined non-phantom, `'P'` unrefined
phantom, `'X'` refined phantom. -/
theorem fromDescriptor_content (d : String) (t : CellOctree) (hlen : d.length < 2 ^ 64)
    (h : fromDescriptor d = .ok t) :
    t.numberOfNodes = nodeChars d.data ∧
    t.numberOfLevels = 1 + d.data.count '|' ∧
    (List.intercalate ['|'] (splitLevels d.data) = d.data ∧
      (∀ seg ∈ splitLevels d.data, ∀ ch ∈ seg, ch ≠ '|') ∧
      ∀ l, t.numberOfNodesAt l = (((splitLevels d.data)[l]?).getD []).length) ∧
    ∀ (i : Nat) (ch : Char), (d.data.filter (fun x => x != '|'))[i]? = some ch →
      ∃ n, t.nodesStream_[i]? = some n ∧
        (ch = '.' ∨ ch = 'R' ∨ ch = 'P' ∨ ch = 'X') ∧
        (ch = '.' → n.isRefined = false ∧ n.isPhantom = false) ∧
        (ch = 'R' → n.isRefined = true ∧ n.isPhantom = false) ∧
        (ch = 'P' → n.isRefined = false ∧ n.isPhantom = true) ∧
        (ch = 'X' → n.isRefined = true ∧ n.isPhantom = true) := by
  rw [string_length_data] at hlen
  unfold fromDescriptor at h
  split at h
  · cases h
  · have hinit : (⟨empty.nodesStream_.dropLast, decrementLastCount empty.levels_⟩ :
        CellOctree).levels_ = [] ++ [(0, 0)] := by decide
    obtain ⟨a1, a2, s0, rest, a3, a4⟩ := fromDescriptorLoop_content d.data _ [] [] 0 0 t hinit
      (by omega) h
    have hnodes : t.nodesStream_.map (fun n => (n.isRefined, n.isPhantom)) =
        (d.data.filter (fun ch => ch != '|')).map
          (fun ch => (ch == 'R' || ch == 'X', ch == 'P' || ch == 'X')) := by
      rw [a1]
      show List.map _ ([] : List Node) ++ _ = _
      rw [List.map_nil, List.nil_append]
    have hlev : t.levels_.map Prod.snd = (splitLevels d.data).map List.length := by
      rw [a4, a3]
      simp
    refine ⟨?_, ?_, ⟨splitLevels_intercalate _, splitLevels_no_separator _, ?_⟩, ?_⟩
    · have := congrArg List.length hnodes
      rw [List.length_map, List.length_map] at this
      unfold numberOfNodes nodeChars
      rw [this, List.countP_eq_length_filter]
    · have := congrArg List.length hlev
      rw [List.length_map, List.length_map, splitLevels_length] at this
      exact this
    · intro l
      have hl := congrArg (fun x => x[l]?) hlev
      dsimp only at hl
      rw [List.getElem?_map, List.getElem?_map] at hl
      unfold numberOfNodesAt
      rcases option_cases (t.levels_[l]?) with hn | ⟨⟨a, b⟩, hn⟩
      · rw [hn] at hl ⊢
        rcases option_cases ((splitLevels d.data)[l]?) with hs | ⟨seg, hs⟩
        · rw [hs]; rfl
        · rw [hs] at hl; cases hl
      · rw [hn] at hl ⊢
        rcases option_cases ((splitLevels d.data)[l]?) with hs | ⟨seg, hs⟩
        · rw [hs] at hl; cases hl
        · rw [hs] at hl ⊢
          simp only [Option.map_some'] at hl
          injection hl with hl
    · intro i ch hch
      have hi := congrArg (fun x => x[i]?) hnodes
      dsimp only at hi
      rw [List.getElem?_map, List.getElem?_map, hch] at hi
      rcases option_cases (t.nodesStream_[i]?) with hn | ⟨n, hn⟩
      · rw [hn] at hi; cases hi
      · rw [hn] at hi
        simp only [Option.map_some'] at hi
        injection hi with hi
        injection hi with hr hp
        have hmem : ch ∈ d.data := (List.mem_filter.mp (List.getElem?_mem hch)).1
        have hne : ch ≠ '|' := by
          have := (List.mem_filter.mp (List.getElem?_mem hch)).2
          simpa using this
        have hc := a2 ch hmem
        refine ⟨n, hn, ?_, ?_, ?_, ?_, ?_⟩
        · rcases hc with h1 | h1 | h1 | h1 | h1
          · exact Or.inl h1
          · exact Or.inr (Or.inl h1)
          · exact Or.inr (Or.inr (Or.inl h1))
          · exact Or.inr (Or.inr (Or.inr h1))
          · exact absurd h1 hne
        · intro e; subst e; rw [hr, hp]; exact ⟨by decide, by decide⟩
        · intro e; subst e; rw [hr, hp]; exact ⟨by decide, by decide⟩
        · intro e; subst e; rw [hr, hp]; exact ⟨by decide, by decide⟩
        · intro e; subst e; rw [hr, hp]; exact ⟨by decide, by decide⟩

theorem fromDescriptor_content_witness :
    ∃ t, fromDescriptor "X|....R..R|.P.P.P.P.P.P.P.P" = .ok t ∧
      t.numberOfNodes = 25 ∧ t.numberOfLevels = 3 ∧ t.numberOfNodesAt 1 = 8 ∧
      t.numberOfNodesAt 2 = 16 ∧ t.numberOfNodesAt 3 = 0 ∧
      t.numberOfNodes = nodeChars ("X|....R..R|.P.P.P.P.P.P.P.P" : String).data ∧
      t.numberOfLevels = 1 + ("X|....R..R|.P.P.P.P.P.P.P.P" : String).data.count '|' :=
  ⟨(match fromDescriptor "X|....R..R|.P.P.P.P.P.P.P.P" with
      | .ok t => t
      | .error _ => CellOctree.empty),
    by decide, by decide, by decide, by decide, by decide, by decide,
    (fromDescriptor_content "X|....R..R|.P.P.P.P.P.P.P.P"
      (match fromDescriptor "X|....R..R|.P.P.P.P.P.P.P.P" with
      | .ok t => t
      | .error _ => CellOctree.empty) (by decide) (by decide)).1,
    (fromDescriptor_content "X|....R..R|.P.P.P.P.P.P.P.P"
      (match fromDescriptor "X|....R..R|.P.P.P.P.P.P.P.P" with
      | .ok t => t
      | .error _ => CellOctree.empty) (by decide) (by decide)).2.1⟩

end CellOctree

/-! ## Cell views of a grid -/

namespace CellOctree

theorem getCell_nonPhantom {t : CellOctree} {m : MortonIndex} {v : CellView}
    (h : getCell t m = .ok (some v)) : v.isPhantom = false := by
  have hcreate : ∀ (n : Node) (i : Nat), n.isPhantom ≠ true →
      (CellView.create n m i).isPhantom = false := by
    intro n i hn
    unfold CellView.isPhantom CellView.create
    dsimp only
    rw [Node.isPhantom_create]
    simpa using hn
  by_cases hr : m.isRoot = true
  · rcases option_cases (t.nodesStream_[0]?) with h0 | ⟨root, h0⟩
    · unfold getCell at h
      rw [if_pos hr, h0] at h; cases h
    · unfold getCell at h
      rw [if_pos hr, h0] at h
      dsimp only at h
      by_cases hp : root.isPhantom = true
      · rw [if_pos hp] at h; cases h
      · rw [if_neg hp] at h
        injection h with h
        injection h with h
        rw [← h]
        exact hcreate _ _ hp
  · by_cases hl : m.level ≥ t.numberOfLevels
    · unfold getCell at h
      rw [if_neg hr, if_pos hl] at h; cases h
    · rcases option_cases (t.nodesStream_[0]?) with h0 | ⟨root, h0⟩
      · unfold getCell at h
        rw [if_neg hr, if_neg hl, h0] at h; cases h
      · rcases except_cases m.getPath with ⟨e, hp⟩ | ⟨path, hp⟩
        · unfold getCell at h
          rw [if_neg hr, if_neg hl, h0, hp] at h; cases h
        · rcases except_cases (getCellLoop t.nodesStream_ path 0 root) with
            ⟨e, hg⟩ | ⟨r, hg⟩
          · unfold getCell at h
            rw [if_neg hr, if_neg hl, h0, hp] at h
            dsimp only at h
            rw [hg] at h; cases h
          · unfold getCell at h
            rw [if_neg hr, if_neg hl, h0, hp] at h
            dsimp only at h
            rw [hg] at h
            cases r with
            | none => cases h
            | some pr =>
              obtain ⟨idx, cur⟩ := pr
              dsimp only at h
              by_cases hph : cur.isPhantom = true
              · rw [if_pos hph] at h; cases h
              · rw [if_neg hph] at h
                injection h with h
                injection h with h
                rw [← h]
                exact hcreate _ _ hph

theorem StoreInv.levels_mono {t : CellOctree} (h : StoreInv t) : ∀ (d l : Nat) (a b : Nat × Nat),
    t.levels_[l]? = some a → t.levels_[l + 1 + d]? = some b → a.1 + a.2 ≤ b.1 := by
  intro d
  induction d with
  | zero =>
    intro l a b ha hb
    have := h.levels_next l a b ha hb
    omega
  | succ d ih =>
    intro l a b ha hb
    have hl := getElem?_lt_length hb
    have hm : t.levels_[l + 1 + d]? = some t.levels_[l + 1 + d] :=
      List.getElem?_eq_getElem (by omega)
    have h1 := ih l a _ ha hm
    have h2 := h.levels_next (l + 1 + d) _ b hm hb
    omega

theorem horizontalRange_cells {t : CellOctree} (h : StoreInv t) (hlen : t.numberOfLevels ≤ 22)
    {L fuel : Nat} (hfuel : t.numberOfNodes + 2 ≤ fuel) {cells : List CellView}
    (hr : horizontalRange t L fuel = .ok cells) :
    (cells.map CellView.streamIndex).Nodup ∧
    ∀ v ∈ cells, getCell t v.m = .ok (some v) ∧
      ∃ s c, t.levels_[L]? = some (s, c) ∧ s ≤ v.streamIndex ∧ v.streamIndex < s + c := by
  by_cases hL : t.numberOfLevels ≤ L
  · rw [horizontalRange_missing t L hL fuel (by omega)] at hr
    injection hr with hr
    subst hr
    exact ⟨List.nodup_nil, fun v hv => absurd hv (List.not_mem_nil _)⟩
  · have hlt : L < t.levels_.length := by unfold numberOfLevels at hL; omega
    obtain ⟨s, c, ha⟩ : ∃ s c, t.levels_[L]? = some (s, c) :=
      ⟨(t.levels_[L]).1, (t.levels_[L]).2, List.getElem?_eq_getElem hlt⟩
    have hend := StoreInv.level_end_le h ha
    dsimp only at hend
    by_cases hc0 : c = 0
    · subst hc0
      rw [horizontalRange_empty_level ha] at hr
      cases hr
    · obtain ⟨vs, h1, h2, h3⟩ := horizontalRange_spec h hlen ha (by omega) fuel
        (by unfold numberOfNodes at hfuel; omega)
      rw [hr] at h1
      injection h1 with h1
      subst h1
      refine ⟨by rw [h2]; exact (List.nodup_range' s c).filter _, ?_⟩
      intro v hv
      refine ⟨(h3 v hv).1, s, c, ha, ?_⟩
      have hm : v.streamIndex ∈ cells.map CellView.streamIndex := List.mem_map_of_mem _ hv
      rw [h2, List.mem_filter, List.mem_range'_1] at hm
      exact hm.1

end CellOctree

namespace CellGridBuilder

theorem streamIndices_nodup {t : CellOctree} (h : CellOctree.StoreInv t)
    (hlen : t.numberOfLevels ≤ 22) {fuel : Nat} (hfuel : t.numberOfNodes + 2 ≤ fuel) :
    ∀ (levels : List Nat) (cellss : List (List CellView)),
    List.Forall₂ (fun l cells => t.horizontalRange l fuel = .ok cells) levels cellss →
    levels.Nodup →
    (cellss.flatten.map CellView.streamIndex).Nodup := by
  intro levels cellss hf
  induction hf with
  | nil => intro _; exact List.nodup_nil
  | @cons l cells levels cellss hr hrest ih =>
    intro hnd
    rw [List.nodup_cons] at hnd
    obtain ⟨f1, f2⟩ := CellOctree.horizontalRange_cells h hlen hfuel hr
    rw [List.flatten_cons, List.map_append, List.nodup_append]
    refine ⟨f1, ih hnd.2, ?_⟩
    intro x hx1 hx2
    obtain ⟨v, hv, rfl⟩ := List.mem_map.mp hx1
    obtain ⟨w, hw, hwv⟩ := List.mem_map.mp hx2
    obtain ⟨l2, cells2, hl2, hr2, hw2⟩ := flatten_mem _ _ hrest w hw
    obtain ⟨_, g2⟩ := CellOctree.horizontalRange_cells h hlen hfuel hr2
    obtain ⟨_, s, c, ha, b1, b2⟩ := f2 v hv
    obtain ⟨_, s2, c2, ha2, d1, d2⟩ := g2 w hw2
    have hne : l ≠ l2 := fun e => hnd.1 (e ▸ hl2)
    rcases Nat.lt_or_gt_of_ne hne with hlt | hgt
    · obtain ⟨d, hd⟩ : ∃ d, l2 = l + 1 + d := ⟨l2 - l - 1, by omega⟩
      rw [hd] at ha2
      have := CellOctree.StoreInv.levels_mono h d l _ _ ha ha2
      dsimp only at this
      omega
    · obtain ⟨d, hd⟩ : ∃ d, l = l2 + 1 + d := ⟨l - l2 - 1, by omega⟩
      rw [hd] at ha
      have := CellOctree.StoreInv.levels_mono h d l2 _ _ ha2 ha
      dsimp only at this
      omega

end CellGridBuilder

namespace CellGridBuilder

theorem enumerateCells_s2e : ∀ (cells : List CellView) (keys : List MortonIndex) (r : Nat)
    (s2e : List Nat) (st : EnumState), keys.length + r < WORD →
    enumerateCells cells ⟨keys ++ List.replicate r MortonIndex.root, s2e, keys.length⟩ = .ok st →
    (cells.map CellView.streamIndex).Nodup →
    (∀ (j : Nat) (v : CellView), cells[j]? = some v →
      st.streamIndexToEnum[v.streamIndex]? = some (keys.length + j)) ∧
    (∀ x, x ∉ cells.map CellView.streamIndex → st.streamIndexToEnum[x]? = s2e[x]?) := by
  intro cells
  induction cells with
  | nil =>
    intro keys r s2e st _ h _
    rw [enumerateCells] at h
    injection h with h
    subst h
    exact ⟨fun j v hj => by simp at hj, fun x _ => rfl⟩
  | cons cell rest ih =>
    intro keys r s2e st hlen h hnd
    rw [List.map_cons, List.nodup_cons] at hnd
    rw [enumerateCells] at h
    cases hc : enumerateCell ⟨keys ++ List.replicate r MortonIndex.root, s2e, keys.length⟩ cell with
    | error e => rw [hc] at h; cases h
    | ok st1 =>
      rw [hc] at h
      dsimp only at h
      unfold enumerateCell at hc
      dsimp only at hc
      by_cases h1 : keys.length < (keys ++ List.replicate r MortonIndex.root).length
      · rw [if_pos h1] at hc
        by_cases h2 : cell.streamIndex < s2e.length
        · rw [if_pos h2] at hc
          injection hc with hc
          have hr : 0 < r := by
            rw [List.length_append, List.length_replicate] at h1; omega
          have hw : wrap (keys.length + 1) = (keys ++ [cell.m]).length := by
            rw [List.length_append, List.length_singleton]
            unfold wrap; exact Nat.mod_eq_of_lt (by omega)
          rw [set_append_replicate keys r _ _ hr, hw] at hc
          subst hc
          obtain ⟨a1, a2⟩ := ih (keys ++ [cell.m]) (r - 1) _ st (by
            rw [List.length_append, List.length_singleton]; omega) h hnd.2
          rw [List.length_append, List.length_singleton] at a1
          constructor
          · intro j v hj
            cases j with
            | zero =>
              rw [List.getElem?_cons_zero] at hj
              injection hj with hj
              subst hj
              rw [a2 _ hnd.1, List.getElem?_set_self h2]
              rfl
            | succ j =>
              rw [List.getElem?_cons_succ] at hj
              rw [a1 j v hj]
              congr 1
              omega
          · intro x hx
            rw [List.map_cons, List.mem_cons, not_or] at hx
            rw [a2 x hx.2, List.getElem?_set_ne (fun e => hx.1 e.symm)]
        · rw [if_neg h2] at hc; cases hc
      · rw [if_neg h1] at hc; cases hc

theorem enumerateLevels_s2e (t : CellOctree) (fuel : Nat) : ∀ (levels : List Nat)
    (cellss : List (List CellView)),
    List.Forall₂ (fun l cells => t.horizontalRange l fuel = .ok cells) levels cellss →
    ∀ (keys : List MortonIndex) (r : Nat) (s2e : List Nat) (st : EnumState),
    keys.length + r < WORD →
    enumerateLevels t fuel levels ⟨keys ++ List.replicate r MortonIndex.root, s2e, keys.length⟩
      = .ok st →
    (cellss.flatten.map CellView.streamIndex).Nodup →
    (∀ (j : Nat) (v : CellView), cellss.flatten[j]? = some v →
      st.streamIndexToEnum[v.streamIndex]? = some (keys.length + j)) ∧
    (∀ x, x ∉ cellss.flatten.map CellView.streamIndex → st.streamIndexToEnum[x]? = s2e[x]?) := by
  intro levels cellss hf
  induction hf with
  | nil =>
    intro keys r s2e st _ h _
    rw [enumerateLevels] at h
    injection h with h
    subst h
    exact ⟨fun j v hj => by simp at hj, fun x _ => rfl⟩
  | @cons l cells levels cellss hr _ ih =>
    intro keys r s2e st hlen h hnd
    rw [List.flatten_cons, List.map_append, List.nodup_append] at hnd
    obtain ⟨hnd1, hnd2, hdis⟩ := hnd
    rw [enumerateLevels, hr] at h
    dsimp only at h
    cases hc : enumerateCells cells
        ⟨keys ++ List.replicate r MortonIndex.root, s2e, keys.length⟩ with
    | error e => rw [hc] at h; cases h
    | ok st1 =>
      rw [hc] at h
      dsimp only at h
      obtain ⟨a1, a2, a3, a4, a5⟩ := enumerateCells_spec cells keys r s2e st1 hlen hc
      obtain ⟨c1, c2⟩ := enumerateCells_s2e cells keys r s2e st1 hlen hc hnd1
      have hst1 : st1 = ⟨(keys ++ cells.map (fun v => v.m)) ++
          List.replicate (r - cells.length) MortonIndex.root, st1.streamIndexToEnum,
          (keys ++ cells.map (fun v => v.m)).length⟩ := by
        obtain ⟨m1, m2, m3⟩ := st1
        simp only at a2 a3
        rw [a2, a3]
        simp
      rw [hst1] at h
      obtain ⟨b1, b2⟩ := ih _ _ _ st (by
        rw [List.length_append, List.length_map]; omega) h hnd2
      rw [List.length_append, List.length_map] at b1
      constructor
      · intro j v hj
        rw [List.flatten_cons] at hj
        by_cases hjl : j < cells.length
        · rw [List.getElem?_append_left hjl] at hj
          have hv : v ∈ cells := List.getElem?_mem hj
          have hnot : v.streamIndex ∉ cellss.flatten.map CellView.streamIndex :=
            fun hm => hdis (List.mem_map_of_mem _ hv) hm
          rw [b2 _ hnot]
          exact c1 j v hj
        · rw [List.getElem?_append_right (by omega)] at hj
          rw [b1 _ v hj]
          congr 1
          omega
      · intro x hx
        rw [List.flatten_cons, List.map_append, List.mem_append, not_or] at hx
        rw [b2 x hx.2, c2 x hx.1]

/-- The two vectors of a built grid are those left by the enumeration loop. -/
theorem build_enum {b : CellGridBuilder} {equalRange : List Nat → List Nat} {fuel : Nat}
    {g : CellGrid} (h : build b equalRange fuel = .ok g) :
    ∃ st, enumerateLevels b.octree_ fuel b.selectedLevels
        ⟨[] ++ List.replicate (numberOfNonPhantomNodesOf b.octree_ b.selectedLevels)
          MortonIndex.root, List.replicate b.octree_.numberOfNodes CellGrid.NOT_ENUMERATED,
          ([] : List MortonIndex).length⟩ = .ok st ∧
      g.mortonIndices_ = st.mortonIndices ∧ g.streamIndexToEnum_ = st.streamIndexToEnum := by
  unfold build at h
  dsimp only at h
  cases he : enumerateLevels b.octree_ fuel b.selectedLevels
      ⟨List.replicate (numberOfNonPhantomNodesOf b.octree_ b.selectedLevels) MortonIndex.root,
        List.replicate b.octree_.numberOfNodes CellGrid.NOT_ENUMERATED, 0⟩ with
  | error e => rw [he] at h; cases h
  | ok st =>
    rw [he] at h
    dsimp only at h
    refine ⟨st, he, ?_⟩
    by_cases ho : b.adjacencyOffsets_.isEmpty = true
    · rw [if_pos ho] at h
      injection h with h
      subst h
      exact ⟨rfl, rfl⟩
    · rw [if_neg ho] at h
      cases hco : coordinatesOf fuel st.mortonIndices with
      | error e => rw [hco] at h; cases h
      | ok coords =>
        rw [hco] at h
        dsimp only at h
        cases hr : neighborRows (neighborEntry (b.periodicityHandler_.getD .noPeriodicity)
            equalRange fuel st.mortonIndices coords) st.mortonIndices b.adjacencyOffsets_ with
        | error e => rw [hr] at h; cases h
        | ok rows =>
          rw [hr] at h
          dsimp only at h
          injection h with h
          subst h
          exact ⟨rfl, rfl⟩

end CellGridBuilder

namespace CellGridBuilder

/-- C27 (amended): for every cell grid built over a well-formed octree of at most 22
levels with levels selected without repetition and every ordinal `i < size()`:
`octree.getCell(mortonIndices()[i])` is present (so `grid[i]` does not fail), `grid[i]` is
that view, and `getEnumerationIndex(grid[i]) = i`; for `i ≥ size()`, `grid[i]` fails with
`OutOfRange`; and `getEnumerationIndex` returns `NOT_ENUMERATED` for every phantom cell
view. -/
theorem grid_cell_views (t : CellOctree) (lvls : List Nat)
    (offsets : List SignedGridCoordinates) (handler : Option PeriodicityMapper)
    (equalRange : List Nat → List Nat) (fuel : Nat) (g : CellGrid)
    (hwf : CellOctree.WellFormed t) (hlen : t.numberOfLevels ≤ 22) (hnd : lvls.Nodup)
    (hfuel : t.numberOfNodes + 2 ≤ fuel)
    (hb : build ⟨t, lvls, offsets, handler⟩ equalRange fuel = .ok g) :
    (∀ i, i < g.size → ∃ (k : MortonIndex) (v : CellView), g.mortonIndices[i]? = some k ∧
      t.getCell k = .ok (some v) ∧ g.subscript t i = .ok v ∧
      g.getEnumerationIndexOf v = .ok i) ∧
    (∀ i, g.size ≤ i → g.subscript t i = .error .outOfRange) ∧
    (∀ cv : CellView, cv.isPhantom = true →
      g.getEnumerationIndexOf cv = .ok CellGrid.NOT_ENUMERATED) := by
  have hinv := hwf.storeInv
  refine ⟨?_, ?_, ?_⟩
  · intro i hi
    obtain ⟨cellss, a1, a2, _, _⟩ := build_keys (b := ⟨t, lvls, offsets, handler⟩)
      hinv hfuel hb
    obtain ⟨st, he, _, e2⟩ := build_enum hb
    have hN : ([] : List MortonIndex).length +
        numberOfNonPhantomNodesOf t (selectedLevels ⟨t, lvls, offsets, handler⟩) < WORD := by
      rw [List.length_nil, Nat.zero_add, numberOfNonPhantomNodesOf_mod]
      exact Nat.mod_lt _ (by decide)
    have hsnd := streamIndices_nodup hinv hlen hfuel _ _ a1
      (selectedLevels_nodup ⟨t, lvls, offsets, handler⟩ hnd)
    obtain ⟨b1, _⟩ := enumerateLevels_s2e t fuel _ _ a1 [] _ _ st hN he hsnd
    have hi2 : i < cellss.flatten.length := by
      unfold CellGrid.size at hi
      rw [a2, List.length_map] at hi
      exact hi
    have hv : cellss.flatten[i]? = some cellss.flatten[i] := List.getElem?_eq_getElem hi2
    have hk : g.mortonIndices_[i]? = some (cellss.flatten[i]).m := by
      rw [a2, List.getElem?_map, hv]
      rfl
    obtain ⟨l, cells, _, hr, hvc⟩ := flatten_mem _ _ a1 _ (List.getElem?_mem hv)
    have hget := ((CellOctree.horizontalRange_cells hinv hlen hfuel hr).2 _ hvc).1
    have hph := CellOctree.getCell_nonPhantom hget
    refine ⟨(cellss.flatten[i]).m, cellss.flatten[i], hk, hget, ?_, ?_⟩
    · unfold CellGrid.subscript
      rw [if_neg (by unfold CellGrid.size at hi; omega), hk]
      dsimp only
      rw [hget]
    · unfold CellGrid.getEnumerationIndexOf CellGrid.getEnumerationIndex
      rw [hph, e2, b1 i _ hv]
      simp
  · intro i hi
    have hi2 : i ≥ g.mortonIndices_.length := hi
    unfold CellGrid.subscript
    rw [if_pos hi2]
  · intro cv hcv
    unfold CellGrid.getEnumerationIndexOf
    rw [if_pos hcv]

theorem grid_cell_views_witness :
    ∃ t g, CellOctree.fromDescriptor "X|........" = .ok t ∧
      build ⟨t, [1], [], none⟩ id 30 = .ok g ∧ g.size = 8 ∧
      (∃ (k : MortonIndex) (v : CellView), g.mortonIndices[3]? = some k ∧
        t.getCell k = .ok (some v) ∧ g.subscript t 3 = .ok v ∧
        g.getEnumerationIndexOf v = .ok 3) ∧
      g.subscript t 8 = .error .outOfRange :=
  ⟨(match CellOctree.fromDescriptor "X|........" with
      | .ok t => t
      | .error _ => CellOctree.empty),
    (match build ⟨(match CellOctree.fromDescriptor "X|........" with
      | .ok t => t
      | .error _ => CellOctree.empty), [1], [], none⟩ id 30 with
      | .ok g => g
      | .error _ => ⟨[], [], [], []⟩),
    by decide, by decide, by decide,
    (grid_cell_views
      (match CellOctree.fromDescriptor "X|........" with
      | .ok t => t
      | .error _ => CellOctree.empty)
      [1] [] none id 30
      (match build ⟨(match CellOctree.fromDescriptor "X|........" with
      | .ok t => t
      | .error _ => CellOctree.empty), [1], [], none⟩ id 30 with
      | .ok g => g
      | .error _ => ⟨[], [], [], []⟩)
      (Or.inl ⟨"X|........", by decide, by decide, by decide⟩) (by decide) (by decide)
      (by decide) (by decide)).1 3 (by decide),
    (grid_cell_views
      (match CellOctree.fromDescriptor "X|........" with
      | .ok t => t
      | .error _ => CellOctree.empty)
      [1] [] none id 30
      (match build ⟨(match CellOctree.fromDescriptor "X|........" with
      | .ok t => t
      | .error _ => CellOctree.empty), [1], [], none⟩ id 30 with
      | .ok g => g
      | .error _ => ⟨[], [], [], []⟩)
      (Or.inl ⟨"X|........", by decide, by decide, by decide⟩) (by decide) (by decide)
      (by decide) (by decide)).2.1 8 (by decide)⟩

set_option maxRecDepth 100000 in
/-- In an octree of 23 levels the key of the cell of level 22 wraps to the key of the
root: the grid over the levels 0 and 22 holds the key `1` twice, `grid[0]` is the view of
the root, and its enumeration index is `1`. -/
theorem grid_cell_views_counterexample :
    ∃ t g v, CellOctree.WellFormed t ∧ t.numberOfLevels = 23 ∧
      build ⟨t, [0, 22], [], none⟩ id 200 = .ok g ∧ g.size = 2 ∧
      g.subscript t 0 = .ok v ∧ g.getEnumerationIndexOf v = .ok 1 :=
  ⟨(match CellOctree.fromDescriptor "R|XPPPPPPP|XPPPPPPP|XPPPPPPP|XPPPPPPP|XPPPPPPP|XPPPPPPP|XPPPPPPP|XPPPPPPP|XPPPPPPP|XPPPPPPP|XPPPPPPP|XPPPPPPP|XPPPPPPP|XPPPPPPP|XPPPPPPP|XPPPPPPP|XPPPPPPP|XPPPPPPP|XPPPPPPP|XPPPPPPP|XPPPPPPP|P.PPPPPP" with
    | .ok t => t
    | .error _ => CellOctree.empty),
    ⟨[⟨1⟩, ⟨1⟩], 1 :: List.replicate 176 CellGrid.NOT_ENUMERATED, [], []⟩,
    ⟨0, Node.create true false 1, ⟨1⟩⟩,
    Or.inl ⟨"R|XPPPPPPP|XPPPPPPP|XPPPPPPP|XPPPPPPP|XPPPPPPP|XPPPPPPP|XPPPPPPP|XPPPPPPP|XPPPPPPP|XPPPPPPP|XPPPPPPP|XPPPPPPP|XPPPPPPP|XPPPPPPP|XPPPPPPP|XPPPPPPP|XPPPPPPP|XPPPPPPP|XPPPPPPP|XPPPPPPP|XPPPPPPP|P.PPPPPP", by decide, by decide, by decide⟩,
    by decide, by decide, by decide, by decide, by decide⟩

end CellGridBuilder

/-! ## The tool `create-htgfile` -/

namespace CreateHtgfile

/-- C31: whatever the arguments and whatever the export does, `main` passes `EXIT_FAILURE`
to `std::exit` (unless the behaviour of `convert` is undefined): also when it is invoked
with exactly two arguments, the descriptor is accepted and the export succeeds. With
another number of arguments, or with a descriptor that `fromDescriptor` rejects by an
exception, the status is `EXIT_FAILURE` as well. -/
theorem main_exit_status (exportOctree : CellOctree → String → Except Error Unit)
    (args : List String) :
    (∀ r, main exportOctree args = some r → r = EXIT_FAILURE ∧ r ≠ EXIT_SUCCESS) ∧
    (∀ (prog out d : String) (t : CellOctree), args = [prog, out, d] →
      CellOctree.fromDescriptor d = .ok t → exportOctree t out = .ok () →
      main exportOctree args = some EXIT_FAILURE) ∧
    (args.length ≠ 3 → main exportOctree args = some EXIT_FAILURE) ∧
    (∀ (prog out d : String), args = [prog, out, d] →
      CellOctree.fromDescriptor d = .error .invalidArgument →
      main exportOctree args = some EXIT_FAILURE) := by
  refine ⟨?_, ?_, ?_, ?_⟩
  · intro r h
    unfold main at h
    split at h
    · cases h
    · injection h with h; rw [← h]; exact ⟨rfl, by decide⟩
    · injection h with h; rw [← h]; exact ⟨rfl, by decide⟩
  · intro prog out d t ha hd he
    subst ha
    have hc : convert exportOctree [prog, out, d] = .ok () := by
      unfold convert
      have h3 : [prog, out, d].length = 3 := rfl
      rw [if_pos h3]
      simp only [List.getElem?_cons_succ, List.getElem?_cons_zero]
      rw [hd]
      exact he
    unfold main
    rw [hc]
  · intro h
    have hc : convert exportOctree args = .error .invalidArgument := by
      unfold convert
      rw [if_neg h]
    unfold main
    rw [hc]
  · intro prog out d ha hd
    subst ha
    have hc : convert exportOctree [prog, out, d] = .error .invalidArgument := by
      unfold convert
      have h3 : [prog, out, d].length = 3 := rfl
      rw [if_pos h3]
      simp only [List.getElem?_cons_succ, List.getElem?_cons_zero]
      rw [hd]
    unfold main
    rw [hc]

theorem main_exit_status_witness :
    main (fun _ _ => .ok ()) ["create-htgfile", "out.vtkhdf", "R|........"] =
      some EXIT_FAILURE ∧
    main (fun _ _ => .ok ()) ["create-htgfile", "out.vtkhdf"] = some EXIT_FAILURE ∧
    main (fun _ _ => .ok ()) ["create-htgfile", "out.vtkhdf", "R|......."] =
      some EXIT_FAILURE :=
  ⟨(main_exit_status (fun _ _ => .ok ()) ["create-htgfile", "out.vtkhdf", "R|........"]).2.1
      "create-htgfile" "out.vtkhdf" "R|........"
      (match CellOctree.fromDescriptor "R|........" with
        | .ok t => t
        | .error _ => CellOctree.empty) rfl (by decide) rfl,
    (main_exit_status (fun _ _ => .ok ()) ["create-htgfile", "out.vtkhdf"]).2.2.1 (by decide),
    (main_exit_status (fun _ _ => .ok ()) ["create-htgfile", "out.vtkhdf", "R|......."]).2.2.2
      "create-htgfile" "out.vtkhdf" "R|......." rfl (by decide)⟩

end CreateHtgfile

/-! ## Cursor observers -/

namespace OctreeCursor

/-- C38: for a cursor below the root on a chain of a well-formed octree of at most 22
levels, with current stream index `i`: `siblingIndex()` is `i - 1`, while the sibling
index of the cursor's Morton key is `(i - 1) % 8`; the two agree exactly when `i ≤ 8`,
that is on level 1 only. `firstSibling()` holds exactly when `(i - 1) % 8 = 0` and
`lastSibling()` exactly when `(i - 1) % 8 = 7`. -/
theorem cursor_siblingIndex (t : CellOctree) (i j : Nat) (up : List Nat)
    (hwf : CellOctree.WellFormed t) (hlen : t.numberOfLevels ≤ 22)
    (hc : CellOctree.Chain t (i :: j :: up)) :
    siblingIndex ⟨i :: j :: up⟩ = i - 1 ∧
    (mortonIndex ⟨i :: j :: up⟩).siblingIndex = (i - 1) % 8 ∧
    (siblingIndex ⟨i :: j :: up⟩ = (mortonIndex ⟨i :: j :: up⟩).siblingIndex ↔ i ≤ 8) ∧
    (firstSibling ⟨i :: j :: up⟩ = true ↔ (i - 1) % 8 = 0) ∧
    (lastSibling ⟨i :: j :: up⟩ = true ↔ (i - 1) % 8 = 7) := by
  have h := hwf.storeInv
  have hl := CellOctree.Chain.length_le h hc
  obtain ⟨hbits, _⟩ := CellOctree.Chain.morton h (i :: j :: up) hc (by omega)
  obtain ⟨a, n, _, _, _, hn⟩ := CellOctree.Chain.level h (j :: up) i hc
  have hi := CellOctree.getElem?_lt_length hn
  have hsz := h.size_lt
  obtain ⟨⟨pn, hpn, hpr, hp1, hp2⟩, _⟩ := hc
  have hmod := h.children_mod hpn hpr
  have hpos : 1 ≤ i := by omega
  have hW : WORD = 2 ^ 64 := rfl
  have hsib : siblingIndex ⟨i :: j :: up⟩ = i - 1 := by
    show wrap (i + WORD - 1) = i - 1
    unfold wrap
    have h1 : i + WORD - 1 = (i - 1) + WORD := by omega
    rw [h1, Nat.add_mod_right, Nat.mod_eq_of_lt (by omega)]
  have hsel := CellOctree.selectors_lt (j :: up)
  have hb := MortonIndex.ofPath_bounds (CellOctree.selectors (j :: up)) hsel
  have hp : 1 ≤ MortonIndex.ofPath (CellOctree.selectors (j :: up)) :=
    Nat.le_trans (Nat.one_le_pow _ _ (by decide)) hb.1
  have hkey : (mortonIndex ⟨i :: j :: up⟩).siblingIndex = (i - 1) % 8 := by
    unfold MortonIndex.siblingIndex MortonIndex.isRoot
    rw [hbits]
    show (if (MortonIndex.ofPath (CellOctree.selectors (j :: up) ++ [(i - 1) % 8]) == 1) = true
      then 0 else MortonIndex.ofPath (CellOctree.selectors (j :: up) ++ [(i - 1) % 8]) &&& 7) = _
    rw [MortonIndex.ofPath_append_single, MortonIndex.land_seven]
    have hne : ¬ (8 * MortonIndex.ofPath (CellOctree.selectors (j :: up)) + (i - 1) % 8 = 1) := by
      omega
    simp only [beq_iff_eq, if_neg hne]
    omega
  refine ⟨hsib, hkey, ?_, ?_, ?_⟩
  · rw [hsib, hkey]; omega
  · show ((i &&& 7) == 1) = true ↔ _
    rw [MortonIndex.land_seven, beq_iff_eq]; omega
  · show ((i &&& 7) == 0) = true ↔ _
    rw [MortonIndex.land_seven, beq_iff_eq]; omega

theorem cursor_siblingIndex_witness :
    siblingIndex ⟨[11, 1, 0]⟩ = 11 - 1 ∧
    (mortonIndex ⟨[11, 1, 0]⟩).siblingIndex = (11 - 1) % 8 ∧
    (siblingIndex ⟨[11, 1, 0]⟩ = (mortonIndex ⟨[11, 1, 0]⟩).siblingIndex ↔ 11 ≤ 8) ∧
    (firstSibling ⟨[11, 1, 0]⟩ = true ↔ (11 - 1) % 8 = 0) ∧
    (lastSibling ⟨[11, 1, 0]⟩ = true ↔ (11 - 1) % 8 = 7) :=
  cursor_siblingIndex
    (match CellOctree.fromDescriptor "R|R.......|........" with
      | .ok t => t
      | .error _ => CellOctree.empty) 11 1 [0]
    (Or.inl ⟨"R|R.......|........", by decide, by decide, by decide⟩) (by decide)
    ⟨⟨Node.create true false 9, by decide, by decide, by decide, by decide⟩,
      ⟨⟨Node.create true false 1, by decide, by decide, by decide, by decide⟩, rfl⟩⟩

end OctreeCursor

/-! ## Totality of `getCell` -/

namespace CellOctree

end CellOctree

/-! ## Ranges and grids over octrees without empty levels -/

namespace CellGridBuilder

theorem nodup_length_le : ∀ (n : Nat) (l : List Nat), l.Nodup → (∀ x ∈ l, x < n) →
    l.length ≤ n := by
  intro n l hnd hlt
  have h1 : l.toFinset ⊆ Finset.range n := by
    intro x hx
    rw [List.mem_toFinset] at hx
    exact Finset.mem_range.mpr (hlt x hx)
  have h2 := Finset.card_le_card h1
  rw [List.toFinset_card_of_nodup hnd, Finset.card_range] at h2
  exact h2

theorem default_build_ok {t : CellOctree} (h : CellOctree.StoreInv t)
    (hlen : t.numberOfLevels ≤ 22) (hne : ∀ (l s : Nat), t.levels_[l]? ≠ some (s, 0))
    (equalRange : List Nat → List Nat) (hperm : ∀ l, (equalRange l).Perm l) (fuel : Nat)
    (hfuel : t.numberOfNodes + 23 ≤ fuel) :
    ∃ g, build (CellGrid.create t) equalRange fuel = .ok g := by
  have hfuel2 : t.numberOfNodes + 2 ≤ fuel := by omega
  have hsel : (CellGrid.create t).selectedLevels = List.range t.levels_.length := rfl
  obtain ⟨cellss, hcs⟩ := ranges_ok h hlen hfuel2 (List.range t.levels_.length)
    (fun l _ s => hne l s)
  have hl := forall₂_length_sum t.numberOfNonPhantomNodes
    (fun l cells hr => CellOctree.horizontalRange_length h hfuel2 hr) _ _ hcs
  have hnd := streamIndices_nodup h hlen hfuel2 _ _ hcs (List.nodup_range _)
  have hlt : ∀ x ∈ cellss.flatten.map CellView.streamIndex, x < t.numberOfNodes := by
    intro x hx
    obtain ⟨v, hv, rfl⟩ := List.mem_map.mp hx
    obtain ⟨l, cells, _, h2, h3⟩ := flatten_mem _ _ hcs v hv
    exact CellOctree.horizontalRange_streamIndex h hlen hfuel2 h2 v h3
  have hle := nodup_length_le _ _ hnd hlt
  rw [List.length_map] at hle
  have hsz := h.size_lt
  apply @build_ok (CellGrid.create t) equalRange fuel h hlen
  · intro l _ s; exact hne l s
  · rw [hsel]
    show (List.map t.numberOfNonPhantomNodes (List.range t.levels_.length)).sum < WORD
    rw [← hl]
    unfold CellOctree.numberOfNodes at hle
    unfold WORD
    omega
  · intro o ho
    exact absurd ho (List.not_mem_nil _)
  · exact hperm
  · exact hfuel

/-- C37: on a well-formed octree of at most 22 levels in which every level holds at least
one node, once the fuel covers the number of nodes `horizontalRange(L)` returns a range
for every level `L` (the empty range for `L ≥ numberOfLevels()`), and
`CellGrid::create(octree).build()` with default settings returns a grid. -/
theorem horizontalRange_build_succeed (t : CellOctree) (hwf : CellOctree.WellFormed t)
    (hlen : t.numberOfLevels ≤ 22) (hne : ∀ (l s : Nat), t.levels_[l]? ≠ some (s, 0)) :
    ∀ fuel, t.numberOfNodes + 23 ≤ fuel →
      (∀ L, ∃ cells, t.horizontalRange L fuel = .ok cells) ∧
      (∀ L, t.numberOfLevels ≤ L → t.horizontalRange L fuel = .ok []) ∧
      ∃ g, build (CellGrid.create t) id fuel = .ok g := by
  intro fuel hfuel
  refine ⟨?_, ?_, ?_⟩
  · intro L
    exact CellOctree.horizontalRange_ok hwf.storeInv hlen (by omega) (hne L)
  · intro L hL
    exact CellOctree.horizontalRange_missing t L hL fuel (by omega)
  · exact default_build_ok hwf.storeInv hlen hne id (fun l => List.Perm.refl l) fuel hfuel

theorem horizontalRange_build_succeed_witness :
    (∀ L, ∃ cells, CellOctree.horizontalRange
      (match CellOctree.fromDescriptor "R|R......R|................" with
        | .ok t => t
        | .error _ => CellOctree.empty) L 48 = .ok cells) ∧
    (∀ L, CellOctree.numberOfLevels
      (match CellOctree.fromDescriptor "R|R......R|................" with
        | .ok t => t
        | .error _ => CellOctree.empty) ≤ L →
      CellOctree.horizontalRange
        (match CellOctree.fromDescriptor "R|R......R|................" with
          | .ok t => t
          | .error _ => CellOctree.empty) L 48 = .ok []) ∧
    ∃ g, build (CellGrid.create
      (match CellOctree.fromDescriptor "R|R......R|................" with
        | .ok t => t
        | .error _ => CellOctree.empty)) id 48 = .ok g :=
  horizontalRange_build_succeed
    (match CellOctree.fromDescriptor "R|R......R|................" with
      | .ok t => t
      | .error _ => CellOctree.empty)
    (Or.inl ⟨"R|R......R|................", by decide, by decide, by decide⟩) (by decide)
    (by
      intro l s
      have hlv : (match CellOctree.fromDescriptor "R|R......R|................" with
        | .ok t => t
        | .error _ => CellOctree.empty).levels_ = [(0, 1), (1, 8), (9, 16)] := by decide
      rw [hlv]
      rcases l with _ | _ | _ | l <;> simp)
    48 (by decide)

set_option maxRecDepth 100000 in
/-- C37, counterexample: the descriptor `".|"` is accepted, its octree has a level 1
without nodes, `horizontalRange(1)` fails with `std::out_of_range` whatever the fuel,
and the default `build()` does not return a grid. In the well-formed octree of 23 levels
of the descriptor `X|XPPPPPPP|…|P.PPPPPP`, where every level holds nodes, the key of the
cell of level 22 wraps to the key of the phantom root and `horizontalRange(22)` fails
with `std::bad_optional_access`. -/
theorem horizontalRange_fails_on_empty_level :
    (∃ t, CellOctree.fromDescriptor ".|" = .ok t ∧ t.numberOfLevels = 2 ∧
      (∀ fuel, t.horizontalRange 1 fuel = .error .outOfRange) ∧
      ∀ equalRange fuel g, build (CellGrid.create t) equalRange fuel ≠ .ok g) ∧
    (∃ t, CellOctree.WellFormed t ∧ t.numberOfLevels = 23 ∧
      t.levels_.all (fun a => a.2 != 0) = true ∧
      t.horizontalRange 22 200 = .error .badOptionalAccess) := by
  refine ⟨⟨match CellOctree.fromDescriptor ".|" with
      | .ok t => t
      | .error _ => CellOctree.empty, by decide, by decide, ?_, ?_⟩,
    ⟨match CellOctree.fromDescriptor "X|XPPPPPPP|XPPPPPPP|XPPPPPPP|XPPPPPPP|XPPPPPPP|XPPPPPPP|XPPPPPPP|XPPPPPPP|XPPPPPPP|XPPPPPPP|XPPPPPPP|XPPPPPPP|XPPPPPPP|XPPPPPPP|XPPPPPPP|XPPPPPPP|XPPPPPPP|XPPPPPPP|XPPPPPPP|XPPPPPPP|XPPPPPPP|P.PPPPPP" with
      | .ok t => t
      | .error _ => CellOctree.empty,
      Or.inl ⟨"X|XPPPPPPP|XPPPPPPP|XPPPPPPP|XPPPPPPP|XPPPPPPP|XPPPPPPP|XPPPPPPP|XPPPPPPP|XPPPPPPP|XPPPPPPP|XPPPPPPP|XPPPPPPP|XPPPPPPP|XPPPPPPP|XPPPPPPP|XPPPPPPP|XPPPPPPP|XPPPPPPP|XPPPPPPP|XPPPPPPP|XPPPPPPP|P.PPPPPP", by decide, by decide, by decide⟩, by decide, by decide, by decide⟩⟩
  · intro fuel
    exact @CellOctree.horizontalRange_empty_level _ 1 1 (by decide) fuel
  · intro equalRange fuel g hb
    obtain ⟨cellss, hf, _⟩ := build_inv hb
    have hsel : (CellGrid.create (match CellOctree.fromDescriptor ".|" with
        | .ok t => t
        | .error _ => CellOctree.empty)).selectedLevels = [0, 1] := by decide
    rw [hsel] at hf
    cases hf with
    | cons _ hrest =>
      cases hrest with
      | cons h1 _ =>
        rw [@CellOctree.horizontalRange_empty_level _ 1 1 (by decide) fuel] at h1
        cases h1

end CellGridBuilder

/-! ## The subtree test of the exporter -/

namespace io

theorem allArePhantomsLoop_spec (f : Node → Except Error Bool) : ∀ (l : List Node),
    (∀ x ∈ l, ∃ b, f x = .ok b) →
    ∃ b, allArePhantomsLoop f l = .ok b ∧ (b = true ↔ ∀ x ∈ l, f x = .ok true) := by
  intro l
  induction l with
  | nil => intro _; exact ⟨true, rfl, by simp⟩
  | cons x rest ih =>
    intro h
    obtain ⟨b, hb⟩ := h x (List.mem_cons_self _ _)
    obtain ⟨b2, hb2, hiff⟩ := ih (fun y hy => h y (List.mem_cons_of_mem _ hy))
    cases b with
    | false =>
      refine ⟨false, ?_, ?_⟩
      · rw [allArePhantomsLoop, hb]
      · constructor
        · intro hf; cases hf
        · intro hall
          have := hall x (List.mem_cons_self _ _)
          rw [hb] at this; cases this
    | true =>
      refine ⟨b2, ?_, ?_⟩
      · rw [allArePhantomsLoop, hb]; exact hb2
      · rw [hiff]
        constructor
        · intro hall y hy
          rcases List.mem_cons.mp hy with rfl | hy
          · exact hb
          · exact hall y hy
        · intro hall y hy
          exact hall y (List.mem_cons_of_mem _ hy)

theorem mem_take_drop {α : Type} (l : List α) (s c : Nat) (x : α) :
    x ∈ (l.drop s).take c ↔ ∃ k, k < c ∧ l[s + k]? = some x := by
  constructor
  · intro hx
    obtain ⟨k, hk⟩ := List.mem_iff_getElem?.mp hx
    rw [List.getElem?_take] at hk
    by_cases hkc : k < c
    · rw [if_pos hkc, List.getElem?_drop] at hk
      exact ⟨k, hkc, hk⟩
    · rw [if_neg hkc] at hk; cases hk
  · rintro ⟨k, hkc, hk⟩
    apply List.mem_iff_getElem?.mpr
    refine ⟨k, ?_⟩
    rw [List.getElem?_take, if_pos hkc, List.getElem?_drop]
    exact hk

theorem allArePhantoms_spec {t : CellOctree} (h : CellOctree.StoreInv t) : ∀ (fuel l : Nat)
    (a : Nat × Nat) (i : Nat) (n : Node), t.levels_[l]? = some a → a.1 ≤ i → i < a.1 + a.2 →
    t.nodesStream_[i]? = some n → t.numberOfLevels ≤ l + fuel →
    ∃ b, allArePhantoms t fuel n = .ok b ∧ (b = true ↔ CellOctree.SubtreePhantom t i) := by
  intro fuel
  induction fuel with
  | zero =>
    intro l a i n ha _ _ _ hf
    have := CellOctree.getElem?_lt_length ha
    unfold CellOctree.numberOfLevels at hf
    omega
  | succ fuel ih =>
    intro l a i n ha h1 h2 hn hf
    rw [allArePhantoms]
    by_cases hph : n.isPhantom = true
    · have hc1 : ¬ ((!n.isPhantom) = true) := by rw [hph]; decide
      rw [if_neg hc1]
      by_cases hr : n.isRefined = true
      · rw [if_pos hr]
        obtain ⟨b, hb, hb1, hb2, _, _⟩ := CellOctree.StoreInv.children_in_next h ha h1 h2 hn hr
        have hend := CellOctree.StoreInv.level_end_le h hb
        rw [if_pos (by omega)]
        have hlev : t.numberOfLevels ≤ (l + 1) + fuel := by omega
        have hchild : ∀ k, k < 8 → ∃ m, t.nodesStream_[n.childrenStartIndex + k]? = some m :=
          fun k hk =>
            have hlt : n.childrenStartIndex + k < t.nodesStream_.length := by omega
            ⟨t.nodesStream_[n.childrenStartIndex + k], List.getElem?_eq_getElem hlt⟩
        have htot : ∀ x ∈ (t.nodesStream_.drop n.childrenStartIndex).take 8,
            ∃ b, allArePhantoms t fuel x = .ok b := by
          intro x hx
          obtain ⟨k, hk, hxk⟩ := (mem_take_drop _ _ _ _).mp hx
          obtain ⟨b2, hb2, _⟩ := ih (l + 1) b (n.childrenStartIndex + k) x hb (by omega)
            (by omega) hxk hlev
          exact ⟨b2, hb2⟩
        obtain ⟨r, hr1, hr2⟩ := allArePhantomsLoop_spec
          (fun child => allArePhantoms t fuel child) _ htot
        refine ⟨r, hr1, ?_⟩
        rw [hr2]
        constructor
        · intro hall j hj
          cases hj with
          | here => exact ⟨n, hn, hph⟩
          | @child _ k _ n2 hn2 _ hk1 hk2 hd =>
            rw [hn] at hn2
            injection hn2 with hn2
            subst hn2
            obtain ⟨m, hm⟩ := hchild (k - n.childrenStartIndex) (by omega)
            have hkk : n.childrenStartIndex + (k - n.childrenStartIndex) = k := by omega
            rw [hkk] at hm
            obtain ⟨b2, hb2, hiff⟩ := ih (l + 1) b k m hb (by omega) (by omega) hm hlev
            have hx : m ∈ (t.nodesStream_.drop n.childrenStartIndex).take 8 :=
              (mem_take_drop _ _ _ _).mpr ⟨k - n.childrenStartIndex, by omega, by rw [hkk]; exact hm⟩
            have := hall m hx
            rw [hb2] at this
            injection this with this
            exact (hiff.mp this) j hd
        · intro hsub x hx
          obtain ⟨k, hk, hxk⟩ := (mem_take_drop _ _ _ _).mp hx
          obtain ⟨b2, hb2, hiff⟩ := ih (l + 1) b (n.childrenStartIndex + k) x hb (by omega)
            (by omega) hxk hlev
          have : b2 = true := by
            rw [hiff]
            intro j hj
            exact hsub j (CellOctree.Descendant.child hn hr (by omega) (by omega) hj)
          rw [hb2, this]
      · rw [if_neg hr]
        refine ⟨true, rfl, ?_⟩
        constructor
        · intro _ j hj
          cases hj with
          | here => exact ⟨n, hn, hph⟩
          | @child _ k _ n2 hn2 hr2 _ _ _ =>
            rw [hn] at hn2
            injection hn2 with hn2
            subst hn2
            exact absurd hr2 hr
        · intro _; rfl
    · have hc1 : (!n.isPhantom) = true := by simpa using hph
      rw [if_pos hc1]
      refine ⟨false, rfl, ?_⟩
      constructor
      · intro hf; cases hf
      · intro hsub
        obtain ⟨m, hm, hmp⟩ := hsub i (CellOctree.Descendant.here i)
        rw [hn] at hm
        injection hm with hm
        subst hm
        exact absurd hmp hph

end io

/-! ## Re-anchoring a cursor inside its level -/

namespace OctreeCursor

theorem drop_length_pred : ∀ (l : Nat) (old : List Nat), old.length = l + 1 →
    old.drop l = [old.getLastD 0] := by
  intro l
  induction l with
  | zero =>
    intro old h
    match old, h with
    | [x], _ => rfl
  | succ l ih =>
    intro old h
    match old, h with
    | x :: y :: rest, h =>
      have h2 : (y :: rest).length = l + 1 := by simpa using h
      have := ih (y :: rest) h2
      rw [List.drop_succ_cons, this]
      rfl

theorem updatePathWritten_ok (t : CellOctree) : ∀ (l s : Nat) (old entries : List Nat),
    updatePathLoop t l s = .ok entries →
    updatePathWritten t l s old = entries ++ old.drop l := by
  intro l
  induction l with
  | zero =>
    intro s old entries h
    rw [updatePathLoop] at h
    injection h with h
    subst h
    rfl
  | succ l ih =>
    intro s old entries h
    rw [updatePathLoop] at h
    rw [updatePathWritten]
    rcases CellOctree.option_cases (t.levels_[l]?) with hl | ⟨⟨first, second⟩, hl⟩
    · rw [hl] at h; cases h
    · rw [hl] at h ⊢
      dsimp only at h ⊢
      rcases CellOctree.option_cases (findParent (t.nodesStream l) first s) with hp | ⟨parentIdx, hp⟩
      · rw [hp] at h; cases h
      · rw [hp] at h ⊢
        dsimp only at h ⊢
        rcases CellOctree.except_cases (updatePathLoop t l parentIdx) with ⟨e, he⟩ | ⟨rest, hrest⟩
        · rw [he] at h; cases h
        · rw [hrest] at h
          injection h with h
          subst h
          rw [ih parentIdx old.tail rest hrest, List.cons_append]
          congr 2
          cases old with
          | nil => simp
          | cons x xs => rfl

theorem Chain.pairs {t : CellOctree} : ∀ (p : List Nat), CellOctree.Chain t p →
    ∀ (k parent child : Nat), p[k + 1]? = some parent → p[k]? = some child →
    ∃ n, t.nodesStream_[parent]? = some n ∧ n.isRefined = true ∧
      n.childrenStartIndex ≤ child ∧ child < n.childrenStartIndex + 8 := by
  intro p
  induction p with
  | nil => intro hc; exact absurd hc (by simp [CellOctree.Chain])
  | cons i up ih =>
    cases up with
    | nil =>
      intro _ k parent child h1 _
      simp at h1
    | cons j up =>
      intro hc k parent child h1 h2
      obtain ⟨hn, hc2⟩ := hc
      cases k with
      | zero =>
        simp only [List.getElem?_cons_succ, List.getElem?_cons_zero, Option.some.injEq,
          Nat.zero_add] at h1 h2
        subst h1 h2
        exact hn
      | succ k =>
        rw [List.getElem?_cons_succ] at h1 h2
        exact ih hc2 k parent child h1 h2

/-- C33: for a cursor on a well-formed octree whose path has `l + 1` entries with root
entry `0`, where level `l` of the octree is the range `[a, a + c)`, and a target index
`s` (a 64-bit word): if `s` lies in the range, `updatePath(s)` returns and leaves a path
`p` of the same length whose current entry is `s`, whose root entry is `0`, and in which,
for every entry and the entry after it towards the current node, the node at the former is
refined and the latter lies in `[children_start, children_start + 8)`; if `s` lies outside
the range, `updatePath(s)` throws `std::out_of_range` and leaves the path as it was. -/
theorem updatePath_in_level (t : CellOctree) (cur s a c : Nat) (up : List Nat)
    (hwf : CellOctree.WellFormed t) (ha : t.levels_[up.length]? = some (a, c))
    (hroot : (cur :: up).getLastD 0 = 0) (hs : s < WORD) :
    (a ≤ s ∧ s < a + c →
      ∃ p, updatePath t ⟨cur :: up⟩ s = .ok ⟨p⟩ ∧ updatePathAfter t ⟨cur :: up⟩ s = ⟨p⟩ ∧
        p.length = up.length + 1 ∧ p.head? = some s ∧ p.getLast? = some 0 ∧
        ∀ (k parent child : Nat), p[k + 1]? = some parent → p[k]? = some child →
          ∃ n, t.nodesStream_[parent]? = some n ∧ n.isRefined = true ∧
            n.childrenStartIndex ≤ child ∧ child < n.childrenStartIndex + 8) ∧
    (¬ (a ≤ s ∧ s < a + c) →
      updatePath t ⟨cur :: up⟩ s = .error .outOfRange ∧
      updatePathAfter t ⟨cur :: up⟩ s = ⟨cur :: up⟩) := by
  have h := hwf.storeInv
  have hend := CellOctree.StoreInv.level_end_le h ha
  have hsz := h.size_lt
  dsimp only at hend
  have hW : WORD = 2 ^ 64 := rfl
  constructor
  · rintro ⟨h1, h2⟩
    obtain ⟨up2, hc, hl⟩ := CellOctree.StoreInv.chain_exists h up.length (a, c) s ha h1 h2
    have hup := CellOctree.updatePath_spec h ha h1 h2 hc hl hroot
    have hidx : ¬ (wrap (s + WORD - a) ≥ c) := by
      unfold wrap
      have e : s + WORD - a = (s - a) + WORD := by omega
      rw [e, Nat.add_mod_right, Nat.mod_eq_of_lt (by omega)]
      omega
    have hloop : ∃ entries, updatePathLoop t up.length s = .ok entries ∧
        s :: up2 = entries ++ [(cur :: up).getLastD 0] := by
      unfold updatePath at hup
      dsimp only at hup
      rw [ha] at hup
      dsimp only at hup
      rw [if_neg hidx] at hup
      rcases CellOctree.except_cases (updatePathLoop t up.length s) with ⟨e, he⟩ | ⟨entries, he⟩
      · rw [he] at hup; cases hup
      · rw [he] at hup
        injection hup with hup
        injection hup with hup
        exact ⟨entries, he, hup.symm⟩
    obtain ⟨entries, he, hp⟩ := hloop
    refine ⟨s :: up2, hup, ?_, by simp [hl], rfl, ?_, Chain.pairs _ hc⟩
    · unfold updatePathAfter
      dsimp only
      rw [ha]
      dsimp only
      rw [if_neg hidx, updatePathWritten_ok t _ _ _ entries he,
        drop_length_pred up.length (cur :: up) (by simp), hp]
    · have := CellOctree.Chain.getLastD_zero _ hc
      rw [List.getLast?_eq_getLast _ (List.cons_ne_nil _ _)]
      rw [List.getLastD_eq_getLast?, List.getLast?_eq_getLast _ (List.cons_ne_nil _ _)] at this
      simpa using this
  · intro hout
    have hidx : wrap (s + WORD - a) ≥ c := by
      unfold wrap
      by_cases hsa : a ≤ s
      · have e : s + WORD - a = (s - a) + WORD := by omega
        rw [e, Nat.add_mod_right, Nat.mod_eq_of_lt (by omega)]
        omega
      · rw [Nat.mod_eq_of_lt (by omega)]
        omega
    constructor
    · unfold updatePath
      dsimp only
      rw [ha]
      dsimp only
      rw [if_pos hidx]
    · unfold updatePathAfter
      dsimp only
      rw [ha]
      dsimp only
      rw [if_pos hidx]

theorem updatePath_in_level_witness :
    (9 ≤ 20 ∧ 20 < 9 + 16 →
      ∃ p, updatePath (match CellOctree.fromDescriptor "R|R......R|................" with
      | .ok t => t
      | .error _ => CellOctree.empty) ⟨9 :: [1, 0]⟩ 20 = .ok ⟨p⟩ ∧
        updatePathAfter (match CellOctree.fromDescriptor "R|R......R|................" with
      | .ok t => t
      | .error _ => CellOctree.empty) ⟨9 :: [1, 0]⟩ 20 = ⟨p⟩ ∧
        p.length = [1, 0].length + 1 ∧ p.head? = some 20 ∧ p.getLast? = some 0 ∧
        ∀ (k parent child : Nat), p[k + 1]? = some parent → p[k]? = some child →
          ∃ n, (match CellOctree.fromDescriptor "R|R......R|................" with
      | .ok t => t
      | .error _ => CellOctree.empty).nodesStream_[parent]? = some n ∧ n.isRefined = true ∧
            n.childrenStartIndex ≤ child ∧ child < n.childrenStartIndex + 8) ∧
    (¬ (9 ≤ 20 ∧ 20 < 9 + 16) →
      updatePath (match CellOctree.fromDescriptor "R|R......R|................" with
      | .ok t => t
      | .error _ => CellOctree.empty) ⟨9 :: [1, 0]⟩ 20 = .error .outOfRange ∧
      updatePathAfter (match CellOctree.fromDescriptor "R|R......R|................" with
      | .ok t => t
      | .error _ => CellOctree.empty) ⟨9 :: [1, 0]⟩ 20 = ⟨9 :: [1, 0]⟩) :=
  updatePath_in_level (match CellOctree.fromDescriptor "R|R......R|................" with
      | .ok t => t
      | .error _ => CellOctree.empty) 9 20 9 16 [1, 0]
    (Or.inl ⟨"R|R......R|................", by decide, by decide, by decide⟩)
    (by decide) (by decide) (by decide)

end OctreeCursor

/-! ## Descending from the root -/

namespace OctreeCursor

theorem descendAll_spec {t : CellOctree} (h : CellOctree.StoreInv t) : ∀ (bs : List Nat)
    (i : Nat) (up : List Nat) (j : Nat), CellOctree.Chain t (i :: up) → (∀ b ∈ bs, b < 8) →
    CellOctree.walk t bs i = some j →
    ∃ p, descendAll t ⟨i :: up⟩ bs = .ok ⟨p⟩ ∧ CellOctree.Chain t p ∧
      p.length = (i :: up).length + bs.length ∧
      CellOctree.selectors p = CellOctree.selectors (i :: up) ++ bs ∧ p.head? = some j := by
  intro bs
  induction bs with
  | nil =>
    intro i up j hc _ hw
    rw [CellOctree.walk] at hw
    injection hw with hw
    subst hw
    exact ⟨i :: up, rfl, hc, rfl, by simp, rfl⟩
  | cons b rest ih =>
    intro i up j hc hb hw
    have hb8 : b < 8 := hb b (List.mem_cons_self _ _)
    obtain ⟨_, _, n, hp, hn⟩ := CellOctree.Chain.node h hc
    cases hp
    rw [CellOctree.walk, hn] at hw
    dsimp only at hw
    by_cases hr : n.isRefined = true
    · rw [if_pos hr] at hw
      have hmod := h.children_mod hn hr
      obtain ⟨a, _, ha, h1, h2, _⟩ := CellOctree.Chain.level h up i hc
      obtain ⟨lv, hlv, hlv1, hlv2, _, _⟩ :=
        CellOctree.StoreInv.children_in_next h ha h1 h2 hn hr
      have hci : n.childIndex b = n.childrenStartIndex + b := by
        have hend := CellOctree.StoreInv.level_end_le h hlv
        have hsz := h.size_lt
        unfold Node.childIndex wrap WORD
        exact Nat.mod_eq_of_lt (by omega)
      have hc1 : CellOctree.Chain t ((n.childrenStartIndex + b) :: i :: up) :=
        CellOctree.Chain.child hc hn hr (by omega) (by omega)
      obtain ⟨p, hp1, hp2, hp3, hp4, hp5⟩ := ih (n.childrenStartIndex + b) (i :: up) j hc1
        (fun x hx => hb x (List.mem_cons_of_mem _ hx)) hw
      refine ⟨p, ?_, hp2, ?_, ?_, hp5⟩
      · rw [descendAll]
        have hd : descendTo t ⟨i :: up⟩ b = .ok ⟨(n.childrenStartIndex + b) :: i :: up⟩ := by
          unfold descendTo
          rw [if_neg (by omega)]
          have he : isEnd ⟨i :: up⟩ = false := rfl
          rw [he]
          rw [if_neg (by decide), CellOctree.Chain.currentNode h hc hn]
          dsimp only
          rw [if_pos hr, hci]
        rw [hd]
        exact hp1
      · rw [hp3]; simp only [List.length_cons]; omega
      · rw [hp4]
        have hs : CellOctree.selectors ((n.childrenStartIndex + b) :: i :: up) =
            CellOctree.selectors (i :: up) ++ [b] := by
          rw [CellOctree.selectors]
          congr 2
          omega
        rw [hs, List.append_assoc]
        rfl
    · rw [if_neg hr] at hw
      cases hw


/-- C34: on a well-formed octree of at most 22 levels, for selectors `b_1 … b_n` (each in
`0..7`) such that the walk from the root along them leaves refined nodes only and ends at
stream index `j`: the calls `descend(b_1) … descend(b_n)` on a cursor at the root return a
cursor whose `mortonIndex()` is the key made of a leading `1` followed by the selectors
(the key `fromPath` returns for `n ≤ 10`), whose `currentLevel()` is `n` and whose
`currentStreamIndex()` is `j`; `getCell(mortonIndex())` returns, and a view it returns has
stream index `j`. -/
theorem descend_mortonIndex (t : CellOctree) (bs : List Nat) (j : Nat)
    (hwf : CellOctree.WellFormed t) (hlen : t.numberOfLevels ≤ 22) (hb : ∀ b ∈ bs, b < 8)
    (hwalk : CellOctree.walk t bs 0 = some j) :
    ∃ c, descendAll t ⟨[0]⟩ bs = .ok c ∧ c.vPath.length = bs.length + 1 ∧
      c.mortonIndex = ⟨MortonIndex.ofPath bs⟩ ∧
      (bs.length ≤ 10 → MortonIndex.fromPath bs = .ok c.mortonIndex) ∧
      c.currentLevel = bs.length ∧ c.currentStreamIndex = .ok j ∧
      (∃ r, CellOctree.getCell t c.mortonIndex = .ok r) ∧
      ∀ v, CellOctree.getCell t c.mortonIndex = .ok (some v) → v.streamIndex = j := by
  have h := hwf.storeInv
  have hroot : CellOctree.Chain t [0] := rfl
  obtain ⟨p, hp1, hp2, hp3, hp4, hp5⟩ := descendAll_spec h bs 0 [] j hroot hb hwalk
  have hl := CellOctree.Chain.length_le h hp2
  have hsel : CellOctree.selectors p = bs := by rw [hp4]; rfl
  simp only [List.length_cons, List.length_nil] at hp3
  obtain ⟨hbits, _⟩ := CellOctree.Chain.morton h p hp2 (by omega)
  rw [hsel] at hbits
  have hkey : mortonIndex ⟨p⟩ = ⟨MortonIndex.ofPath bs⟩ := by
    cases hm : mortonIndex ⟨p⟩ with
    | mk bits =>
      rw [hm] at hbits
      dsimp only at hbits
      rw [hbits]
  have hbl : bs.length ≤ 21 := by omega
  have hvalid := MortonIndex.valid_ofPath bs hb hbl
  have hget := CellOctree.getCell_eq_cellAt h hvalid (MortonIndex.getPath_ofPath bs hb hbl)
  refine ⟨⟨p⟩, hp1, by show p.length = _; omega, hkey, ?_, ?_, ?_, ?_, ?_⟩
  · intro h10
    rw [hkey]
    exact (MortonIndex.fromPath_short bs hb h10).1
  · show wrap (p.length + WORD - 1) = bs.length
    unfold wrap WORD
    have e : p.length + 2 ^ 64 - 1 = bs.length + 2 ^ 64 := by omega
    rw [e, Nat.add_mod_right, Nat.mod_eq_of_lt (by omega)]
  · cases p with
    | nil => cases hp5
    | cons x xs =>
      simp only [List.head?_cons, Option.some.injEq] at hp5
      subst hp5
      rfl
  · rw [hkey]
    exact ⟨_, hget⟩
  · intro v hv
    rw [hkey, hget] at hv
    injection hv with hv
    unfold CellOctree.cellAt at hv
    rw [hwalk] at hv
    dsimp only at hv
    rcases CellOctree.option_cases (t.nodesStream_[j]?) with hn | ⟨n, hn⟩
    · rw [hn] at hv; cases hv
    · rw [hn] at hv
      dsimp only at hv
      by_cases hph : n.isPhantom = true
      · rw [if_pos hph] at hv; cases hv
      · rw [if_neg hph] at hv
        injection hv with hv
        rw [← hv]
        rfl

theorem descend_mortonIndex_witness :
    ∃ c, descendAll (match CellOctree.fromDescriptor "R|R.......|........" with
      | .ok t => t
      | .error _ => CellOctree.empty) ⟨[0]⟩ [0, 2] = .ok c ∧ c.vPath.length = [0, 2].length + 1 ∧
      c.mortonIndex = ⟨MortonIndex.ofPath [0, 2]⟩ ∧
      ([0, 2].length ≤ 10 → MortonIndex.fromPath [0, 2] = .ok c.mortonIndex) ∧
      c.currentLevel = [0, 2].length ∧ c.currentStreamIndex = .ok 11 ∧
      (∃ r, CellOctree.getCell (match CellOctree.fromDescriptor "R|R.......|........" with
      | .ok t => t
      | .error _ => CellOctree.empty) c.mortonIndex = .ok r) ∧
      ∀ v, CellOctree.getCell (match CellOctree.fromDescriptor "R|R.......|........" with
      | .ok t => t
      | .error _ => CellOctree.empty) c.mortonIndex = .ok (some v) → v.streamIndex = 11 :=
  descend_mortonIndex (match CellOctree.fromDescriptor "R|R.......|........" with
      | .ok t => t
      | .error _ => CellOctree.empty) [0, 2] 11
    (Or.inl ⟨"R|R.......|........", by decide, by decide, by decide⟩) (by decide) (by decide)
    (by decide)

set_option maxRecDepth 100000 in
/-- C34, counterexample: in the well-formed octree of 23 levels of the descriptor
`R|XPPPPPPP|…|P.PPPPPP`, the 22 calls `descend(0) … descend(0), descend(1)` from the root
are each made at a refined node and reach the node at stream index 170 on level 22; the
cursor's `mortonIndex()` has wrapped to the root key `1`, `fromPath` rejects the 22
selectors, and `getCell(mortonIndex())` is the root view with stream index 0. -/
theorem descend_deep_counterexample :
    ∃ t c v, CellOctree.WellFormed t ∧
      CellOctree.walk t (List.replicate 21 0 ++ [1]) 0 = some 170 ∧
      descendAll t ⟨[0]⟩ (List.replicate 21 0 ++ [1]) = .ok c ∧
      c.vPath.length = 23 ∧ c.currentLevel = 22 ∧ c.currentStreamIndex = .ok 170 ∧
      c.mortonIndex = ⟨1⟩ ∧
      MortonIndex.fromPath (List.replicate 21 0 ++ [1]) = .error .invalidArgument ∧
      CellOctree.getCell t c.mortonIndex = .ok (some v) ∧ v.streamIndex = 0 :=
  ⟨(match CellOctree.fromDescriptor "R|XPPPPPPP|XPPPPPPP|XPPPPPPP|XPPPPPPP|XPPPPPPP|XPPPPPPP|XPPPPPPP|XPPPPPPP|XPPPPPPP|XPPPPPPP|XPPPPPPP|XPPPPPPP|XPPPPPPP|XPPPPPPP|XPPPPPPP|XPPPPPPP|XPPPPPPP|XPPPPPPP|XPPPPPPP|XPPPPPPP|XPPPPPPP|P.PPPPPP" with
      | .ok t => t
      | .error _ => CellOctree.empty),
    (match descendAll (match CellOctree.fromDescriptor "R|XPPPPPPP|XPPPPPPP|XPPPPPPP|XPPPPPPP|XPPPPPPP|XPPPPPPP|XPPPPPPP|XPPPPPPP|XPPPPPPP|XPPPPPPP|XPPPPPPP|XPPPPPPP|XPPPPPPP|XPPPPPPP|XPPPPPPP|XPPPPPPP|XPPPPPPP|XPPPPPPP|XPPPPPPP|XPPPPPPP|XPPPPPPP|P.PPPPPP" with
      | .ok t => t
      | .error _ => CellOctree.empty) ⟨[0]⟩ (List.replicate 21 0 ++ [1]) with
      | .ok c => c
      | .error _ => ⟨[]⟩),
    ⟨0, Node.create true false 1, ⟨1⟩⟩,
    Or.inl ⟨"R|XPPPPPPP|XPPPPPPP|XPPPPPPP|XPPPPPPP|XPPPPPPP|XPPPPPPP|XPPPPPPP|XPPPPPPP|XPPPPPPP|XPPPPPPP|XPPPPPPP|XPPPPPPP|XPPPPPPP|XPPPPPPP|XPPPPPPP|XPPPPPPP|XPPPPPPP|XPPPPPPP|XPPPPPPP|XPPPPPPP|XPPPPPPP|P.PPPPPP", by decide, by decide, by decide⟩,
    by decide, by decide, by decide, by decide, by decide, by decide, by decide, by decide,
    by decide⟩

end OctreeCursor

/-! ## Alignment of exported payloads -/

namespace CellGridExporter

theorem writeGridVector_getElem {T : Type} [OfNat T 0] (octree : CellOctree) (data : List T)
    (hlen : data.length ≤ octree.numberOfNodes) (s : Nat) :
    (writeGridVector octree data)[s]? =
      if s < octree.numberOfNodes - data.length then some 0
      else data[s - (octree.numberOfNodes - data.length)]? := by
  unfold CellOctree.numberOfNodes at hlen ⊢
  unfold writeGridVector
  dsimp only
  by_cases h : data.length < octree.nodesStream_.length
  · rw [if_pos h]
    by_cases hs : s < octree.nodesStream_.length - data.length
    · rw [if_pos hs, List.getElem?_append_left (by rw [List.length_replicate]; exact hs),
        List.getElem?_replicate, if_pos hs]
    · rw [if_neg hs, List.getElem?_append_right (by rw [List.length_replicate]; omega),
        List.length_replicate]
  · rw [if_neg h]
    have e : octree.nodesStream_.length - data.length = 0 := by omega
    rw [e, if_neg (by omega), Nat.sub_zero]

/-- C39: for every cell grid over an octree with `n ≥ size()` nodes, the vectors written
by `writeGridVector` hold `data[getEnumerationIndex(s)]` at every enumerated stream index
`s`, for all payloads `data` of length `size()`, if and only if the enumerated cells are
the last `size()` nodes of the stream in stream order, that is
`s = (n - size()) + getEnumerationIndex(s)` for every enumerated `s`. -/
theorem writeGridVector_alignment (g : CellGrid) (octree : CellOctree)
    (hsize : g.size ≤ octree.numberOfNodes) :
    (∀ s e, g.getEnumerationIndex s = .ok e → e < g.size →
      s = (octree.numberOfNodes - g.size) + e) ↔
    (∀ (T : Type) [OfNat T 0] (data : List T), data.length = g.size →
      ∀ s e, g.getEnumerationIndex s = .ok e → e < g.size →
        (writeGridVector octree data)[s]? = data[e]?) := by
  constructor
  · intro hal T _ data hlen s e hs he
    have := hal s e hs he
    rw [writeGridVector_getElem octree data (by omega) s, hlen, if_neg (by omega)]
    congr 1
    omega
  · intro hall s e hs he
    have hd : ((List.range g.size).map (fun x => x + 1)).length = g.size := by simp
    have := hall Nat ((List.range g.size).map (fun x => x + 1)) hd s e hs he
    rw [writeGridVector_getElem octree _ (by omega) s, hd] at this
    have hde : ((List.range g.size).map (fun x => x + 1))[e]? = some (e + 1) := by
      rw [List.getElem?_map, List.getElem?_range he]
      rfl
    rw [hde] at this
    by_cases hlt : s < octree.numberOfNodes - g.size
    · rw [if_pos hlt] at this
      injection this with this
      have h0 : (0 : Nat) = e + 1 := this
      omega
    · rw [if_neg hlt, List.getElem?_map] at this
      by_cases hr : s - (octree.numberOfNodes - g.size) < g.size
      · rw [List.getElem?_range hr] at this
        injection this with this
        have h1 : s - (octree.numberOfNodes - g.size) + 1 = e + 1 := this
        omega
      · rw [List.getElem?_eq_none (by rw [List.length_range]; omega)] at this
        cases this

theorem writeGridVector_alignment_witness :
    (∀ s e, CellGrid.getEnumerationIndex (match CellGridBuilder.build (CellGrid.create (match CellOctree.fromDescriptor "X|XX......|................" with
      | .ok t => t
      | .error _ => CellOctree.empty)) id 60 with
      | .ok g => g
      | .error _ => ⟨[], [], [], []⟩) s = .ok e →
      e < CellGrid.size (match CellGridBuilder.build (CellGrid.create (match CellOctree.fromDescriptor "X|XX......|................" with
      | .ok t => t
      | .error _ => CellOctree.empty)) id 60 with
      | .ok g => g
      | .error _ => ⟨[], [], [], []⟩) →
      s = (CellOctree.numberOfNodes (match CellOctree.fromDescriptor "X|XX......|................" with
      | .ok t => t
      | .error _ => CellOctree.empty) - CellGrid.size (match CellGridBuilder.build (CellGrid.create (match CellOctree.fromDescriptor "X|XX......|................" with
      | .ok t => t
      | .error _ => CellOctree.empty)) id 60 with
      | .ok g => g
      | .error _ => ⟨[], [], [], []⟩)) + e) ↔
    (∀ (T : Type) [OfNat T 0] (data : List T), data.length = CellGrid.size (match CellGridBuilder.build (CellGrid.create (match CellOctree.fromDescriptor "X|XX......|................" with
      | .ok t => t
      | .error _ => CellOctree.empty)) id 60 with
      | .ok g => g
      | .error _ => ⟨[], [], [], []⟩) →
      ∀ s e, CellGrid.getEnumerationIndex (match CellGridBuilder.build (CellGrid.create (match CellOctree.fromDescriptor "X|XX......|................" with
      | .ok t => t
      | .error _ => CellOctree.empty)) id 60 with
      | .ok g => g
      | .error _ => ⟨[], [], [], []⟩) s = .ok e →
        e < CellGrid.size (match CellGridBuilder.build (CellGrid.create (match CellOctree.fromDescriptor "X|XX......|................" with
      | .ok t => t
      | .error _ => CellOctree.empty)) id 60 with
      | .ok g => g
      | .error _ => ⟨[], [], [], []⟩) →
        (writeGridVector (match CellOctree.fromDescriptor "X|XX......|................" with
      | .ok t => t
      | .error _ => CellOctree.empty) data)[s]? = data[e]?) :=
  writeGridVector_alignment (match CellGridBuilder.build (CellGrid.create (match CellOctree.fromDescriptor "X|XX......|................" with
      | .ok t => t
      | .error _ => CellOctree.empty)) id 60 with
      | .ok g => g
      | .error _ => ⟨[], [], [], []⟩) (match CellOctree.fromDescriptor "X|XX......|................" with
      | .ok t => t
      | .error _ => CellOctree.empty) (by decide)

/-- C39, counterexample: in the grid built with default settings over the octree of
`"R|P......."` the root is the enumerated cell of ordinal `0` at stream index `0`; the
payload `[1, …, 8]` of length `size() = 8` is written as `[0, 1, …, 8]`, so the written
vector holds the padding `0` at the root, not `data[0] = 1`. -/
theorem writeGridVector_misaligned :
    ∃ t g, CellOctree.fromDescriptor "R|P......." = .ok t ∧
      CellGridBuilder.build (CellGrid.create t) id 40 = .ok g ∧ g.size = 8 ∧
      g.getEnumerationIndex 0 = .ok 0 ∧
      writeGridVector t [1, 2, 3, 4, 5, 6, 7, 8] = [0, 1, 2, 3, 4, 5, 6, 7, 8] ∧
      (writeGridVector t [1, 2, 3, 4, 5, 6, 7, 8])[0]? = some 0 ∧
      [1, 2, 3, 4, 5, 6, 7, 8][0]? = some 1 :=
  ⟨(match CellOctree.fromDescriptor "R|P......." with
      | .ok t => t
      | .error _ => CellOctree.empty), (match CellGridBuilder.build (CellGrid.create (match CellOctree.fromDescriptor "R|P......." with
      | .ok t => t
      | .error _ => CellOctree.empty)) id 40 with
      | .ok g => g
      | .error _ => ⟨[], [], [], []⟩), by decide, by decide, by decide, by decide, by decide, by decide,
    by decide⟩

end CellGridExporter

/-! ## Children starts assigned by `fromDescriptor` -/

namespace CellOctree

theorem incrementLastCount_map_fst : ∀ l : List (Nat × Nat),
    (incrementLastCount l).map Prod.fst = l.map Prod.fst
  | [] => rfl
  | [(_, _)] => rfl
  | a :: b :: l => by
    rw [incrementLastCount_cons_cons, List.map_cons, incrementLastCount_map_fst (b :: l)]
    rfl

theorem fromDescriptorLoop_segment (seg : List Char) : ∀ (tree : CellOctree) (rn : List Nat)
    (rest : List Char), (∀ c ∈ seg, c = '.' ∨ c = 'R' ∨ c = 'P' ∨ c = 'X') →
    tree.nodesStream_.length + seg.length < 2 ^ 64 →
    ∃ lv, lv.map Prod.fst = tree.levels_.map Prod.fst ∧
      fromDescriptorLoop (seg ++ rest) tree rn =
        fromDescriptorLoop rest
          ⟨tree.nodesStream_ ++
            seg.map (fun c => Node.create (c == 'R' || c == 'X') (c == 'P' || c == 'X') 0), lv⟩
          (rn ++ (List.range' tree.nodesStream_.length seg.length).filter
            (refinedAt (tree.nodesStream_ ++
              seg.map (fun c => Node.create (c == 'R' || c == 'X') (c == 'P' || c == 'X') 0)))) := by
  induction seg with
  | nil =>
    intro tree rn rest _ _
    refine ⟨tree.levels_, rfl, ?_⟩
    simp
  | cons c seg ih =>
    intro tree rn rest hv hlen
    have hc := hv c (List.mem_cons_self _ _)
    rw [List.length_cons] at hlen
    obtain ⟨lv, hlv, hrun⟩ := ih
      ⟨tree.nodesStream_ ++ [Node.create (c == 'R' || c == 'X') (c == 'P' || c == 'X') 0],
        incrementLastCount tree.levels_⟩
      (if (c == 'R' || c == 'X') = true then rn ++ [tree.nodesStream_.length] else rn) rest
      (fun x hx => hv x (List.mem_cons_of_mem _ hx))
      (by simp only [List.length_append, List.length_singleton]; omega)
    refine ⟨lv, by rw [hlv]; exact incrementLastCount_map_fst _, ?_⟩
    have hidx : wrap ((tree.nodesStream_ ++
        [Node.create (c == 'R' || c == 'X') (c == 'P' || c == 'X') 0]).length + WORD - 1) =
        tree.nodesStream_.length := by
      unfold wrap WORD
      rw [List.length_append, List.length_singleton]
      have e : tree.nodesStream_.length + 1 + 2 ^ 64 - 1 = tree.nodesStream_.length + 2 ^ 64 := by
        omega
      rw [e, Nat.add_mod_right, Nat.mod_eq_of_lt (by omega)]
    rw [List.cons_append, fromDescriptorLoop, if_pos hc]
    dsimp only [numberOfNodes]
    rw [hidx, hrun]
    have hnodes : (tree.nodesStream_ ++
        [Node.create (c == 'R' || c == 'X') (c == 'P' || c == 'X') 0]) ++
        seg.map (fun c => Node.create (c == 'R' || c == 'X') (c == 'P' || c == 'X') 0) =
        tree.nodesStream_ ++ (c :: seg).map
          (fun c => Node.create (c == 'R' || c == 'X') (c == 'P' || c == 'X') 0) := by
      rw [List.append_assoc]; rfl
    have hra : refinedAt (tree.nodesStream_ ++ (c :: seg).map
        (fun c => Node.create (c == 'R' || c == 'X') (c == 'P' || c == 'X') 0))
        tree.nodesStream_.length = (c == 'R' || c == 'X') := by
      unfold refinedAt
      rw [List.getElem?_append_right (Nat.le_refl _), Nat.sub_self, List.map_cons,
        List.getElem?_cons_zero]
      exact Node.isRefined_create _ _ _
    dsimp only
    rw [hnodes, List.length_append, List.length_singleton, List.length_cons, List.range'_succ,
      List.filter_cons, hra]
    cases hb : (c == 'R' || c == 'X')
    · simp
    · simp

theorem assignChildren_untouched (N : Nat) : ∀ (rn : List Nat) (k : Nat)
    (nodes nodes2 : List Node), assignChildren N rn k nodes = .ok nodes2 →
    nodes2.length = nodes.length ∧ ∀ i, i ∉ rn → nodes2[i]? = nodes[i]? := by
  intro rn
  induction rn with
  | nil =>
    intro k nodes nodes2 h
    rw [assignChildren] at h
    injection h with h
    subst h
    exact ⟨rfl, fun _ _ => rfl⟩
  | cons j rest ih =>
    intro k nodes nodes2 h
    rw [assignChildren] at h
    rcases option_cases (nodes[j]?) with hn | ⟨n, hn⟩
    · rw [hn] at h; cases h
    · rw [hn] at h
      dsimp only at h
      obtain ⟨h1, h2⟩ := ih _ _ _ h
      rw [List.length_set] at h1
      refine ⟨h1, ?_⟩
      intro i hi
      have hji : ¬ j = i := by
        intro e
        apply hi
        rw [← e]
        exact List.mem_cons_self _ _
      rw [h2 i (fun hx => hi (List.mem_cons_of_mem _ hx)), List.getElem?_set_ne hji]

theorem fromDescriptorLoop_keeps (cs : List Char) : ∀ (tree : CellOctree) (rn : List Nat)
    (t : CellOctree), fromDescriptorLoop cs tree rn = .ok t →
    (∀ i, i < tree.nodesStream_.length → i ∉ rn → (∀ x ∈ rn, x < tree.nodesStream_.length) →
      tree.nodesStream_.length + cs.length < 2 ^ 64 →
      t.nodesStream_[i]? = tree.nodesStream_[i]?) ∧
    ∃ ext, t.levels_.map Prod.fst = tree.levels_.map Prod.fst ++ ext := by
  induction cs with
  | nil =>
    intro tree rn t h
    rw [fromDescriptorLoop] at h
    injection h with h
    subst h
    exact ⟨fun _ _ _ _ _ => rfl, [], by simp⟩
  | cons c cs ih =>
    intro tree rn t h
    rw [fromDescriptorLoop] at h
    by_cases hc : c = '.' ∨ c = 'R' ∨ c = 'P' ∨ c = 'X'
    · rw [if_pos hc] at h
      dsimp only at h
      obtain ⟨h1, ext, h2⟩ := ih _ _ _ h
      dsimp only at h1 h2
      refine ⟨?_, ext, by rw [h2, incrementLastCount_map_fst]⟩
      intro i hi hrn hlt hlen
      rw [List.length_cons] at hlen
      have hidx : wrap ((tree.nodesStream_ ++
          [Node.create (c == 'R' || c == 'X') (c == 'P' || c == 'X') 0]).length + WORD - 1) =
          tree.nodesStream_.length := by
        unfold wrap WORD
        rw [List.length_append, List.length_singleton]
        have e : tree.nodesStream_.length + 1 + 2 ^ 64 - 1 =
            tree.nodesStream_.length + 2 ^ 64 := by omega
        rw [e, Nat.add_mod_right, Nat.mod_eq_of_lt (by omega)]
      rw [h1 i (by rw [List.length_append, List.length_singleton]; omega) ?_ ?_
        (by rw [List.length_append, List.length_singleton]; omega),
        List.getElem?_append_left hi]
      · dsimp only [numberOfNodes]
        rw [hidx]
        split
        · intro hx
          rcases List.mem_append.mp hx with hx | hx
          · exact hrn hx
          · simp at hx; omega
        · exact hrn
      · dsimp only [numberOfNodes]
        rw [hidx]
        intro x hx
        rw [List.length_append, List.length_singleton]
        split at hx
        · rcases List.mem_append.mp hx with hx | hx
          · have := hlt x hx; omega
          · simp at hx; omega
        · have := hlt x hx; omega
    · rw [if_neg hc] at h
      by_cases hp : c = '|'
      · rw [if_pos hp] at h
        rcases except_cases (assignChildren tree.numberOfNodes rn 0 tree.nodesStream_) with
          ⟨e, he⟩ | ⟨nodes1, he⟩
        · rw [he] at h; cases h
        · rw [he] at h
          dsimp only at h
          obtain ⟨h1, ext, h2⟩ := ih _ _ _ h
          dsimp only at h1 h2
          obtain ⟨a1, a2⟩ := assignChildren_untouched _ _ _ _ _ he
          refine ⟨?_, (tree.numberOfNodes :: ext), by rw [h2]; simp⟩
          intro i hi hrn _ hlen
          rw [List.length_cons] at hlen
          rw [h1 i (by omega) (List.not_mem_nil _) (fun x hx => absurd hx (List.not_mem_nil _))
            (by omega), a2 i hrn]
      · rw [if_neg hp] at h; cases h

end CellOctree

namespace CellOctree

theorem nodeChars_no_separator (seg : List Char) (h : '|' ∉ seg) : nodeChars seg = seg.length := by
  unfold nodeChars
  rw [List.countP_eq_length]
  intro c hc
  have : c ≠ '|' := fun e => h (e ▸ hc)
  simpa using this

theorem nodeChars_append (a b : List Char) : nodeChars (a ++ b) = nodeChars a + nodeChars b := by
  unfold nodeChars
  rw [List.countP_append]

theorem nodeChars_separator (b : List Char) : nodeChars ('|' :: b) = nodeChars b := by
  unfold nodeChars
  rw [List.countP_cons_of_neg]
  simp

theorem fromDescriptorLoop_separator (seg : List Char) (tree : CellOctree) (rest : List Char)
    (hv : ∀ c ∈ seg, c = '.' ∨ c = 'R' ∨ c = 'P' ∨ c = 'X')
    (hlen : tree.nodesStream_.length + seg.length < 2 ^ 61) :
    ∃ nodes1 lv1, fromDescriptorLoop (seg ++ '|' :: rest) tree [] =
        fromDescriptorLoop rest ⟨nodes1, lv1⟩ [] ∧
      nodes1.length = tree.nodesStream_.length + seg.length ∧
      lv1.map Prod.fst = tree.levels_.map Prod.fst ++ [tree.nodesStream_.length + seg.length] ∧
      ∀ (k : Nat) (c : Char), seg[k]? = some c → c = 'R' ∨ c = 'X' →
        tree.nodesStream_.length + seg.length + 8 * refinedChars seg < 2 ^ 62 →
        ∃ n, nodes1[tree.nodesStream_.length + k]? = some n ∧ n.isRefined = true ∧
          n.childrenStartIndex =
            tree.nodesStream_.length + seg.length + 8 * refinedChars (seg.take k) := by
  obtain ⟨lv, hlv, hrun⟩ := fromDescriptorLoop_segment seg tree [] ('|' :: rest) hv (by omega)
  have hfull : (tree.nodesStream_ ++
      seg.map (fun c => Node.create (c == 'R' || c == 'X') (c == 'P' || c == 'X') 0)).length =
      tree.nodesStream_.length + seg.length := by
    rw [List.length_append, List.length_map]
  obtain ⟨nodes1, ha, hl1, hfl, _, hcs⟩ := assignChildren_range
    (tree.nodesStream_.length + seg.length) seg.length tree.nodesStream_.length 0
    (tree.nodesStream_ ++
      seg.map (fun c => Node.create (c == 'R' || c == 'X') (c == 'P' || c == 'X') 0))
    (by rw [hfull]) (by omega)
  refine ⟨nodes1, lv ++ [(tree.nodesStream_.length + seg.length, 0)], ?_, by rw [hl1, hfull],
    by rw [List.map_append, hlv]; rfl, ?_⟩
  · rw [hrun, List.nil_append, fromDescriptorLoop, if_neg (by decide), if_pos rfl]
    dsimp only [numberOfNodes]
    rw [hfull, ha]
  · intro k c hk hc hq
    have hkl : k < seg.length := getElem?_lt_length hk
    have hi : tree.nodesStream_.length + k < nodes1.length := by rw [hl1, hfull]; omega
    have hold : (tree.nodesStream_ ++ seg.map
        (fun c => Node.create (c == 'R' || c == 'X') (c == 'P' || c == 'X') 0))[
          tree.nodesStream_.length + k]? =
        some (Node.create (c == 'R' || c == 'X') (c == 'P' || c == 'X') 0) := by
      rw [List.getElem?_append_right (by omega), Nat.add_sub_cancel_left, List.getElem?_map, hk]
      rfl
    have hn : nodes1[tree.nodesStream_.length + k]? =
        some (nodes1[tree.nodesStream_.length + k]) := List.getElem?_eq_getElem hi
    have hr : (nodes1[tree.nodesStream_.length + k]).isRefined = true := by
      have := (hfl (tree.nodesStream_.length + k)).1
      rw [hn, hold] at this
      simp only [Option.map_some', Option.some.injEq] at this
      rw [this, Node.isRefined_create]
      rcases hc with rfl | rfl <;> decide
    refine ⟨_, hn, hr, ?_⟩
    rw [hcs _ _ (by omega) (by omega) hn hr, Nat.zero_add, Nat.add_sub_cancel_left,
      List.drop_append_of_le_length (Nat.le_refl _), List.drop_length, List.nil_append,
      ← List.map_take, List.countP_map]
    have hcount : List.countP (Node.isRefined ∘
        fun c => Node.create (c == 'R' || c == 'X') (c == 'P' || c == 'X') 0) (seg.take k) =
        refinedChars (seg.take k) := by
      unfold refinedChars
      apply List.countP_congr
      intro x _
      simp only [Function.comp, Node.isRefined_create]
    rw [hcount]
    have hmono : refinedChars (seg.take k) ≤ refinedChars seg := by
      unfold refinedChars
      exact List.Sublist.countP_le _ (List.take_sublist _ _)
    rw [childStartValue_eq (by omega)]
    exact Nat.mod_eq_of_lt (by omega)

theorem getLast_after_separator (seg1 pre2 : List Char)
    (h : (seg1 ++ '|' :: pre2).getLast? = some '|') : pre2 = [] ∨ pre2.getLast? = some '|' := by
  cases pre2 with
  | nil => exact Or.inl rfl
  | cons x xs =>
    right
    rw [List.getLast?_append_of_ne_nil _ (List.cons_ne_nil _ _), List.getLast?_cons_cons] at h
    exact h

theorem fromDescriptorLoop_prefix : ∀ (m : Nat) (pre : List Char), pre.length ≤ m →
    (pre = [] ∨ pre.getLast? = some '|') →
    (∀ c ∈ pre, c = '.' ∨ c = 'R' ∨ c = 'P' ∨ c = 'X' ∨ c = '|') →
    ∀ (tree : CellOctree) (rest : List Char), tree.nodesStream_.length + pre.length < 2 ^ 61 →
    ∃ nodes2 lv2 ext, fromDescriptorLoop (pre ++ rest) tree [] =
        fromDescriptorLoop rest ⟨nodes2, lv2⟩ [] ∧
      nodes2.length = tree.nodesStream_.length + nodeChars pre ∧
      lv2.map Prod.fst = tree.levels_.map Prod.fst ++ ext ∧ ext.length = pre.count '|' := by
  intro m
  induction m with
  | zero =>
    intro pre hm _ _ tree rest _
    have : pre = [] := List.length_eq_zero.mp (by omega)
    subst this
    exact ⟨tree.nodesStream_, tree.levels_, [], rfl, rfl, by simp, rfl⟩
  | succ m ih =>
    intro pre hm hb hv tree rest hlen
    rcases hb with rfl | hb
    · exact ⟨tree.nodesStream_, tree.levels_, [], rfl, rfl, by simp, rfl⟩
    · have hmem : '|' ∈ pre := List.mem_of_getLast?_eq_some hb
      obtain ⟨seg1, pre2, hp, hns⟩ := List.eq_append_cons_of_mem hmem
      subst hp
      have hb2 := getLast_after_separator seg1 pre2 hb
      have hv1 : ∀ c ∈ seg1, c = '.' ∨ c = 'R' ∨ c = 'P' ∨ c = 'X' := by
        intro c hc
        rcases hv c (List.mem_append_left _ hc) with h | h | h | h | h
        · exact Or.inl h
        · exact Or.inr (Or.inl h)
        · exact Or.inr (Or.inr (Or.inl h))
        · exact Or.inr (Or.inr (Or.inr h))
        · exact absurd (h ▸ hc) hns
      simp only [List.length_append, List.length_cons] at hm hlen
      obtain ⟨nodes1, lv1, hrun, hl1, hlv1, _⟩ := fromDescriptorLoop_separator seg1 tree
        (pre2 ++ rest) hv1 (by omega)
      obtain ⟨nodes2, lv2, ext, hrun2, hl2, hlv2, hext⟩ := ih pre2 (by omega) hb2
        (fun c hc => hv c (List.mem_append_right _ (List.mem_cons_of_mem _ hc)))
        ⟨nodes1, lv1⟩ rest (by dsimp only; omega)
      refine ⟨nodes2, lv2, (tree.nodesStream_.length + seg1.length) :: ext, ?_, ?_, ?_, ?_⟩
      · rw [List.append_assoc, List.cons_append, hrun, hrun2]
      · rw [hl2, nodeChars_append, nodeChars_separator, nodeChars_no_separator seg1 hns]
        dsimp only
        omega
      · rw [hlv2]
        dsimp only
        rw [hlv1, List.append_assoc]
        rfl
      · rw [List.length_cons, hext, List.count_append, List.count_cons_self,
          List.count_eq_zero_of_not_mem hns]
        omega

end CellOctree

namespace CellOctree

theorem split_last_separator : ∀ pre : List Char, ∃ pre1 seg1, pre = pre1 ++ seg1 ∧
    (pre1 = [] ∨ pre1.getLast? = some '|') ∧ '|' ∉ seg1
  | [] => ⟨[], [], rfl, Or.inl rfl, List.not_mem_nil _⟩
  | c :: rest => by
    obtain ⟨p1, s1, hp, hb, hs⟩ := split_last_separator rest
    rcases hb with rfl | hb
    · by_cases hc : c = '|'
      · subst hc
        exact ⟨['|'], s1, by rw [hp]; rfl, Or.inr rfl, hs⟩
      · refine ⟨[], c :: s1, by rw [hp]; rfl, Or.inl rfl, ?_⟩
        intro hm
        rcases List.mem_cons.mp hm with h | h
        · exact hc h.symm
        · exact hs h
    · refine ⟨c :: p1, s1, by rw [hp]; rfl, Or.inr ?_, hs⟩
      cases p1 with
      | nil => cases hb
      | cons x xs => rw [List.getLast?_cons_cons]; exact hb

theorem refinedChars_append (a b : List Char) :
    refinedChars (a ++ b) = refinedChars a + refinedChars b := by
  unfold refinedChars
  rw [List.countP_append]

theorem nodeChars_le_length (a : List Char) : nodeChars a ≤ a.length := by
  unfold nodeChars
  exact List.countP_le_length _

/-- C32: for every accepted descriptor (shorter than `2 ^ 61` characters) and every `'|'`
in it, preceded by the node characters `seg` since the previous `'|'` (or since the
start): the level opened by this `'|'` starts at `s`, the number of node characters
before it, and the node of the `k`-th character of `seg`, when that character is `'R'` or
`'X'`, is refined with `children_start = s + 8 * i`, where `i` is the number of refined
characters of `seg` before it. The node of an `'R'` or `'X'` that no `'|'` follows keeps
`children_start = 0`. -/
theorem fromDescriptor_children_start (d : String) (t : CellOctree) (hlen : d.length < 2 ^ 61)
    (h : fromDescriptor d = .ok t) :
    (∀ (pre seg post : List Char), d.data = pre ++ seg ++ '|' :: post →
      (pre = [] ∨ pre.getLast? = some '|') → '|' ∉ seg →
      (t.levels_.map Prod.fst)[pre.count '|' + 1]? = some (nodeChars (pre ++ seg)) ∧
      ∀ (k : Nat) (c : Char), seg[k]? = some c → c = 'R' ∨ c = 'X' →
        ∃ n, t.nodesStream_[nodeChars pre + k]? = some n ∧ n.isRefined = true ∧
          n.childrenStartIndex = nodeChars (pre ++ seg) + 8 * refinedChars (seg.take k)) ∧
    (∀ (pre post : List Char) (c : Char), d.data = pre ++ c :: post → c = 'R' ∨ c = 'X' →
      '|' ∉ post →
      ∃ n, t.nodesStream_[nodeChars pre]? = some n ∧ n.isRefined = true ∧
        n.childrenStartIndex = 0) := by
  rw [string_length_data] at hlen
  obtain ⟨hchars, hcount⟩ := fromDescriptor_accepted hlen h
  have hvalid : ∀ c ∈ d.data, c = '.' ∨ c = 'R' ∨ c = 'P' ∨ c = 'X' ∨ c = '|' := by
    intro c hc
    have := hchars c hc
    simpa using this
  have hnl := nodeChars_le_length d.data
  have hloop : fromDescriptorLoop d.data ⟨[], [(0, 0)]⟩ [] = .ok t := by
    unfold fromDescriptor at h
    split at h
    · cases h
    · exact h
  have hseg : ∀ seg : List Char, (∀ c ∈ seg, c ∈ d.data) → '|' ∉ seg →
      ∀ c ∈ seg, c = '.' ∨ c = 'R' ∨ c = 'P' ∨ c = 'X' := by
    intro seg hsub hns c hc
    rcases hvalid c (hsub c hc) with h | h | h | h | h
    · exact Or.inl h
    · exact Or.inr (Or.inl h)
    · exact Or.inr (Or.inr (Or.inl h))
    · exact Or.inr (Or.inr (Or.inr h))
    · exact absurd (h ▸ hc) hns
  constructor
  · intro pre seg post hd hb hns
    have hlen2 : pre.length + seg.length + post.length + 1 = d.data.length := by
      rw [hd]; simp only [List.length_append, List.length_cons]; omega
    have hrc : refinedChars seg ≤ refinedChars d.data := by
      rw [hd, refinedChars_append, refinedChars_append]; omega
    obtain ⟨nodes2, lv2, ext, hrun2, hl2, hlv2, hext⟩ := fromDescriptorLoop_prefix pre.length pre
      (Nat.le_refl _) hb (fun c hc => hvalid c (by rw [hd]; simp [hc]))
      ⟨[], [(0, 0)]⟩ (seg ++ '|' :: post) (by dsimp only [List.length_nil]; omega)
    dsimp only [List.length_nil] at hl2 hlv2
    rw [Nat.zero_add] at hl2
    have hnp := nodeChars_le_length pre
    obtain ⟨nodes1, lv1, hrun1, hl1, hlv1, hcs⟩ := fromDescriptorLoop_separator seg
      ⟨nodes2, lv2⟩ post (hseg seg (fun c hc => by rw [hd]; simp [hc]) hns)
      (by dsimp only; omega)
    dsimp only at hl1 hlv1 hcs
    rw [hd, List.append_assoc, hrun2, hrun1] at hloop
    obtain ⟨hkeep, ext2, hlv⟩ := fromDescriptorLoop_keeps post ⟨nodes1, lv1⟩ [] t hloop
    dsimp only at hkeep hlv
    have hN : nodeChars (pre ++ seg) = nodes2.length + seg.length := by
      rw [nodeChars_append, nodeChars_no_separator seg hns, hl2]
    constructor
    · rw [hlv, hlv1, hlv2, hN]
      have e : (List.map Prod.fst [((0 : Nat), (0 : Nat))] ++ ext).length = pre.count '|' + 1 := by
        simp [hext]
      rw [List.getElem?_append_left (by rw [List.length_append, e, List.length_singleton]; omega),
        List.getElem?_append_right (by omega), e, Nat.sub_self]
      rfl
    · intro k c hk hc
      have hkl : k < seg.length := getElem?_lt_length hk
      obtain ⟨n, hn1, hn2, hn3⟩ := hcs k c hk hc (by omega)
      refine ⟨n, ?_, hn2, ?_⟩
      · rw [← hl2, hkeep _ (by omega) (List.not_mem_nil _)
          (fun x hx => absurd hx (List.not_mem_nil _)) (by omega)]
        exact hn1
      · rw [hn3, hN]
  · intro pre post c hd hc hns
    obtain ⟨pre1, seg1, hp, hb, hs1⟩ := split_last_separator pre
    subst hp
    have hlen2 : pre1.length + seg1.length + post.length + 1 = d.data.length := by
      rw [hd]; simp only [List.length_append, List.length_cons]; omega
    obtain ⟨nodes2, lv2, ext, hrun2, hl2, _, _⟩ := fromDescriptorLoop_prefix pre1.length pre1
      (Nat.le_refl _) hb (fun x hx => hvalid x (by rw [hd]; simp [hx]))
      ⟨[], [(0, 0)]⟩ (seg1 ++ c :: post) (by dsimp only [List.length_nil]; omega)
    dsimp only [List.length_nil] at hl2
    rw [Nat.zero_add] at hl2
    have hnp := nodeChars_le_length pre1
    have hns2 : '|' ∉ seg1 ++ c :: post := by
      intro hm
      rcases List.mem_append.mp hm with hm | hm
      · exact hs1 hm
      · rcases List.mem_cons.mp hm with hm | hm
        · rcases hc with rfl | rfl <;> cases hm
        · exact hns hm
    obtain ⟨lv, _, hrun⟩ := fromDescriptorLoop_segment (seg1 ++ c :: post) ⟨nodes2, lv2⟩ [] []
      (hseg _ (fun x hx => by
        rw [hd]
        rcases List.mem_append.mp hx with hx | hx
        · simp [hx]
        · simp only [List.mem_append, List.mem_cons] at hx ⊢
          rcases hx with hx | hx
          · exact Or.inr (Or.inl hx)
          · exact Or.inr (Or.inr hx)) hns2)
      (by dsimp only; simp only [List.length_append, List.length_cons]; omega)
    rw [List.append_nil] at hrun
    rw [hd, List.append_assoc, hrun2, hrun, fromDescriptorLoop] at hloop
    injection hloop with hloop
    subst hloop
    dsimp only
    refine ⟨Node.create (c == 'R' || c == 'X') (c == 'P' || c == 'X') 0, ?_, ?_, ?_⟩
    · rw [nodeChars_append, nodeChars_no_separator seg1 hs1, ← hl2,
        List.getElem?_append_right (by omega), Nat.add_sub_cancel_left, List.getElem?_map,
        List.getElem?_append_right (Nat.le_refl _), Nat.sub_self, List.getElem?_cons_zero]
      rfl
    · rw [Node.isRefined_create]
      rcases hc with rfl | rfl <;> decide
    · rw [Node.childrenStartIndex_create]
      exact Nat.zero_mod _

theorem fromDescriptor_children_start_witness :
    (∀ (pre seg post : List Char),
      ("X|....R..R|.P.P.P.P.P.P.P.P" : String).data = pre ++ seg ++ '|' :: post →
      (pre = [] ∨ pre.getLast? = some '|') → '|' ∉ seg →
      (List.map Prod.fst (match fromDescriptor "X|....R..R|.P.P.P.P.P.P.P.P" with
      | .ok t => t
      | .error _ => CellOctree.empty).levels_)[pre.count '|' + 1]? = some (nodeChars (pre ++ seg)) ∧
      ∀ (k : Nat) (c : Char), seg[k]? = some c → c = 'R' ∨ c = 'X' →
        ∃ n, (match fromDescriptor "X|....R..R|.P.P.P.P.P.P.P.P" with
      | .ok t => t
      | .error _ => CellOctree.empty).nodesStream_[nodeChars pre + k]? = some n ∧ n.isRefined = true ∧
          n.childrenStartIndex = nodeChars (pre ++ seg) + 8 * refinedChars (seg.take k)) ∧
    (∀ (pre post : List Char) (c : Char),
      ("X|....R..R|.P.P.P.P.P.P.P.P" : String).data = pre ++ c :: post → c = 'R' ∨ c = 'X' → '|' ∉ post →
      ∃ n, (match fromDescriptor "X|....R..R|.P.P.P.P.P.P.P.P" with
      | .ok t => t
      | .error _ => CellOctree.empty).nodesStream_[nodeChars pre]? = some n ∧ n.isRefined = true ∧
        n.childrenStartIndex = 0) :=
  fromDescriptor_children_start "X|....R..R|.P.P.P.P.P.P.P.P" (match fromDescriptor "X|....R..R|.P.P.P.P.P.P.P.P" with
      | .ok t => t
      | .error _ => CellOctree.empty) (by decide) (by decide)

end CellOctree

/-! ## The hyper tree of the exporter -/

namespace io

theorem byteBits_init (L : Nat) (P : Nat → Prop) : ByteBits (List.replicate L 0) 0 P := by
  intro b x hx
  rw [List.getElem?_replicate] at hx
  split at hx
  · injection hx with hx
    subst hx
    refine ⟨by decide, fun p _ => ?_⟩
    simp
  · cases hx

theorem byteBits_skip {v : List Nat} {i : Nat} {P : Nat → Prop} (h : ByteBits v i P)
    (hP : ¬ P i) : ByteBits v (i + 1) P := by
  intro b x hx
  obtain ⟨h1, h2⟩ := h b x hx
  refine ⟨h1, fun p hp => ?_⟩
  rw [h2 p hp]
  constructor
  · rintro ⟨a1, a2⟩; exact ⟨by omega, a2⟩
  · rintro ⟨a1, a2⟩
    refine ⟨?_, a2⟩
    by_contra hge
    have : 8 * b + p = i := by omega
    rw [this] at a2
    exact hP a2

theorem byteBits_set {v : List Nat} {i : Nat} {P : Nat → Prop} (h : ByteBits v i P)
    (hP : P i) (hlen : i / 8 < v.length) :
    ∃ v2, orAt v (i >>> 3) (7 - (i &&& 7)) = .ok v2 ∧ v2.length = v.length ∧
      ByteBits v2 (i + 1) P := by
  have hs : i >>> 3 = i / 8 := by rw [Nat.shiftRight_eq_div_pow]
  have hm : i &&& 7 = i % 8 := MortonIndex.land_seven i
  rw [hs, hm]
  have hx : v[i / 8]? = some (v[i / 8]) := List.getElem?_eq_getElem hlen
  obtain ⟨hx1, hx2⟩ := h _ _ hx
  have hlt : v[i / 8] ||| 2 ^ (7 - i % 8) < 2 ^ 8 :=
    Nat.or_lt_two_pow hx1 (Nat.pow_lt_pow_right (by decide) (by omega))
  have hval : (v[i / 8] ||| 1 <<< (7 - i % 8)) % 256 = v[i / 8] ||| 2 ^ (7 - i % 8) := by
    rw [Nat.one_shiftLeft]
    exact Nat.mod_eq_of_lt hlt
  refine ⟨v.set (i / 8) (v[i / 8] ||| 2 ^ (7 - i % 8)), ?_, List.length_set _ _ _, ?_⟩
  · unfold orAt
    rw [hx]
    dsimp only
    rw [hval]
  · intro b x hb
    by_cases hbi : i / 8 = b
    · subst hbi
      rw [List.getElem?_set_self hlen] at hb
      injection hb with hb
      subst hb
      refine ⟨hlt, fun p hp => ?_⟩
      rw [Nat.testBit_or, Bool.or_eq_true, hx2 p hp, Nat.testBit_two_pow]
      constructor
      · rintro (⟨a1, a2⟩ | a)
        · exact ⟨by omega, a2⟩
        · have hpe : p = i % 8 := by
            have := of_decide_eq_true a
            omega
          have e : 8 * (i / 8) + p = i := by omega
          rw [e]
          exact ⟨by omega, hP⟩
      · rintro ⟨a1, a2⟩
        by_cases hpe : p = i % 8
        · right
          exact decide_eq_true (by omega)
        · left
          exact ⟨by omega, a2⟩
    · rw [List.getElem?_set_ne hbi] at hb
      obtain ⟨h1, h2⟩ := h b x hb
      refine ⟨h1, fun p hp => ?_⟩
      rw [h2 p hp]
      constructor
      · rintro ⟨a1, a2⟩; exact ⟨by omega, a2⟩
      · rintro ⟨a1, a2⟩; exact ⟨by omega, a2⟩

theorem toDouble_exact (x : Nat) (h : x ≤ 2 ^ 53) : toDouble x = x := by
  rcases Nat.lt_or_ge x (2 ^ 53) with hlt | hge
  · have hw : bit_width x ≤ 53 := by
      rcases Nat.eq_zero_or_pos x with h0 | h0
      · subst h0; decide
      · obtain ⟨h1, _, _, _⟩ := bit_width_bounds (show x < WORD by unfold WORD; omega) h0
        by_contra hc
        have : 2 ^ 53 ≤ 2 ^ (bit_width x - 1) := Nat.pow_le_pow_right (by decide) (by omega)
        omega
    unfold toDouble
    dsimp only
    rw [if_pos hw]
  · have : x = 2 ^ 53 := by omega
    subst this
    decide

theorem ceilEighth_exact (x : Nat) (h : x ≤ 2 ^ 53) : ceilEighth x = (x + 7) / 8 := by
  unfold ceilEighth
  rw [toDouble_exact x h]

end io

namespace CellOctree

theorem StoreInv.next_level {t : CellOctree} (h : StoreInv t) {l a c : Nat}
    (ha : t.levels_[l]? = some (a, c)) (hlt : a + c < t.nodesStream_.length) :
    ∃ c2, 0 < c2 ∧ t.levels_[l + 1]? = some (a + c, c2) := by
  obtain ⟨l2, ⟨a2, c2⟩, ha2, h1, h2⟩ :=
    @StoreInv.level_of_index t h (a + c) hlt
  dsimp only at h1 h2
  have hl2 : l < l2 := by
    by_contra hge
    rcases Nat.lt_or_ge l2 l with hlt2 | hge2
    · obtain ⟨d, hd⟩ : ∃ d, l = l2 + 1 + d := ⟨l - l2 - 1, by omega⟩
      rw [hd] at ha
      have := StoreInv.levels_mono h d l2 _ _ ha2 ha
      dsimp only at this
      omega
    · have : l2 = l := by omega
      subst this
      rw [ha] at ha2
      injection ha2 with ha2
      injection ha2 with e1 e2
      omega
  have hlen2 := getElem?_lt_length ha2
  obtain ⟨⟨b1, b2⟩, hb⟩ : ∃ b, t.levels_[l + 1]? = some b :=
    ⟨t.levels_[l + 1], List.getElem?_eq_getElem (by omega)⟩
  have hnext := h.levels_next l _ _ ha hb
  dsimp only at hnext
  rcases Nat.lt_or_ge (l + 1) l2 with hgt | hle
  · exfalso
    obtain ⟨d, hd⟩ : ∃ d, l2 = l + 1 + 1 + d := ⟨l2 - l - 2, by omega⟩
    have hm := StoreInv.levels_mono h d (l + 1) (b1, b2) (a2, c2) hb (by rw [← hd]; exact ha2)
    dsimp only at hm
    obtain ⟨⟨e1, e2⟩, he⟩ : ∃ e, t.levels_[l2 - 1]? = some e :=
      ⟨t.levels_[l2 - 1], List.getElem?_eq_getElem (by omega)⟩
    have hl2e : l2 - 1 + 1 = l2 := by omega
    have hn2 := h.levels_next (l2 - 1) (e1, e2) (a2, c2) he (by rw [hl2e]; exact ha2)
    dsimp only at hn2
    have he1 : b1 ≤ e1 := by
      rcases Nat.eq_zero_or_pos d with hd0 | hd0
      · have : l2 - 1 = l + 1 := by omega
        rw [this, hb] at he
        injection he with he
        injection he with e1' e2'
        omega
      · obtain ⟨d2, hd2⟩ : ∃ d2, l2 - 1 = l + 1 + 1 + d2 := ⟨d - 1, by omega⟩
        have := StoreInv.levels_mono h d2 (l + 1) (b1, b2) (e1, e2) hb (by rw [← hd2]; exact he)
        dsimp only at this
        omega
    have hend := StoreInv.level_end h ha2
    dsimp only at hend
    have : e1 = a2 := by omega
    rw [this] at hn2
    omega
  · have : l2 = l + 1 := by omega
    subst this
    rw [hb] at ha2
    injection ha2 with ha2
    injection ha2 with e1 e2
    subst e1 e2
    exact ⟨b2, by omega, by rw [hb, hnext.1]⟩

end CellOctree

namespace io

theorem advanceLevel_spec {t : CellOctree} (h : CellOctree.StoreInv t)
    (hlv : t.numberOfLevels < 2 ^ 64) {dl ml i : Nat} {st : HtgState}
    (hinv : HtgInv t dl ml i st) (hi : i < t.nodesStream_.length) :
    ∃ l2 a2 c2, advanceLevel t st = .ok (l2, a2 + c2) ∧ t.levels_[l2]? = some (a2, c2) ∧
      a2 ≤ i ∧ i < a2 + c2 := by
  have hsz := h.size_lt
  obtain ⟨a, c, hla, hend, ha1, ha2⟩ := hinv.level_ok
  unfold advanceLevel
  rw [hinv.order, hend]
  by_cases hge : i ≥ a + c
  · rw [if_pos hge]
    have hie : i = a + c := by omega
    obtain ⟨c2, hc2, hnext⟩ := h.next_level hla (by omega)
    have hl1 := CellOctree.getElem?_lt_length hnext
    have hw : wrap (st.level + 1) = st.level + 1 := by
      unfold wrap WORD
      unfold CellOctree.numberOfLevels at hlv
      exact Nat.mod_eq_of_lt (by omega)
    have hend2 := CellOctree.StoreInv.level_end_le h hnext
    dsimp only at hend2
    have hw2 : wrap (a + c + c2) = a + c + c2 := by
      unfold wrap WORD
      exact Nat.mod_eq_of_lt (by omega)
    rw [hw, hnext]
    dsimp only
    rw [hw2]
    exact ⟨st.level + 1, a + c, c2, rfl, hnext, by omega, by omega⟩
  · rw [if_neg hge]
    exact ⟨st.level, a, c, rfl, hla, ha1, by omega⟩

theorem writeBits_spec {t : CellOctree} (h : CellOctree.StoreInv t) {fuel dl ml i : Nat}
    {st : HtgState} {node : Node} (hfuel : t.numberOfLevels ≤ fuel)
    (hD : ∀ j nd, t.nodesStream_[j]? = some nd → nd.isRefined = true → j / 8 < dl)
    (hM : ∀ j, CellOctree.SubtreePhantom t j → j / 8 < ml)
    (hinv : HtgInv t dl ml i st) (hn : t.nodesStream_[i]? = some node) {l2 a2 c2 : Nat}
    (hl2 : t.levels_[l2]? = some (a2, c2)) (hb1 : a2 ≤ i) (hb2 : i < a2 + c2) :
    ∃ st2, writeBits t fuel st node l2 (a2 + c2) = .ok st2 ∧ HtgInv t dl ml (i + 1) st2 := by
  have hi := CellOctree.getElem?_lt_length hn
  have hsz := h.size_lt
  have hord : wrap (i + 1) = i + 1 := by
    unfold wrap WORD
    exact Nat.mod_eq_of_lt (by omega)
  have hll := hinv.levels_length
  have hlevels : ∀ (j l : Nat), (st.levels ++ [l2])[j]? = some l →
      ∃ a c : Nat, t.levels_[l]? = some (a, c) ∧ a ≤ j ∧ j < a + c := by
    intro j l hj
    by_cases hji : j < st.levels.length
    · rw [List.getElem?_append_left hji] at hj
      exact hinv.levels_ok j l hj
    · rw [List.getElem?_append_right (by omega)] at hj
      have hj0 : j - st.levels.length = 0 := by
        by_contra hne
        rw [List.getElem?_eq_none (by rw [List.length_singleton]; omega)] at hj
        cases hj
      rw [hj0, List.getElem?_cons_zero] at hj
      injection hj with hj
      subst hj
      exact ⟨a2, c2, hl2, by omega, by omega⟩
  have hlen : (st.levels ++ [l2]).length = i + 1 := by
    rw [List.length_append, List.length_singleton, hll]
  have hlevok : ∃ a c : Nat, t.levels_[l2]? = some (a, c) ∧ a2 + c2 = a + c ∧
      a ≤ i + 1 ∧ i + 1 ≤ a + c := ⟨a2, c2, hl2, rfl, by omega, by omega⟩
  have hra : CellOctree.refinedAt t.nodesStream_ i = node.isRefined := by
    unfold CellOctree.refinedAt
    rw [hn]
  obtain ⟨bb, hbb, hbbiff⟩ := allArePhantoms_spec h fuel l2 (a2, c2) i node hl2 hb1 hb2 hn
    (by omega)
  unfold writeBits
  dsimp only
  rw [hinv.order, hord]
  by_cases hrp : (node.isRefined || node.isPhantom) = true
  · rw [if_pos hrp, hbb]
    have hmask : ∃ m2, (if bb = true then orAt st.mask (i >>> 3) (7 - (i &&& 7))
        else Except.ok st.mask) = Except.ok m2 ∧ m2.length = ml ∧
        ByteBits m2 (i + 1) (CellOctree.SubtreePhantom t) := by
      by_cases hb : bb = true
      · rw [if_pos hb]
        have hsp := hbbiff.mp hb
        obtain ⟨v2, h1, h2, h3⟩ := byteBits_set hinv.mask_bits hsp
          (by rw [hinv.mask_length]; exact hM i hsp)
        exact ⟨v2, h1, by rw [h2, hinv.mask_length], h3⟩
      · rw [if_neg hb]
        exact ⟨st.mask, rfl, hinv.mask_length,
          byteBits_skip hinv.mask_bits (fun hsp => hb (hbbiff.mpr hsp))⟩
    obtain ⟨m2, hm1, hm2, hm3⟩ := hmask
    by_cases hr : node.isRefined = true
    · rw [if_pos hr]
      obtain ⟨v2, h1, h2, h3⟩ := byteBits_set hinv.descriptor_bits
        (show CellOctree.refinedAt t.nodesStream_ i = true by rw [hra]; exact hr)
        (by rw [hinv.descriptor_length]; exact hD i node hn hr)
      rw [h1]
      dsimp only
      rw [hm1]
      exact ⟨_, rfl, ⟨rfl, hlen, hlevels, hlevok, by rw [h2, hinv.descriptor_length], hm2, h3,
        hm3⟩⟩
    · rw [if_neg hr]
      dsimp only
      rw [hm1]
      exact ⟨_, rfl, ⟨rfl, hlen, hlevels, hlevok, hinv.descriptor_length, hm2,
        byteBits_skip hinv.descriptor_bits (by rw [hra]; exact hr), hm3⟩⟩
  · rw [if_neg hrp]
    have hnr : ¬ node.isRefined = true := by
      intro hr; apply hrp; rw [hr]; rfl
    have hnp : ¬ node.isPhantom = true := by
      intro hp; apply hrp; rw [hp]; simp
    refine ⟨_, rfl, ⟨rfl, hlen, hlevels, hlevok, hinv.descriptor_length, hinv.mask_length,
      byteBits_skip hinv.descriptor_bits (by rw [hra]; exact hnr),
      byteBits_skip hinv.mask_bits ?_⟩⟩
    intro hsp
    obtain ⟨m, hm, hmp⟩ := hsp i (CellOctree.Descendant.here i)
    rw [hn] at hm
    injection hm with hm
    subst hm
    exact hnp hmp

theorem createHtgFileLoop_inv {t : CellOctree} (h : CellOctree.StoreInv t)
    (hlv : t.numberOfLevels < 2 ^ 64) {fuel dl ml : Nat} (hfuel : t.numberOfLevels ≤ fuel)
    (hD : ∀ j nd, t.nodesStream_[j]? = some nd → nd.isRefined = true → j / 8 < dl)
    (hM : ∀ j, CellOctree.SubtreePhantom t j → j / 8 < ml) :
    ∀ (rest : List Node) (i : Nat) (st : HtgState), t.nodesStream_.drop i = rest →
    HtgInv t dl ml i st →
    ∃ st2, createHtgFileLoop t fuel rest st = .ok st2 ∧
      HtgInv t dl ml t.nodesStream_.length st2 := by
  intro rest
  induction rest with
  | nil =>
    intro i st hdrop hinv
    have hi : t.nodesStream_.length ≤ i := List.drop_eq_nil_iff.mp hdrop
    obtain ⟨a, c, hla, _, _, ha2⟩ := hinv.level_ok
    have := CellOctree.StoreInv.level_end_le h hla
    dsimp only at this
    have hie : i = t.nodesStream_.length := by omega
    rw [hie] at hinv
    exact ⟨st, rfl, hinv⟩
  | cons node rest ih =>
    intro i st hdrop hinv
    have hi : i < t.nodesStream_.length := by
      by_contra hge
      rw [List.drop_eq_nil_iff.mpr (by omega)] at hdrop
      cases hdrop
    have hn : t.nodesStream_[i]? = some node := by
      rw [List.getElem?_eq_getElem hi]
      rw [List.drop_eq_getElem_cons hi] at hdrop
      injection hdrop with h1 _
      rw [h1]
    have hdrop2 : t.nodesStream_.drop (i + 1) = rest := by
      rw [List.drop_eq_getElem_cons hi] at hdrop
      injection hdrop with _ h2
    obtain ⟨l2, a2, c2, hlev, hl2, hb1, hb2⟩ := advanceLevel_spec h hlv hinv hi
    obtain ⟨st1, hst1, hinv1⟩ := writeBits_spec h hfuel hD hM hinv hn hl2 hb1 hb2
    obtain ⟨st2, hst2, hinv2⟩ := ih (i + 1) st1 hdrop2 hinv1
    refine ⟨st2, ?_, hinv2⟩
    rw [createHtgFileLoop]
    unfold createHtgFileStep
    rw [hlev]
    dsimp only
    rw [hst1]
    exact hst2

end io

namespace CellOctree

theorem incrementLastCount_length (l : List (Nat × Nat)) :
    (incrementLastCount l).length = l.length := by
  have := congrArg List.length (incrementLastCount_map_fst l)
  rw [List.length_map, List.length_map] at this
  exact this

theorem fromDescriptorLoop_levels_length (cs : List Char) : ∀ (tree : CellOctree)
    (rn : List Nat) (t : CellOctree), fromDescriptorLoop cs tree rn = .ok t →
    t.levels_.length ≤ tree.levels_.length + cs.length := by
  induction cs with
  | nil =>
    intro tree rn t h
    rw [fromDescriptorLoop] at h
    injection h with h
    subst h
    exact Nat.le_add_right _ _
  | cons c cs ih =>
    intro tree rn t h
    rw [fromDescriptorLoop] at h
    by_cases hc : c = '.' ∨ c = 'R' ∨ c = 'P' ∨ c = 'X'
    · rw [if_pos hc] at h
      have := ih _ _ _ h
      dsimp only at this
      rw [incrementLastCount_length] at this
      rw [List.length_cons]
      omega
    · rw [if_neg hc] at h
      by_cases hp : c = '|'
      · rw [if_pos hp] at h
        rcases except_cases (assignChildren tree.numberOfNodes rn 0 tree.nodesStream_) with
          ⟨e, he⟩ | ⟨nodes1, he⟩
        · rw [he] at h; cases h
        · rw [he] at h
          have := ih _ _ _ h
          dsimp only at this
          rw [List.length_append, List.length_singleton] at this
          rw [List.length_cons]
          omega
      · rw [if_neg hp] at h; cases h

theorem WellFormed.numberOfLevels_lt {t : CellOctree} (h : WellFormed t) :
    t.numberOfLevels < 2 ^ 64 := by
  rcases h with ⟨d, hlen, _, hd⟩ | ⟨L, hL, rfl⟩
  · rw [string_length_data] at hlen
    unfold fromDescriptor at hd
    split at hd
    · cases hd
    · have := fromDescriptorLoop_levels_length _ _ _ _ hd
      have e : (decrementLastCount empty.levels_).length = 1 := rfl
      dsimp only at this
      rw [e] at this
      unfold numberOfLevels
      omega
  · rw [uniform_numberOfLevels L hL]
    omega

end CellOctree

namespace io

theorem createHtgFile_core {t : CellOctree} (h : CellOctree.StoreInv t)
    (hlv : t.numberOfLevels < 2 ^ 64) {fuel : Nat} (hfuel : t.numberOfLevels ≤ fuel)
    {aL cL : Nat} (hlast : t.levels_.getLast? = some (aL, cL))
    (hm : t.nodesStream_.length - cL ≤ 2 ^ 53)
    (hM : ∀ j, CellOctree.SubtreePhantom t j → j / 8 < ceilEighth t.nodesStream_.length) :
    ∃ st, createHtgFile t fuel =
        .ok (⟨t.levels_.map Prod.fst, st.descriptor, st.mask⟩, st.levels) ∧
      HtgInv t ((t.nodesStream_.length - cL + 7) / 8) (ceilEighth t.nodesStream_.length)
        t.nodesStream_.length st := by
  have hsz := h.size_lt
  have hpos := CellOctree.StoreInv.levels_ne_nil h
  have hl := h.levels_last _ hlast
  dsimp only at hl
  have hw1 : wrap (t.numberOfLevels + WORD - 1) = t.levels_.length - 1 := by
    unfold wrap WORD CellOctree.numberOfLevels
    unfold CellOctree.numberOfLevels at hlv
    have e : t.levels_.length + 2 ^ 64 - 1 = (t.levels_.length - 1) + 2 ^ 64 := by omega
    rw [e, Nat.add_mod_right, Nat.mod_eq_of_lt (by omega)]
  have hw2 : wrap (t.nodesStream_.length + WORD - cL) = t.nodesStream_.length - cL := by
    unfold wrap WORD
    have e : t.nodesStream_.length + 2 ^ 64 - cL = (t.nodesStream_.length - cL) + 2 ^ 64 := by
      omega
    rw [e, Nat.add_mod_right, Nat.mod_eq_of_lt (by omega)]
  have hlast2 : t.levels_[t.levels_.length - 1]? = some (aL, cL) := by
    rw [← List.getLast?_eq_getElem?]; exact hlast
  have hD : ∀ j nd, t.nodesStream_[j]? = some nd → nd.isRefined = true →
      j / 8 < (t.nodesStream_.length - cL + 7) / 8 := by
    intro j nd hj hr
    have hlt : j < aL := by
      by_contra hge
      have := h.last_unrefined _ j nd hlast (by dsimp only; omega) hj
      rw [this] at hr
      cases hr
    omega
  have hinit : HtgInv t ((t.nodesStream_.length - cL + 7) / 8)
      (ceilEighth t.nodesStream_.length) 0
      ⟨0, 0, 1, [], List.replicate (ceilEighth (t.nodesStream_.length - cL)) 0,
        List.replicate (ceilEighth t.nodesStream_.length) 0⟩ := by
    refine ⟨rfl, rfl, ?_, ⟨0, 1, h.levels_first, rfl, Nat.le_refl _, by omega⟩, ?_, ?_,
      byteBits_init _ _, byteBits_init _ _⟩
    · intro j l hj
      simp at hj
    · rw [List.length_replicate, ceilEighth_exact _ hm]
    · rw [List.length_replicate]
  obtain ⟨st, hst, hinv⟩ := createHtgFileLoop_inv h hlv hfuel hD hM t.nodesStream_ 0 _ rfl hinit
  refine ⟨st, ?_, hinv⟩
  unfold createHtgFile
  dsimp only
  rw [hw1, hlast2]
  dsimp only
  rw [hw2, h.levels_first]
  dsimp only
  rw [hst]

end io

namespace io

/-- C35: for every well-formed octree with `n ≤ 2 ^ 53` nodes, of which `m` are not on the
last level of the level table, `createHtgFile` (the recursion of `allArePhantoms` given
the number of levels as depth) returns a descriptor of `ceil(m / 8)` bytes and a mask of
`ceil(n / 8)` bytes such that, for the node at stream index `i`, bit `7 - i % 8` of
descriptor byte `i / 8` is set if and only if the node is refined, and the same bit of
the mask is set if and only if the node is phantom and every node of its subtree is
phantom; every bit at a position `≥ n` is `0` and every byte is below `256`; and the level
array has `n` entries and holds at position `i` the level whose range contains `i`. -/
theorem createHtgFile_bits (t : CellOctree) (fuel : Nat) (hwf : CellOctree.WellFormed t)
    (hn : t.numberOfNodes ≤ 2 ^ 53) (hfuel : t.numberOfLevels ≤ fuel) :
    ∃ tree lv, createHtgFile t fuel = .ok (tree, lv) ∧
      tree.descriptor.length =
        (t.numberOfNodes - t.numberOfNodesAt (t.numberOfLevels - 1) + 7) / 8 ∧
      tree.mask.length = (t.numberOfNodes + 7) / 8 ∧ lv.length = t.numberOfNodes ∧
      (∀ i nd, t.nodesStream_[i]? = some nd →
        (nd.isRefined = true ↔
          ∃ x, tree.descriptor[i / 8]? = some x ∧ x.testBit (7 - i % 8) = true) ∧
        ((nd.isPhantom = true ∧ CellOctree.SubtreePhantom t i) ↔
          ∃ x, tree.mask[i / 8]? = some x ∧ x.testBit (7 - i % 8) = true) ∧
        ∃ l a c, lv[i]? = some l ∧ t.levels_[l]? = some (a, c) ∧ a ≤ i ∧ i < a + c) ∧
      (∀ b x, tree.descriptor[b]? = some x → x < 256 ∧
        ∀ p, p < 8 → t.numberOfNodes ≤ 8 * b + p → x.testBit (7 - p) = false) ∧
      (∀ b x, tree.mask[b]? = some x → x < 256 ∧
        ∀ p, p < 8 → t.numberOfNodes ≤ 8 * b + p → x.testBit (7 - p) = false) := by
  have h := hwf.storeInv
  have hpos := CellOctree.StoreInv.levels_ne_nil h
  unfold CellOctree.numberOfNodes at hn ⊢
  obtain ⟨⟨aL, cL⟩, hlast⟩ : ∃ a, t.levels_.getLast? = some a :=
    ⟨t.levels_[t.levels_.length - 1], by
      rw [List.getLast?_eq_getElem?, List.getElem?_eq_getElem (by omega)]⟩
  have hM : ∀ j, CellOctree.SubtreePhantom t j → j / 8 < ceilEighth t.nodesStream_.length := by
    intro j hj
    obtain ⟨m, hm, _⟩ := hj j (CellOctree.Descendant.here j)
    have := CellOctree.getElem?_lt_length hm
    rw [ceilEighth_exact _ hn]
    omega
  obtain ⟨st, hst, hinv⟩ := createHtgFile_core h hwf.numberOfLevels_lt hfuel hlast
    (by omega) hM
  have hcount : t.numberOfNodesAt (t.numberOfLevels - 1) = cL := by
    unfold CellOctree.numberOfNodesAt CellOctree.numberOfLevels
    rw [← List.getLast?_eq_getElem?, hlast]
  have hbit : ∀ (v : List Nat) (P : Nat → Prop), ByteBits v t.nodesStream_.length P →
      ∀ i, i < t.nodesStream_.length → i / 8 < v.length →
      (P i ↔ ∃ x, v[i / 8]? = some x ∧ x.testBit (7 - i % 8) = true) := by
    intro v P hv i hi hlen
    have hx : v[i / 8]? = some (v[i / 8]) := List.getElem?_eq_getElem hlen
    have hiff := (hv _ _ hx).2 (i % 8) (Nat.mod_lt _ (by decide))
    have e : 8 * (i / 8) + i % 8 = i := Nat.div_add_mod i 8
    rw [e] at hiff
    constructor
    · intro hp
      exact ⟨_, hx, hiff.mpr ⟨hi, hp⟩⟩
    · rintro ⟨x, hx2, hb⟩
      rw [hx] at hx2
      injection hx2 with hx2
      subst hx2
      exact (hiff.mp hb).2
  have hzero : ∀ (v : List Nat) (P : Nat → Prop), ByteBits v t.nodesStream_.length P →
      ∀ b x, v[b]? = some x → x < 256 ∧
        ∀ p, p < 8 → t.nodesStream_.length ≤ 8 * b + p → x.testBit (7 - p) = false := by
    intro v P hv b x hx
    obtain ⟨h1, h2⟩ := hv b x hx
    refine ⟨h1, fun p hp hge => ?_⟩
    cases hb : x.testBit (7 - p) with
    | false => rfl
    | true =>
      have := ((h2 p hp).mp hb).1
      omega
  refine ⟨_, _, hst, ?_, ?_, hinv.levels_length, ?_, hzero _ _ hinv.descriptor_bits,
    hzero _ _ hinv.mask_bits⟩
  · show st.descriptor.length = _
    rw [hinv.descriptor_length, hcount]
  · show st.mask.length = _
    rw [hinv.mask_length, ceilEighth_exact _ hn]
  · intro i nd hnd
    have hi := CellOctree.getElem?_lt_length hnd
    have hra : CellOctree.refinedAt t.nodesStream_ i = nd.isRefined := by
      unfold CellOctree.refinedAt
      rw [hnd]
    refine ⟨?_, ?_, ?_⟩
    · show nd.isRefined = true ↔ ∃ x, st.descriptor[i / 8]? = some x ∧ _
      by_cases hlen : i / 8 < st.descriptor.length
      · rw [← hbit _ _ hinv.descriptor_bits i hi hlen, hra]
      · constructor
        · intro hr
          exfalso
          apply hlen
          rw [hinv.descriptor_length]
          have hlt : i < aL := by
            by_contra hge
            have := h.last_unrefined _ i nd hlast (by dsimp only; omega) hnd
            rw [this] at hr
            cases hr
          have := h.levels_last _ hlast
          dsimp only at this
          omega
        · rintro ⟨x, hx, _⟩
          exact absurd (CellOctree.getElem?_lt_length hx) hlen
    · show (nd.isPhantom = true ∧ CellOctree.SubtreePhantom t i) ↔
        ∃ x, st.mask[i / 8]? = some x ∧ _
      have hlen : i / 8 < st.mask.length := by
        rw [hinv.mask_length, ceilEighth_exact _ hn]
        omega
      rw [← hbit _ _ hinv.mask_bits i hi hlen]
      constructor
      · exact fun hp => hp.2
      · intro hsp
        refine ⟨?_, hsp⟩
        obtain ⟨m, hm, hmp⟩ := hsp i (CellOctree.Descendant.here i)
        rw [hnd] at hm
        injection hm with hm
        subst hm
        exact hmp
    · have hl : i < st.levels.length := by rw [hinv.levels_length]; exact hi
      obtain ⟨a, c, h1, h2, h3⟩ := hinv.levels_ok i _ (List.getElem?_eq_getElem hl)
      exact ⟨_, a, c, List.getElem?_eq_getElem hl, h1, h2, h3⟩

theorem createHtgFile_bits_witness :
    createHtgFile (match CellOctree.fromDescriptor "R|R......R|................" with
      | .ok t => t
      | .error _ => CellOctree.empty) 3 =
      .ok (⟨[0, 1, 9], [192, 128], [0, 0, 0, 0]⟩,
        [0, 1, 1, 1, 1, 1, 1, 1, 1, 2, 2, 2, 2, 2, 2, 2, 2, 2, 2, 2, 2, 2, 2, 2, 2]) ∧
    ∃ tree lv, createHtgFile (match CellOctree.fromDescriptor "R|R......R|................" with
      | .ok t => t
      | .error _ => CellOctree.empty) 3 = .ok (tree, lv) ∧
      tree.descriptor.length =
        (CellOctree.numberOfNodes (match CellOctree.fromDescriptor "R|R......R|................" with
      | .ok t => t
      | .error _ => CellOctree.empty) - CellOctree.numberOfNodesAt (match CellOctree.fromDescriptor "R|R......R|................" with
      | .ok t => t
      | .error _ => CellOctree.empty)
          (CellOctree.numberOfLevels (match CellOctree.fromDescriptor "R|R......R|................" with
      | .ok t => t
      | .error _ => CellOctree.empty) - 1) + 7) / 8 ∧
      tree.mask.length = (CellOctree.numberOfNodes (match CellOctree.fromDescriptor "R|R......R|................" with
      | .ok t => t
      | .error _ => CellOctree.empty) + 7) / 8 ∧
      lv.length = CellOctree.numberOfNodes (match CellOctree.fromDescriptor "R|R......R|................" with
      | .ok t => t
      | .error _ => CellOctree.empty) ∧
      (∀ i nd, (match CellOctree.fromDescriptor "R|R......R|................" with
      | .ok t => t
      | .error _ => CellOctree.empty).nodesStream_[i]? = some nd →
        (nd.isRefined = true ↔
          ∃ x, tree.descriptor[i / 8]? = some x ∧ x.testBit (7 - i % 8) = true) ∧
        ((nd.isPhantom = true ∧ CellOctree.SubtreePhantom (match CellOctree.fromDescriptor "R|R......R|................" with
      | .ok t => t
      | .error _ => CellOctree.empty) i) ↔
          ∃ x, tree.mask[i / 8]? = some x ∧ x.testBit (7 - i % 8) = true) ∧
        ∃ l a c, lv[i]? = some l ∧ (match CellOctree.fromDescriptor "R|R......R|................" with
      | .ok t => t
      | .error _ => CellOctree.empty).levels_[l]? = some (a, c) ∧ a ≤ i ∧ i < a + c) ∧
      (∀ b x, tree.descriptor[b]? = some x → x < 256 ∧
        ∀ p, p < 8 → CellOctree.numberOfNodes (match CellOctree.fromDescriptor "R|R......R|................" with
      | .ok t => t
      | .error _ => CellOctree.empty) ≤ 8 * b + p → x.testBit (7 - p) = false) ∧
      (∀ b x, tree.mask[b]? = some x → x < 256 ∧
        ∀ p, p < 8 → CellOctree.numberOfNodes (match CellOctree.fromDescriptor "R|R......R|................" with
      | .ok t => t
      | .error _ => CellOctree.empty) ≤ 8 * b + p → x.testBit (7 - p) = false) :=
  ⟨by decide,
    createHtgFile_bits (match CellOctree.fromDescriptor "R|R......R|................" with
      | .ok t => t
      | .error _ => CellOctree.empty) 3
      (Or.inl ⟨"R|R......R|................", by decide, by decide, by decide⟩) (by decide) (by decide)⟩

end io

namespace io

/-- Above `2 ^ 53` the size expression rounds: for the count `20587884010836553` it gives
`2573485501354569`, one less than the number of bytes that hold one bit per node. -/
theorem ceilEighth_rounds :
    ceilEighth 20587884010836553 = 2573485501354569 ∧
    (20587884010836553 + 7) / 8 = 2573485501354570 ∧
    2 ^ 53 < 20587884010836553 := by decide

/-- With the descriptor `"R|........|"`, whose trailing `|` opens a level that stays
empty, the octree has `9` nodes and the level table `(0, 1), (1, 8), (9, 0)`: the finest
level that holds nodes is level `1` with `8` nodes, so that `1` node is not on it, and
`ceil(1 / 8) = 1`; `createHtgFile` returns a descriptor of `2` bytes, `[128, 0]`, one
bit for each of the `9` nodes that are not on the last level of the level table. -/
theorem createHtgFile_bits_counterexample :
    ∃ t, CellOctree.fromDescriptor "R|........|" = .ok t ∧ CellOctree.WellFormed t ∧
      t.numberOfNodes = 9 ∧ t.levels_ = [(0, 1), (1, 8), (9, 0)] ∧
      t.numberOfLevels = 3 ∧ t.numberOfNodesAt 1 = 8 ∧ t.numberOfNodesAt 2 = 0 ∧
      (t.numberOfNodes - t.numberOfNodesAt 1 + 7) / 8 = 1 ∧
      createHtgFile t 3 =
        .ok (⟨[0, 1, 9], [128, 0], [0, 0]⟩, [0, 1, 1, 1, 1, 1, 1, 1, 1]) ∧
      createHtgFile t 20 =
        .ok (⟨[0, 1, 9], [128, 0], [0, 0]⟩, [0, 1, 1, 1, 1, 1, 1, 1, 1]) ∧
      ([128, 0] : List Nat).length = 2 :=
  ⟨(match CellOctree.fromDescriptor "R|........|" with
    | .ok t => t
    | .error _ => CellOctree.empty), by decide,
    Or.inl ⟨"R|........|", by decide, by decide, by decide⟩, by decide, by decide,
    by decide, by decide, by decide, by decide, by decide, by decide, by decide⟩

end io

end oktal
